import Mathlib


/-!
# Shallow embedding of `src/ex1_graph`

The C++ sources `Graph.cpp`, `Utils.hpp` and `Algorithms.cpp` are translated
function by function.

* A C++ `throw "..."` becomes `Except.error (Failure.thrown "...")`; the exception
  `std::bad_array_new_length` of a `new` with a negative size is recorded in the same way,
  under its name.
* A write outside an allocated buffer becomes `Failure.undefinedBehaviour`.
* Memory is not bounded: a `new` with a size that is not negative succeeds.
* Loops and recursive calls whose termination is not structural carry a
  recursion bound; reaching it yields `Failure.outOfFuel`.  The theorems that
  state that a result is produced show that this never happens.
* Vertex indices that the code has already range-checked are natural numbers;
  the arguments of the public entry points are `Int`, as in the source, so that
  the range checks are kept.  Arrays indexed by a vertex are total functions on
  `Nat`; the linked adjacency chains are lists.
-/

namespace graph

/-- The three ways a call can stop without a result. -/
inductive Failure where
  | thrown (message : String)
  | undefinedBehaviour (what : String)
  | outOfFuel
deriving DecidableEq, Repr

/-- The constant `INT_MAX` of `Algorithms.cpp`, used as infinity. -/
def INT_MAX : Int := 2147483647

/-- 32-bit two's complement wrap-around of an `int` result. -/
def wrapInt32 (x : Int) : Int := (x + 2147483648) % 4294967296 - 2147483648

/-! ## Graph.hpp / Graph.cpp -/

/-- The struct `Graph::Edge` without its `next` pointer: one record of an adjacency chain. -/
structure Edge where
  destination : Nat
  weight : Int
deriving DecidableEq, Repr

/-- The class `Graph`: `adjacencyList` holds one chain per vertex. -/
structure Graph where
  numVertices : Nat
  adjacencyList : List (List Edge)
deriving DecidableEq, Repr

namespace Graph

/-- The constructor `Graph::Graph(int vertices)`. -/
def new (vertices : Int) : Except Failure Graph :=
  if vertices ≤ 0 then
    .error (.thrown "Number of vertices must be positive")
  else
    .ok ⟨vertices.toNat, List.replicate vertices.toNat []⟩

/-- The chain stored at index `vertex` (no range check). -/
def adj (g : Graph) (vertex : Nat) : List Edge :=
  g.adjacencyList.getD vertex []

/-- The method `Graph::getNumVertices`. -/
def getNumVertices (g : Graph) : Nat := g.numVertices

/-- The method `Graph::getAdjList`. -/
def getAdjList (g : Graph) (vertex : Int) : Except Failure (List Edge) :=
  if vertex < 0 ∨ vertex ≥ g.numVertices then
    .error (.thrown "Vertex index out of range")
  else
    .ok (g.adj vertex.toNat)

/-- Prepending a record to the chain of `vertex`: `e->next = adjacencyList[vertex];
adjacencyList[vertex] = e`. -/
def pushFront (adjacency : List (List Edge)) (vertex : Nat) (e : Edge) : List (List Edge) :=
  adjacency.set vertex (e :: adjacency.getD vertex [])

/-- The method `Graph::addEdge`. -/
def addEdge (g : Graph) (source dest : Int) (weight : Int) : Except Failure Graph :=
  if source < 0 ∨ source ≥ g.numVertices ∨ dest < 0 ∨ dest ≥ g.numVertices then
    .error (.thrown "Vertex index out of range")
  else
    let adjacency1 := pushFront g.adjacencyList source.toNat ⟨dest.toNat, weight⟩
    let adjacency2 := pushFront adjacency1 dest.toNat ⟨source.toNat, weight⟩
    .ok ⟨g.numVertices, adjacency2⟩

/-- The loop of `removeEdge` over one chain: unlink the first record whose destination is
`dest`; the flag tells whether one was found. -/
def removeFirst (dest : Nat) : List Edge → List Edge × Bool
  | [] => ([], false)
  | e :: rest =>
    if e.destination = dest then (rest, true)
    else
      let r := removeFirst dest rest
      (e :: r.1, r.2)

/-- The method `Graph::removeEdge`. -/
def removeEdge (g : Graph) (source dest : Int) : Except Failure Graph :=
  if source < 0 ∨ source ≥ g.numVertices ∨ dest < 0 ∨ dest ≥ g.numVertices then
    .error (.thrown "Vertex index out of range")
  else
    let r1 := removeFirst dest.toNat (g.adjacencyList.getD source.toNat [])
    let adjacency1 := g.adjacencyList.set source.toNat r1.1
    let r2 := removeFirst source.toNat (adjacency1.getD dest.toNat [])
    let adjacency2 := adjacency1.set dest.toNat r2.1
    if !(r1.2 || r2.2) then
      .error (.thrown "Edge does not exist")
    else
      .ok ⟨g.numVertices, adjacency2⟩

end Graph

/-! ## Utils.hpp : Queue -/

/-- The class `Queue`: the chain from `front` to `rear`. -/
structure Queue where
  items : List Nat
deriving DecidableEq, Repr

namespace Queue

/-- The constructor `Queue()`. -/
def empty : Queue := ⟨[]⟩

/-- The method `Queue::isEmpty`. -/
def isEmpty (q : Queue) : Bool := q.items.isEmpty

/-- The method `Queue::enqueue`: link the new node behind `rear`. -/
def enqueue (q : Queue) (value : Nat) : Queue := ⟨q.items ++ [value]⟩

/-- The method `Queue::dequeue`. -/
def dequeue (q : Queue) : Except Failure (Nat × Queue) :=
  match q.items with
  | [] => .error (.thrown "Queue is empty")
  | value :: rest => .ok (value, ⟨rest⟩)

end Queue

/-! ## Utils.hpp : PriorityQueue -/

/-- The struct `PriorityQueue::HeapNode`. -/
structure HeapNode where
  vertex : Nat
  priority : Int
deriving DecidableEq, Repr

/-- The class `PriorityQueue`: `heap` and `position` are the two arrays of size `capacity`. -/
structure PriorityQueue where
  heap : Nat → HeapNode
  position : Nat → Int
  capacity : Nat
  heapSize : Nat

namespace PriorityQueue

/-- The constructor `PriorityQueue(int cap)`: every `position` entry is `-1`. -/
def new (cap : Nat) : PriorityQueue :=
  ⟨fun _ => ⟨0, 0⟩, fun _ => -1, cap, 0⟩

/-- The method `PriorityQueue::isEmpty`. -/
def isEmpty (pq : PriorityQueue) : Bool := pq.heapSize == 0

/-- The method `PriorityQueue::inQueue`. -/
def inQueue (pq : PriorityQueue) (vertex : Nat) : Bool := pq.position vertex != -1

/-- The method `PriorityQueue::swap`. -/
def swap (pq : PriorityQueue) (i j : Nat) : PriorityQueue :=
  let position1 := Function.update pq.position (pq.heap i).vertex (j : Int)
  let position2 := Function.update position1 (pq.heap j).vertex (i : Int)
  let temp := pq.heap i
  let heap1 := Function.update pq.heap i (pq.heap j)
  let heap2 := Function.update heap1 j temp
  { pq with heap := heap2, position := position2 }

/-- The method `PriorityQueue::heapify`; the first argument bounds the recursion depth. -/
def heapify : Nat → PriorityQueue → Nat → Except Failure PriorityQueue
  | 0, _, _ => .error .outOfFuel
  | fuel + 1, pq, index =>
    let left := 2 * index + 1
    let right := 2 * index + 2
    let smallest0 := index
    let smallest1 :=
      if left < pq.heapSize ∧ (pq.heap left).priority < (pq.heap smallest0).priority then left
      else smallest0
    let smallest2 :=
      if right < pq.heapSize ∧ (pq.heap right).priority < (pq.heap smallest1).priority then right
      else smallest1
    if smallest2 ≠ index then
      heapify fuel (pq.swap index smallest2) smallest2
    else
      .ok pq

/-- The loop `while (i > 0 && heap[(i-1)/2].priority > heap[i].priority)` shared by `insert`
and `decreaseKey`; the first argument bounds the number of iterations. -/
def siftUp : Nat → PriorityQueue → Nat → Except Failure PriorityQueue
  | 0, pq, i =>
    if i > 0 ∧ (pq.heap ((i - 1) / 2)).priority > (pq.heap i).priority then .error .outOfFuel
    else .ok pq
  | fuel + 1, pq, i =>
    if i > 0 ∧ (pq.heap ((i - 1) / 2)).priority > (pq.heap i).priority then
      siftUp fuel (pq.swap i ((i - 1) / 2)) ((i - 1) / 2)
    else
      .ok pq

/-- The method `PriorityQueue::insert`. -/
def insert (pq : PriorityQueue) (vertex : Nat) (priority : Int) : Except Failure PriorityQueue :=
  if pq.heapSize = pq.capacity then
    .error (.thrown "Priority queue is full")
  else
    let i := pq.heapSize
    let pq1 : PriorityQueue :=
      { pq with
        heap := Function.update pq.heap i ⟨vertex, priority⟩
        position := Function.update pq.position vertex (i : Int)
        heapSize := pq.heapSize + 1 }
    siftUp i pq1 i

/-- The method `PriorityQueue::extractMin`. -/
def extractMin (pq : PriorityQueue) : Except Failure (Nat × PriorityQueue) :=
  if pq.isEmpty then
    .error (.thrown "Priority queue is empty")
  else
    let minVertex := (pq.heap 0).vertex
    let heap1 := Function.update pq.heap 0 (pq.heap (pq.heapSize - 1))
    let position1 := Function.update pq.position (heap1 0).vertex 0
    let heapSize1 := pq.heapSize - 1
    let position2 := Function.update position1 minVertex (-1)
    let pq1 : PriorityQueue := ⟨heap1, position2, pq.capacity, heapSize1⟩
    if heapSize1 > 0 then
      match heapify heapSize1 pq1 0 with
      | .error f => .error f
      | .ok pq2 => .ok (minVertex, pq2)
    else
      .ok (minVertex, pq1)

/-- The method `PriorityQueue::decreaseKey`. -/
def decreaseKey (pq : PriorityQueue) (vertex : Nat) (newPriority : Int) :
    Except Failure PriorityQueue :=
  if !pq.inQueue vertex then
    .error (.thrown "Vertex not in priority queue")
  else
    let i := (pq.position vertex).toNat
    if newPriority > (pq.heap i).priority then
      .error (.thrown "New priority is greater than current priority")
    else
      let pq1 : PriorityQueue :=
        { pq with heap := Function.update pq.heap i ⟨(pq.heap i).vertex, newPriority⟩ }
      siftUp i pq1 i

/-- The method `PriorityQueue::getPriority`. -/
def getPriority (pq : PriorityQueue) (vertex : Nat) : Except Failure Int :=
  if !pq.inQueue vertex then
    .error (.thrown "Vertex not in priority queue")
  else
    .ok (pq.heap (pq.position vertex).toNat).priority

end PriorityQueue

/-! ## Utils.hpp : UnionFind -/

/-- The class `UnionFind`: the arrays `parent` and `rank`, both of length `size`. -/
structure UnionFind where
  parent : Nat → Nat
  rank : Nat → Nat
  size : Nat

namespace UnionFind

/-- The constructor `UnionFind(int n)`. -/
def new (n : Nat) : UnionFind := ⟨fun i => i, fun _ => 0, n⟩

/-- The recursive method `UnionFind::find`, with path compression; the first argument bounds
the recursion depth. -/
def findAux : Nat → UnionFind → Nat → Except Failure (Nat × UnionFind)
  | 0, _, _ => .error .outOfFuel
  | fuel + 1, uf, x =>
    if x ≥ uf.size then
      .error (.thrown "Index out of range")
    else if uf.parent x ≠ x then
      match findAux fuel uf (uf.parent x) with
      | .error f => .error f
      | .ok (root, uf1) =>
        let uf2 : UnionFind := { uf1 with parent := Function.update uf1.parent x root }
        .ok (uf2.parent x, uf2)
    else
      .ok (uf.parent x, uf)

/-- The method `UnionFind::find`: a parent chain visits at most `size` elements. -/
def find (uf : UnionFind) (x : Nat) : Except Failure (Nat × UnionFind) :=
  findAux (uf.size + 1) uf x

/-- The method `UnionFind::unite`. -/
def unite (uf : UnionFind) (x y : Nat) : Except Failure UnionFind :=
  match uf.find x with
  | .error f => .error f
  | .ok (rootX, uf1) =>
    match uf1.find y with
    | .error f => .error f
    | .ok (rootY, uf2) =>
      if rootX = rootY then .ok uf2
      else if uf2.rank rootX < uf2.rank rootY then
        .ok { uf2 with parent := Function.update uf2.parent rootX rootY }
      else if uf2.rank rootX > uf2.rank rootY then
        .ok { uf2 with parent := Function.update uf2.parent rootY rootX }
      else
        .ok { uf2 with
              parent := Function.update uf2.parent rootY rootX
              rank := Function.update uf2.rank rootX (uf2.rank rootX + 1) }

/-- The method `UnionFind::connected`; the two calls of `find` are made left to right. -/
def connected (uf : UnionFind) (x y : Nat) : Except Failure (Bool × UnionFind) :=
  match uf.find x with
  | .error f => .error f
  | .ok (rootX, uf1) =>
    match uf1.find y with
    | .error f => .error f
    | .ok (rootY, uf2) => .ok (rootX == rootY, uf2)

end UnionFind

end graph


namespace graph

/-! ## Algorithms.cpp -/

namespace Algorithms

/-! ### bfs -/

/-- The local variables of `Algorithms::bfs` that change inside its loops. -/
structure BfsState where
  visited : Nat → Bool
  queue : Queue
  result : Graph

/-- The inner loop of `bfs`: walk the chain of `current`. -/
def bfsEdges (current : Nat) : List Edge → BfsState → Except Failure BfsState
  | [], st => .ok st
  | edge :: rest, st =>
    let adjacent := edge.destination
    if !st.visited adjacent then
      match st.result.addEdge current adjacent edge.weight with
      | .error f => .error f
      | .ok result =>
        bfsEdges current rest
          ⟨Function.update st.visited adjacent true, st.queue.enqueue adjacent, result⟩
    else
      bfsEdges current rest st

/-- The loop `while (!queue.isEmpty())` of `bfs`; the first argument bounds the number of
iterations. -/
def bfsLoop (g : Graph) : Nat → BfsState → Except Failure BfsState
  | 0, st => if st.queue.isEmpty then .ok st else .error .outOfFuel
  | fuel + 1, st =>
    if st.queue.isEmpty then .ok st
    else
      match st.queue.dequeue with
      | .error f => .error f
      | .ok (current, queue) =>
        match g.getAdjList current with
        | .error f => .error f
        | .ok chain =>
          match bfsEdges current chain { st with queue := queue } with
          | .error f => .error f
          | .ok st1 => bfsLoop g fuel st1

/-- The function `Algorithms::bfs`.  Every vertex is enqueued at most once, so the loop runs
at most `numVertices` times. -/
def bfs (g : Graph) (source : Int) : Except Failure Graph :=
  let numVertices := g.getNumVertices
  if source < 0 ∨ source ≥ numVertices then
    .error (.thrown "Source vertex out of range")
  else
    match Graph.new numVertices with
    | .error f => .error f
    | .ok result =>
      let visited : Nat → Bool := fun _ => false
      let queue := Queue.empty
      let visited := Function.update visited source.toNat true
      let queue := queue.enqueue source.toNat
      match bfsLoop g numVertices ⟨visited, queue, result⟩ with
      | .error f => .error f
      | .ok st => .ok st.result

/-! ### dfs -/

/-- The two objects `dfsVisit` updates through its reference and pointer parameters. -/
structure DfsState where
  visited : Nat → Bool
  result : Graph

/-- The loop of `dfsVisit` over the chain of `vertex`; `visit` is the recursive call. -/
def dfsEdges (visit : Nat → DfsState → Except Failure DfsState) (vertex : Nat) :
    List Edge → DfsState → Except Failure DfsState
  | [], st => .ok st
  | edge :: rest, st =>
    let adjacent := edge.destination
    if !st.visited adjacent then
      match st.result.addEdge vertex adjacent edge.weight with
      | .error f => .error f
      | .ok result =>
        match visit adjacent { st with result := result } with
        | .error f => .error f
        | .ok st1 => dfsEdges visit vertex rest st1
    else
      dfsEdges visit vertex rest st

/-- The recursive helper `Algorithms::dfsVisit`; the first argument bounds the recursion
depth. -/
def dfsVisit (g : Graph) : Nat → Nat → DfsState → Except Failure DfsState
  | 0, _, _ => .error .outOfFuel
  | fuel + 1, vertex, st =>
    let st1 : DfsState := { st with visited := Function.update st.visited vertex true }
    match g.getAdjList vertex with
    | .error f => .error f
    | .ok chain => dfsEdges (dfsVisit g fuel) vertex chain st1

/-- The function `Algorithms::dfs`.  Nested calls visit distinct vertices, so the depth is at
most `numVertices`. -/
def dfs (g : Graph) (source : Int) : Except Failure Graph :=
  let numVertices := g.getNumVertices
  if source < 0 ∨ source ≥ numVertices then
    .error (.thrown "Source vertex out of range")
  else
    match Graph.new numVertices with
    | .error f => .error f
    | .ok result =>
      let visited : Nat → Bool := fun _ => false
      match dfsVisit g numVertices source.toNat ⟨visited, result⟩ with
      | .error f => .error f
      | .ok st => .ok st.result

/-! ### dijkstra -/

/-- The local variables of `Algorithms::dijkstra` that change inside its main loop. -/
structure DijkstraState where
  distance : Nat → Int
  parent : Nat → Int
  pq : PriorityQueue

/-- The loop `for (i = 0; i < numVertices; i++) pq.insert(i, priority[i])` of `dijkstra` and
`prim`. -/
def insertAll (priority : Nat → Int) : List Nat → PriorityQueue → Except Failure PriorityQueue
  | [], pq => .ok pq
  | i :: rest, pq =>
    match pq.insert i (priority i) with
    | .error f => .error f
    | .ok pq1 => insertAll priority rest pq1

/-- The relaxation loop of `dijkstra` over the chain of `u`.  The sum `distance[u] + weight`
is an `int`. -/
def dijkstraEdges (u : Nat) : List Edge → DijkstraState → Except Failure DijkstraState
  | [], st => .ok st
  | edge :: rest, st =>
    let v := edge.destination
    let weight := edge.weight
    if st.pq.inQueue v ∧ st.distance u ≠ INT_MAX ∧
        wrapInt32 (st.distance u + weight) < st.distance v then
      let distance := Function.update st.distance v (wrapInt32 (st.distance u + weight))
      let parent := Function.update st.parent v (u : Int)
      match st.pq.decreaseKey v (distance v) with
      | .error f => .error f
      | .ok pq => dijkstraEdges u rest ⟨distance, parent, pq⟩
    else
      dijkstraEdges u rest st

/-- The loop `while (!pq.isEmpty())` of `dijkstra`; the first argument bounds the number of
iterations. -/
def dijkstraLoop (g : Graph) : Nat → DijkstraState → Except Failure DijkstraState
  | 0, st => if st.pq.isEmpty then .ok st else .error .outOfFuel
  | fuel + 1, st =>
    if st.pq.isEmpty then .ok st
    else
      match st.pq.extractMin with
      | .error f => .error f
      | .ok (u, pq) =>
        match g.getAdjList u with
        | .error f => .error f
        | .ok chain =>
          match dijkstraEdges u chain { st with pq := pq } with
          | .error f => .error f
          | .ok st1 => dijkstraLoop g fuel st1

/-- The search of `dijkstra` for the weight of the edge from `parent[i]` to `i`: the first
record of the chain whose destination is `i`, and `0` when there is none. -/
def lookupWeight (i : Nat) : List Edge → Int
  | [] => 0
  | edge :: rest => if edge.destination = i then edge.weight else lookupWeight i rest

/-- The loop of `dijkstra` that builds the shortest path tree. -/
def dijkstraBuild (g : Graph) (source : Nat) (parent : Nat → Int) :
    List Nat → Graph → Except Failure Graph
  | [], result => .ok result
  | i :: rest, result =>
    if i ≠ source ∧ parent i ≠ -1 then
      match g.getAdjList (parent i) with
      | .error f => .error f
      | .ok chain =>
        let weight := lookupWeight i chain
        match result.addEdge (parent i) i weight with
        | .error f => .error f
        | .ok result1 => dijkstraBuild g source parent rest result1
    else
      dijkstraBuild g source parent rest result

/-- The function `Algorithms::dijkstra`.  Each iteration of the main loop removes one of the
`numVertices` queue entries. -/
def dijkstra (g : Graph) (source : Int) : Except Failure Graph :=
  let numVertices := g.getNumVertices
  if source < 0 ∨ source ≥ numVertices then
    .error (.thrown "Source vertex out of range")
  else
    match Graph.new numVertices with
    | .error f => .error f
    | .ok result =>
      let distance : Nat → Int := fun _ => INT_MAX
      let parent : Nat → Int := fun _ => -1
      let distance := Function.update distance source.toNat 0
      let pq := PriorityQueue.new numVertices
      match insertAll distance (List.range numVertices) pq with
      | .error f => .error f
      | .ok pq1 =>
        match dijkstraLoop g numVertices ⟨distance, parent, pq1⟩ with
        | .error f => .error f
        | .ok st => dijkstraBuild g source.toNat st.parent (List.range numVertices) result

/-! ### prim -/

/-- The local variables of `Algorithms::prim` that change inside its main loop. -/
structure PrimState where
  key : Nat → Int
  parent : Nat → Int
  pq : PriorityQueue

/-- The loop of `prim` over the chain of `u`. -/
def primEdges (u : Nat) : List Edge → PrimState → Except Failure PrimState
  | [], st => .ok st
  | edge :: rest, st =>
    let v := edge.destination
    let weight := edge.weight
    if st.pq.inQueue v ∧ weight < st.key v then
      let key := Function.update st.key v weight
      let parent := Function.update st.parent v (u : Int)
      match st.pq.decreaseKey v (key v) with
      | .error f => .error f
      | .ok pq => primEdges u rest ⟨key, parent, pq⟩
    else
      primEdges u rest st

/-- The loop `while (!pq.isEmpty())` of `prim`; the first argument bounds the number of
iterations. -/
def primLoop (g : Graph) : Nat → PrimState → Except Failure PrimState
  | 0, st => if st.pq.isEmpty then .ok st else .error .outOfFuel
  | fuel + 1, st =>
    if st.pq.isEmpty then .ok st
    else
      match st.pq.extractMin with
      | .error f => .error f
      | .ok (u, pq) =>
        match g.getAdjList u with
        | .error f => .error f
        | .ok chain =>
          match primEdges u chain { st with pq := pq } with
          | .error f => .error f
          | .ok st1 => primLoop g fuel st1

/-- The loop `for (i = 1; i < numVertices; i++)` of `prim` that builds the tree. -/
def primBuild (key : Nat → Int) (parent : Nat → Int) : List Nat → Graph → Except Failure Graph
  | [], result => .ok result
  | i :: rest, result =>
    if parent i ≠ -1 then
      match result.addEdge (parent i) i (key i) with
      | .error f => .error f
      | .ok result1 => primBuild key parent rest result1
    else
      primBuild key parent rest result

/-- The function `Algorithms::prim`. -/
def prim (g : Graph) : Except Failure Graph :=
  let numVertices := g.getNumVertices
  match Graph.new numVertices with
  | .error f => .error f
  | .ok result =>
    let key : Nat → Int := fun _ => INT_MAX
    let parent : Nat → Int := fun _ => -1
    let key := Function.update key 0 0
    let pq := PriorityQueue.new numVertices
    match insertAll key (List.range numVertices) pq with
    | .error f => .error f
    | .ok pq1 =>
      match primLoop g numVertices ⟨key, parent, pq1⟩ with
      | .error f => .error f
      | .ok st => primBuild st.key st.parent (List.range' 1 (numVertices - 1)) result

/-! ### kruskal -/

/-- The local struct `Edge` of `Algorithms::kruskal`. -/
structure KEdge where
  src : Nat
  dest : Nat
  weight : Int
deriving DecidableEq, Repr

/-- The inner collection loop of `kruskal` over the chain of vertex `i`; `buffer` holds
`edges[0 .. edgeCount-1]`, and a write at index `maxEdges` or beyond is outside the array. -/
def collectChain (maxEdges : Nat) (i : Nat) : List Edge → List KEdge → Except Failure (List KEdge)
  | [], buffer => .ok buffer
  | edge :: rest, buffer =>
    if i < edge.destination then
      if buffer.length ≥ maxEdges then
        .error (.undefinedBehaviour "write outside the edge buffer")
      else
        collectChain maxEdges i rest (buffer ++ [⟨i, edge.destination, edge.weight⟩])
    else
      collectChain maxEdges i rest buffer

/-- The outer collection loop of `kruskal`. -/
def collectEdges (g : Graph) (maxEdges : Nat) : List Nat → List KEdge →
    Except Failure (List KEdge)
  | [], buffer => .ok buffer
  | i :: rest, buffer =>
    match g.getAdjList i with
    | .error f => .error f
    | .ok chain =>
      match collectChain maxEdges i chain buffer with
      | .error f => .error f
      | .ok buffer1 => collectEdges g maxEdges rest buffer1

/-- The inner loop of the bubble sort, `for (j = 0; j < count; j++)`: the head of the list is
`edges[j]`, which is swapped with `edges[j+1]` when its weight is larger. -/
def bubblePass : Nat → List KEdge → List KEdge
  | count + 1, a :: b :: rest =>
    if a.weight > b.weight then b :: bubblePass count (a :: rest)
    else a :: bubblePass count (b :: rest)
  | _, edges => edges

/-- The outer loop of the bubble sort, `for (i = 0; i < edgeCount - 1; i++)`, with
`remaining = edgeCount - 1 - i` passes still to run; the pass for `i` makes
`edgeCount - i - 1` comparisons. -/
def bubbleSort : Nat → List KEdge → List KEdge
  | 0, edges => edges
  | remaining + 1, edges => bubbleSort remaining (bubblePass (remaining + 1) edges)

/-- The main loop of `kruskal` over the sorted edges. -/
def kruskalLoop : List KEdge → UnionFind → Graph → Except Failure Graph
  | [], _, result => .ok result
  | edge :: rest, uf, result =>
    let src := edge.src
    let dest := edge.dest
    match uf.connected src dest with
    | .error f => .error f
    | .ok (isConnected, uf1) =>
      if !isConnected then
        match result.addEdge src dest edge.weight with
        | .error f => .error f
        | .ok result1 =>
          match uf1.unite src dest with
          | .error f => .error f
          | .ok uf2 => kruskalLoop rest uf2 result1
      else
        kruskalLoop rest uf1 result

/-- The function `Algorithms::kruskal`.  The size `numVertices * (numVertices - 1) / 2` of the
edge buffer is an `int`: the product wraps around from 46342 vertices on, the division
truncates, and `new Edge[maxEdges]` throws `std::bad_array_new_length` when the size is
negative. -/
def kruskal (g : Graph) : Except Failure Graph :=
  let numVertices := g.getNumVertices
  match Graph.new numVertices with
  | .error f => .error f
  | .ok result =>
    let maxEdges : Int :=
      Int.tdiv (wrapInt32 ((numVertices : Int) * ((numVertices : Int) - 1))) 2
    if maxEdges < 0 then
      .error (.thrown "std::bad_array_new_length")
    else
      match collectEdges g maxEdges.toNat (List.range numVertices) [] with
      | .error f => .error f
      | .ok edges =>
        let edgeCount := edges.length
        let sorted := bubbleSort (edgeCount - 1) edges
        let uf := UnionFind.new numVertices
        kruskalLoop sorted uf result

end Algorithms

/-! ## tests.cpp : helper functions -/

/-- The helper `countEdges` of `tests.cpp`: the records `(i, destination)` with
`i < destination`. -/
def countEdges (g : Graph) : Nat :=
  ((List.range g.getNumVertices).map fun i =>
    ((g.adj i).filter fun e => decide (i < e.destination)).length).sum

/-- The helper `calculateTotalWeight` of `tests.cpp`. -/
def calculateTotalWeight (g : Graph) : Int :=
  ((List.range g.getNumVertices).map fun i =>
    (((g.adj i).filter fun e => decide (i < e.destination)).map Edge.weight).sum).sum

/-- The helper `edgeExists` of `tests.cpp`. -/
def edgeExists (g : Graph) (source dest : Nat) : Bool :=
  (g.adj source).any fun e => e.destination == dest

end graph


namespace graph

open Algorithms

/-! ## Connectivity and forests of edge lists -/

/-- Two vertices are joined by an edge of the list, in either direction. -/
def KAdj (L : List KEdge) (u v : Nat) : Prop :=
  ∃ e ∈ L, (e.src = u ∧ e.dest = v) ∨ (e.src = v ∧ e.dest = u)

/-- Connectivity in the undirected multigraph whose edges are the entries of the list. -/
def KConn (L : List KEdge) : Nat → Nat → Prop := Relation.ReflTransGen (KAdj L)

/-- The class label of a vertex: every edge of the list merges the class of its source into
the class of its destination. -/
def label : List KEdge → Nat → Nat
  | [], v => v
  | e :: L, v => if label L v = label L e.src then label L e.dest else label L v

/-- A list of edges is built without closing a cycle: every edge joins two vertices that the
edges after it leave unconnected. -/
def IsForest : List KEdge → Prop
  | [] => True
  | e :: L => ¬ KConn L e.src e.dest ∧ IsForest L

/-- No edge of the list lies on a cycle: its end points are not connected by the other
edges (one occurrence of the edge removed). -/
def KAcyclic (L : List KEdge) : Prop :=
  ∀ e ∈ L, ¬ KConn (L.erase e) e.src e.dest

/-- The sum of the weights of an edge list. -/
def weightSum (L : List KEdge) : Int := (L.map KEdge.weight).sum

/-- The vertices below `n` that are their own class label: one per class. -/
def labelRoots (n : Nat) (L : List KEdge) : Finset Nat :=
  (Finset.range n).filter fun v => label L v = v

/-- All end points of the edges are vertices below `n`. -/
def InRange (n : Nat) (L : List KEdge) : Prop := ∀ e ∈ L, e.src < n ∧ e.dest < n

theorem KAdj.adj_symm {L : List KEdge} {u v : Nat} (h : KAdj L u v) : KAdj L v u := by
  obtain ⟨e, he, h | h⟩ := h
  · exact ⟨e, he, Or.inr h⟩
  · exact ⟨e, he, Or.inl h⟩

theorem KAdj.adj_mono {L M : List KEdge} (hsub : ∀ e ∈ L, e ∈ M) {u v : Nat} (h : KAdj L u v) :
    KAdj M u v := by
  obtain ⟨e, he, h⟩ := h
  exact ⟨e, hsub e he, h⟩

theorem KAdj.adj_of_mem {L : List KEdge} {e : KEdge} (he : e ∈ L) : KAdj L e.src e.dest :=
  ⟨e, he, Or.inl ⟨rfl, rfl⟩⟩

theorem KConn.conn_refl (L : List KEdge) (u : Nat) : KConn L u u := Relation.ReflTransGen.refl

theorem KConn.conn_trans {L : List KEdge} {u v w : Nat} (h1 : KConn L u v) (h2 : KConn L v w) :
    KConn L u w := Relation.ReflTransGen.trans h1 h2

theorem KConn.conn_symm {L : List KEdge} {u v : Nat} (h : KConn L u v) : KConn L v u :=
  Relation.ReflTransGen.symmetric (fun _ _ h => KAdj.adj_symm h) h

theorem KConn.of_adj {L : List KEdge} {u v : Nat} (h : KAdj L u v) : KConn L u v :=
  Relation.ReflTransGen.single h

theorem KConn.conn_of_mem {L : List KEdge} {e : KEdge} (he : e ∈ L) : KConn L e.src e.dest :=
  KConn.of_adj (KAdj.adj_of_mem he)

theorem KConn.conn_mono {L M : List KEdge} (hsub : ∀ e ∈ L, e ∈ M) {u v : Nat} (h : KConn L u v) :
    KConn M u v :=
  Relation.ReflTransGen.mono (fun _ _ h => KAdj.adj_mono hsub h) h

/-- Connectivity is inherited along any map of edges into connected pairs. -/
theorem KConn.of_edges {L M : List KEdge} (hsub : ∀ e ∈ L, KConn M e.src e.dest) {u v : Nat}
    (h : KConn L u v) : KConn M u v := by
  induction h with
  | refl => exact KConn.conn_refl _ _
  | tail _ hstep ih =>
    refine ih.trans ?_
    obtain ⟨e, he, ⟨h1, h2⟩ | ⟨h1, h2⟩⟩ := hstep
    · subst h1; subst h2; exact hsub e he
    · subst h1; subst h2; exact (hsub e he).conn_symm

theorem KConn.nil_iff {u v : Nat} : KConn [] u v ↔ u = v := by
  constructor
  · intro h
    induction h with
    | refl => rfl
    | tail _ hstep _ => obtain ⟨e, he, _⟩ := hstep; simp at he
  · rintro rfl; exact KConn.conn_refl _ _

theorem KAdj.adj_cons_iff {e : KEdge} {L : List KEdge} {u v : Nat} :
    KAdj (e :: L) u v ↔ (e.src = u ∧ e.dest = v) ∨ (e.src = v ∧ e.dest = u) ∨ KAdj L u v := by
  constructor
  · rintro ⟨f, hf, h⟩
    rcases List.mem_cons.mp hf with rfl | hf
    · rcases h with h | h
      · exact Or.inl h
      · exact Or.inr (Or.inl h)
    · exact Or.inr (Or.inr ⟨f, hf, h⟩)
  · rintro (h | h | ⟨f, hf, h⟩)
    · exact ⟨e, List.mem_cons_self _ _, Or.inl h⟩
    · exact ⟨e, List.mem_cons_self _ _, Or.inr h⟩
    · exact ⟨f, List.mem_cons_of_mem _ hf, h⟩

/-- Adding one edge joins exactly the classes of its two end points. -/
theorem KConn.conn_cons_iff {e : KEdge} {L : List KEdge} {a b : Nat} :
    KConn (e :: L) a b ↔
      KConn L a b ∨ (KConn L a e.src ∧ KConn L e.dest b) ∨
        (KConn L a e.dest ∧ KConn L e.src b) := by
  have hmono : ∀ {x y}, KConn L x y → KConn (e :: L) x y :=
    fun h => KConn.conn_mono (fun _ h => List.mem_cons_of_mem _ h) h
  have hedge : KConn (e :: L) e.src e.dest := KConn.conn_of_mem (List.mem_cons_self _ _)
  constructor
  · intro h
    induction h with
    | refl => exact Or.inl (KConn.conn_refl _ _)
    | @tail c d _ hstep ih =>
      rcases KAdj.adj_cons_iff.mp hstep with ⟨h1, h2⟩ | ⟨h1, h2⟩ | hL
      · subst h1; subst h2
        rcases ih with h | ⟨h1, _⟩ | ⟨h1, _⟩
        · exact Or.inr (Or.inl ⟨h, KConn.conn_refl _ _⟩)
        · exact Or.inr (Or.inl ⟨h1, KConn.conn_refl _ _⟩)
        · exact Or.inl h1
      · subst h1; subst h2
        rcases ih with h | ⟨h1, _⟩ | ⟨h1, _⟩
        · exact Or.inr (Or.inr ⟨h, KConn.conn_refl _ _⟩)
        · exact Or.inl h1
        · exact Or.inr (Or.inr ⟨h1, KConn.conn_refl _ _⟩)
      · have hcd : KConn L c d := KConn.of_adj hL
        rcases ih with h | ⟨h1, h2⟩ | ⟨h1, h2⟩
        · exact Or.inl (h.trans hcd)
        · exact Or.inr (Or.inl ⟨h1, h2.trans hcd⟩)
        · exact Or.inr (Or.inr ⟨h1, h2.trans hcd⟩)
  · rintro (h | ⟨h1, h2⟩ | ⟨h1, h2⟩)
    · exact hmono h
    · exact (hmono h1).trans (hedge.trans (hmono h2))
    · exact (hmono h1).trans (hedge.conn_symm.trans (hmono h2))

/-- Two vertices carry the same label exactly when they are connected. -/
theorem label_eq_iff (L : List KEdge) (a b : Nat) : label L a = label L b ↔ KConn L a b := by
  induction L generalizing a b with
  | nil => simp [label, KConn.nil_iff]
  | cons e L ih =>
    rw [KConn.conn_cons_iff, ← ih, ← ih, ← ih, ← ih, ← ih]
    simp only [label]
    by_cases ha : label L a = label L e.src <;> by_cases hb : label L b = label L e.src
    · rw [if_pos ha, if_pos hb]
      simp only [true_iff]
      exact Or.inl (ha.trans hb.symm)
    · rw [if_pos ha, if_neg hb]
      constructor
      · intro h; exact Or.inr (Or.inl ⟨ha, h⟩)
      · rintro (h | ⟨_, h⟩ | ⟨_, h⟩)
        · exact absurd (h.symm.trans ha) hb
        · exact h
        · exact absurd h.symm hb
    · rw [if_neg ha, if_pos hb]
      constructor
      · intro h; exact Or.inr (Or.inr ⟨h, hb.symm⟩)
      · rintro (h | ⟨h, _⟩ | ⟨h, _⟩)
        · exact absurd (h.trans hb) ha
        · exact absurd h ha
        · exact h
    · rw [if_neg ha, if_neg hb]
      constructor
      · intro h; exact Or.inl h
      · rintro (h | ⟨h, _⟩ | ⟨_, h⟩)
        · exact h
        · exact absurd h ha
        · exact absurd h.symm hb

instance KConn.decidable (L : List KEdge) (a b : Nat) : Decidable (KConn L a b) :=
  decidable_of_iff _ (label_eq_iff L a b)

theorem label_idem (L : List KEdge) (v : Nat) : label L (label L v) = label L v := by
  induction L generalizing v with
  | nil => rfl
  | cons e L ih =>
    simp only [label]
    by_cases h : label L v = label L e.src
    · simp only [h, if_true]
      by_cases h2 : label L (label L e.dest) = label L e.src
      · simp [h2]
      · simp [h2, ih]
    · simp only [h, if_false, ih]

theorem label_lt {n : Nat} {L : List KEdge} (hL : InRange n L) {v : Nat} (hv : v < n) :
    label L v < n := by
  induction L generalizing v with
  | nil => exact hv
  | cons e L ih =>
    have hL' : InRange n L := fun f hf => hL f (List.mem_cons_of_mem _ hf)
    simp only [label]
    split
    · exact ih hL' (hL e (List.mem_cons_self _ _)).2
    · exact ih hL' hv

theorem KConn.to_label (L : List KEdge) (v : Nat) : KConn L v (label L v) :=
  (label_eq_iff L v (label L v)).mp (label_idem L v).symm

theorem InRange.tail {n : Nat} {e : KEdge} {L : List KEdge} (h : InRange n (e :: L)) :
    InRange n L := fun f hf => h f (List.mem_cons_of_mem _ hf)

theorem InRange.range_sublist {n : Nat} {L M : List KEdge} (h : InRange n M) (hs : L.Sublist M) :
    InRange n L := fun f hf => h f (hs.subset hf)

/-- Adding an edge between two classes removes exactly one class label. -/
theorem labelRoots_cons {n : Nat} {e : KEdge} {L : List KEdge}
    (hne : ¬ KConn L e.src e.dest) :
    labelRoots n (e :: L) = (labelRoots n L).erase (label L e.src) := by
  have hne' : label L e.src ≠ label L e.dest := fun h => hne ((label_eq_iff _ _ _).mp h)
  ext v
  simp only [labelRoots, Finset.mem_filter, Finset.mem_range, Finset.mem_erase, label]
  constructor
  · rintro ⟨hv, h⟩
    by_cases hc : label L v = label L e.src
    · rw [if_pos hc] at h
      exfalso
      apply hne'
      rw [← hc, ← h, label_idem]
    · rw [if_neg hc] at h
      refine ⟨?_, hv, h⟩
      intro hv2
      apply hc
      rw [hv2, label_idem]
  · rintro ⟨h1, hv, h2⟩
    refine ⟨hv, ?_⟩
    rw [if_neg]
    · exact h2
    · rw [h2]; exact h1

/-- A forest on `n` vertices has as many edges as classes are missing from `n`. -/
theorem IsForest.length_add_roots {n : Nat} {L : List KEdge} (hF : IsForest L)
    (hL : InRange n L) : L.length + (labelRoots n L).card = n := by
  induction L with
  | nil => simp [labelRoots, label]
  | cons e L ih =>
    obtain ⟨hne, hF'⟩ := hF
    have ih' := ih hF' hL.tail
    rw [labelRoots_cons hne]
    have hmem : label L e.src ∈ labelRoots n L := by
      simp only [labelRoots, Finset.mem_filter, Finset.mem_range]
      exact ⟨label_lt hL.tail (hL e (List.mem_cons_self _ _)).1, label_idem _ _⟩
    rw [Finset.card_erase_of_mem hmem]
    have hpos : 0 < (labelRoots n L).card := Finset.card_pos.mpr ⟨_, hmem⟩
    simp only [List.length_cons]
    omega

/-- Coarser connectivity means fewer classes. -/
theorem labelRoots_card_le {n : Nat} {F K : List KEdge} (hF : InRange n F)
    (hsub : ∀ e ∈ F, KConn K e.src e.dest) :
    (labelRoots n K).card ≤ (labelRoots n F).card := by
  apply Finset.card_le_card_of_injOn (fun r => label F r)
  · intro r hr
    simp only [labelRoots, Finset.mem_filter, Finset.mem_range] at hr ⊢
    exact ⟨label_lt hF hr.1, label_idem _ _⟩
  · intro r hr r' hr' h
    simp only [labelRoots, Finset.coe_filter, Finset.mem_range, Set.mem_setOf_eq] at hr hr'
    have h1 : KConn F r r' := (label_eq_iff _ _ _).mp h
    have h2 : KConn K r r' := KConn.of_edges hsub h1
    have h3 := (label_eq_iff _ _ _).mpr h2
    rw [hr.2, hr'.2] at h3
    exact h3

/-- A forest whose edges all join vertices connected by a second forest has at most as many
edges as the second one. -/
theorem IsForest.length_le {n : Nat} {F K : List KEdge} (hF : IsForest F) (hK : IsForest K)
    (hFr : InRange n F) (hKr : InRange n K) (hsub : ∀ e ∈ F, KConn K e.src e.dest) :
    F.length ≤ K.length := by
  have h1 := hF.length_add_roots hFr
  have h2 := hK.length_add_roots hKr
  have h3 := labelRoots_card_le hFr hsub
  omega

theorem IsForest.forest_sublist {L M : List KEdge} (hM : IsForest M) (hs : L.Sublist M) :
    IsForest L := by
  induction hs with
  | slnil => trivial
  | cons a _ ih => exact ih hM.2
  | @cons₂ l₁ l₂ a hs ih =>
    refine ⟨fun h => hM.1 (KConn.conn_mono (fun _ h => hs.subset h) h), ih hM.2⟩

theorem IsForest.filter {L : List KEdge} (hL : IsForest L) (p : KEdge → Bool) :
    IsForest (L.filter p) := hL.forest_sublist (List.filter_sublist _)

theorem KAcyclic.isForest {L : List KEdge} (h : KAcyclic L) : IsForest L := by
  induction L with
  | nil => trivial
  | cons e L ih =>
    refine ⟨?_, ih ?_⟩
    · have := h e (List.mem_cons_self _ _)
      simpa using this
    · intro f hf hc
      have := h f (List.mem_cons_of_mem _ hf)
      by_cases hef : e = f
      · subst hef
        apply this
        rw [List.erase_cons_head]
        exact KConn.conn_of_mem hf
      · apply this
        rw [List.erase_cons_tail (by simpa using hef)]
        exact KConn.conn_mono (fun _ h => List.mem_cons_of_mem _ h) hc

theorem IsForest.kacyclic {L : List KEdge} (h : IsForest L) : KAcyclic L := by
  induction L with
  | nil => intro e he; simp at he
  | cons e L ih =>
    obtain ⟨hne, hF⟩ := h
    intro f hf
    by_cases hef : e = f
    · subst hef
      rw [List.erase_cons_head]
      exact hne
    · have hfL : f ∈ L := by
        rcases List.mem_cons.mp hf with h | h
        · exact absurd h.symm hef
        · exact h
      rw [List.erase_cons_tail (by simpa using hef)]
      have hsub : ∀ x ∈ L.erase f, x ∈ L := fun x hx => List.mem_of_mem_erase hx
      have hff : KConn L f.src f.dest := KConn.conn_of_mem hfL
      intro hc
      rcases KConn.conn_cons_iff.mp hc with h | ⟨h1, h2⟩ | ⟨h1, h2⟩
      · exact ih hF f hfL h
      · exact hne (((KConn.conn_mono hsub h1).conn_symm.trans hff).trans (KConn.conn_mono hsub h2).conn_symm)
      · exact hne ((KConn.conn_mono hsub h2).trans (hff.conn_symm.trans (KConn.conn_mono hsub h1)))

theorem kacyclic_iff_isForest {L : List KEdge} : KAcyclic L ↔ IsForest L :=
  ⟨KAcyclic.isForest, IsForest.kacyclic⟩

theorem KConn.conn_perm {L M : List KEdge} (h : L.Perm M) {u v : Nat} :
    KConn L u v ↔ KConn M u v :=
  ⟨KConn.conn_mono fun _ he => h.subset he, KConn.conn_mono fun _ he => h.symm.subset he⟩

theorem KAcyclic.acyclic_perm {L M : List KEdge} (h : L.Perm M) (hL : KAcyclic L) : KAcyclic M := by
  intro e he hc
  exact hL e (h.symm.subset he) ((KConn.conn_perm (h.erase e)).mpr hc)

theorem weightSum_perm {L M : List KEdge} (h : L.Perm M) : weightSum L = weightSum M :=
  (h.map _).sum_eq

end graph


namespace graph

open Algorithms

/-! ## Comparing the weights of two forests -/

/-- The number of entries of a list that are at most `t`. -/
def countLe (t : Int) (A : List Int) : Nat := (A.filter fun x => decide (x ≤ t)).length

theorem countLe_cons (t a : Int) (A : List Int) :
    countLe t (a :: A) = (if a ≤ t then 1 else 0) + countLe t A := by
  unfold countLe
  by_cases h : a ≤ t
  · simp [List.filter_cons, h]; omega
  · simp [List.filter_cons, h]

theorem countLe_eq_zero {t : Int} {A : List Int} (h : ∀ x ∈ A, t < x) : countLe t A = 0 := by
  unfold countLe
  rw [List.length_eq_zero, List.filter_eq_nil_iff]
  intro x hx
  have := h x hx
  simp only [decide_eq_true_eq]
  omega

theorem countLe_pos {t : Int} {A : List Int} (h : 0 < countLe t A) : ∃ x ∈ A, x ≤ t := by
  unfold countLe at h
  obtain ⟨x, hx⟩ := List.exists_mem_of_length_pos h
  rw [List.mem_filter] at hx
  exact ⟨x, hx.1, by simpa using hx.2⟩

theorem countLe_perm {t : Int} {A B : List Int} (h : A.Perm B) : countLe t A = countLe t B :=
  (h.filter _).length_eq

/-- If, for every threshold, the sorted list `A` has at least as many entries below the
threshold as the sorted list `B` of the same length, then the sum of `A` is at most the sum
of `B`. -/
theorem sum_le_of_countLe :
    ∀ (A B : List Int), A.length = B.length → A.Sorted (· ≤ ·) → B.Sorted (· ≤ ·) →
      (∀ t, countLe t B ≤ countLe t A) → A.sum ≤ B.sum := by
  intro A
  induction A with
  | nil =>
    intro B hlen _ _ _
    have : B = [] := List.length_eq_zero.mp hlen.symm
    subst this
    exact le_refl _
  | cons a A ih =>
    intro B hlen hA hB hdom
    cases B with
    | nil => simp at hlen
    | cons b B =>
      have hA' := List.sorted_cons.mp hA
      have hB' := List.sorted_cons.mp hB
      have hab : a ≤ b := by
        have h1 := hdom b
        rw [countLe_cons, countLe_cons, if_pos (le_refl b)] at h1
        by_cases h : a ≤ b
        · exact h
        · rw [if_neg h] at h1
          have hpos : 0 < countLe b A := by omega
          obtain ⟨x, hx, hxb⟩ := countLe_pos hpos
          exact le_trans (hA'.1 x hx) hxb
      have htail : ∀ t, countLe t B ≤ countLe t A := by
        intro t
        by_cases hbt : b ≤ t
        · have h1 := hdom t
          rw [countLe_cons, countLe_cons, if_pos hbt, if_pos (le_trans hab hbt)] at h1
          omega
        · rw [countLe_eq_zero]
          · exact Nat.zero_le _
          · intro x hx
            have := hB'.1 x hx
            omega
      have := ih B (by simpa using hlen) hA'.2 hB'.2 htail
      simp only [List.sum_cons]
      omega

theorem countLe_map_weight (t : Int) (L : List KEdge) :
    countLe t (L.map KEdge.weight) = (L.filter fun k => decide (k.weight ≤ t)).length := by
  unfold countLe
  rw [List.filter_map, List.length_map]
  rfl

/-- Two forests with the same number of edges on the same vertices: if the end points of every
edge `e` of `F` are connected by the edges of `K` that are no heavier than `e`, then `K` weighs
at most as much as `F`. -/
theorem IsForest.weightSum_le {n : Nat} {F K : List KEdge} (hF : IsForest F) (hK : IsForest K)
    (hFr : InRange n F) (hKr : InRange n K) (hlen : F.length = K.length)
    (hbn : ∀ e ∈ F, KConn (K.filter fun k => decide (k.weight ≤ e.weight)) e.src e.dest) :
    weightSum K ≤ weightSum F := by
  have hpK := List.perm_insertionSort (· ≤ ·) (K.map KEdge.weight)
  have hpF := List.perm_insertionSort (· ≤ ·) (F.map KEdge.weight)
  unfold weightSum
  rw [← hpK.sum_eq, ← hpF.sum_eq]
  apply sum_le_of_countLe
  · rw [hpK.length_eq, hpF.length_eq, List.length_map, List.length_map, hlen]
  · exact List.sorted_insertionSort _ _
  · exact List.sorted_insertionSort _ _
  · intro t
    rw [countLe_perm hpK, countLe_perm hpF, countLe_map_weight, countLe_map_weight]
    apply IsForest.length_le (hF.filter _) (hK.filter _)
      (hFr.range_sublist (List.filter_sublist _)) (hKr.range_sublist (List.filter_sublist _))
    intro e he
    rw [List.mem_filter] at he
    have het : e.weight ≤ t := by simpa using he.2
    refine KConn.conn_mono ?_ (hbn e he.1)
    intro k hk
    rw [List.mem_filter] at hk ⊢
    refine ⟨hk.1, ?_⟩
    have : k.weight ≤ e.weight := by simpa using hk.2
    simp only [decide_eq_true_eq]
    omega

end graph


namespace graph

open Algorithms

/-! ## Well-formed graphs, reachability and edge lists -/

namespace Graph

/-- The state every `Graph` object is in: a positive vertex count, one chain per vertex, every
destination a vertex, and every record `(v, w)` in the chain of `u` matched by a record
`(u, w)` in the chain of `v`. -/
def WF (g : Graph) : Prop :=
  0 < g.numVertices ∧ g.adjacencyList.length = g.numVertices ∧
    ∀ u < g.numVertices, ∀ e ∈ g.adj u,
      e.destination < g.numVertices ∧ (⟨u, e.weight⟩ : Edge) ∈ g.adj e.destination

instance (g : Graph) : Decidable g.WF := by
  unfold WF
  infer_instance

/-- The chain of `u` holds a record with destination `v`. -/
def Adj (g : Graph) (u v : Nat) : Prop := ∃ e ∈ g.adj u, e.destination = v

instance (g : Graph) (u v : Nat) : Decidable (g.Adj u v) := by
  unfold Adj
  infer_instance

/-- The vertex `v` can be reached from `u` along adjacency records. -/
def Reach (g : Graph) : Nat → Nat → Prop := Relation.ReflTransGen g.Adj

/-- The sequence of records `p` leads from `u` to `v`: each record lies in the chain of the
vertex reached so far. -/
def IsWalk (g : Graph) : Nat → List Edge → Nat → Prop
  | u, [], v => u = v
  | u, e :: p, v => e ∈ g.adj u ∧ IsWalk g e.destination p v

/-- The total weight of a sequence of records. -/
def walkWeight (p : List Edge) : Int := (p.map Edge.weight).sum

/-- The records `(i, destination)` of one chain with `i < destination`, as edges. -/
def chainEdges (i : Nat) (chain : List Edge) : List KEdge :=
  (chain.filter fun e => decide (i < e.destination)).map fun e => ⟨i, e.destination, e.weight⟩

/-- The undirected edges of a graph other than self-loops, each listed once: the records
`(i, destination)` with `i < destination`, chain after chain. -/
def edgeList (g : Graph) : List KEdge :=
  (List.range g.numVertices).flatMap fun i => chainEdges i (g.adj i)

/-- The graph has no cycle: no self-loop, and no edge whose end points stay connected when
one occurrence of the edge is removed. -/
def Acyclic (g : Graph) : Prop := (∀ u, ¬ g.Adj u u) ∧ KAcyclic g.edgeList

/-- The connected components of the graph, as sets of vertices. -/
def components (g : Graph) : Set (Set Nat) :=
  {S | ∃ v, v < g.numVertices ∧ S = {u | g.Reach v u}}

/-- The effect of a successful `addEdge` on the fields. -/
def addEdgeNat (g : Graph) (u v : Nat) (w : Int) : Graph :=
  ⟨g.numVertices, pushFront (pushFront g.adjacencyList u ⟨v, w⟩) v ⟨u, w⟩⟩

/-- The graph with `n` vertices and no edge. -/
def emptyGraph (n : Nat) : Graph := ⟨n, List.replicate n []⟩

end Graph

/-- The edge between `u` and `v` with its smaller end point first. -/
def normEdge (u v : Nat) (w : Int) : KEdge := if u < v then ⟨u, v, w⟩ else ⟨v, u, w⟩

theorem getD_set_eq {α : Type} (l : List α) (i j : Nat) (a d : α) :
    (l.set i a).getD j d = if i = j ∧ i < l.length then a else l.getD j d := by
  rw [List.getD_eq_getElem?_getD, List.getD_eq_getElem?_getD, List.getElem?_set]
  by_cases h : i = j
  · subst h
    by_cases h2 : i < l.length
    · simp [h2]
    · simp only [h2, if_false, and_false, if_true]
      rw [List.getElem?_eq_none (by omega)]
  · simp [h]

namespace Graph

theorem new_eq {n : Nat} (hn : 0 < n) : Graph.new (n : Int) = .ok (emptyGraph n) := by
  unfold Graph.new emptyGraph
  rw [if_neg (by omega)]
  simp

theorem adj_emptyGraph (n u : Nat) : (emptyGraph n).adj u = [] := by
  unfold adj emptyGraph
  rw [List.getD_eq_getElem?_getD]
  by_cases h : u < n
  · simp [List.getElem?_replicate, h]
  · simp [List.getElem?_replicate, h]

theorem emptyGraph_wf {n : Nat} (hn : 0 < n) : (emptyGraph n).WF := by
  refine ⟨hn, by simp [emptyGraph], ?_⟩
  intro u _ e he
  rw [adj_emptyGraph] at he
  simp at he

theorem adj_of_ge {g : Graph} (hg : g.WF) {u : Nat} (hu : g.numVertices ≤ u) : g.adj u = [] := by
  unfold adj
  rw [List.getD_eq_getElem?_getD, List.getElem?_eq_none (by rw [hg.2.1]; exact hu)]
  rfl

theorem lt_of_mem_adj {g : Graph} (hg : g.WF) {u : Nat} {e : Edge} (he : e ∈ g.adj u) :
    u < g.numVertices := by
  by_contra h
  rw [adj_of_ge hg (by omega)] at he
  simp at he

theorem dest_lt {g : Graph} (hg : g.WF) {u : Nat} {e : Edge} (he : e ∈ g.adj u) :
    e.destination < g.numVertices :=
  (hg.2.2 u (lt_of_mem_adj hg he) e he).1

theorem mem_adj_symm {g : Graph} (hg : g.WF) {u : Nat} {e : Edge} (he : e ∈ g.adj u) :
    (⟨u, e.weight⟩ : Edge) ∈ g.adj e.destination :=
  (hg.2.2 u (lt_of_mem_adj hg he) e he).2

theorem getAdjList_eq {g : Graph} {u : Nat} (hu : u < g.numVertices) :
    g.getAdjList (u : Int) = .ok (g.adj u) := by
  unfold getAdjList
  rw [if_neg (by omega)]
  simp

theorem addEdge_eq {g : Graph} {u v : Nat} (hu : u < g.numVertices) (hv : v < g.numVertices)
    (w : Int) : g.addEdge (u : Int) (v : Int) w = .ok (g.addEdgeNat u v w) := by
  unfold addEdge addEdgeNat
  rw [if_neg (by omega)]
  simp

@[simp] theorem addEdgeNat_numVertices (g : Graph) (u v : Nat) (w : Int) :
    (g.addEdgeNat u v w).numVertices = g.numVertices := rfl

theorem adj_addEdgeNat {g : Graph} (hg : g.WF) {u v : Nat} (hu : u < g.numVertices)
    (hv : v < g.numVertices) (w : Int) (x : Nat) :
    (g.addEdgeNat u v w).adj x =
      if x = v then
        (⟨u, w⟩ : Edge) :: (if v = u then (⟨v, w⟩ : Edge) :: g.adj u else g.adj v)
      else if x = u then (⟨v, w⟩ : Edge) :: g.adj u
      else g.adj x := by
  have hlen := hg.2.1
  unfold adj addEdgeNat pushFront
  simp only [getD_set_eq, List.length_set]
  by_cases hxv : x = v
  · subst hxv
    rw [if_pos ⟨rfl, by omega⟩, if_pos rfl]
    by_cases hxu : x = u
    · subst hxu
      rw [if_pos ⟨rfl, by omega⟩, if_pos rfl]
    · rw [if_neg (by intro h; exact hxu h.1.symm), if_neg hxu]
  · rw [if_neg (by intro h; exact hxv h.1.symm), if_neg hxv]
    by_cases hxu : x = u
    · subst hxu
      rw [if_pos ⟨rfl, by omega⟩, if_pos rfl]
    · rw [if_neg (by intro h; exact hxu h.1.symm), if_neg hxu]

theorem mem_adj_addEdgeNat {g : Graph} (hg : g.WF) {u v : Nat} (hu : u < g.numVertices)
    (hv : v < g.numVertices) (w : Int) (x : Nat) (e : Edge) :
    e ∈ (g.addEdgeNat u v w).adj x ↔
      (x = u ∧ e = ⟨v, w⟩) ∨ (x = v ∧ e = ⟨u, w⟩) ∨ e ∈ g.adj x := by
  rw [adj_addEdgeNat hg hu hv]
  by_cases hxv : x = v
  · subst hxv
    rw [if_pos rfl]
    by_cases hxu : x = u
    · subst hxu
      rw [if_pos rfl]
      simp only [List.mem_cons, true_and]
    · rw [if_neg hxu]
      simp only [List.mem_cons, true_and, hxu, false_and, false_or]
  · rw [if_neg hxv]
    by_cases hxu : x = u
    · subst hxu
      rw [if_pos rfl]
      simp only [List.mem_cons, true_and, hxv, false_and, false_or]
    · rw [if_neg hxu]
      simp only [hxu, hxv, false_and, false_or]

theorem addEdgeNat_wf {g : Graph} (hg : g.WF) {u v : Nat} (hu : u < g.numVertices)
    (hv : v < g.numVertices) (w : Int) : (g.addEdgeNat u v w).WF := by
  refine ⟨hg.1, ?_, ?_⟩
  · simp [addEdgeNat, pushFront, hg.2.1]
  · intro x hx e he
    rw [mem_adj_addEdgeNat hg hu hv] at he
    rw [mem_adj_addEdgeNat hg hu hv]
    simp only [addEdgeNat_numVertices]
    rcases he with ⟨rfl, rfl⟩ | ⟨rfl, rfl⟩ | he
    · exact ⟨hv, Or.inr (Or.inl ⟨rfl, rfl⟩)⟩
    · exact ⟨hu, Or.inl ⟨rfl, rfl⟩⟩
    · exact ⟨dest_lt hg he, Or.inr (Or.inr (mem_adj_symm hg he))⟩

theorem adj_addEdgeNat_iff {g : Graph} (hg : g.WF) {u v : Nat} (hu : u < g.numVertices)
    (hv : v < g.numVertices) (w : Int) (x y : Nat) :
    (g.addEdgeNat u v w).Adj x y ↔ (x = u ∧ y = v) ∨ (x = v ∧ y = u) ∨ g.Adj x y := by
  unfold Adj
  constructor
  · rintro ⟨e, he, rfl⟩
    rw [mem_adj_addEdgeNat hg hu hv] at he
    rcases he with ⟨rfl, rfl⟩ | ⟨rfl, rfl⟩ | he
    · exact Or.inl ⟨rfl, rfl⟩
    · exact Or.inr (Or.inl ⟨rfl, rfl⟩)
    · exact Or.inr (Or.inr ⟨e, he, rfl⟩)
  · rintro (⟨rfl, rfl⟩ | ⟨rfl, rfl⟩ | ⟨e, he, rfl⟩)
    · exact ⟨⟨y, w⟩, (mem_adj_addEdgeNat hg hu hv _ _ _).mpr (Or.inl ⟨rfl, rfl⟩), rfl⟩
    · exact ⟨⟨y, w⟩, (mem_adj_addEdgeNat hg hu hv _ _ _).mpr (Or.inr (Or.inl ⟨rfl, rfl⟩)), rfl⟩
    · exact ⟨e, (mem_adj_addEdgeNat hg hu hv _ _ _).mpr (Or.inr (Or.inr he)), rfl⟩

theorem Adj.gadj_symm {g : Graph} (hg : g.WF) {u v : Nat} (h : g.Adj u v) : g.Adj v u := by
  obtain ⟨e, he, rfl⟩ := h
  exact ⟨_, mem_adj_symm hg he, rfl⟩

theorem Reach.reach_symm {g : Graph} (hg : g.WF) {u v : Nat} (h : g.Reach u v) : g.Reach v u :=
  Relation.ReflTransGen.symmetric (fun _ _ h => Adj.gadj_symm hg h) h

theorem Reach.lt {g : Graph} (hg : g.WF) {u v : Nat} (h : g.Reach u v)
    (hu : u < g.numVertices) : v < g.numVertices := by
  induction h with
  | refl => exact hu
  | tail _ hstep _ =>
    obtain ⟨e, he, rfl⟩ := hstep
    exact dest_lt hg he

end Graph

/-! ### Edge lists -/

theorem flatMap_perm_cons {β : Type} (l : List Nat) (hl : l.Nodup) (f f' : Nat → List β)
    (u : Nat) (hu : u ∈ l) (x : β) (hne : ∀ i, i ≠ u → f' i = f i) (heq : f' u = x :: f u) :
    (l.flatMap f').Perm (x :: l.flatMap f) := by
  induction l with
  | nil => simp at hu
  | cons a l ih =>
    have hnd := List.nodup_cons.mp hl
    simp only [List.flatMap_cons]
    by_cases hau : a = u
    · subst hau
      rw [heq]
      have : l.flatMap f' = l.flatMap f := by
        apply List.flatMap_congr
        intro i hi
        exact hne i (fun h => hnd.1 (h ▸ hi))
      rw [this]
      exact List.Perm.refl _
    · have hu' : u ∈ l := by
        rcases List.mem_cons.mp hu with h | h
        · exact absurd h.symm hau
        · exact h
      rw [hne a hau]
      exact ((ih hnd.2 hu').append_left (f a)).trans List.perm_middle

theorem flatMap_same {β : Type} (l : List Nat) (f f' : Nat → List β)
    (h : ∀ i ∈ l, f' i = f i) : l.flatMap f' = l.flatMap f :=
  List.flatMap_congr h

namespace Graph

theorem chainEdges_cons (i : Nat) (e : Edge) (chain : List Edge) :
    chainEdges i (e :: chain) =
      if i < e.destination then ⟨i, e.destination, e.weight⟩ :: chainEdges i chain
      else chainEdges i chain := by
  unfold chainEdges
  by_cases h : i < e.destination
  · simp [List.filter_cons, h]
  · simp [List.filter_cons, h]

/-- A successful `addEdge` between two distinct vertices adds one edge to the edge list. -/
theorem edgeList_addEdgeNat {g : Graph} (hg : g.WF) {u v : Nat} (hu : u < g.numVertices)
    (hv : v < g.numVertices) (huv : u ≠ v) (w : Int) :
    (g.addEdgeNat u v w).edgeList.Perm (normEdge u v w :: g.edgeList) := by
  unfold edgeList
  simp only [addEdgeNat_numVertices]
  rcases Nat.lt_or_gt_of_ne huv with hlt | hgt
  · apply flatMap_perm_cons _ (List.nodup_range _) _ _ u (List.mem_range.mpr hu)
    · intro i hi
      rw [adj_addEdgeNat hg hu hv]
      by_cases hiv : i = v
      · subst hiv
        rw [if_pos rfl, if_neg (Ne.symm huv), chainEdges_cons, if_neg (by simp; omega)]
      · rw [if_neg hiv, if_neg hi]
    · rw [adj_addEdgeNat hg hu hv, if_neg huv, if_pos rfl, chainEdges_cons,
        if_pos (by simpa using hlt)]
      simp [normEdge, hlt]
  · apply flatMap_perm_cons _ (List.nodup_range _) _ _ v (List.mem_range.mpr hv)
    · intro i hi
      rw [adj_addEdgeNat hg hu hv, if_neg hi]
      by_cases hiu : i = u
      · subst hiu
        rw [if_pos rfl, chainEdges_cons, if_neg (by simp; omega)]
      · rw [if_neg hiu]
    · rw [adj_addEdgeNat hg hu hv, if_pos rfl, if_neg (Ne.symm huv), chainEdges_cons,
        if_pos (by simpa using hgt)]
      have : ¬ u < v := by omega
      simp [normEdge, this]

theorem edgeList_emptyGraph (n : Nat) : (emptyGraph n).edgeList = [] := by
  unfold edgeList
  rw [List.flatMap_eq_nil_iff]
  intro i _
  rw [adj_emptyGraph]
  rfl

theorem mem_edgeList {g : Graph} {k : KEdge} :
    k ∈ g.edgeList ↔
      k.src < g.numVertices ∧ k.src < k.dest ∧ (⟨k.dest, k.weight⟩ : Edge) ∈ g.adj k.src := by
  unfold edgeList chainEdges
  simp only [List.mem_flatMap, List.mem_range, List.mem_map, List.mem_filter,
    decide_eq_true_eq]
  constructor
  · rintro ⟨i, hi, e, ⟨he, hlt⟩, rfl⟩
    exact ⟨hi, hlt, he⟩
  · rintro ⟨h1, h2, h3⟩
    exact ⟨k.src, h1, ⟨k.dest, k.weight⟩, ⟨h3, h2⟩, rfl⟩

theorem edgeList_inRange {g : Graph} (hg : g.WF) : InRange g.numVertices g.edgeList := by
  intro k hk
  rw [mem_edgeList] at hk
  exact ⟨hk.1, dest_lt hg hk.2.2⟩

theorem countEdges_eq (g : Graph) : countEdges g = g.edgeList.length := by
  unfold countEdges edgeList getNumVertices chainEdges
  rw [List.length_flatMap]
  congr 1
  apply List.map_congr_left
  intro i _
  simp

theorem sum_flatMap_int {α : Type} (l : List α) (f : α → List Int) :
    (l.flatMap f).sum = (l.map fun a => (f a).sum).sum := by
  induction l with
  | nil => rfl
  | cons a l ih => simp [List.flatMap_cons, List.sum_append, ih]

theorem calculateTotalWeight_eq (g : Graph) : calculateTotalWeight g = weightSum g.edgeList := by
  unfold calculateTotalWeight weightSum edgeList getNumVertices chainEdges
  rw [List.map_flatMap, sum_flatMap_int]
  congr 1
  apply List.map_congr_left
  intro i _
  simp [Function.comp_def]

/-- In a well-formed graph, reachability along the chains is connectivity of the edge list. -/
theorem reach_iff_kconn {g : Graph} (hg : g.WF) (u v : Nat) :
    g.Reach u v ↔ KConn g.edgeList u v := by
  constructor
  · intro h
    induction h with
    | refl => exact KConn.conn_refl _ _
    | @tail a b _ hstep ih =>
      refine ih.trans ?_
      obtain ⟨e, he, rfl⟩ := hstep
      rcases Nat.lt_trichotomy a e.destination with hlt | heq | hgt
      · have : (⟨a, e.destination, e.weight⟩ : KEdge) ∈ g.edgeList :=
          mem_edgeList.mpr ⟨lt_of_mem_adj hg he, hlt, he⟩
        exact KConn.conn_of_mem this
      · exact heq ▸ KConn.conn_refl _ _
      · have : (⟨e.destination, a, e.weight⟩ : KEdge) ∈ g.edgeList :=
          mem_edgeList.mpr ⟨dest_lt hg he, hgt, mem_adj_symm hg he⟩
        exact (KConn.conn_of_mem this).conn_symm
  · intro h
    induction h with
    | refl => exact Relation.ReflTransGen.refl
    | @tail a b _ hstep ih =>
      refine ih.trans ?_
      obtain ⟨k, hk, ⟨h1, h2⟩ | ⟨h1, h2⟩⟩ := hstep
      · rw [mem_edgeList] at hk
        subst h1; subst h2
        exact Relation.ReflTransGen.single ⟨_, hk.2.2, rfl⟩
      · rw [mem_edgeList] at hk
        subst h1; subst h2
        exact Relation.ReflTransGen.single ⟨_, mem_adj_symm hg hk.2.2, rfl⟩

end Graph

end graph


namespace graph

namespace UnionFind

/-! ## Union-find: representatives and the state invariant -/

/-- Follow parent links for at most `k` steps. -/
def rootAux (parent : Nat → Nat) : Nat → Nat → Nat
  | 0, x => x
  | k + 1, x => if parent x = x then x else rootAux parent k (parent x)

/-- The representative of `x`: the end of its parent chain. -/
def root (uf : UnionFind) (x : Nat) : Nat := rootAux uf.parent uf.size x

/-- The number of elements that are their own parent. -/
def numRoots (uf : UnionFind) : Nat :=
  ((Finset.range uf.size).filter fun x => uf.parent x = x).card

/-- The invariant of the union-find states: parents are elements, the rank grows strictly
along parent links, and the ranks are bounded by the number of elements that are not
roots. -/
structure Inv (uf : UnionFind) : Prop where
  parent_lt : ∀ x < uf.size, uf.parent x < uf.size
  rank_lt : ∀ x < uf.size, uf.parent x ≠ x → uf.rank x < uf.rank (uf.parent x)
  rank_roots : ∀ x < uf.size, uf.rank x + uf.numRoots ≤ uf.size

theorem new_inv (n : Nat) : (UnionFind.new n).Inv := by
  refine ⟨fun x hx => hx, fun x _ h => absurd rfl h, ?_⟩
  intro x _
  have : (UnionFind.new n).numRoots = n := by
    unfold numRoots UnionFind.new
    simp
  rw [this]
  simp [UnionFind.new]

theorem rootAux_lt {uf : UnionFind} (h : uf.Inv) (k : Nat) {x : Nat} (hx : x < uf.size) :
    rootAux uf.parent k x < uf.size := by
  induction k generalizing x with
  | zero => exact hx
  | succ k ih =>
    simp only [rootAux]
    split
    · exact hx
    · exact ih (h.parent_lt x hx)

theorem rootAux_isRoot {uf : UnionFind} (h : uf.Inv) (k : Nat) {x : Nat} (hx : x < uf.size)
    (hk : uf.size - uf.numRoots - uf.rank x ≤ k) :
    uf.parent (rootAux uf.parent k x) = rootAux uf.parent k x := by
  induction k generalizing x with
  | zero =>
    simp only [rootAux]
    by_contra hne
    have h1 := h.rank_lt x hx hne
    have h2 := h.rank_roots (uf.parent x) (h.parent_lt x hx)
    omega
  | succ k ih =>
    simp only [rootAux]
    split
    · assumption
    · rename_i hne
      apply ih (h.parent_lt x hx)
      have h1 := h.rank_lt x hx hne
      have h2 := h.rank_roots (uf.parent x) (h.parent_lt x hx)
      omega

theorem rootAux_succ_of_isRoot (parent : Nat → Nat) (k x : Nat)
    (h : parent (rootAux parent k x) = rootAux parent k x) :
    rootAux parent (k + 1) x = rootAux parent k x := by
  induction k generalizing x with
  | zero =>
    simp only [rootAux] at h ⊢
    rw [if_pos h]
  | succ k ih =>
    rw [rootAux]
    by_cases hx : parent x = x
    · rw [if_pos hx, rootAux, if_pos hx]
    · rw [if_neg hx]
      rw [rootAux, if_neg hx] at h
      rw [ih _ h, rootAux, if_neg hx]

theorem root_lt {uf : UnionFind} (h : uf.Inv) {x : Nat} (hx : x < uf.size) :
    uf.root x < uf.size := rootAux_lt h _ hx

theorem root_isRoot {uf : UnionFind} (h : uf.Inv) {x : Nat} (hx : x < uf.size) :
    uf.parent (uf.root x) = uf.root x :=
  rootAux_isRoot h _ hx (by omega)

theorem root_of_isRoot {uf : UnionFind} {x : Nat} (hp : uf.parent x = x) : uf.root x = x := by
  unfold root
  cases uf.size with
  | zero => rfl
  | succ k => rw [rootAux, if_pos hp]

theorem root_parent {uf : UnionFind} (h : uf.Inv) {x : Nat} (hx : x < uf.size) :
    uf.root (uf.parent x) = uf.root x := by
  by_cases hp : uf.parent x = x
  · rw [hp]
  · unfold root
    obtain ⟨m, hm⟩ : ∃ m, uf.size = m + 1 := ⟨uf.size - 1, by omega⟩
    rw [hm]
    conv_rhs => rw [rootAux, if_neg hp]
    apply rootAux_succ_of_isRoot
    apply rootAux_isRoot h m (h.parent_lt x hx)
    have h1 := h.rank_lt x hx hp
    omega

theorem rank_le_rootAux {uf : UnionFind} (h : uf.Inv) (k : Nat) {x : Nat} (hx : x < uf.size) :
    uf.rank x ≤ uf.rank (rootAux uf.parent k x) := by
  induction k generalizing x with
  | zero => exact le_refl _
  | succ k ih =>
    simp only [rootAux]
    split
    · exact le_refl _
    · rename_i hne
      have h1 := h.rank_lt x hx hne
      have h2 := ih (h.parent_lt x hx)
      omega

theorem rank_lt_root {uf : UnionFind} (h : uf.Inv) {x : Nat} (hx : x < uf.size)
    (hp : uf.parent x ≠ x) : uf.rank x < uf.rank (uf.root x) := by
  rw [← root_parent h hx]
  have h1 := h.rank_lt x hx hp
  have h2 := rank_le_rootAux h uf.size (h.parent_lt x hx)
  unfold root
  omega

theorem root_ne_of_not_isRoot {uf : UnionFind} (h : uf.Inv) {x : Nat} (hx : x < uf.size)
    (hp : uf.parent x ≠ x) : uf.root x ≠ x := by
  intro heq
  have := rank_lt_root h hx hp
  rw [heq] at this
  omega

theorem root_root {uf : UnionFind} (h : uf.Inv) {x : Nat} (hx : x < uf.size) :
    uf.root (uf.root x) = uf.root x :=
  root_of_isRoot (root_isRoot h hx)

/-- The representative function is determined by two properties: it is constant along parent
links and fixes the roots. -/
theorem root_unique {uf : UnionFind} (h : uf.Inv) (F : Nat → Nat)
    (hstep : ∀ y < uf.size, F (uf.parent y) = F y)
    (hroot : ∀ y < uf.size, uf.parent y = y → F y = y) :
    ∀ y < uf.size, uf.root y = F y := by
  intro y hy
  have key : ∀ k, ∀ z < uf.size, F (rootAux uf.parent k z) = F z := by
    intro k
    induction k with
    | zero => intro z _; rfl
    | succ k ih =>
      intro z hz
      simp only [rootAux]
      split
      · rfl
      · rw [ih _ (h.parent_lt z hz), hstep z hz]
  have h1 := key uf.size y hy
  have h2 := hroot (uf.root y) (root_lt h hy) (root_isRoot h hy)
  unfold root at h2
  rw [h1] at h2
  exact h2.symm

theorem numRoots_le_of_subset {uf uf' : UnionFind} (hs : uf'.size = uf.size)
    (h : ∀ y < uf.size, uf'.parent y = y → uf.parent y = y) : uf'.numRoots ≤ uf.numRoots := by
  unfold numRoots
  apply Finset.card_le_card
  intro y
  simp only [Finset.mem_filter, Finset.mem_range, hs]
  exact fun ⟨h1, h2⟩ => ⟨h1, h y h1 h2⟩

theorem numRoots_lt_of_subset {uf uf' : UnionFind} (hs : uf'.size = uf.size)
    (h : ∀ y < uf.size, uf'.parent y = y → uf.parent y = y) {r : Nat} (hr : r < uf.size)
    (hr1 : uf.parent r = r) (hr2 : uf'.parent r ≠ r) : uf'.numRoots < uf.numRoots := by
  unfold numRoots
  apply Finset.card_lt_card
  rw [Finset.ssubset_iff_of_subset]
  · refine ⟨r, ?_, ?_⟩
    · simp only [Finset.mem_filter, Finset.mem_range]
      exact ⟨hr, hr1⟩
    · simp only [Finset.mem_filter, Finset.mem_range, hs, not_and]
      exact fun _ => hr2
  · intro y
    simp only [Finset.mem_filter, Finset.mem_range, hs]
    exact fun ⟨h1, h2⟩ => ⟨h1, h y h1 h2⟩

/-- What a call of `find` does: it returns the representative, keeps the size, the ranks, the
roots and all representatives, and leaves a state that satisfies the invariant. -/
structure FindPost (uf : UnionFind) (uf' : UnionFind) : Prop where
  inv : uf'.Inv
  size_eq : uf'.size = uf.size
  rank_eq : uf'.rank = uf.rank
  isRoot_iff : ∀ y < uf.size, (uf'.parent y = y ↔ uf.parent y = y)
  root_eq : ∀ y < uf.size, uf'.root y = uf.root y

theorem FindPost.post_refl {uf : UnionFind} (h : uf.Inv) : FindPost uf uf :=
  ⟨h, rfl, rfl, fun _ _ => Iff.rfl, fun _ _ => rfl⟩

theorem FindPost.post_trans {a b c : UnionFind} (h1 : FindPost a b) (h2 : FindPost b c) :
    FindPost a c := by
  refine ⟨h2.inv, h2.size_eq.trans h1.size_eq, h2.rank_eq.trans h1.rank_eq, ?_, ?_⟩
  · intro y hy
    rw [h2.isRoot_iff y (by rw [h1.size_eq]; exact hy), h1.isRoot_iff y hy]
  · intro y hy
    rw [h2.root_eq y (by rw [h1.size_eq]; exact hy), h1.root_eq y hy]

theorem FindPost.numRoots_eq {uf uf' : UnionFind} (h : FindPost uf uf') :
    uf'.numRoots = uf.numRoots := by
  unfold numRoots
  rw [h.size_eq]
  congr 1
  apply Finset.filter_congr
  intro y hy
  exact h.isRoot_iff y (Finset.mem_range.mp hy)

/-- Re-parenting a non-root element to its representative keeps everything `find` promises. -/
theorem compress_post {uf : UnionFind} (h : uf.Inv) {x : Nat} (hx : x < uf.size)
    (hp : uf.parent x ≠ x) :
    FindPost uf { uf with parent := Function.update uf.parent x (uf.root x) } := by
  have hrx := root_ne_of_not_isRoot h hx hp
  have hiff : ∀ y < uf.size, (Function.update uf.parent x (uf.root x) y = y ↔ uf.parent y = y) := by
    intro y _
    by_cases hyx : y = x
    · subst hyx
      rw [Function.update_same]
      exact ⟨fun h => absurd h hrx, fun h => absurd h hp⟩
    · rw [Function.update_noteq hyx]
  have hinv : Inv { uf with parent := Function.update uf.parent x (uf.root x) } := by
    refine ⟨?_, ?_, ?_⟩
    · intro y hy
      show Function.update uf.parent x (uf.root x) y < uf.size
      by_cases hyx : y = x
      · subst hyx; rw [Function.update_same]; exact root_lt h hx
      · rw [Function.update_noteq hyx]; exact h.parent_lt y hy
    · intro y hy hne
      show uf.rank y < uf.rank (Function.update uf.parent x (uf.root x) y)
      by_cases hyx : y = x
      · subst hyx; rw [Function.update_same]; exact rank_lt_root h hx hp
      · rw [Function.update_noteq hyx]
        apply h.rank_lt y hy
        have : Function.update uf.parent x (uf.root x) y ≠ y := hne
        rwa [Function.update_noteq hyx] at this
    · intro y hy
      have h1 := h.rank_roots y hy
      have h2 : numRoots { uf with parent := Function.update uf.parent x (uf.root x) } ≤
          uf.numRoots :=
        numRoots_le_of_subset rfl (fun z hz hzz => (hiff z hz).mp hzz)
      show uf.rank y + _ ≤ uf.size
      omega
  refine ⟨hinv, rfl, rfl, hiff, ?_⟩
  apply root_unique hinv
  · intro y hy
    show uf.root (Function.update uf.parent x (uf.root x) y) = uf.root y
    by_cases hyx : y = x
    · subst hyx; rw [Function.update_same]; exact root_root h hx
    · rw [Function.update_noteq hyx]; exact root_parent h hy
  · intro y hy hyy
    exact root_of_isRoot ((hiff y hy).mp hyy)

theorem findAux_spec (fuel : Nat) :
    ∀ (uf : UnionFind), uf.Inv → ∀ x < uf.size, uf.size - uf.numRoots - uf.rank x < fuel →
      ∃ uf', findAux fuel uf x = .ok (uf.root x, uf') ∧ FindPost uf uf' := by
  induction fuel with
  | zero => intro uf _ x _ hf; omega
  | succ fuel ih =>
    intro uf h x hx hf
    rw [findAux, if_neg (by omega)]
    by_cases hp : uf.parent x = x
    · rw [if_neg (by simpa using hp)]
      refine ⟨uf, ?_, FindPost.post_refl h⟩
      rw [root_of_isRoot hp, hp]
    · rw [if_pos hp]
      have hpx := h.parent_lt x hx
      have hrk := h.rank_lt x hx hp
      have hrr := h.rank_roots (uf.parent x) hpx
      obtain ⟨uf1, he, hpost⟩ := ih uf h (uf.parent x) hpx (by omega)
      rw [he]
      simp only [Function.update_same]
      have hx1 : x < uf1.size := by rw [hpost.size_eq]; exact hx
      have hp1 : uf1.parent x ≠ x := fun hc => hp ((hpost.isRoot_iff x hx).mp hc)
      have hroot : uf.root (uf.parent x) = uf1.root x := by
        rw [root_parent h hx, hpost.root_eq x hx]
      rw [hroot]
      refine ⟨_, ?_, hpost.post_trans (compress_post hpost.inv hx1 hp1)⟩
      rw [← hroot, root_parent h hx]

theorem find_spec {uf : UnionFind} (h : uf.Inv) {x : Nat} (hx : x < uf.size) :
    ∃ uf', uf.find x = .ok (uf.root x, uf') ∧ FindPost uf uf' :=
  findAux_spec _ uf h x hx (by omega)

theorem connected_spec {uf : UnionFind} (h : uf.Inv) {x y : Nat} (hx : x < uf.size)
    (hy : y < uf.size) :
    ∃ uf', uf.connected x y = .ok (decide (uf.root x = uf.root y), uf') ∧ FindPost uf uf' := by
  obtain ⟨uf1, he1, hp1⟩ := find_spec h hx
  obtain ⟨uf2, he2, hp2⟩ := find_spec hp1.inv (show y < uf1.size by rw [hp1.size_eq]; exact hy)
  refine ⟨uf2, ?_, hp1.post_trans hp2⟩
  unfold connected
  rw [he1]
  simp only [he2, hp1.root_eq y hy]
  by_cases hc : uf.root x = uf.root y <;> simp [hc]

/-- What a call of `unite` does to the representatives. -/
structure UnitePost (uf : UnionFind) (x y : Nat) (uf' : UnionFind) : Prop where
  inv : uf'.Inv
  size_eq : uf'.size = uf.size
  merge : ∀ a < uf.size, ∀ b < uf.size,
    (uf'.root a = uf'.root b ↔
      uf.root a = uf.root b ∨ (uf.root a = uf.root x ∧ uf.root b = uf.root y) ∨
        (uf.root a = uf.root y ∧ uf.root b = uf.root x))

/-- Linking the root `r` below a different root `s` (with the rank adjusted as `unite` does)
merges the two classes. -/
theorem link_post {uf : UnionFind} (h : uf.Inv) {r s : Nat} (hr : r < uf.size)
    (hs : s < uf.size) (hrr : uf.parent r = r) (hss : uf.parent s = s) (hne : r ≠ s)
    (rank' : Nat → Nat)
    (hrank : (uf.rank r < uf.rank s ∧ rank' = uf.rank) ∨
      (uf.rank r = uf.rank s ∧ rank' = Function.update uf.rank s (uf.rank s + 1))) :
    Inv { uf with parent := Function.update uf.parent r s, rank := rank' } ∧
      ∀ a < uf.size,
        root { uf with parent := Function.update uf.parent r s, rank := rank' } a =
          if uf.root a = r then s else uf.root a := by
  have hrank_ge : ∀ y, uf.rank y ≤ rank' y := by
    intro y
    rcases hrank with ⟨_, h2⟩ | ⟨_, h2⟩
    · rw [h2]
    · rw [h2]
      by_cases hys : y = s
      · subst hys; rw [Function.update_same]; omega
      · rw [Function.update_noteq hys]
  have hrank_eq : ∀ y, y ≠ s → rank' y = uf.rank y := by
    intro y hys
    rcases hrank with ⟨_, h2⟩ | ⟨_, h2⟩
    · rw [h2]
    · rw [h2, Function.update_noteq hys]
  have hrank_rs : uf.rank r < rank' s := by
    rcases hrank with ⟨h1, h2⟩ | ⟨h1, h2⟩
    · rw [h2]; exact h1
    · rw [h2, Function.update_same]; omega
  have hrank_s : rank' s ≤ uf.rank s + 1 := by
    rcases hrank with ⟨_, h2⟩ | ⟨_, h2⟩
    · rw [h2]; omega
    · rw [h2, Function.update_same]
  have hsub : ∀ y < uf.size, Function.update uf.parent r s y = y → uf.parent y = y := by
    intro y _ hyy
    by_cases hyr : y = r
    · subst hyr; exact hrr
    · rwa [Function.update_noteq hyr] at hyy
  have hnum : numRoots { uf with parent := Function.update uf.parent r s, rank := rank' } <
      uf.numRoots := by
    refine @numRoots_lt_of_subset uf
      { uf with parent := Function.update uf.parent r s, rank := rank' } rfl hsub r hr hrr ?_
    show Function.update uf.parent r s r ≠ r
    rw [Function.update_same]
    exact Ne.symm hne
  have hinv : Inv { uf with parent := Function.update uf.parent r s, rank := rank' } := by
    refine ⟨?_, ?_, ?_⟩
    · intro y hy
      show Function.update uf.parent r s y < uf.size
      by_cases hyr : y = r
      · subst hyr; rw [Function.update_same]; exact hs
      · rw [Function.update_noteq hyr]; exact h.parent_lt y hy
    · intro y hy hyne
      show rank' y < rank' (Function.update uf.parent r s y)
      have hyne' : Function.update uf.parent r s y ≠ y := hyne
      by_cases hyr : y = r
      · subst hyr
        rw [Function.update_same, hrank_eq y hne]
        exact hrank_rs
      · rw [Function.update_noteq hyr] at hyne' ⊢
        have h1 := h.rank_lt y hy hyne'
        have h2 := hrank_ge (uf.parent y)
        have hys : y ≠ s := fun hc => hyne' (hc ▸ hss)
        rw [hrank_eq y hys]
        omega
    · intro y hy
      show rank' y + _ ≤ uf.size
      have h1 := h.rank_roots y hy
      by_cases hys : y = s
      · subst hys; omega
      · rw [hrank_eq y hys]; omega
  refine ⟨hinv, ?_⟩
  apply root_unique hinv
  · intro y hy
    show (if uf.root (Function.update uf.parent r s y) = r then s
      else uf.root (Function.update uf.parent r s y)) = _
    by_cases hyr : y = r
    · subst hyr
      rw [Function.update_same, root_of_isRoot hss, root_of_isRoot hrr, if_neg (Ne.symm hne),
        if_pos rfl]
    · rw [Function.update_noteq hyr, root_parent h hy]
  · intro y hy hyy
    have hyy' : Function.update uf.parent r s y = y := hyy
    have hyr : y ≠ r := by
      intro hc
      subst hc
      rw [Function.update_same] at hyy'
      exact hne hyy'.symm
    rw [Function.update_noteq hyr] at hyy'
    rw [root_of_isRoot hyy', if_neg hyr]

theorem unite_spec {uf : UnionFind} (h : uf.Inv) {x y : Nat} (hx : x < uf.size)
    (hy : y < uf.size) : ∃ uf', uf.unite x y = .ok uf' ∧ UnitePost uf x y uf' := by
  obtain ⟨uf1, he1, hp1⟩ := find_spec h hx
  obtain ⟨uf2, he2, hp2⟩ := find_spec hp1.inv (show y < uf1.size by rw [hp1.size_eq]; exact hy)
  have hp := hp1.post_trans hp2
  have hsz : uf2.size = uf.size := hp.size_eq
  have hrx : uf.root x < uf2.size := by rw [hsz]; exact root_lt h hx
  have hry : uf.root y < uf2.size := by rw [hsz]; exact root_lt h hy
  have hxx : uf2.parent (uf.root x) = uf.root x :=
    (hp.isRoot_iff _ (root_lt h hx)).mpr (root_isRoot h hx)
  have hyy : uf2.parent (uf.root y) = uf.root y :=
    (hp.isRoot_iff _ (root_lt h hy)).mpr (root_isRoot h hy)
  unfold unite
  rw [he1]
  simp only [he2, hp1.root_eq y hy]
  by_cases hc : uf.root x = uf.root y
  · rw [if_pos hc]
    refine ⟨uf2, rfl, hp.inv, hsz, ?_⟩
    intro a ha b hb
    rw [hp.root_eq a ha, hp.root_eq b hb]
    constructor
    · exact Or.inl
    · rintro (h1 | ⟨h1, h2⟩ | ⟨h1, h2⟩)
      · exact h1
      · rw [h1, h2, hc]
      · rw [h1, h2, hc]
  · rw [if_neg hc]
    have merge_of : ∀ (r s : Nat) (uf' : UnionFind),
        ((r = uf.root x ∧ s = uf.root y) ∨ (r = uf.root y ∧ s = uf.root x)) →
        (∀ a < uf2.size, uf'.root a = if uf2.root a = r then s else uf2.root a) →
        ∀ a < uf.size, ∀ b < uf.size,
          (uf'.root a = uf'.root b ↔
            uf.root a = uf.root b ∨ (uf.root a = uf.root x ∧ uf.root b = uf.root y) ∨
              (uf.root a = uf.root y ∧ uf.root b = uf.root x)) := by
      intro r s uf' hrs hroot a ha b hb
      rw [hroot a (by rw [hsz]; exact ha), hroot b (by rw [hsz]; exact hb), hp.root_eq a ha,
        hp.root_eq b hb]
      rcases hrs with ⟨rfl, rfl⟩ | ⟨rfl, rfl⟩
      · by_cases h1 : uf.root a = uf.root x <;> by_cases h2 : uf.root b = uf.root x
        · rw [if_pos h1, if_pos h2]
          exact ⟨fun _ => Or.inl (h1.trans h2.symm), fun _ => rfl⟩
        · rw [if_pos h1, if_neg h2]
          constructor
          · intro h; exact Or.inr (Or.inl ⟨h1, h.symm⟩)
          · rintro (h | ⟨_, h⟩ | ⟨_, h⟩)
            · exact absurd (h.symm.trans h1) h2
            · exact h.symm
            · exact absurd h h2
        · rw [if_neg h1, if_pos h2]
          constructor
          · intro h; exact Or.inr (Or.inr ⟨h, h2⟩)
          · rintro (h | ⟨h, _⟩ | ⟨h, _⟩)
            · exact absurd (h.trans h2) h1
            · exact absurd h h1
            · exact h
        · rw [if_neg h1, if_neg h2]
          constructor
          · exact Or.inl
          · rintro (h | ⟨h, _⟩ | ⟨_, h⟩)
            · exact h
            · exact absurd h h1
            · exact absurd h h2
      · by_cases h1 : uf.root a = uf.root y <;> by_cases h2 : uf.root b = uf.root y
        · rw [if_pos h1, if_pos h2]
          exact ⟨fun _ => Or.inl (h1.trans h2.symm), fun _ => rfl⟩
        · rw [if_pos h1, if_neg h2]
          constructor
          · intro h; exact Or.inr (Or.inr ⟨h1, h.symm⟩)
          · rintro (h | ⟨_, h⟩ | ⟨_, h⟩)
            · exact absurd (h.symm.trans h1) h2
            · exact absurd h h2
            · exact h.symm
        · rw [if_neg h1, if_pos h2]
          constructor
          · intro h; exact Or.inr (Or.inl ⟨h, h2⟩)
          · rintro (h | ⟨h, _⟩ | ⟨h, _⟩)
            · exact absurd (h.trans h2) h1
            · exact h
            · exact absurd h h1
        · rw [if_neg h1, if_neg h2]
          constructor
          · exact Or.inl
          · rintro (h | ⟨_, h⟩ | ⟨h, _⟩)
            · exact h
            · exact absurd h h2
            · exact absurd h h1
    by_cases hlt : uf2.rank (uf.root x) < uf2.rank (uf.root y)
    · rw [if_pos hlt]
      obtain ⟨hinv, hroot⟩ := link_post hp.inv hrx hry hxx hyy hc uf2.rank (Or.inl ⟨hlt, rfl⟩)
      exact ⟨_, rfl, hinv, hsz, merge_of _ _ _ (Or.inl ⟨rfl, rfl⟩) hroot⟩
    · rw [if_neg hlt]
      by_cases hgt : uf2.rank (uf.root x) > uf2.rank (uf.root y)
      · rw [if_pos hgt]
        obtain ⟨hinv, hroot⟩ :=
          link_post hp.inv hry hrx hyy hxx (Ne.symm hc) uf2.rank (Or.inl ⟨hgt, rfl⟩)
        exact ⟨_, rfl, hinv, hsz, merge_of _ _ _ (Or.inr ⟨rfl, rfl⟩) hroot⟩
      · rw [if_neg hgt]
        obtain ⟨hinv, hroot⟩ :=
          link_post hp.inv hry hrx hyy hxx (Ne.symm hc)
            (Function.update uf2.rank (uf.root x) (uf2.rank (uf.root x) + 1))
            (Or.inr ⟨by omega, rfl⟩)
        exact ⟨_, rfl, hinv, hsz, merge_of _ _ _ (Or.inr ⟨rfl, rfl⟩) hroot⟩

end UnionFind

end graph


namespace graph

namespace Algorithms

/-! ## The bubble sort of `kruskal` -/

/-- The list is in ascending order of weight. -/
def SortedByWeight (L : List KEdge) : Prop := L.Pairwise fun a b => a.weight ≤ b.weight

theorem bubblePass_perm (k : Nat) (l : List KEdge) : (bubblePass k l).Perm l := by
  induction k generalizing l with
  | zero => unfold bubblePass; exact List.Perm.refl _
  | succ k ih =>
    match l with
    | [] => unfold bubblePass; exact List.Perm.refl _
    | [a] => unfold bubblePass; exact List.Perm.refl _
    | a :: b :: rest =>
      rw [bubblePass]
      split
      · exact ((ih (a :: rest)).cons b).trans (List.Perm.swap a b rest)
      · exact (ih (b :: rest)).cons a

theorem bubbleSort_perm (r : Nat) (l : List KEdge) : (bubbleSort r l).Perm l := by
  induction r generalizing l with
  | zero => exact List.Perm.refl _
  | succ r ih =>
    rw [bubbleSort]
    exact (ih _).trans (bubblePass_perm _ _)

theorem bubblePass_append (k : Nat) (l s : List KEdge) (hl : l.length = k + 1) :
    bubblePass k (l ++ s) = bubblePass k l ++ s := by
  induction k generalizing l with
  | zero =>
    match l, hl with
    | [a], _ => simp [bubblePass]
  | succ k ih =>
    match l, hl with
    | a :: b :: rest, hl =>
      have hlen : (b :: rest).length = k + 1 := by simpa using hl
      have hlen' : (a :: rest).length = k + 1 := by simpa using hl
      show bubblePass (k + 1) (a :: b :: (rest ++ s)) = bubblePass (k + 1) (a :: b :: rest) ++ s
      rw [bubblePass, bubblePass]
      split
      · have := ih (a :: rest) hlen'
        simp only [List.cons_append] at this
        rw [this]
        rfl
      · have := ih (b :: rest) hlen
        simp only [List.cons_append] at this
        rw [this]
        rfl

/-- One full pass moves an edge of maximal weight to the end. -/
theorem bubblePass_last (k : Nat) (l : List KEdge) (hl : l.length = k + 1) :
    ∃ init mx, bubblePass k l = init ++ [mx] ∧ init.length = k ∧
      ∀ x ∈ l, x.weight ≤ mx.weight := by
  induction k generalizing l with
  | zero =>
    match l, hl with
    | [a], _ =>
      refine ⟨[], a, by simp [bubblePass], rfl, ?_⟩
      intro x hx
      simp at hx
      rw [hx]
  | succ k ih =>
    match l, hl with
    | a :: b :: rest, hl =>
      have hlen : (b :: rest).length = k + 1 := by simpa using hl
      have hlen' : (a :: rest).length = k + 1 := by simpa using hl
      rw [bubblePass]
      split
      · rename_i hgt
        obtain ⟨init, mx, he, hlen2, hmx⟩ := ih (a :: rest) hlen'
        refine ⟨b :: init, mx, by rw [he]; rfl, by simp [hlen2], ?_⟩
        intro x hx
        have ha := hmx a (List.mem_cons_self _ _)
        rcases List.mem_cons.mp hx with rfl | hx
        · exact ha
        · rcases List.mem_cons.mp hx with rfl | hx
          · omega
          · exact hmx x (List.mem_cons_of_mem _ hx)
      · rename_i hle
        obtain ⟨init, mx, he, hlen2, hmx⟩ := ih (b :: rest) hlen
        refine ⟨a :: init, mx, by rw [he]; rfl, by simp [hlen2], ?_⟩
        intro x hx
        have hb := hmx b (List.mem_cons_self _ _)
        rcases List.mem_cons.mp hx with rfl | hx
        · omega
        · exact hmx x hx

theorem bubbleSort_sorted_aux (r : Nat) :
    ∀ (l s : List KEdge), l.length = r + 1 → SortedByWeight s →
      (∀ x ∈ l, ∀ y ∈ s, x.weight ≤ y.weight) → SortedByWeight (bubbleSort r (l ++ s)) := by
  induction r with
  | zero =>
    intro l s hl hs hls
    match l, hl with
    | [a], _ =>
      simp only [bubbleSort, List.singleton_append]
      exact List.pairwise_cons.mpr ⟨fun y hy => hls a (List.mem_singleton_self a) y hy, hs⟩
  | succ r ih =>
    intro l s hl hs hls
    rw [bubbleSort, bubblePass_append _ _ _ hl]
    obtain ⟨init, mx, he, hlen, hmx⟩ := bubblePass_last (r + 1) l hl
    rw [he, List.append_assoc]
    have hperm := bubblePass_perm (r + 1) l
    rw [he] at hperm
    have hmxl : mx ∈ l := hperm.subset (by simp)
    apply ih init ([mx] ++ s) hlen
    · exact List.pairwise_cons.mpr ⟨fun y hy => hls mx hmxl y hy, hs⟩
    · intro x hx y hy
      have hxl : x ∈ l := hperm.subset (by simp [hx])
      rcases List.mem_cons.mp hy with rfl | hy
      · exact hmx x hxl
      · exact hls x hxl y hy

/-- The bubble sort of `kruskal` returns its input in ascending order of weight. -/
theorem bubbleSort_sorted (l : List KEdge) : SortedByWeight (bubbleSort (l.length - 1) l) := by
  by_cases h : l = []
  · subst h
    exact List.Pairwise.nil
  · have hpos : 0 < l.length := List.length_pos.mpr h
    have := bubbleSort_sorted_aux (l.length - 1) l [] (by omega) List.Pairwise.nil
      (fun _ _ _ hy => by simp at hy)
    simpa using this

end Algorithms

end graph


namespace graph

open Algorithms

namespace Graph

/-- The graph `T` is a spanning forest of `g`: a well-formed graph on the same vertices whose
records are records of `g`, without a cycle, that connects exactly the pairs of vertices that
`g` connects. -/
def IsSpanningForestOf (T g : Graph) : Prop :=
  T.WF ∧ T.numVertices = g.numVertices ∧ (∀ u, ∀ e ∈ T.adj u, e ∈ g.adj u) ∧ T.Acyclic ∧
    ∀ u v, T.Reach u v ↔ g.Reach u v

/-- Any two vertices of the graph are connected. -/
def Connected (g : Graph) : Prop :=
  ∀ u < g.numVertices, ∀ v < g.numVertices, g.Reach u v

/-- The number of connected components is the number of class labels of the edge list. -/
theorem components_ncard {g : Graph} (hg : g.WF) :
    g.components.ncard = (labelRoots g.numVertices g.edgeList).card := by
  have himg : g.components =
      Set.image (fun r => {u | g.Reach r u}) (↑(labelRoots g.numVertices g.edgeList)) := by
    ext S
    simp only [components, Set.mem_setOf_eq, Set.mem_image, Finset.mem_coe, labelRoots,
      Finset.mem_filter, Finset.mem_range]
    constructor
    · rintro ⟨v, hv, rfl⟩
      refine ⟨label g.edgeList v, ⟨label_lt (edgeList_inRange hg) hv, label_idem _ _⟩, ?_⟩
      have hvr : g.Reach v (label g.edgeList v) :=
        (reach_iff_kconn hg _ _).mpr (KConn.to_label _ _)
      ext u
      simp only [Set.mem_setOf_eq]
      exact ⟨fun h => hvr.trans h, fun h => (Reach.reach_symm hg hvr).trans h⟩
    · rintro ⟨r, ⟨hr, _⟩, rfl⟩
      exact ⟨r, hr, rfl⟩
  rw [himg, Set.ncard_image_of_injOn, Set.ncard_coe_Finset]
  intro r hr r' hr' heq
  simp only [Finset.mem_coe, labelRoots, Finset.mem_filter, Finset.mem_range] at hr hr'
  have h1 : r' ∈ {u | g.Reach r u} := by
    have : r' ∈ {u | g.Reach r' u} := Relation.ReflTransGen.refl
    have heq' : {u | g.Reach r u} = {u | g.Reach r' u} := heq
    rw [heq']
    exact this
  have h2 : KConn g.edgeList r r' := (reach_iff_kconn hg _ _).mp h1
  have h3 := (label_eq_iff _ _ _).mpr h2
  rw [hr.2, hr'.2] at h3
  exact h3

/-- Two edge lists with the same connectivity have the same number of classes. -/
theorem labelRoots_card_eq {n : Nat} {F K : List KEdge} (hF : InRange n F) (hK : InRange n K)
    (h : ∀ u v, KConn F u v ↔ KConn K u v) :
    (labelRoots n F).card = (labelRoots n K).card :=
  le_antisymm (labelRoots_card_le hK fun _ he => (h _ _).mpr (KConn.conn_of_mem he))
    (labelRoots_card_le hF fun _ he => (h _ _).mp (KConn.conn_of_mem he))

theorem Connected.labelRoots_card {g : Graph} (hg : g.WF) (hc : g.Connected) :
    (labelRoots g.numVertices g.edgeList).card = 1 := by
  rw [Finset.card_eq_one]
  refine ⟨label g.edgeList 0, ?_⟩
  ext v
  simp only [labelRoots, Finset.mem_filter, Finset.mem_range, Finset.mem_singleton]
  constructor
  · rintro ⟨hv, hvv⟩
    rw [← hvv]
    exact (label_eq_iff _ _ _).mpr ((reach_iff_kconn hg _ _).mp (hc v hv 0 hg.1))
  · rintro rfl
    exact ⟨label_lt (edgeList_inRange hg) hg.1, label_idem _ _⟩

end Graph

namespace Algorithms

open Graph

/-! ## kruskal -/

theorem collectChain_eq (maxEdges i : Nat) (chain : List Edge) (buffer : List KEdge)
    (h : (buffer ++ chainEdges i chain).length ≤ maxEdges) :
    collectChain maxEdges i chain buffer = .ok (buffer ++ chainEdges i chain) := by
  induction chain generalizing buffer with
  | nil => simp [collectChain, chainEdges]
  | cons e chain ih =>
    rw [chainEdges_cons] at h ⊢
    rw [collectChain]
    by_cases hlt : i < e.destination
    · rw [if_pos hlt] at h ⊢
      rw [if_pos hlt]
      have hlen : ¬ buffer.length ≥ maxEdges := by
        simp only [List.length_append, List.length_cons] at h
        omega
      rw [if_neg hlen, ih]
      · simp
      · simpa using h
    · rw [if_neg hlt] at h ⊢
      rw [if_neg hlt, ih _ h]

theorem collectEdges_eq (g : Graph) (maxEdges : Nat) (l : List Nat) (buffer : List KEdge)
    (hl : ∀ i ∈ l, i < g.numVertices)
    (h : (buffer ++ l.flatMap fun i => chainEdges i (g.adj i)).length ≤ maxEdges) :
    collectEdges g maxEdges l buffer =
      .ok (buffer ++ l.flatMap fun i => chainEdges i (g.adj i)) := by
  induction l generalizing buffer with
  | nil => simp [collectEdges]
  | cons i l ih =>
    rw [collectEdges, getAdjList_eq (hl i (List.mem_cons_self _ _))]
    simp only [List.flatMap_cons, ← List.append_assoc] at h ⊢
    have h1 : (buffer ++ chainEdges i (g.adj i)).length ≤ maxEdges := by
      rw [List.length_append] at h
      omega
    rw [collectChain_eq _ _ _ _ h1]
    exact ih _ (fun j hj => hl j (List.mem_cons_of_mem _ hj)) h

/-- The buffer size that `kruskal` computes is `n (n - 1) / 2` when the graph has at most
46341 vertices: the product then fits an `int`. -/
theorem maxEdges_eq {n : Nat} (hn : n ≤ 46341) :
    Int.tdiv (wrapInt32 ((n : Int) * ((n : Int) - 1))) 2 = ((n * (n - 1) / 2 : Nat) : Int) := by
  have hm : n * (n - 1) ≤ 46341 * 46340 := Nat.mul_le_mul hn (by omega)
  have hcast : (n : Int) * ((n : Int) - 1) = ((n * (n - 1) : Nat) : Int) := by
    cases n with
    | zero => simp
    | succ k =>
      rw [Nat.cast_mul]
      congr 1
      simp
  rw [hcast]
  generalize n * (n - 1) = m at hm
  have hw : wrapInt32 (m : Int) = (m : Int) := by
    unfold wrapInt32
    omega
  rw [hw]
  exact (Int.ofNat_tdiv m 2).symm

/-- What the inner collection loop returns, when it returns. -/
theorem collectChain_ok (maxEdges i : Nat) (chain : List Edge) (buffer r : List KEdge)
    (h : collectChain maxEdges i chain buffer = .ok r) : r = buffer ++ chainEdges i chain := by
  induction chain generalizing buffer with
  | nil =>
    simp only [collectChain] at h
    injection h with h
    simp [chainEdges, h]
  | cons e chain ih =>
    rw [chainEdges_cons]
    rw [collectChain] at h
    by_cases hlt : i < e.destination
    · rw [if_pos hlt] at h ⊢
      by_cases hlen : buffer.length ≥ maxEdges
      · rw [if_pos hlen] at h
        injection h
      · rw [if_neg hlen] at h
        rw [ih _ h]
        simp
    · rw [if_neg hlt] at h ⊢
      exact ih _ h

/-- What the outer collection loop returns, when it returns. -/
theorem collectEdges_ok (g : Graph) (maxEdges : Nat) (l : List Nat) (buffer r : List KEdge)
    (hl : ∀ i ∈ l, i < g.numVertices) (h : collectEdges g maxEdges l buffer = .ok r) :
    r = buffer ++ l.flatMap fun i => chainEdges i (g.adj i) := by
  induction l generalizing buffer with
  | nil =>
    simp only [collectEdges] at h
    injection h with h
    simp [h]
  | cons i l ih =>
    rw [collectEdges, getAdjList_eq (hl i (List.mem_cons_self _ _))] at h
    simp only [] at h
    cases hc : collectChain maxEdges i (g.adj i) buffer with
    | error f =>
      rw [hc] at h
      injection h
    | ok buffer1 =>
      rw [hc] at h
      simp only [] at h
      rw [ih _ (fun j hj => hl j (List.mem_cons_of_mem _ hj)) h,
        collectChain_ok _ _ _ _ _ hc]
      simp

/-- The inner collection loop writes outside the buffer when the records to keep do not fit
it. -/
theorem collectChain_overflow (maxEdges i : Nat) (chain : List Edge) (buffer : List KEdge)
    (hb : buffer.length ≤ maxEdges)
    (h : maxEdges < (buffer ++ chainEdges i chain).length) :
    collectChain maxEdges i chain buffer =
      .error (.undefinedBehaviour "write outside the edge buffer") := by
  induction chain generalizing buffer with
  | nil =>
    simp [chainEdges] at h
    omega
  | cons e chain ih =>
    rw [chainEdges_cons] at h
    rw [collectChain]
    by_cases hlt : i < e.destination
    · rw [if_pos hlt] at h
      rw [if_pos hlt]
      by_cases hlen : buffer.length ≥ maxEdges
      · rw [if_pos hlen]
      · rw [if_neg hlen]
        apply ih
        · simp only [List.length_append, List.length_cons, List.length_nil]
          omega
        · simpa using h
    · rw [if_neg hlt] at h
      rw [if_neg hlt]
      exact ih _ hb h

/-- The outer collection loop writes outside the buffer when the edges do not fit it. -/
theorem collectEdges_overflow (g : Graph) (maxEdges : Nat) (l : List Nat)
    (buffer : List KEdge) (hl : ∀ i ∈ l, i < g.numVertices) (hb : buffer.length ≤ maxEdges)
    (h : maxEdges < (buffer ++ l.flatMap fun i => chainEdges i (g.adj i)).length) :
    collectEdges g maxEdges l buffer =
      .error (.undefinedBehaviour "write outside the edge buffer") := by
  induction l generalizing buffer with
  | nil =>
    simp at h
    omega
  | cons i l ih =>
    rw [collectEdges, getAdjList_eq (hl i (List.mem_cons_self _ _))]
    simp only [List.flatMap_cons, ← List.append_assoc] at h ⊢
    by_cases hfit : (buffer ++ chainEdges i (g.adj i)).length ≤ maxEdges
    · rw [collectChain_eq _ _ _ _ hfit]
      exact ih _ (fun j hj => hl j (List.mem_cons_of_mem _ hj)) hfit h
    · rw [collectChain_overflow _ _ _ _ hb (by omega)]

/-- The loop invariant of `kruskal`, with `P` the edges processed so far. -/
structure KruskalInv (n : Nat) (P : List KEdge) (uf : UnionFind) (result : Graph) : Prop where
  uf_inv : uf.Inv
  uf_size : uf.size = n
  wf : result.WF
  nv : result.numVertices = n
  noLoop : ∀ u, ¬ result.Adj u u
  acyc : KAcyclic result.edgeList
  roots : ∀ a < n, ∀ b < n, (uf.root a = uf.root b ↔ KConn result.edgeList a b)
  sub : ∀ c ∈ result.edgeList, c ∈ P
  bottleneck : ∀ e ∈ P,
    KConn (result.edgeList.filter fun k => decide (k.weight ≤ e.weight)) e.src e.dest

theorem kruskalLoop_spec (n : Nat) (R : List KEdge) :
    ∀ (P : List KEdge) (uf : UnionFind) (result : Graph), KruskalInv n P uf result →
      (∀ e ∈ R, e.src < e.dest ∧ e.dest < n) → SortedByWeight R →
      (∀ c ∈ P, ∀ e ∈ R, c.weight ≤ e.weight) →
      ∃ r uf', kruskalLoop R uf result = .ok r ∧ KruskalInv n (P ++ R) uf' r := by
  induction R with
  | nil =>
    intro P uf result hinv _ _ _
    exact ⟨result, uf, rfl, by simpa using hinv⟩
  | cons e R ih =>
    intro P uf result hinv hR hsorted hPR
    have he := hR e (List.mem_cons_self _ _)
    have hsrc : e.src < uf.size := by rw [hinv.uf_size]; omega
    have hdest : e.dest < uf.size := by rw [hinv.uf_size]; omega
    obtain ⟨uf1, hc, hpost⟩ := UnionFind.connected_spec hinv.uf_inv hsrc hdest
    have hsorted' := List.pairwise_cons.mp hsorted
    have hPR' : ∀ c ∈ P ++ [e], ∀ e' ∈ R, c.weight ≤ e'.weight := by
      intro c hcm e' he'
      rcases List.mem_append.mp hcm with h | h
      · exact hPR c h e' (List.mem_cons_of_mem _ he')
      · rw [List.mem_singleton] at h
        subst h
        exact hsorted'.1 e' he'
    have hR' : ∀ e' ∈ R, e'.src < e'.dest ∧ e'.dest < n :=
      fun e' he' => hR e' (List.mem_cons_of_mem _ he')
    have happ : P ++ e :: R = (P ++ [e]) ++ R := by simp
    rw [kruskalLoop, hc, happ]
    by_cases hconn : uf.root e.src = uf.root e.dest
    · -- the edge would close a cycle
      simp only [hconn, decide_True, Bool.not_true, Bool.false_eq_true, if_false]
      apply ih (P ++ [e]) uf1 result _ hR' hsorted'.2 hPR'
      have hk : KConn result.edgeList e.src e.dest :=
        (hinv.roots _ (by omega) _ (by omega)).mp hconn
      refine ⟨hpost.inv, hpost.size_eq.trans hinv.uf_size, hinv.wf, hinv.nv, hinv.noLoop,
        hinv.acyc, ?_, ?_, ?_⟩
      · intro a ha b hb
        rw [hpost.root_eq a (by rw [hinv.uf_size]; exact ha),
          hpost.root_eq b (by rw [hinv.uf_size]; exact hb)]
        exact hinv.roots a ha b hb
      · intro c hcm
        exact List.mem_append_left _ (hinv.sub c hcm)
      · intro e' he'
        rcases List.mem_append.mp he' with h | h
        · exact hinv.bottleneck e' h
        · rw [List.mem_singleton] at h
          subst h
          have hall : (result.edgeList.filter fun k => decide (k.weight ≤ e'.weight)) =
              result.edgeList := by
            rw [List.filter_eq_self]
            intro c hcm
            have := hPR c (hinv.sub c hcm) e' (List.mem_cons_self _ _)
            simpa using this
          rw [hall]
          exact hk
    · -- the edge joins two classes
      simp only [hconn, decide_False, Bool.not_false, if_true]
      have hs : e.src < result.numVertices := by rw [hinv.nv]; omega
      have hd : e.dest < result.numVertices := by rw [hinv.nv]; omega
      rw [addEdge_eq hs hd]
      have hsrc1 : e.src < uf1.size := by rw [hpost.size_eq]; exact hsrc
      have hdest1 : e.dest < uf1.size := by rw [hpost.size_eq]; exact hdest
      obtain ⟨uf2, hu, hup⟩ := UnionFind.unite_spec hpost.inv hsrc1 hdest1
      simp only [hu]
      have hperm : (result.addEdgeNat e.src e.dest e.weight).edgeList.Perm
          (e :: result.edgeList) := by
        have := edgeList_addEdgeNat hinv.wf hs hd (by omega) e.weight
        simpa [normEdge, he.1] using this
      have hnk : ¬ KConn result.edgeList e.src e.dest :=
        fun h => hconn ((hinv.roots _ (by omega) _ (by omega)).mpr h)
      apply ih (P ++ [e]) uf2 _ _ hR' hsorted'.2 hPR'
      refine ⟨hup.inv, hup.size_eq.trans (hpost.size_eq.trans hinv.uf_size),
        addEdgeNat_wf hinv.wf hs hd _, hinv.nv, ?_, ?_, ?_, ?_, ?_⟩
      · intro u hadj
        rw [adj_addEdgeNat_iff hinv.wf hs hd] at hadj
        rcases hadj with ⟨h1, h2⟩ | ⟨h1, h2⟩ | h
        · omega
        · omega
        · exact hinv.noLoop u h
      · exact KAcyclic.acyclic_perm hperm.symm (IsForest.kacyclic ⟨hnk, hinv.acyc.isForest⟩)
      · intro a ha b hb
        have ha0 : a < uf.size := by rw [hinv.uf_size]; exact ha
        have hb0 : b < uf.size := by rw [hinv.uf_size]; exact hb
        rw [hup.merge a (by rw [hpost.size_eq]; exact ha0) b (by rw [hpost.size_eq]; exact hb0),
          hpost.root_eq a ha0, hpost.root_eq b hb0, hpost.root_eq _ hsrc, hpost.root_eq _ hdest,
          KConn.conn_perm hperm, KConn.conn_cons_iff, hinv.roots a ha b hb,
          hinv.roots a ha _ (by omega), hinv.roots a ha _ (by omega),
          hinv.roots b hb _ (by omega), hinv.roots b hb _ (by omega)]
        constructor
        · rintro (h | ⟨h1, h2⟩ | ⟨h1, h2⟩)
          · exact Or.inl h
          · exact Or.inr (Or.inl ⟨h1, h2.conn_symm⟩)
          · exact Or.inr (Or.inr ⟨h1, h2.conn_symm⟩)
        · rintro (h | ⟨h1, h2⟩ | ⟨h1, h2⟩)
          · exact Or.inl h
          · exact Or.inr (Or.inl ⟨h1, h2.conn_symm⟩)
          · exact Or.inr (Or.inr ⟨h1, h2.conn_symm⟩)
      · intro c hcm
        rcases List.mem_cons.mp (hperm.subset hcm) with h | h
        · exact List.mem_append_right _ (by simp [h])
        · exact List.mem_append_left _ (hinv.sub c h)
      · intro e' he'
        rcases List.mem_append.mp he' with h | h
        · refine KConn.conn_mono ?_ (hinv.bottleneck e' h)
          intro k hk
          rw [List.mem_filter] at hk ⊢
          exact ⟨hperm.symm.subset (List.mem_cons_of_mem _ hk.1), hk.2⟩
        · rw [List.mem_singleton] at h
          subst h
          apply KConn.conn_of_mem
          rw [List.mem_filter]
          exact ⟨hperm.symm.subset (List.mem_cons_self _ _), by simp⟩

/-- The main loop of `kruskal` over the sorted edges of a well-formed graph. -/
theorem kruskal_loop_core (g : Graph) (hg : g.WF) :
    ∃ r, kruskalLoop (bubbleSort (g.edgeList.length - 1) g.edgeList)
        (UnionFind.new g.numVertices) (emptyGraph g.numVertices) = .ok r ∧
      r.WF ∧ r.numVertices = g.numVertices ∧ r.Acyclic ∧
      (∀ c ∈ r.edgeList, c ∈ g.edgeList) ∧
      ∀ e ∈ g.edgeList,
        KConn (r.edgeList.filter fun k => decide (k.weight ≤ e.weight)) e.src e.dest := by
  have hn := hg.1
  have hperm := bubbleSort_perm (g.edgeList.length - 1) g.edgeList
  have hinit : KruskalInv g.numVertices [] (UnionFind.new g.numVertices)
      (emptyGraph g.numVertices) := by
    refine ⟨UnionFind.new_inv _, rfl, emptyGraph_wf hn, rfl, ?_, ?_, ?_, ?_, ?_⟩
    · rintro u ⟨e, he, _⟩
      rw [adj_emptyGraph] at he
      simp at he
    · rw [edgeList_emptyGraph]
      intro e he
      simp at he
    · intro a _ b _
      rw [edgeList_emptyGraph, KConn.nil_iff, UnionFind.root_of_isRoot rfl,
        UnionFind.root_of_isRoot rfl]
    · rw [edgeList_emptyGraph]
      intro c hc
      simp at hc
    · intro e he
      simp at he
  obtain ⟨r, uf', hloop, hinv⟩ := kruskalLoop_spec g.numVertices
    (bubbleSort (g.edgeList.length - 1) g.edgeList) [] _ _ hinit
    (by
      intro e he
      have := (mem_edgeList.mp (hperm.subset he))
      exact ⟨this.2.1, dest_lt hg this.2.2⟩)
    (bubbleSort_sorted _) (fun c hc => by simp at hc)
  refine ⟨r, hloop, hinv.wf, hinv.nv, ⟨hinv.noLoop, hinv.acyc⟩, ?_, ?_⟩
  · intro c hc
    exact hperm.subset (by simpa using hinv.sub c hc)
  · intro e he
    exact hinv.bottleneck e (by simpa using hperm.symm.subset he)

/-- The collection loop of `kruskal` on a graph whose edges fit a buffer of `n (n - 1) / 2`
slots. -/
theorem kruskal_collect (g : Graph)
    (hcap : countEdges g ≤ g.numVertices * (g.numVertices - 1) / 2) :
    collectEdges g (g.numVertices * (g.numVertices - 1) / 2) (List.range g.numVertices) [] =
      .ok g.edgeList := by
  rw [countEdges_eq] at hcap
  exact collectEdges_eq g (g.numVertices * (g.numVertices - 1) / 2)
    (List.range g.numVertices) [] (fun i hi => List.mem_range.mp hi)
    (by simpa [edgeList] using hcap)

/-- On a well-formed graph with at most 46341 vertices whose edges fit the edge buffer,
`kruskal` allocates `n (n - 1) / 2` slots, collects the edge list and runs its main loop over
the sorted list. -/
theorem kruskal_eq_loop (g : Graph) (hg : g.WF) (hn : g.numVertices ≤ 46341)
    (hcap : countEdges g ≤ g.numVertices * (g.numVertices - 1) / 2) :
    kruskal g = kruskalLoop (bubbleSort (g.edgeList.length - 1) g.edgeList)
      (UnionFind.new g.numVertices) (emptyGraph g.numVertices) := by
  unfold kruskal
  simp only [getNumVertices, new_eq hg.1, maxEdges_eq hn]
  rw [if_neg (by omega)]
  simp only [Int.toNat_ofNat, kruskal_collect g hcap]

/-- Whenever `kruskal` returns a graph, the edges fitted the buffer and the graph is the one
that the main loop returns on the sorted edge list. -/
theorem kruskal_ok_loop {g r : Graph} (hg : g.WF) (h : kruskal g = .ok r) :
    kruskalLoop (bubbleSort (g.edgeList.length - 1) g.edgeList)
      (UnionFind.new g.numVertices) (emptyGraph g.numVertices) = .ok r := by
  unfold kruskal at h
  simp only [getNumVertices, new_eq hg.1] at h
  split at h
  · injection h
  · split at h
    · injection h
    · rename_i edges hc
      have he := collectEdges_ok g _ (List.range g.numVertices) [] edges
        (fun i hi => List.mem_range.mp hi) hc
      have hnil : ([] : List KEdge) ++
          (List.range g.numVertices).flatMap (fun i => chainEdges i (g.adj i)) =
          g.edgeList := rfl
      rw [hnil] at he
      rw [he] at h
      exact h

/-- On two or more vertices beyond 46341 whose product `n (n - 1)` wraps to a negative `int`,
`kruskal` returns no graph: the allocation of the edge buffer throws. -/
theorem kruskal_negative_size (g : Graph) (hg : g.WF)
    (h : Int.tdiv (wrapInt32 ((g.numVertices : Int) * ((g.numVertices : Int) - 1))) 2 < 0) :
    kruskal g = .error (.thrown "std::bad_array_new_length") := by
  unfold kruskal
  simp only [getNumVertices, new_eq hg.1]
  rw [if_pos h]

/-- With a buffer of fewer slots than the graph has edges, `kruskal` writes outside it. -/
theorem kruskal_overflow (g : Graph) (hg : g.WF)
    (hpos : 0 ≤ Int.tdiv (wrapInt32 ((g.numVertices : Int) * ((g.numVertices : Int) - 1))) 2)
    (hover : Int.tdiv (wrapInt32 ((g.numVertices : Int) * ((g.numVertices : Int) - 1))) 2 <
      (countEdges g : Int)) :
    kruskal g = .error (.undefinedBehaviour "write outside the edge buffer") := by
  have hnil : ([] : List KEdge) ++
      (List.range g.numVertices).flatMap (fun i => chainEdges i (g.adj i)) = g.edgeList := rfl
  have hcollect := collectEdges_overflow g
    (Int.tdiv (wrapInt32 ((g.numVertices : Int) * ((g.numVertices : Int) - 1))) 2).toNat
    (List.range g.numVertices) [] (fun i hi => List.mem_range.mp hi) (Nat.zero_le _)
    (by
      rw [hnil, ← countEdges_eq]
      omega)
  unfold kruskal
  simp only [getNumVertices, new_eq hg.1]
  rw [if_neg (by omega), hcollect]

/-- On a well-formed graph `kruskal` returns a graph exactly when the edges fit the buffer
that it allocates. -/
theorem kruskal_returns_iff (g : Graph) (hg : g.WF) :
    (∃ r, kruskal g = .ok r) ↔
      (countEdges g : Int) ≤
        Int.tdiv (wrapInt32 ((g.numVertices : Int) * ((g.numVertices : Int) - 1))) 2 := by
  have hnil : ([] : List KEdge) ++
      (List.range g.numVertices).flatMap (fun i => chainEdges i (g.adj i)) = g.edgeList := rfl
  constructor
  · rintro ⟨r, h⟩
    by_contra hc
    by_cases hneg :
        Int.tdiv (wrapInt32 ((g.numVertices : Int) * ((g.numVertices : Int) - 1))) 2 < 0
    · rw [kruskal_negative_size g hg hneg] at h
      injection h
    · have hover := collectEdges_overflow g
        (Int.tdiv (wrapInt32 ((g.numVertices : Int) * ((g.numVertices : Int) - 1))) 2).toNat
        (List.range g.numVertices) [] (fun i hi => List.mem_range.mp hi) (Nat.zero_le _)
        (by
          rw [hnil, ← countEdges_eq]
          omega)
      unfold kruskal at h
      simp only [getNumVertices, new_eq hg.1] at h
      rw [if_neg hneg, hover] at h
      injection h
  · intro hfit
    obtain ⟨r, hloop, _⟩ := kruskal_loop_core g hg
    refine ⟨r, ?_⟩
    have hcollect := collectEdges_eq g
      (Int.tdiv (wrapInt32 ((g.numVertices : Int) * ((g.numVertices : Int) - 1))) 2).toNat
      (List.range g.numVertices) [] (fun i hi => List.mem_range.mp hi)
      (by
        rw [hnil, ← countEdges_eq]
        omega)
    rw [hnil] at hcollect
    unfold kruskal
    simp only [getNumVertices, new_eq hg.1]
    rw [if_neg (by omega), hcollect]
    exact hloop

/-- The result of `kruskal` on a well-formed graph with at most 46341 vertices whose edges fit
the edge buffer. -/
theorem kruskal_core (g : Graph) (hg : g.WF) (hn : g.numVertices ≤ 46341)
    (hcap : countEdges g ≤ g.numVertices * (g.numVertices - 1) / 2) :
    ∃ r, kruskal g = .ok r ∧ r.WF ∧ r.numVertices = g.numVertices ∧ r.Acyclic ∧
      (∀ c ∈ r.edgeList, c ∈ g.edgeList) ∧
      ∀ e ∈ g.edgeList,
        KConn (r.edgeList.filter fun k => decide (k.weight ≤ e.weight)) e.src e.dest := by
  obtain ⟨r, hloop, hrest⟩ := kruskal_loop_core g hg
  exact ⟨r, by rw [kruskal_eq_loop g hg hn hcap]; exact hloop, hrest⟩

theorem kruskal_kconn {g r : Graph}
    (hsub : ∀ c ∈ r.edgeList, c ∈ g.edgeList)
    (hbn : ∀ e ∈ g.edgeList,
      KConn (r.edgeList.filter fun k => decide (k.weight ≤ e.weight)) e.src e.dest)
    (u v : Nat) : KConn r.edgeList u v ↔ KConn g.edgeList u v :=
  ⟨KConn.conn_mono hsub, KConn.of_edges fun e he =>
    KConn.conn_mono (fun _ hk => (List.mem_filter.mp hk).1) (hbn e he)⟩

end Algorithms

end graph


namespace graph

namespace PriorityQueue

/-! ## The binary heap: structure invariant and heap order -/

/-- The vertex is present in the queue. -/
def Present (pq : PriorityQueue) (v : Nat) : Prop := pq.position v ≠ -1

/-- The priority stored for a present vertex. -/
def prioOf (pq : PriorityQueue) (v : Nat) : Int := (pq.heap (pq.position v).toNat).priority

/-- The `position` table and the heap array describe each other. -/
structure Wf (pq : PriorityQueue) : Prop where
  size_le : pq.heapSize ≤ pq.capacity
  vertex_lt : ∀ i < pq.heapSize, (pq.heap i).vertex < pq.capacity
  pos_heap : ∀ i < pq.heapSize, pq.position (pq.heap i).vertex = (i : Int)
  heap_pos : ∀ v, pq.position v ≠ -1 →
    ∃ i < pq.heapSize, pq.position v = (i : Int) ∧ (pq.heap i).vertex = v

/-- The min-heap order: no slot holds a smaller priority than its parent slot. -/
def Ordered (pq : PriorityQueue) : Prop :=
  ∀ j, 0 < j → j < pq.heapSize → (pq.heap ((j - 1) / 2)).priority ≤ (pq.heap j).priority

/-- The heap order holds except between slot `i` and its parent. -/
def OrderedExceptUp (pq : PriorityQueue) (i : Nat) : Prop :=
  (∀ j, 0 < j → j < pq.heapSize → j ≠ i →
      (pq.heap ((j - 1) / 2)).priority ≤ (pq.heap j).priority) ∧
    ∀ j, 0 < j → j < pq.heapSize → (j - 1) / 2 = i → 0 < i →
      (pq.heap ((i - 1) / 2)).priority ≤ (pq.heap j).priority

/-- The heap order holds except between slot `i` and its children. -/
def OrderedExceptDown (pq : PriorityQueue) (i : Nat) : Prop :=
  (∀ j, 0 < j → j < pq.heapSize → (j - 1) / 2 ≠ i →
      (pq.heap ((j - 1) / 2)).priority ≤ (pq.heap j).priority) ∧
    ∀ j, 0 < j → j < pq.heapSize → (j - 1) / 2 = i → 0 < i →
      (pq.heap ((i - 1) / 2)).priority ≤ (pq.heap j).priority

/-- The two states hold the same vertices with the same priorities. -/
structure SameContent (pq pq' : PriorityQueue) : Prop where
  wf : pq'.Wf
  capacity_eq : pq'.capacity = pq.capacity
  heapSize_eq : pq'.heapSize = pq.heapSize
  present_iff : ∀ v, pq'.Present v ↔ pq.Present v
  prio_eq : ∀ v, pq.Present v → pq'.prioOf v = pq.prioOf v

theorem swap_heap (pq : PriorityQueue) (i j k : Nat) :
    (pq.swap i j).heap k =
      if k = j then pq.heap i else if k = i then pq.heap j else pq.heap k := by
  unfold swap
  simp only [Function.update_apply]

theorem swap_position (pq : PriorityQueue) (i j v : Nat) :
    (pq.swap i j).position v =
      if v = (pq.heap j).vertex then (i : Int)
      else if v = (pq.heap i).vertex then (j : Int) else pq.position v := by
  unfold swap
  simp only [Function.update_apply]

@[simp] theorem swap_heapSize (pq : PriorityQueue) (i j : Nat) :
    (pq.swap i j).heapSize = pq.heapSize := rfl

@[simp] theorem swap_capacity (pq : PriorityQueue) (i j : Nat) :
    (pq.swap i j).capacity = pq.capacity := rfl

theorem Wf.vertex_inj {pq : PriorityQueue} (h : pq.Wf) {i j : Nat} (hi : i < pq.heapSize)
    (hj : j < pq.heapSize) (hv : (pq.heap i).vertex = (pq.heap j).vertex) : i = j := by
  have h1 := h.pos_heap i hi
  have h2 := h.pos_heap j hj
  rw [hv] at h1
  omega

theorem Wf.present_slot {pq : PriorityQueue} (h : pq.Wf) {i : Nat} (hi : i < pq.heapSize) :
    pq.Present (pq.heap i).vertex := by
  unfold Present
  rw [h.pos_heap i hi]
  omega

theorem Wf.prioOf_slot {pq : PriorityQueue} (h : pq.Wf) {i : Nat} (hi : i < pq.heapSize) :
    pq.prioOf (pq.heap i).vertex = (pq.heap i).priority := by
  unfold prioOf
  rw [h.pos_heap i hi]
  simp

theorem Wf.present_lt {pq : PriorityQueue} (h : pq.Wf) {v : Nat} (hv : pq.Present v) :
    v < pq.capacity := by
  obtain ⟨i, hi, _, hvi⟩ := h.heap_pos v hv
  rw [← hvi]
  exact h.vertex_lt i hi

theorem SameContent.same_refl {pq : PriorityQueue} (h : pq.Wf) : SameContent pq pq :=
  ⟨h, rfl, rfl, fun _ => Iff.rfl, fun _ _ => rfl⟩

theorem SameContent.same_trans {a b c : PriorityQueue} (h1 : SameContent a b)
    (h2 : SameContent b c) : SameContent a c :=
  ⟨h2.wf, h2.capacity_eq.trans h1.capacity_eq, h2.heapSize_eq.trans h1.heapSize_eq,
    fun v => (h2.present_iff v).trans (h1.present_iff v),
    fun v hv => (h2.prio_eq v ((h1.present_iff v).mpr hv)).trans (h1.prio_eq v hv)⟩

/-- Swapping two occupied slots keeps the content. -/
theorem swap_sameContent {pq : PriorityQueue} (h : pq.Wf) {i j : Nat} (hi : i < pq.heapSize)
    (hj : j < pq.heapSize) : SameContent pq (pq.swap i j) := by
  have hpos : ∀ k < pq.heapSize, (pq.swap i j).position ((pq.swap i j).heap k).vertex = k := by
    intro k hk
    rw [swap_heap, swap_position]
    by_cases hkj : k = j
    · subst hkj
      rw [if_pos rfl]
      by_cases hv : (pq.heap i).vertex = (pq.heap k).vertex
      · rw [if_pos hv, h.vertex_inj hi hj hv]
      · rw [if_neg hv, if_pos rfl]
    · rw [if_neg hkj]
      by_cases hki : k = i
      · subst hki
        rw [if_pos rfl, if_pos rfl]
      · rw [if_neg hki, if_neg (fun hv => hkj (h.vertex_inj hk hj hv)),
          if_neg (fun hv => hki (h.vertex_inj hk hi hv))]
        exact h.pos_heap k hk
  have hslot : ∀ v, pq.position v ≠ -1 →
      ∃ k < pq.heapSize, (pq.swap i j).position v = (k : Int) ∧
        (pq.swap i j).heap k = pq.heap (pq.position v).toNat := by
    intro v hv
    obtain ⟨k, hk, hpk, hvk⟩ := h.heap_pos v hv
    rw [hpk]
    simp only [Int.toNat_ofNat]
    by_cases hkj : k = j
    · subst hkj
      refine ⟨i, hi, ?_, ?_⟩
      · rw [swap_position, if_pos hvk.symm]
      · rw [swap_heap]
        by_cases hik : i = k
        · rw [if_pos hik, hik]
        · rw [if_neg hik, if_pos rfl]
    · by_cases hki : k = i
      · subst hki
        refine ⟨j, hj, ?_, ?_⟩
        · rw [swap_position,
            if_neg (fun hc => hkj (h.vertex_inj hk hj (hvk.trans hc))), if_pos hvk.symm]
        · rw [swap_heap, if_pos rfl]
      · refine ⟨k, hk, ?_, ?_⟩
        · rw [swap_position, if_neg (fun hc => hkj (h.vertex_inj hk hj (hvk.trans hc))),
            if_neg (fun hc => hki (h.vertex_inj hk hi (hvk.trans hc)))]
          exact hpk
        · rw [swap_heap, if_neg hkj, if_neg hki]
  have hpres : ∀ v, (pq.swap i j).position v ≠ -1 ↔ pq.position v ≠ -1 := by
    intro v
    rw [swap_position]
    by_cases h1 : v = (pq.heap j).vertex
    · rw [if_pos h1, h1, h.pos_heap j hj]
      constructor <;> intro _ <;> omega
    · rw [if_neg h1]
      by_cases h2 : v = (pq.heap i).vertex
      · rw [if_pos h2, h2, h.pos_heap i hi]
        constructor <;> intro _ <;> omega
      · rw [if_neg h2]
  refine ⟨⟨h.size_le, ?_, hpos, ?_⟩, rfl, rfl, hpres, ?_⟩
  · intro k hk
    rw [swap_heap]
    split
    · exact h.vertex_lt i hi
    · split
      · exact h.vertex_lt j hj
      · exact h.vertex_lt k hk
  · intro v hv
    have hv' := (hpres v).mp hv
    obtain ⟨k, hk, hpk, hhk⟩ := hslot v hv'
    refine ⟨k, hk, hpk, ?_⟩
    rw [hhk]
    obtain ⟨k', _, hpk', hvk'⟩ := h.heap_pos v hv'
    rw [hpk']
    simpa using hvk'
  · intro v hv
    obtain ⟨k, hk, hpk, hhk⟩ := hslot v hv
    unfold prioOf
    rw [hpk]
    simp only [Int.toNat_ofNat]
    rw [hhk]

end PriorityQueue

end graph


namespace graph

namespace PriorityQueue

theorem orderedExceptUp_swap {pq : PriorityQueue} {i : Nat} (hi : i < pq.heapSize)
    (hpos : 0 < i) (ho : pq.OrderedExceptUp i)
    (hlt : (pq.heap ((i - 1) / 2)).priority > (pq.heap i).priority) :
    (pq.swap i ((i - 1) / 2)).OrderedExceptUp ((i - 1) / 2) := by
  have hpi : (i - 1) / 2 < i := by omega
  constructor
  · intro j hj0 hj hjp
    rw [swap_heap, swap_heap]
    by_cases hji : j = i
    · subst hji
      rw [if_pos rfl, if_neg hjp, if_pos rfl]
      omega
    · rw [if_neg hjp, if_neg hji]
      have hold := ho.1 j hj0 hj hji
      by_cases hq : (j - 1) / 2 = (i - 1) / 2
      · rw [if_pos hq]
        rw [hq] at hold
        omega
      · rw [if_neg hq]
        by_cases hq2 : (j - 1) / 2 = i
        · rw [if_pos hq2]
          exact ho.2 j hj0 hj hq2 hpos
        · rw [if_neg hq2]
          exact hold
  · intro j hj0 hj hjp hp0
    rw [swap_heap, swap_heap]
    have hg : ((i - 1) / 2 - 1) / 2 < (i - 1) / 2 := by omega
    rw [if_neg (by omega), if_neg (by omega)]
    have hp := ho.1 ((i - 1) / 2) hp0 (by omega) (by omega)
    by_cases hji : j = i
    · subst hji
      rw [if_neg (by omega), if_pos rfl]
      exact hp
    · rw [if_neg (by omega), if_neg hji]
      have hold := ho.1 j hj0 hj hji
      rw [hjp] at hold
      omega

theorem siftUp_spec (fuel : Nat) :
    ∀ (pq : PriorityQueue) (i : Nat), pq.Wf → i < pq.heapSize → i ≤ fuel →
      pq.OrderedExceptUp i →
      ∃ pq', siftUp fuel pq i = .ok pq' ∧ SameContent pq pq' ∧ pq'.Ordered := by
  induction fuel with
  | zero =>
    intro pq i hwf _ hfuel ho
    have hi0 : i = 0 := by omega
    subst hi0
    refine ⟨pq, ?_, SameContent.same_refl hwf, ?_⟩
    · rw [siftUp, if_neg (by omega)]
    · intro j hj0 hj
      exact ho.1 j hj0 hj (by omega)
  | succ fuel ih =>
    intro pq i hwf hi hfuel ho
    rw [siftUp]
    by_cases hc : i > 0 ∧ (pq.heap ((i - 1) / 2)).priority > (pq.heap i).priority
    · rw [if_pos hc]
      have hp : (i - 1) / 2 < pq.heapSize := by omega
      have hsame := swap_sameContent hwf hi hp
      obtain ⟨pq', he, hs, hord⟩ := ih (pq.swap i ((i - 1) / 2)) ((i - 1) / 2) hsame.wf
        (by simpa using hp) (by omega) (orderedExceptUp_swap hi hc.1 ho hc.2)
      exact ⟨pq', he, hsame.same_trans hs, hord⟩
    · rw [if_neg hc]
      refine ⟨pq, rfl, SameContent.same_refl hwf, ?_⟩
      intro j hj0 hj
      by_cases hji : j = i
      · subst hji
        have : ¬ (pq.heap ((j - 1) / 2)).priority > (pq.heap j).priority :=
          fun h => hc ⟨hj0, h⟩
        omega
      · exact ho.1 j hj0 hj hji

theorem heapify_spec (fuel : Nat) :
    ∀ (pq : PriorityQueue) (i : Nat), pq.Wf → i < pq.heapSize → pq.heapSize ≤ i + fuel →
      pq.OrderedExceptDown i →
      ∃ pq', heapify fuel pq i = .ok pq' ∧ SameContent pq pq' ∧ pq'.Ordered := by
  induction fuel with
  | zero => intro pq i _ hi hf _; omega
  | succ fuel ih =>
    intro pq i hwf hi hfuel ho
    rw [heapify]
    generalize hs1 : (if 2 * i + 1 < pq.heapSize ∧
      (pq.heap (2 * i + 1)).priority < (pq.heap i).priority then 2 * i + 1 else i) = s1
    generalize hs2 : (if 2 * i + 2 < pq.heapSize ∧
      (pq.heap (2 * i + 2)).priority < (pq.heap s1).priority then 2 * i + 2 else s1) = s2
    have h1 : (s1 = i ∨ (s1 = 2 * i + 1 ∧ 2 * i + 1 < pq.heapSize)) ∧
        (pq.heap s1).priority ≤ (pq.heap i).priority ∧
        (s1 ≠ i → (pq.heap s1).priority < (pq.heap i).priority) ∧
        (2 * i + 1 < pq.heapSize → (pq.heap s1).priority ≤ (pq.heap (2 * i + 1)).priority) := by
      rw [← hs1]
      split
      · rename_i hc
        exact ⟨Or.inr ⟨rfl, hc.1⟩, by omega, fun _ => hc.2, fun _ => le_refl _⟩
      · rename_i hc
        refine ⟨Or.inl rfl, le_refl _, fun h => absurd rfl h, fun hl => ?_⟩
        by_contra hcon
        exact hc ⟨hl, by omega⟩
    have h2 : (s2 = i ∨ (s2 = 2 * i + 1 ∧ 2 * i + 1 < pq.heapSize) ∨
          (s2 = 2 * i + 2 ∧ 2 * i + 2 < pq.heapSize)) ∧
        (s2 ≠ i → (pq.heap s2).priority < (pq.heap i).priority) ∧
        (pq.heap s2).priority ≤ (pq.heap i).priority ∧
        (2 * i + 1 < pq.heapSize → (pq.heap s2).priority ≤ (pq.heap (2 * i + 1)).priority) ∧
        (2 * i + 2 < pq.heapSize → (pq.heap s2).priority ≤ (pq.heap (2 * i + 2)).priority) := by
      rw [← hs2]
      obtain ⟨h1a, h1b, h1c, h1d⟩ := h1
      split
      · rename_i hc
        refine ⟨Or.inr (Or.inr ⟨rfl, hc.1⟩), fun _ => by omega, by omega, fun hl => ?_,
          fun _ => le_refl _⟩
        have := h1d hl
        omega
      · rename_i hc
        refine ⟨?_, h1c, h1b, h1d, fun hr => ?_⟩
        · rcases h1a with h | h
          · exact Or.inl h
          · exact Or.inr (Or.inl h)
        · by_contra hcon
          exact hc ⟨hr, by omega⟩
    obtain ⟨h2a, h2b, h2c, h2d, h2e⟩ := h2
    by_cases hsi : s2 = i
    · rw [if_neg (by simpa using hsi)]
      refine ⟨pq, rfl, SameContent.same_refl hwf, ?_⟩
      intro j hj0 hj
      by_cases hq : (j - 1) / 2 = i
      · rw [hq]
        rw [hsi] at h2d h2e
        have hjj : j = 2 * i + 1 ∨ j = 2 * i + 2 := by omega
        rcases hjj with rfl | rfl
        · exact h2d hj
        · exact h2e hj
      · exact ho.1 j hj0 hj hq
    · rw [if_pos hsi]
      have hs2lt : s2 < pq.heapSize := by
        rcases h2a with h | ⟨h, h'⟩ | ⟨h, h'⟩
        · exact absurd h hsi
        · omega
        · omega
      have hs2gt : i < s2 := by
        rcases h2a with h | ⟨h, _⟩ | ⟨h, _⟩
        · exact absurd h hsi
        · omega
        · omega
      have hs2p : (s2 - 1) / 2 = i := by
        rcases h2a with h | ⟨h, _⟩ | ⟨h, _⟩
        · exact absurd h hsi
        · omega
        · omega
      have hsame := swap_sameContent hwf hi hs2lt
      have hord : (pq.swap i s2).OrderedExceptDown s2 := by
        constructor
        · intro j hj0 hj hq
          rw [swap_heap, swap_heap]
          by_cases hjs : j = s2
          · subst hjs
            rw [if_pos rfl, hs2p, if_neg (by omega), if_pos rfl]
            exact h2c
          · rw [if_neg hjs, if_neg hq]
            by_cases hji : j = i
            · subst hji
              rw [if_pos rfl, if_neg (by omega)]
              exact ho.2 s2 (by omega) hs2lt hs2p hj0
            · rw [if_neg hji]
              by_cases hqi : (j - 1) / 2 = i
              · rw [if_pos hqi]
                have hjj : j = 2 * i + 1 ∨ j = 2 * i + 2 := by omega
                rcases hjj with rfl | rfl
                · exact h2d hj
                · exact h2e hj
              · rw [if_neg hqi]
                exact ho.1 j hj0 hj hqi
        · intro j hj0 hj hq _
          rw [swap_heap, swap_heap, hs2p, if_neg (by omega), if_pos rfl, if_neg (by omega),
            if_neg (by omega)]
          have := ho.1 j hj0 hj (by omega)
          rw [hq] at this
          exact this
      obtain ⟨pq', he, hs, hord'⟩ := ih (pq.swap i s2) s2 hsame.wf (by simpa using hs2lt)
        (by simp only [swap_heapSize]; omega) hord
      exact ⟨pq', he, hsame.same_trans hs, hord'⟩

/-- In an ordered heap the root holds a smallest priority. -/
theorem Ordered.root_le {pq : PriorityQueue} (h : pq.Ordered) :
    ∀ i, i < pq.heapSize → (pq.heap 0).priority ≤ (pq.heap i).priority := by
  intro i
  induction i using Nat.strong_induction_on with
  | _ i ih =>
    intro hi
    by_cases h0 : i = 0
    · subst h0; exact le_refl _
    · have h1 := ih ((i - 1) / 2) (by omega) (by omega)
      have h2 := h i (by omega) hi
      omega

end PriorityQueue

end graph


namespace graph

namespace PriorityQueue

/-- The invariant of the priority queue: consistent tables and heap order. -/
def HeapInv (pq : PriorityQueue) : Prop := pq.Wf ∧ pq.Ordered

theorem inQueue_iff (pq : PriorityQueue) (v : Nat) : pq.inQueue v = true ↔ pq.Present v := by
  unfold inQueue Present
  simp

theorem new_heapInv (cap : Nat) : (PriorityQueue.new cap).HeapInv := by
  refine ⟨⟨Nat.zero_le _, ?_, ?_, ?_⟩, ?_⟩
  · intro i hi; simp [PriorityQueue.new] at hi
  · intro i hi; simp [PriorityQueue.new] at hi
  · intro v hv; simp [PriorityQueue.new] at hv
  · intro j _ hj; simp [PriorityQueue.new] at hj

theorem new_not_present (cap v : Nat) : ¬ (PriorityQueue.new cap).Present v := by
  simp [Present, PriorityQueue.new]

/-- What a successful `insert` does. -/
structure InsertPost (pq : PriorityQueue) (v : Nat) (p : Int) (pq' : PriorityQueue) : Prop where
  inv : pq'.HeapInv
  capacity_eq : pq'.capacity = pq.capacity
  heapSize_eq : pq'.heapSize = pq.heapSize + 1
  present_iff : ∀ u, pq'.Present u ↔ u = v ∨ pq.Present u
  prio_new : pq'.prioOf v = p
  prio_old : ∀ u, pq.Present u → pq'.prioOf u = pq.prioOf u

theorem insert_spec {pq : PriorityQueue} (h : pq.HeapInv) {v : Nat} (p : Int)
    (hv : v < pq.capacity) (hnp : ¬ pq.Present v) (hsize : pq.heapSize ≠ pq.capacity) :
    ∃ pq', pq.insert v p = .ok pq' ∧ InsertPost pq v p pq' := by
  obtain ⟨hwf, hord⟩ := h
  have hnp' : pq.position v = -1 := by
    unfold Present at hnp
    simpa using hnp
  have hne : ∀ i < pq.heapSize, (pq.heap i).vertex ≠ v := by
    intro i hi hc
    exact hnp (hc ▸ hwf.present_slot hi)
  rw [insert, if_neg hsize]
  show ∃ pq', siftUp pq.heapSize ({ pq with
      heap := Function.update pq.heap pq.heapSize ⟨v, p⟩
      position := Function.update pq.position v (pq.heapSize : Int)
      heapSize := pq.heapSize + 1 } : PriorityQueue) pq.heapSize = .ok pq' ∧ _
  generalize hpq1 : ({ pq with
      heap := Function.update pq.heap pq.heapSize ⟨v, p⟩
      position := Function.update pq.position v (pq.heapSize : Int)
      heapSize := pq.heapSize + 1 } : PriorityQueue) = pq1
  have hheap : ∀ i, pq1.heap i = if i = pq.heapSize then ⟨v, p⟩ else pq.heap i := by
    intro i; subst hpq1; simp only [Function.update_apply]
  have hposn : ∀ u, pq1.position u = if u = v then (pq.heapSize : Int) else pq.position u := by
    intro u; subst hpq1; simp only [Function.update_apply]
  have hsz : pq1.heapSize = pq.heapSize + 1 := by subst hpq1; rfl
  have hcap : pq1.capacity = pq.capacity := by subst hpq1; rfl
  have hsl := hwf.size_le
  have hwf1 : pq1.Wf := by
    refine ⟨by omega, ?_, ?_, ?_⟩
    · intro i hi
      rw [hheap, hcap]
      split
      · exact hv
      · exact hwf.vertex_lt i (by omega)
    · intro i hi
      rw [hheap]
      by_cases hc : i = pq.heapSize
      · rw [if_pos hc, hposn, if_pos rfl, hc]
      · rw [if_neg hc, hposn, if_neg (hne i (by omega))]
        exact hwf.pos_heap i (by omega)
    · intro u hu
      rw [hposn] at hu ⊢
      by_cases hc : u = v
      · rw [if_pos hc]
        refine ⟨pq.heapSize, by omega, rfl, ?_⟩
        rw [hheap, if_pos rfl, hc]
      · rw [if_neg hc] at hu ⊢
        obtain ⟨i, hi, hpi, hvi⟩ := hwf.heap_pos u hu
        refine ⟨i, by omega, hpi, ?_⟩
        rw [hheap, if_neg (by omega)]
        exact hvi
  have hpres1 : ∀ u, pq1.Present u ↔ u = v ∨ pq.Present u := by
    intro u
    unfold Present
    rw [hposn]
    by_cases hc : u = v
    · rw [if_pos hc]
      constructor
      · exact fun _ => Or.inl hc
      · intro _; omega
    · rw [if_neg hc]
      constructor
      · exact Or.inr
      · rintro (h | h)
        · exact absurd h hc
        · exact h
  have hprio_new : pq1.prioOf v = p := by
    unfold prioOf
    rw [hposn, if_pos rfl]
    simp only [Int.toNat_ofNat]
    rw [hheap, if_pos rfl]
  have hprio_old : ∀ u, pq.Present u → pq1.prioOf u = pq.prioOf u := by
    intro u hu
    have hc : u ≠ v := fun hc => hnp (hc ▸ hu)
    obtain ⟨i, hi, hpi, _⟩ := hwf.heap_pos u hu
    unfold prioOf
    rw [hposn, if_neg hc, hpi]
    simp only [Int.toNat_ofNat]
    rw [hheap, if_neg (by omega)]
  have hoe : pq1.OrderedExceptUp pq.heapSize := by
    constructor
    · intro j hj0 hj hjne
      rw [hheap, hheap, if_neg (by omega), if_neg hjne]
      exact hord j hj0 (by omega)
    · intro j hj0 hj hjp _
      omega
  obtain ⟨pq', he, hs, hord'⟩ := siftUp_spec pq.heapSize pq1 pq.heapSize hwf1 (by omega)
    (le_refl _) hoe
  refine ⟨pq', he, ⟨hs.wf, hord'⟩, hs.capacity_eq.trans hcap, hs.heapSize_eq.trans hsz, ?_, ?_,
    ?_⟩
  · intro u
    rw [hs.present_iff, hpres1]
  · rw [hs.prio_eq v ((hpres1 v).mpr (Or.inl rfl)), hprio_new]
  · intro u hu
    rw [hs.prio_eq u ((hpres1 u).mpr (Or.inr hu)), hprio_old u hu]

/-- What a successful `decreaseKey` does. -/
structure DecreasePost (pq : PriorityQueue) (v : Nat) (p : Int) (pq' : PriorityQueue) :
    Prop where
  inv : pq'.HeapInv
  capacity_eq : pq'.capacity = pq.capacity
  heapSize_eq : pq'.heapSize = pq.heapSize
  present_iff : ∀ u, pq'.Present u ↔ pq.Present u
  prio_new : pq'.prioOf v = p
  prio_old : ∀ u, pq.Present u → u ≠ v → pq'.prioOf u = pq.prioOf u

theorem decreaseKey_spec {pq : PriorityQueue} (h : pq.HeapInv) {v : Nat} {p : Int}
    (hv : pq.Present v) (hp : p ≤ pq.prioOf v) :
    ∃ pq', pq.decreaseKey v p = .ok pq' ∧ DecreasePost pq v p pq' := by
  obtain ⟨hwf, hord⟩ := h
  obtain ⟨i, hi, hpi, hvi⟩ := hwf.heap_pos v hv
  have hprio : pq.prioOf v = (pq.heap i).priority := by
    unfold prioOf; rw [hpi]; simp
  rw [decreaseKey, if_neg (by simp [(inQueue_iff pq v).mpr hv])]
  simp only [hpi, Int.toNat_ofNat]
  rw [if_neg (by omega)]
  generalize hpq1 : ({ pq with
      heap := Function.update pq.heap i ⟨(pq.heap i).vertex, p⟩ } : PriorityQueue) = pq1
  have hheap : ∀ k, pq1.heap k = if k = i then ⟨(pq.heap i).vertex, p⟩ else pq.heap k := by
    intro k; subst hpq1; simp only [Function.update_apply]
  have hvert : ∀ k, (pq1.heap k).vertex = (pq.heap k).vertex := by
    intro k
    rw [hheap]
    split
    · rename_i hk; rw [hk]
    · rfl
  have hposn : pq1.position = pq.position := by subst hpq1; rfl
  have hsz : pq1.heapSize = pq.heapSize := by subst hpq1; rfl
  have hcap : pq1.capacity = pq.capacity := by subst hpq1; rfl
  have hwf1 : pq1.Wf := by
    refine ⟨by rw [hsz, hcap]; exact hwf.size_le, ?_, ?_, ?_⟩
    · intro k hk
      rw [hvert, hcap]
      exact hwf.vertex_lt k (by omega)
    · intro k hk
      rw [hvert, hposn]
      exact hwf.pos_heap k (by omega)
    · intro u hu
      rw [hposn] at hu ⊢
      obtain ⟨k, hk, hpk, hvk⟩ := hwf.heap_pos u hu
      exact ⟨k, by omega, hpk, by rw [hvert]; exact hvk⟩
  have hprio_new : pq1.prioOf v = p := by
    unfold prioOf
    rw [hposn, hpi]
    simp only [Int.toNat_ofNat]
    rw [hheap, if_pos rfl]
  have hprio_old : ∀ u, pq.Present u → u ≠ v → pq1.prioOf u = pq.prioOf u := by
    intro u hu huv
    obtain ⟨k, hk, hpk, hvk⟩ := hwf.heap_pos u hu
    have hki : k ≠ i := by
      intro hc
      apply huv
      rw [← hvk, ← hvi, hc]
    unfold prioOf
    rw [hposn, hpk]
    simp only [Int.toNat_ofNat]
    rw [hheap, if_neg hki]
  have hoe : pq1.OrderedExceptUp i := by
    constructor
    · intro j hj0 hj hjne
      rw [hheap, hheap, if_neg hjne]
      have hold := hord j hj0 (by omega)
      split
      · rename_i hq
        rw [hq] at hold
        show p ≤ _
        omega
      · exact hold
    · intro j hj0 hj hjp hi0
      rw [hheap, hheap, if_neg (by omega), if_neg (by omega)]
      have h1 := hord j hj0 (by omega)
      have h2 := hord i hi0 hi
      rw [hjp] at h1
      omega
  obtain ⟨pq', he, hs, hord'⟩ := siftUp_spec i pq1 i hwf1 (by omega) (le_refl _) hoe
  refine ⟨pq', he, ⟨hs.wf, hord'⟩, hs.capacity_eq.trans hcap, hs.heapSize_eq.trans hsz, ?_, ?_,
    ?_⟩
  · intro u
    rw [hs.present_iff]
    unfold Present
    rw [hposn]
  · have : pq1.Present v := by unfold Present; rw [hposn]; exact hv
    rw [hs.prio_eq v this, hprio_new]
  · intro u hu huv
    have : pq1.Present u := by unfold Present; rw [hposn]; exact hu
    rw [hs.prio_eq u this, hprio_old u hu huv]

end PriorityQueue

end graph


namespace graph

namespace PriorityQueue

/-- What a successful `extractMin` does. -/
structure ExtractPost (pq : PriorityQueue) (u : Nat) (pq' : PriorityQueue) : Prop where
  inv : pq'.HeapInv
  capacity_eq : pq'.capacity = pq.capacity
  heapSize_eq : pq'.heapSize + 1 = pq.heapSize
  present_min : pq.Present u
  min_le : ∀ w, pq.Present w → pq.prioOf u ≤ pq.prioOf w
  present_iff : ∀ w, pq'.Present w ↔ pq.Present w ∧ w ≠ u
  prio_old : ∀ w, pq.Present w → w ≠ u → pq'.prioOf w = pq.prioOf w

theorem extractMin_spec {pq : PriorityQueue} (h : pq.HeapInv) (hne : pq.heapSize ≠ 0) :
    ∃ u pq', pq.extractMin = .ok (u, pq') ∧ ExtractPost pq u pq' := by
  obtain ⟨hwf, hord⟩ := h
  have h0 : 0 < pq.heapSize := by omega
  have hpu : pq.Present (pq.heap 0).vertex := hwf.present_slot h0
  have hmin : ∀ w, pq.Present w → pq.prioOf (pq.heap 0).vertex ≤ pq.prioOf w := by
    intro w hw
    obtain ⟨i, hi, hpi, hvi⟩ := hwf.heap_pos w hw
    rw [hwf.prioOf_slot h0, ← hvi, hwf.prioOf_slot hi]
    exact hord.root_le i hi
  rw [extractMin, if_neg (by simp [isEmpty, hne])]
  dsimp only
  generalize hpq1 : (⟨Function.update pq.heap 0 (pq.heap (pq.heapSize - 1)),
      Function.update (Function.update pq.position
        (Function.update pq.heap 0 (pq.heap (pq.heapSize - 1)) 0).vertex 0)
        (pq.heap 0).vertex (-1), pq.capacity, pq.heapSize - 1⟩ : PriorityQueue) = pq1
  have hheap : ∀ k, pq1.heap k = if k = 0 then pq.heap (pq.heapSize - 1) else pq.heap k := by
    intro k; subst hpq1; simp only [Function.update_apply]
  have hposn : ∀ w, pq1.position w =
      if w = (pq.heap 0).vertex then -1
      else if w = (pq.heap (pq.heapSize - 1)).vertex then 0 else pq.position w := by
    intro w; subst hpq1
    simp only [Function.update_apply, if_true]
  have hsz : pq1.heapSize = pq.heapSize - 1 := by subst hpq1; rfl
  have hcap : pq1.capacity = pq.capacity := by subst hpq1; rfl
  have hlast : pq.heapSize - 1 < pq.heapSize := by omega
  have hwf1 : pq1.Wf := by
    refine ⟨by rw [hsz, hcap]; have := hwf.size_le; omega, ?_, ?_, ?_⟩
    · intro k hk
      rw [hheap, hcap]
      split
      · exact hwf.vertex_lt _ hlast
      · exact hwf.vertex_lt k (by omega)
    · intro k hk
      rw [hsz] at hk
      rw [hheap, hposn]
      by_cases hk0 : k = 0
      · subst hk0
        rw [if_pos rfl, if_neg (fun hc => by have := hwf.vertex_inj hlast h0 hc; omega),
          if_pos rfl]
        rfl
      · rw [if_neg hk0, if_neg (fun hc => hk0 (hwf.vertex_inj (by omega) h0 hc)),
          if_neg (fun hc => by have := hwf.vertex_inj (show k < pq.heapSize by omega) hlast hc
                               omega)]
        exact hwf.pos_heap k (by omega)
    · intro w hw
      rw [hposn] at hw ⊢
      by_cases hw0 : w = (pq.heap 0).vertex
      · rw [if_pos hw0] at hw
        exact absurd rfl hw
      · rw [if_neg hw0] at hw ⊢
        by_cases hwl : w = (pq.heap (pq.heapSize - 1)).vertex
        · rw [if_pos hwl]
          have hgt : 0 < pq.heapSize - 1 := by
            by_contra hc
            have : pq.heapSize - 1 = 0 := by omega
            rw [this] at hwl
            exact hw0 hwl
          refine ⟨0, by rw [hsz]; exact hgt, rfl, ?_⟩
          rw [hheap, if_pos rfl, hwl]
        · rw [if_neg hwl] at hw ⊢
          obtain ⟨k, hk, hpk, hvk⟩ := hwf.heap_pos w hw
          have hk0 : k ≠ 0 := fun hc => hw0 (by rw [← hvk, hc])
          have hkl : k ≠ pq.heapSize - 1 := fun hc => hwl (by rw [← hvk, hc])
          refine ⟨k, by rw [hsz]; omega, hpk, ?_⟩
          rw [hheap, if_neg hk0]
          exact hvk
  have hpres1 : ∀ w, pq1.Present w ↔ pq.Present w ∧ w ≠ (pq.heap 0).vertex := by
    intro w
    unfold Present
    rw [hposn]
    by_cases hw0 : w = (pq.heap 0).vertex
    · rw [if_pos hw0]
      constructor
      · intro hc; exact absurd rfl hc
      · intro hc; exact absurd hw0 hc.2
    · rw [if_neg hw0]
      by_cases hwl : w = (pq.heap (pq.heapSize - 1)).vertex
      · rw [if_pos hwl]
        constructor
        · intro _
          refine ⟨?_, hw0⟩
          rw [hwl]
          exact hwf.present_slot hlast
        · intro _; omega
      · rw [if_neg hwl]
        exact ⟨fun hc => ⟨hc, hw0⟩, fun hc => hc.1⟩
  have hprio1 : ∀ w, pq.Present w → w ≠ (pq.heap 0).vertex → pq1.prioOf w = pq.prioOf w := by
    intro w hw hw0
    unfold prioOf
    rw [hposn, if_neg hw0]
    by_cases hwl : w = (pq.heap (pq.heapSize - 1)).vertex
    · rw [if_pos hwl, hwl, hwf.pos_heap _ hlast]
      simp only [Int.toNat_zero, Int.toNat_ofNat]
      rw [hheap, if_pos rfl]
    · rw [if_neg hwl]
      obtain ⟨k, hk, hpk, hvk⟩ := hwf.heap_pos w hw
      have hk0 : k ≠ 0 := fun hc => hw0 (by rw [← hvk, hc])
      rw [hpk]
      simp only [Int.toNat_ofNat]
      rw [hheap, if_neg hk0]
  by_cases hgt : pq.heapSize - 1 > 0
  · rw [if_pos hgt]
    have hoe : pq1.OrderedExceptDown 0 := by
      constructor
      · intro j hj0 hj hq
        rw [hsz] at hj
        rw [hheap, hheap, if_neg hq, if_neg (by omega)]
        exact hord j hj0 (by omega)
      · intro j _ _ _ hc
        omega
    obtain ⟨pq', he, hs, hord'⟩ := heapify_spec (pq.heapSize - 1) pq1 0 hwf1
      (by rw [hsz]; exact hgt) (by rw [hsz]; omega) hoe
    refine ⟨(pq.heap 0).vertex, pq', by rw [he], ⟨hs.wf, hord'⟩, hs.capacity_eq.trans hcap,
      by rw [hs.heapSize_eq, hsz]; omega, hpu, hmin, ?_, ?_⟩
    · intro w
      rw [hs.present_iff, hpres1]
    · intro w hw hw0
      rw [hs.prio_eq w ((hpres1 w).mpr ⟨hw, hw0⟩), hprio1 w hw hw0]
  · rw [if_neg hgt]
    refine ⟨(pq.heap 0).vertex, pq1, rfl, ⟨hwf1, ?_⟩, hcap, by rw [hsz]; omega, hpu, hmin, hpres1,
      hprio1⟩
    intro j hj0 hj
    rw [hsz] at hj
    omega

end PriorityQueue

end graph


namespace graph

namespace Algorithms

open PriorityQueue

/-! ## The queue loops shared by `prim` and `dijkstra` -/

theorem insertAll_spec (prio : Nat → Int) (l : List Nat) :
    ∀ (pq : PriorityQueue), pq.HeapInv → l.Nodup →
      (∀ i ∈ l, i < pq.capacity ∧ ¬ pq.Present i) → pq.heapSize + l.length ≤ pq.capacity →
      ∃ pq', insertAll prio l pq = .ok pq' ∧ pq'.HeapInv ∧ pq'.capacity = pq.capacity ∧
        pq'.heapSize = pq.heapSize + l.length ∧
        (∀ v, pq'.Present v ↔ v ∈ l ∨ pq.Present v) ∧
        (∀ v ∈ l, pq'.prioOf v = prio v) ∧
        (∀ v, pq.Present v → pq'.prioOf v = pq.prioOf v) := by
  induction l with
  | nil =>
    intro pq h _ _ _
    exact ⟨pq, rfl, h, rfl, rfl, fun v => by simp, fun v hv => by simp at hv, fun _ _ => rfl⟩
  | cons i l ih =>
    intro pq h hnd hl hsize
    have hnd' := List.nodup_cons.mp hnd
    have hi := hl i (List.mem_cons_self _ _)
    simp only [List.length_cons] at hsize
    obtain ⟨pq1, he1, hp1⟩ := insert_spec h (prio i) hi.1 hi.2 (by omega)
    obtain ⟨pq2, he2, hinv2, hcap2, hsz2, hpres2, hprio2, hold2⟩ := ih pq1 hp1.inv hnd'.2
      (by
        intro j hj
        have := hl j (List.mem_cons_of_mem _ hj)
        refine ⟨by rw [hp1.capacity_eq]; exact this.1, ?_⟩
        rw [hp1.present_iff]
        rintro (h | h)
        · exact hnd'.1 (h ▸ hj)
        · exact this.2 h)
      (by rw [hp1.heapSize_eq, hp1.capacity_eq]; omega)
    refine ⟨pq2, ?_, hinv2, hcap2.trans hp1.capacity_eq, ?_, ?_, ?_, ?_⟩
    · rw [insertAll, he1]
      exact he2
    · rw [hsz2, hp1.heapSize_eq, List.length_cons]; omega
    · intro v
      rw [hpres2, hp1.present_iff, List.mem_cons]
      tauto
    · intro v hv
      rcases List.mem_cons.mp hv with rfl | hv
      · rw [hold2 v ((hp1.present_iff v).mpr (Or.inl rfl)), hp1.prio_new]
      · exact hprio2 v hv
    · intro v hv
      rw [hold2 v ((hp1.present_iff v).mpr (Or.inr hv)), hp1.prio_old v hv]

/-- The queue that `prim` and `dijkstra` start from: every vertex present with its initial
priority. -/
theorem insertAll_range (prio : Nat → Int) (n : Nat) :
    ∃ pq, insertAll prio (List.range n) (PriorityQueue.new n) = .ok pq ∧ pq.HeapInv ∧
      pq.capacity = n ∧ pq.heapSize = n ∧ (∀ v, pq.Present v ↔ v < n) ∧
      ∀ v < n, pq.prioOf v = prio v := by
  obtain ⟨pq, he, hinv, hcap, hsz, hpres, hprio, _⟩ :=
    insertAll_spec prio (List.range n) (PriorityQueue.new n) (new_heapInv n)
      (List.nodup_range n)
      (fun i hi => ⟨List.mem_range.mp hi, new_not_present n i⟩)
      (by simp [PriorityQueue.new])
  refine ⟨pq, he, hinv, hcap, ?_, ?_, ?_⟩
  · rw [hsz]; simp [PriorityQueue.new]
  · intro v
    rw [hpres, List.mem_range]
    constructor
    · rintro (h | h)
      · exact h
      · exact absurd h (new_not_present n v)
    · exact Or.inl
  · intro v hv
    exact hprio v (List.mem_range.mpr hv)

theorem HeapInv.no_present_of_empty {pq : PriorityQueue} (h : pq.HeapInv)
    (h0 : pq.heapSize = 0) (v : Nat) : ¬ pq.Present v := by
  intro hv
  obtain ⟨i, hi, _⟩ := h.1.heap_pos v hv
  omega

theorem HeapInv.heapSize_pos {pq : PriorityQueue} (h : pq.HeapInv) {v : Nat}
    (hv : pq.Present v) : pq.heapSize ≠ 0 := by
  obtain ⟨i, hi, _⟩ := h.1.heap_pos v hv
  omega

/-! ## prim: the loop invariant -/

/-- The invariant of the main loop of `prim`.  `time v` is the iteration in which `v` left the
queue, `t` the number of iterations so far, and `D a e` tells which records of vertices that
left the queue have been processed. -/
structure PrimInv (g : Graph) (st : PrimState) (time : Nat → Nat) (t : Nat)
    (D : Nat → Edge → Prop) : Prop where
  heap : st.pq.HeapInv
  cap : st.pq.capacity = g.numVertices
  prio : ∀ v, st.pq.Present v → st.pq.prioOf v = st.key v
  time_lt : ∀ v < g.numVertices, ¬ st.pq.Present v → time v < t
  time_inj : ∀ v < g.numVertices, ∀ v' < g.numVertices, ¬ st.pq.Present v →
    ¬ st.pq.Present v' → time v = time v' → v = v'
  zero_parent : st.parent 0 = -1
  zero_key : st.key 0 = 0
  init : st.pq.Present 0 → t = 0 ∧ ∀ v < g.numVertices,
    st.pq.Present v ∧ (v ≠ 0 → st.key v = INT_MAX ∧ st.parent v = -1)
  zero_time : ¬ st.pq.Present 0 → time 0 = 0
  tree : ∀ x < g.numVertices, x ≠ 0 →
    (st.parent x = -1 ∧ st.key x = INT_MAX) ∨
      ∃ p < g.numVertices, st.parent x = (p : Int) ∧ ¬ st.pq.Present p ∧
        (⟨x, st.key x⟩ : Edge) ∈ g.adj p ∧ (¬ st.pq.Present x → time p < time x) ∧
        ∀ z < g.numVertices, ¬ st.pq.Present z → time p < time z →
          (¬ st.pq.Present x → time z ≤ time x) → st.key z ≤ st.key x
  edge : ∀ a < g.numVertices, ¬ st.pq.Present a → ∀ e ∈ g.adj a, D a e →
    (st.pq.Present e.destination → st.key e.destination ≤ e.weight) ∧
      ((¬ st.pq.Present e.destination → time a < time e.destination) →
        ∀ z < g.numVertices, ¬ st.pq.Present z → time a < time z →
          (¬ st.pq.Present e.destination → time z ≤ time e.destination) →
          st.key z ≤ e.weight)

/-- The vertex `u` is the last one that left the queue. -/
def Latest (g : Graph) (st : PrimState) (time : Nat → Nat) (u : Nat) : Prop :=
  u < g.numVertices ∧ ¬ st.pq.Present u ∧
    ∀ z < g.numVertices, ¬ st.pq.Present z → time z ≤ time u

end Algorithms

end graph


namespace graph

namespace Algorithms

open PriorityQueue

theorem PrimInv.weaken {g : Graph} {st : PrimState} {time : Nat → Nat} {t : Nat}
    {D D' : Nat → Edge → Prop} (h : PrimInv g st time t D)
    (hD : ∀ a e, e ∈ g.adj a → D' a e → D a e) : PrimInv g st time t D' :=
  ⟨h.heap, h.cap, h.prio, h.time_lt, h.time_inj, h.zero_parent, h.zero_key, h.init, h.zero_time,
    h.tree, fun a ha hna e he hd => h.edge a ha hna e he (hD a e he hd)⟩

theorem PrimInv.vertex_lt_of_present {g : Graph} {st : PrimState} {time : Nat → Nat} {t : Nat}
    {D : Nat → Edge → Prop} (h : PrimInv g st time t D) {v : Nat} (hv : st.pq.Present v) :
    v < g.numVertices := h.cap ▸ h.heap.1.present_lt hv

theorem primInv_init (g : Graph) (pq : PriorityQueue) (hinv : pq.HeapInv)
    (hcap : pq.capacity = g.numVertices) (hpres : ∀ v, pq.Present v ↔ v < g.numVertices)
    (hprio : ∀ v < g.numVertices,
      pq.prioOf v = Function.update (fun _ => INT_MAX) 0 0 v) :
    PrimInv g ⟨Function.update (fun _ => INT_MAX) 0 0, fun _ => -1, pq⟩ (fun _ => 0) 0
      (fun _ _ => True) := by
  refine ⟨hinv, hcap, ?_, ?_, ?_, rfl, ?_, ?_, ?_, ?_, ?_⟩
  · intro v hv
    exact hprio v ((hpres v).mp hv)
  · intro v hv hnp
    exact absurd ((hpres v).mpr hv) hnp
  · intro v hv _ _ hnp
    exact absurd ((hpres v).mpr hv) hnp
  · simp
  · intro _
    refine ⟨rfl, fun v hv => ⟨(hpres v).mpr hv, fun hv0 => ⟨?_, rfl⟩⟩⟩
    show Function.update (fun _ => INT_MAX) 0 0 v = INT_MAX
    rw [Function.update_noteq hv0]
  · intro h
    rfl
  · intro x _ hx0
    left
    refine ⟨rfl, ?_⟩
    show Function.update (fun _ => INT_MAX) 0 0 x = INT_MAX
    rw [Function.update_noteq hx0]
  · intro a ha hnp
    exact absurd ((hpres a).mpr ha) hnp

/-- The invariant after `extractMin` has removed `u`, before any record of `u` is
processed. -/
theorem primInv_extract {g : Graph} (hg : g.WF) {st : PrimState} {time : Nat → Nat} {t : Nat}
    (h : PrimInv g st time t (fun _ _ => True)) {u : Nat} {pq' : PriorityQueue}
    (hx : ExtractPost st.pq u pq') :
    PrimInv g { st with pq := pq' } (Function.update time u t) (t + 1)
        (fun a e => a ≠ u ∨ e ∈ ([] : List Edge)) ∧
      Latest g { st with pq := pq' } (Function.update time u t) u := by
  have hPu : st.pq.Present u := hx.present_min
  have hun : u < g.numVertices := h.vertex_lt_of_present hPu
  have hnP : ∀ w, ¬ pq'.Present w → w ≠ u → ¬ st.pq.Present w :=
    fun w hw hwu hc => hw ((hx.present_iff w).mpr ⟨hc, hwu⟩)
  have hnP' : ∀ w, ¬ st.pq.Present w → ¬ pq'.Present w :=
    fun w hw hc => hw ((hx.present_iff w).mp hc).1
  have hne : ∀ w, ¬ st.pq.Present w → w ≠ u := fun w hw hc => hw (hc ▸ hPu)
  have hmin : ∀ w, st.pq.Present w → st.key u ≤ st.key w := by
    intro w hw
    rw [← h.prio u hPu, ← h.prio w hw]
    exact hx.min_le w hw
  have htu : Function.update time u t u = t := Function.update_same _ _ _
  have htne : ∀ w, w ≠ u → Function.update time u t w = time w :=
    fun w hw => Function.update_noteq hw _ _
  refine ⟨⟨hx.inv, hx.capacity_eq.trans h.cap, ?_, ?_, ?_, h.zero_parent, h.zero_key, ?_, ?_, ?_,
    ?_⟩, hun, ?_, ?_⟩
  · intro v hv
    have := (hx.present_iff v).mp hv
    show pq'.prioOf v = st.key v
    rw [hx.prio_old v this.1 this.2, h.prio v this.1]
  · intro v hv hnp
    by_cases hvu : v = u
    · rw [hvu, htu]; omega
    · rw [htne v hvu]
      have := h.time_lt v hv (hnP v hnp hvu)
      omega
  · intro v hv v' hv' hnp hnp' heq
    by_cases hvu : v = u <;> by_cases hvu' : v' = u
    · rw [hvu, hvu']
    · rw [hvu, htu, htne v' hvu'] at heq
      have := h.time_lt v' hv' (hnP v' hnp' hvu')
      omega
    · rw [hvu', htu, htne v hvu] at heq
      have := h.time_lt v hv (hnP v hnp hvu)
      omega
    · rw [htne v hvu, htne v' hvu'] at heq
      exact h.time_inj v hv v' hv' (hnP v hnp hvu) (hnP v' hnp' hvu') heq
  · intro h0
    exfalso
    have h0' := (hx.present_iff 0).mp h0
    have hinit := (h.init h0'.1).2 u hun
    have hk := (hinit.2 (Ne.symm h0'.2)).1
    have := hmin 0 h0'.1
    rw [hk, h.zero_key] at this
    simp [INT_MAX] at this
  · intro h0
    by_cases h0u : (0 : Nat) = u
    · rw [← h0u] at hPu ⊢
      rw [Function.update_same]
      exact (h.init hPu).1
    · rw [htne 0 h0u]
      exact h.zero_time (hnP 0 h0 h0u)
  · intro x hx' hx0
    rcases h.tree x hx' hx0 with hl | ⟨p, hp, hpar, hnp, hrec, htime, hkeys⟩
    · exact Or.inl hl
    · right
      have hpu : p ≠ u := hne p hnp
      refine ⟨p, hp, hpar, hnP' p hnp, hrec, ?_, ?_⟩
      · intro hnx
        rw [htne p hpu]
        by_cases hxu : x = u
        · rw [hxu, htu]
          exact h.time_lt p hp hnp
        · rw [htne x hxu]
          exact htime (hnP x hnx hxu)
      · intro z hz hnz hpz hzx
        rw [htne p hpu] at hpz
        show st.key z ≤ st.key x
        by_cases hzu : z = u
        · rw [hzu] at hzx ⊢
          by_cases hPx : st.pq.Present x
          · exact hmin x hPx
          · exfalso
            have h1 := hzx (hnP' x hPx)
            rw [htu, htne x (hne x hPx)] at h1
            have := h.time_lt x hx' hPx
            omega
        · rw [htne z hzu] at hpz hzx
          apply hkeys z hz (hnP z hnz hzu) hpz
          intro hPx
          have := hzx (hnP' x hPx)
          rwa [htne x (hne x hPx)] at this
  · intro a ha hna e he hD
    have hau : a ≠ u := by
      rcases hD with h | h
      · exact h
      · simp at h
    have hna' := hnP a hna hau
    have hold := h.edge a ha hna' e he trivial
    have hb : e.destination < g.numVertices := Graph.dest_lt hg he
    refine ⟨fun hb' => hold.1 ((hx.present_iff _).mp hb').1, ?_⟩
    intro hab z hz hnz haz hzb
    rw [htne a hau] at haz hab
    show st.key z ≤ e.weight
    by_cases hzu : z = u
    · rw [hzu] at hzb ⊢
      by_cases hPb : st.pq.Present e.destination
      · have := hmin _ hPb
        have := hold.1 hPb
        omega
      · exfalso
        have h1 := hzb (hnP' _ hPb)
        rw [htu, htne _ (hne _ hPb)] at h1
        have := h.time_lt _ hb hPb
        omega
    · rw [htne z hzu] at haz hzb
      apply hold.2 _ z hz (hnP z hnz hzu) haz
      · intro hPb
        have := hzb (hnP' _ hPb)
        rwa [htne _ (hne _ hPb)] at this
      · intro hPb
        have := hab (hnP' _ hPb)
        rwa [htne _ (hne _ hPb)] at this
  · show ¬ pq'.Present u
    intro hc
    exact ((hx.present_iff u).mp hc).2 rfl
  · intro z hz hnz
    rw [htu]
    by_cases hzu : z = u
    · rw [hzu, htu]
    · rw [htne z hzu]
      have := h.time_lt z hz (hnP z hnz hzu)
      omega

end Algorithms

end graph


namespace graph

namespace Algorithms

open PriorityQueue

theorem Latest.not_present_zero {g : Graph} {st : PrimState} {time : Nat → Nat} {t : Nat}
    {D : Nat → Edge → Prop} {u : Nat} (hl : Latest g st time u) (h : PrimInv g st time t D) :
    ¬ st.pq.Present 0 := fun h0 => hl.2.1 ((h.init h0).2 u hl.1).1

/-- Processing one record of `u` that lowers the key of its destination. -/
theorem primInv_update {g : Graph} {st : PrimState} {time : Nat → Nat} {t : Nat} {u : Nat}
    {done : List Edge} (h : PrimInv g st time t (fun a e => a ≠ u ∨ e ∈ done))
    (hl : Latest g st time u) {e : Edge} (he : e ∈ g.adj u)
    (hP : st.pq.Present e.destination) (hlt : e.weight < st.key e.destination)
    {pq' : PriorityQueue} (hd : DecreasePost st.pq e.destination e.weight pq') :
    PrimInv g ⟨Function.update st.key e.destination e.weight,
        Function.update st.parent e.destination (u : Int), pq'⟩ time t
        (fun a e' => a ≠ u ∨ e' ∈ done ++ [e]) ∧
      Latest g ⟨Function.update st.key e.destination e.weight,
        Function.update st.parent e.destination (u : Int), pq'⟩ time u := by
  have h0 : ¬ st.pq.Present 0 := hl.not_present_zero h
  have hv0 : e.destination ≠ 0 := fun hc => h0 (hc ▸ hP)
  have hP' : ∀ w, pq'.Present w ↔ st.pq.Present w := hd.present_iff
  have hkz : ∀ z, ¬ st.pq.Present z →
      Function.update st.key e.destination e.weight z = st.key z :=
    fun z hz => Function.update_noteq (fun hc : z = e.destination => hz (by rw [hc]; exact hP)) _ _
  refine ⟨⟨hd.inv, hd.capacity_eq.trans h.cap, ?_, ?_, ?_, ?_, ?_, ?_, ?_, ?_, ?_⟩,
    hl.1, fun hc => hl.2.1 ((hP' u).mp hc), fun z hz hnz => hl.2.2 z hz (fun hc => hnz ((hP' z).mpr hc))⟩
  · intro v hv
    show pq'.prioOf v = Function.update st.key e.destination e.weight v
    by_cases hve : v = e.destination
    · rw [hve, Function.update_same, hd.prio_new]
    · rw [Function.update_noteq hve, hd.prio_old v ((hP' v).mp hv) hve, h.prio v ((hP' v).mp hv)]
  · intro v hv hnp
    exact h.time_lt v hv (fun hc => hnp ((hP' v).mpr hc))
  · intro v hv v' hv' hnp hnp'
    exact h.time_inj v hv v' hv' (fun hc => hnp ((hP' v).mpr hc))
      (fun hc => hnp' ((hP' v').mpr hc))
  · show Function.update st.parent e.destination (u : Int) 0 = -1
    rw [Function.update_noteq (Ne.symm hv0)]
    exact h.zero_parent
  · show Function.update st.key e.destination e.weight 0 = 0
    rw [Function.update_noteq (Ne.symm hv0)]
    exact h.zero_key
  · intro hc
    exact absurd ((hP' 0).mp hc) h0
  · intro _
    exact h.zero_time h0
  · intro x hx hx0
    show (Function.update st.parent e.destination (u : Int) x = -1 ∧
        Function.update st.key e.destination e.weight x = INT_MAX) ∨
      ∃ p < g.numVertices, Function.update st.parent e.destination (u : Int) x = (p : Int) ∧
        ¬ pq'.Present p ∧
        (⟨x, Function.update st.key e.destination e.weight x⟩ : Edge) ∈ g.adj p ∧
        (¬ pq'.Present x → time p < time x) ∧
        ∀ z < g.numVertices, ¬ pq'.Present z → time p < time z →
          (¬ pq'.Present x → time z ≤ time x) →
          Function.update st.key e.destination e.weight z ≤
            Function.update st.key e.destination e.weight x
    by_cases hxe : x = e.destination
    · right
      subst hxe
      refine ⟨u, hl.1, Function.update_same _ _ _, fun hc => hl.2.1 ((hP' u).mp hc), ?_, ?_, ?_⟩
      · rw [Function.update_same]
        exact he
      · intro hc
        exact absurd ((hP' _).mpr hP) hc
      · intro z hz hnz huz
        have := hl.2.2 z hz (fun hc => hnz ((hP' z).mpr hc))
        omega
    · rw [Function.update_noteq hxe, Function.update_noteq hxe]
      rcases h.tree x hx hx0 with hleft | ⟨p, hp, hpar, hnp, hrec, htime, hkeys⟩
      · exact Or.inl hleft
      · right
        refine ⟨p, hp, hpar, fun hc => hnp ((hP' p).mp hc), hrec,
          fun hc => htime (fun hc' => hc ((hP' x).mpr hc')), ?_⟩
        intro z hz hnz hpz hzx
        have hnz' : ¬ st.pq.Present z := fun hc => hnz ((hP' z).mpr hc)
        rw [hkz z hnz']
        exact hkeys z hz hnz' hpz (fun hc => hzx (fun hc' => hc ((hP' x).mp hc')))
  · intro a ha hna e' he' hD
    have hna' : ¬ st.pq.Present a := fun hc => hna ((hP' a).mpr hc)
    show (pq'.Present e'.destination →
        Function.update st.key e.destination e.weight e'.destination ≤ e'.weight) ∧
      ((¬ pq'.Present e'.destination → time a < time e'.destination) →
        ∀ z < g.numVertices, ¬ pq'.Present z → time a < time z →
          (¬ pq'.Present e'.destination → time z ≤ time e'.destination) →
          Function.update st.key e.destination e.weight z ≤ e'.weight)
    have hold_or : (a ≠ u ∨ e' ∈ done) ∨ (a = u ∧ e' = e) := by
      rcases hD with h1 | h1
      · exact Or.inl (Or.inl h1)
      · rcases List.mem_append.mp h1 with h2 | h2
        · exact Or.inl (Or.inr h2)
        · by_cases hau : a = u
          · exact Or.inr ⟨hau, by simpa using h2⟩
          · exact Or.inl (Or.inl hau)
    rcases hold_or with hDold | ⟨hau, hee⟩
    · have hold := h.edge a ha hna' e' he' hDold
      constructor
      · intro hb
        have hb' := (hP' _).mp hb
        by_cases hbe : e'.destination = e.destination
        · rw [hbe, Function.update_same]
          have := hold.1 hb'
          rw [hbe] at this
          omega
        · rw [Function.update_noteq hbe]
          exact hold.1 hb'
      · intro hab z hz hnz haz hzb
        have hnz' : ¬ st.pq.Present z := fun hc => hnz ((hP' z).mpr hc)
        rw [hkz z hnz']
        exact hold.2 (fun hc => hab (fun hc' => hc ((hP' _).mp hc'))) z hz hnz' haz
          (fun hc => hzb (fun hc' => hc ((hP' _).mp hc')))
    · subst hau; subst hee
      constructor
      · intro _
        rw [Function.update_same]
      · intro _ z hz hnz haz
        have := hl.2.2 z hz (fun hc => hnz ((hP' z).mpr hc))
        omega

/-- Processing one record of `u` that changes nothing. -/
theorem primInv_skip {g : Graph} {st : PrimState} {time : Nat → Nat} {t : Nat} {u : Nat}
    {done : List Edge} (h : PrimInv g st time t (fun a e => a ≠ u ∨ e ∈ done))
    (hl : Latest g st time u) {e : Edge}
    (hc : ¬ (st.pq.inQueue e.destination = true ∧ e.weight < st.key e.destination)) :
    PrimInv g st time t (fun a e' => a ≠ u ∨ e' ∈ done ++ [e]) := by
  refine ⟨h.heap, h.cap, h.prio, h.time_lt, h.time_inj, h.zero_parent, h.zero_key, h.init,
    h.zero_time, h.tree, ?_⟩
  intro a ha hna e' he' hD
  have hold_or : (a ≠ u ∨ e' ∈ done) ∨ (a = u ∧ e' = e) := by
    rcases hD with h1 | h1
    · exact Or.inl (Or.inl h1)
    · rcases List.mem_append.mp h1 with h2 | h2
      · exact Or.inl (Or.inr h2)
      · by_cases hau : a = u
        · exact Or.inr ⟨hau, by simpa using h2⟩
        · exact Or.inl (Or.inl hau)
  rcases hold_or with hDold | ⟨hau, hee⟩
  · exact h.edge a ha hna e' he' hDold
  · subst hau; subst hee
    constructor
    · intro hb
      by_contra hcon
      exact hc ⟨(inQueue_iff _ _).mpr hb, by omega⟩
    · intro _ z hz hnz haz
      have := hl.2.2 z hz hnz
      omega

theorem primEdges_spec {g : Graph} {time : Nat → Nat} {t : Nat} {u : Nat}
    (pending : List Edge) :
    ∀ (done : List Edge) (st : PrimState), (∀ e ∈ pending, e ∈ g.adj u) →
      PrimInv g st time t (fun a e => a ≠ u ∨ e ∈ done) → Latest g st time u →
      ∃ st', primEdges u pending st = .ok st' ∧
        PrimInv g st' time t (fun a e => a ≠ u ∨ e ∈ done ++ pending) ∧
        Latest g st' time u ∧ st'.pq.heapSize = st.pq.heapSize := by
  induction pending with
  | nil =>
    intro done st _ h hl
    exact ⟨st, rfl, by simpa using h, hl, rfl⟩
  | cons e pending ih =>
    intro done st hp h hl
    have he := hp e (List.mem_cons_self _ _)
    have hp' : ∀ e' ∈ pending, e' ∈ g.adj u := fun e' h' => hp e' (List.mem_cons_of_mem _ h')
    have happ : done ++ e :: pending = (done ++ [e]) ++ pending := by simp
    rw [primEdges, happ]
    by_cases hc : st.pq.inQueue e.destination = true ∧ e.weight < st.key e.destination
    · rw [if_pos hc]
      have hP : st.pq.Present e.destination := (inQueue_iff _ _).mp hc.1
      obtain ⟨pq', hdk, hd⟩ := decreaseKey_spec h.heap hP
        (show e.weight ≤ st.pq.prioOf e.destination by rw [h.prio _ hP]; omega)
      simp only [Function.update_same]
      rw [hdk]
      obtain ⟨h', hl'⟩ := primInv_update h hl he hP hc.2 hd
      obtain ⟨st', he', h2, hl2, hsz⟩ := ih (done ++ [e]) _ hp' h' hl'
      exact ⟨st', he', h2, hl2, hsz.trans hd.heapSize_eq⟩
    · rw [if_neg hc]
      exact ih (done ++ [e]) st hp' (primInv_skip h hl hc) hl

theorem primLoop_spec {g : Graph} (hg : g.WF) (fuel : Nat) :
    ∀ (st : PrimState) (time : Nat → Nat) (t : Nat),
      PrimInv g st time t (fun _ _ => True) → st.pq.heapSize ≤ fuel →
      ∃ st' time' t', primLoop g fuel st = .ok st' ∧
        PrimInv g st' time' t' (fun _ _ => True) ∧ st'.pq.heapSize = 0 := by
  induction fuel with
  | zero =>
    intro st time t h hf
    refine ⟨st, time, t, ?_, h, by omega⟩
    rw [primLoop, if_pos (by simp [isEmpty]; omega)]
  | succ fuel ih =>
    intro st time t h hf
    rw [primLoop]
    by_cases hz : st.pq.heapSize = 0
    · rw [if_pos (by simp [isEmpty, hz])]
      exact ⟨st, time, t, rfl, h, hz⟩
    · rw [if_neg (by simp [isEmpty, hz])]
      obtain ⟨u, pq', hex, hx⟩ := extractMin_spec h.heap hz
      rw [hex]
      obtain ⟨h1, hl1⟩ := primInv_extract hg h hx
      have hun := hl1.1
      simp only []
      rw [Graph.getAdjList_eq hun]
      obtain ⟨st', he, h2, _, h3⟩ := primEdges_spec (g.adj u) [] { st with pq := pq' }
        (fun e he => he) h1 hl1
      simp only []
      rw [he]
      simp only []
      have hsz : st'.pq.heapSize ≤ fuel := by
        have h4 : st'.pq.heapSize = pq'.heapSize := h3
        have := hx.heapSize_eq
        omega
      exact ih st' (Function.update time u t) (t + 1)
        (h2.weaken (fun a e he _ => by
          by_cases hau : a = u
          · right
            rw [hau] at he
            simpa using he
          · exact Or.inl hau)) hsz

end Algorithms

end graph


namespace graph

/-! ## Forests recognised by counting -/

theorem labelRoots_cons_of_conn {n : Nat} {e : Algorithms.KEdge} {L : List Algorithms.KEdge}
    (hc : KConn L e.src e.dest) : labelRoots n (e :: L) = labelRoots n L := by
  have heq : label L e.src = label L e.dest := (label_eq_iff _ _ _).mpr hc
  unfold labelRoots
  apply Finset.filter_congr
  intro v _
  simp only [label]
  split
  · rename_i h
    rw [← heq, ← h]
  · rfl

theorem length_add_roots_ge {n : Nat} {L : List Algorithms.KEdge} (hL : InRange n L) :
    n ≤ L.length + (labelRoots n L).card := by
  induction L with
  | nil => simp [labelRoots, label]
  | cons e L ih =>
    have ih' := ih hL.tail
    by_cases hc : KConn L e.src e.dest
    · rw [labelRoots_cons_of_conn hc, List.length_cons]
      omega
    · rw [labelRoots_cons hc, List.length_cons]
      have hmem : label L e.src ∈ labelRoots n L := by
        simp only [labelRoots, Finset.mem_filter, Finset.mem_range]
        exact ⟨label_lt hL.tail (hL e (List.mem_cons_self _ _)).1, label_idem _ _⟩
      rw [Finset.card_erase_of_mem hmem]
      have hpos : 0 < (labelRoots n L).card := Finset.card_pos.mpr ⟨_, hmem⟩
      omega

/-- An edge list with no more edges than classes are missing is a forest. -/
theorem isForest_of_length_add_roots {n : Nat} {L : List Algorithms.KEdge} (hL : InRange n L)
    (h : L.length + (labelRoots n L).card ≤ n) : IsForest L := by
  induction L with
  | nil => trivial
  | cons e L ih =>
    have hge := length_add_roots_ge hL.tail
    by_cases hc : KConn L e.src e.dest
    · rw [labelRoots_cons_of_conn hc, List.length_cons] at h
      omega
    · refine ⟨hc, ih hL.tail ?_⟩
      rw [labelRoots_cons hc, List.length_cons] at h
      have hmem : label L e.src ∈ labelRoots n L := by
        simp only [labelRoots, Finset.mem_filter, Finset.mem_range]
        exact ⟨label_lt hL.tail (hL e (List.mem_cons_self _ _)).1, label_idem _ _⟩
      rw [Finset.card_erase_of_mem hmem] at h
      have hpos : 0 < (labelRoots n L).card := Finset.card_pos.mpr ⟨_, hmem⟩
      omega

/-- If every vertex is connected to vertex 0 there is one class. -/
theorem labelRoots_card_of_conn {n : Nat} (hn : 0 < n) {L : List Algorithms.KEdge}
    (hL : InRange n L) (hc : ∀ v < n, KConn L 0 v) : (labelRoots n L).card = 1 := by
  rw [Finset.card_eq_one]
  refine ⟨label L 0, ?_⟩
  ext v
  simp only [labelRoots, Finset.mem_filter, Finset.mem_range, Finset.mem_singleton]
  constructor
  · rintro ⟨hv, hvv⟩
    rw [← hvv]
    exact ((label_eq_iff _ _ _).mpr (hc v hv)).symm
  · rintro rfl
    exact ⟨label_lt hL hn, label_idem _ _⟩

namespace Algorithms

open PriorityQueue

/-! ## prim: what the main loop leaves behind -/

/-- The facts about the arrays `key` and `parent` when the main loop of `prim` ends; `time v`
is the iteration in which `v` left the queue. -/
structure PrimFinal (g : Graph) (key : Nat → Int) (parent : Nat → Int) (time : Nat → Nat) :
    Prop where
  time_inj : ∀ v < g.numVertices, ∀ v' < g.numVertices, time v = time v' → v = v'
  zero_time : time 0 = 0
  zero_parent : parent 0 = -1
  tree : ∀ x < g.numVertices, x ≠ 0 →
    (parent x = -1 ∧ key x = INT_MAX) ∨
      ∃ p < g.numVertices, parent x = (p : Int) ∧ (⟨x, key x⟩ : Edge) ∈ g.adj p ∧
        time p < time x ∧
        ∀ z < g.numVertices, time p < time z → time z ≤ time x → key z ≤ key x
  edge : ∀ a < g.numVertices, ∀ e ∈ g.adj a, time a < time e.destination →
    ∀ z < g.numVertices, time a < time z → time z ≤ time e.destination → key z ≤ e.weight

theorem prim_run {g : Graph} (hg : g.WF) :
    ∃ pq1 st time,
      insertAll (Function.update (fun _ => INT_MAX) 0 0) (List.range g.numVertices)
        (PriorityQueue.new g.numVertices) = .ok pq1 ∧
      primLoop g g.numVertices ⟨Function.update (fun _ => INT_MAX) 0 0, fun _ => -1, pq1⟩ =
        .ok st ∧
      PrimFinal g st.key st.parent time := by
  obtain ⟨pq1, hins, hinv, hcap, hsz, hpres, hprio⟩ :=
    insertAll_range (Function.update (fun _ => INT_MAX) 0 0) g.numVertices
  have h0 := primInv_init g pq1 hinv hcap hpres hprio
  obtain ⟨st, time, t, hloop, hfin, hempty⟩ := primLoop_spec hg g.numVertices _ _ _ h0
    (by show pq1.heapSize ≤ _; omega)
  have hnp : ∀ v, ¬ st.pq.Present v := HeapInv.no_present_of_empty hfin.heap hempty
  refine ⟨pq1, st, time, hins, hloop, ?_, hfin.zero_time (hnp 0), hfin.zero_parent, ?_, ?_⟩
  · intro v hv v' hv'
    exact hfin.time_inj v hv v' hv' (hnp v) (hnp v')
  · intro x hx hx0
    rcases hfin.tree x hx hx0 with h | ⟨p, hp, hpar, _, hrec, htime, hkeys⟩
    · exact Or.inl h
    · right
      refine ⟨p, hp, hpar, hrec, htime (hnp x), ?_⟩
      intro z hz hpz hzx
      exact hkeys z hz (hnp z) hpz (fun _ => hzx)
  · intro a ha e he hab z hz haz hzb
    exact (hfin.edge a ha (hnp a) e he trivial).2 (fun _ => hab) z hz (hnp z) haz (fun _ => hzb)

end Algorithms

end graph


namespace graph

theorem kconn_of_normEdge_mem {L : List Algorithms.KEdge} {u v : Nat} {w : Int}
    (h : normEdge u v w ∈ L) : KConn L u v := by
  unfold normEdge at h
  split at h
  · exact KConn.conn_of_mem h
  · exact (KConn.conn_of_mem h).conn_symm

theorem normEdge_weight (u v : Nat) (w : Int) : (normEdge u v w).weight = w := by
  unfold normEdge
  split <;> rfl

theorem normEdge_lt {n u v : Nat} (hu : u < n) (hv : v < n) (w : Int) :
    (normEdge u v w).src < n ∧ (normEdge u v w).dest < n := by
  unfold normEdge
  split
  · exact ⟨hu, hv⟩
  · exact ⟨hv, hu⟩

namespace Algorithms

open PriorityQueue Graph

/-! ## prim: the tree built from `parent` and `key` -/

/-- The edges that the last loop of `prim` adds for the vertices of `l`. -/
def primTree (key : Nat → Int) (parent : Nat → Int) (l : List Nat) : List KEdge :=
  l.filterMap fun i =>
    if parent i = -1 then none else some (normEdge (parent i).toNat i (key i))

theorem primBuild_spec {n : Nat} (key : Nat → Int) (parent : Nat → Int) (l : List Nat) :
    ∀ (result : Graph), result.WF → result.numVertices = n →
      (∀ i ∈ l, i < n ∧ (parent i ≠ -1 → ∃ p < n, parent i = (p : Int) ∧ p ≠ i)) →
      ∃ r, primBuild key parent l result = .ok r ∧ r.WF ∧ r.numVertices = n ∧
        r.edgeList.Perm (primTree key parent l ++ result.edgeList) ∧
        (∀ u, r.Adj u u → result.Adj u u) ∧
        ∀ x e, e ∈ r.adj x → e ∈ result.adj x ∨
          ∃ i ∈ l, ∃ p : Nat, parent i = (p : Int) ∧
            ((x = p ∧ e = ⟨i, key i⟩) ∨ (x = i ∧ e = ⟨p, key i⟩)) := by
  induction l with
  | nil =>
    intro result hwf hn _
    exact ⟨result, rfl, hwf, hn, by simp [primTree], fun _ h => h, fun _ _ h => Or.inl h⟩
  | cons i l ih =>
    intro result hwf hn hl
    have hi := hl i (List.mem_cons_self _ _)
    have hl' : ∀ j ∈ l, j < n ∧ (parent j ≠ -1 → ∃ p < n, parent j = (p : Int) ∧ p ≠ j) :=
      fun j hj => hl j (List.mem_cons_of_mem _ hj)
    rw [primBuild]
    by_cases hp : parent i = -1
    · rw [if_neg (by simpa using hp)]
      obtain ⟨r, he, hrwf, hrn, hperm, hloop, hadj⟩ := ih result hwf hn hl'
      refine ⟨r, he, hrwf, hrn, ?_, hloop, ?_⟩
      · simpa [primTree, hp] using hperm
      · intro x e hxe
        rcases hadj x e hxe with h | ⟨j, hj, h⟩
        · exact Or.inl h
        · exact Or.inr ⟨j, List.mem_cons_of_mem _ hj, h⟩
    · rw [if_pos hp]
      obtain ⟨p, hpn, hpar, hpi⟩ := hi.2 hp
      have hpn' : p < result.numVertices := by rw [hn]; exact hpn
      have hin' : i < result.numVertices := by rw [hn]; exact hi.1
      rw [hpar, addEdge_eq hpn' hin']
      obtain ⟨r, he, hrwf, hrn, hperm, hloop, hadj⟩ :=
        ih (result.addEdgeNat p i (key i)) (addEdgeNat_wf hwf hpn' hin' _) hn hl'
      refine ⟨r, he, hrwf, hrn, ?_, ?_, ?_⟩
      · have h1 := edgeList_addEdgeNat hwf hpn' hin' hpi (key i)
        have h2 : primTree key parent (i :: l) =
            normEdge p i (key i) :: primTree key parent l := by
          simp [primTree, hp, hpar]
        rw [h2]
        exact hperm.trans ((h1.append_left _).trans List.perm_middle)
      · intro u hu
        have := hloop u hu
        rw [adj_addEdgeNat_iff hwf hpn' hin'] at this
        rcases this with ⟨h1, h2⟩ | ⟨h1, h2⟩ | h
        · exact absurd (h1.symm.trans h2) hpi
        · exact absurd (h2.symm.trans h1) hpi
        · exact h
      · intro x e hxe
        rcases hadj x e hxe with h | ⟨j, hj, h⟩
        · rw [mem_adj_addEdgeNat hwf hpn' hin'] at h
          rcases h with ⟨h1, h2⟩ | ⟨h1, h2⟩ | h
          · exact Or.inr ⟨i, List.mem_cons_self _ _, p, hpar, Or.inl ⟨h1, h2⟩⟩
          · exact Or.inr ⟨i, List.mem_cons_self _ _, p, hpar, Or.inr ⟨h1, h2⟩⟩
          · exact Or.inl h
        · exact Or.inr ⟨j, List.mem_cons_of_mem _ hj, h⟩

theorem primTree_length_le (key : Nat → Int) (parent : Nat → Int) (l : List Nat) :
    (primTree key parent l).length ≤ l.length :=
  List.length_filterMap_le _ _

theorem mem_primTree {key : Nat → Int} {parent : Nat → Int} {l : List Nat} {i p : Nat}
    (hi : i ∈ l) (hp : parent i = (p : Int)) :
    normEdge p i (key i) ∈ primTree key parent l := by
  unfold primTree
  rw [List.mem_filterMap]
  refine ⟨i, hi, ?_⟩
  rw [if_neg (by rw [hp]; omega), hp]
  simp

theorem primTree_inRange {g : Graph} {key : Nat → Int} {parent : Nat → Int} {time : Nat → Nat}
    (hf : PrimFinal g key parent time) :
    InRange g.numVertices (primTree key parent (List.range' 1 (g.numVertices - 1))) := by
  intro k hk
  unfold primTree at hk
  rw [List.mem_filterMap] at hk
  obtain ⟨i, hi, hk⟩ := hk
  rw [List.mem_range'_1] at hi
  split at hk
  · simp at hk
  · rename_i hp
    rcases hf.tree i (by omega) (by omega) with h | ⟨p, hpn, hpar, _⟩
    · exact absurd h.1 hp
    · simp only [Option.some.injEq] at hk
      rw [← hk, hpar]
      exact normEdge_lt hpn (by omega) _

/-- Vertices that left the queue one after the other with keys at most `w` are joined by tree
edges of weight at most `w`. -/
theorem prim_light_path {g : Graph} {key : Nat → Int} {parent : Nat → Int} {time : Nat → Nat}
    (hf : PrimFinal g key parent time) (w : Int) (hw : w < INT_MAX) (N : Nat) :
    ∀ x < g.numVertices, ∀ y < g.numVertices, time y ≤ N → time x < time y →
      (∀ z < g.numVertices, time x < time z → time z ≤ time y → key z ≤ w) →
      KConn ((primTree key parent (List.range' 1 (g.numVertices - 1))).filter
        fun k => decide (k.weight ≤ w)) x y := by
  induction N with
  | zero => intro x _ y _ hy hxy _; omega
  | succ N ih =>
    intro x hx y hy hyN hxy hz
    have hy0 : y ≠ 0 := by
      intro hc
      rw [hc, hf.zero_time] at hxy
      omega
    have hky : key y ≤ w := hz y hy hxy (le_refl _)
    rcases hf.tree y hy hy0 with h | ⟨p, hpn, hpar, hrec, htime, hkeys⟩
    · rw [h.2] at hky
      omega
    · have hedge : KConn ((primTree key parent (List.range' 1 (g.numVertices - 1))).filter
          fun k => decide (k.weight ≤ w)) p y := by
        apply kconn_of_normEdge_mem (w := key y)
        rw [List.mem_filter]
        refine ⟨mem_primTree (List.mem_range'_1.mpr (by omega)) hpar, ?_⟩
        rw [normEdge_weight]
        simpa using hky
      rcases Nat.lt_trichotomy (time x) (time p) with hlt | heq | hgt
      · refine (ih x hx p hpn (by omega) hlt ?_).conn_trans hedge
        intro z hzn hxz hzp
        exact hz z hzn hxz (by omega)
      · rw [hf.time_inj x hx p hpn heq]
        exact hedge
      · refine (ih p hpn x hx (by omega) hgt ?_).conn_symm.conn_trans hedge
        intro z hzn hpz hzx
        have := hkeys z hzn hpz (by omega)
        omega

/-- The end points of every record lighter than `INT_MAX` are joined by tree edges that are
no heavier than the record. -/
theorem prim_bottleneck {g : Graph} (hg : g.WF) {key : Nat → Int} {parent : Nat → Int}
    {time : Nat → Nat} (hf : PrimFinal g key parent time) {a : Nat} {e : Edge}
    (he : e ∈ g.adj a) (hw : e.weight < INT_MAX) :
    KConn ((primTree key parent (List.range' 1 (g.numVertices - 1))).filter
      fun k => decide (k.weight ≤ e.weight)) a e.destination := by
  have ha := lt_of_mem_adj hg he
  have hb := dest_lt hg he
  rcases Nat.lt_trichotomy (time a) (time e.destination) with hlt | heq | hgt
  · exact prim_light_path hf e.weight hw _ a ha _ hb (le_refl _) hlt (hf.edge a ha e he hlt)
  · rw [← hf.time_inj a ha _ hb heq]
    exact KConn.conn_refl _ _
  · have hsym := mem_adj_symm hg he
    exact (prim_light_path hf e.weight hw _ _ hb a ha (le_refl _) hgt
      (hf.edge _ hb _ hsym hgt)).conn_symm

end Algorithms

end graph


namespace graph

open Algorithms

namespace Graph

/-- Every edge weight is below the constant used as infinity. -/
def WeightsBelowMax (g : Graph) : Prop :=
  ∀ u < g.numVertices, ∀ e ∈ g.adj u, e.weight < INT_MAX

instance (g : Graph) : Decidable g.WeightsBelowMax := by
  unfold WeightsBelowMax
  infer_instance

instance (L : List KEdge) : Decidable (KAcyclic L) := by
  unfold KAcyclic
  infer_instance

/-- In a well-formed graph only the vertices below `numVertices` can carry a self-loop. -/
theorem acyclic_iff_bounded {g : Graph} (hg : g.WF) :
    g.Acyclic ↔ (∀ u < g.numVertices, ¬ g.Adj u u) ∧ KAcyclic g.edgeList := by
  unfold Acyclic
  constructor
  · exact fun h => ⟨fun u _ => h.1 u, h.2⟩
  · refine fun h => ⟨fun u hadj => ?_, h.2⟩
    obtain ⟨e, he, _⟩ := hadj
    exact h.1 u (lt_of_mem_adj hg he) ⟨e, he, by assumption⟩

/-- The records of a well-formed graph without self-loops all come from its edge list. -/
theorem mem_adj_of_edgeList_subset {r g : Graph} (hr : r.WF) (hg : g.WF)
    (hloop : ∀ u, ¬ r.Adj u u) (hsub : ∀ c ∈ r.edgeList, c ∈ g.edgeList) :
    ∀ u, ∀ e ∈ r.adj u, e ∈ g.adj u := by
  intro u e he
  rcases Nat.lt_trichotomy u e.destination with hlt | heq | hgt
  · have h1 : (⟨u, e.destination, e.weight⟩ : KEdge) ∈ r.edgeList :=
      mem_edgeList.mpr ⟨lt_of_mem_adj hr he, hlt, he⟩
    exact (mem_edgeList.mp (hsub _ h1)).2.2
  · exact absurd ⟨e, he, heq.symm⟩ (hloop u)
  · have h1 : (⟨e.destination, u, e.weight⟩ : KEdge) ∈ r.edgeList :=
      mem_edgeList.mpr ⟨dest_lt hr he, hgt, mem_adj_symm hr he⟩
    have h2 := (mem_edgeList.mp (hsub _ h1)).2.2
    exact mem_adj_symm hg h2

theorem edgeList_subset_of_mem_adj {T g : Graph} (hn : T.numVertices = g.numVertices)
    (hsub : ∀ u, ∀ e ∈ T.adj u, e ∈ g.adj u) : ∀ c ∈ T.edgeList, c ∈ g.edgeList := by
  intro c hc
  rw [mem_edgeList] at hc ⊢
  exact ⟨hn ▸ hc.1, hc.2.1, hsub _ _ hc.2.2⟩

/-- Two spanning forests of the same graph have the same number of edges. -/
theorem IsSpanningForestOf.length_eq {T r g : Graph} (hT : T.IsSpanningForestOf g)
    (hr : r.IsSpanningForestOf g) : T.edgeList.length = r.edgeList.length := by
  obtain ⟨hTwf, hTn, _, hTa, hTc⟩ := hT
  obtain ⟨hrwf, hrn, _, hra, hrc⟩ := hr
  have h1 := hTa.2.isForest.length_add_roots (edgeList_inRange hTwf)
  have h2 := hra.2.isForest.length_add_roots (edgeList_inRange hrwf)
  have h3 : (labelRoots T.numVertices T.edgeList).card =
      (labelRoots T.numVertices r.edgeList).card := by
    apply labelRoots_card_eq (edgeList_inRange hTwf)
    · rw [hTn, ← hrn]; exact edgeList_inRange hrwf
    · intro u v
      rw [← reach_iff_kconn hTwf, ← reach_iff_kconn hrwf, hTc, hrc]
  rw [hTn] at h1 h3
  rw [hrn] at h2
  omega

/-- The number of edges of a spanning forest. -/
theorem IsSpanningForestOf.countEdges_add {r g : Graph} (hg : g.WF)
    (hr : r.IsSpanningForestOf g) : countEdges r + g.components.ncard = g.numVertices := by
  obtain ⟨hrwf, hrn, _, hra, hrc⟩ := hr
  have hlen := hra.2.isForest.length_add_roots (edgeList_inRange hrwf)
  have hroots : (labelRoots g.numVertices r.edgeList).card =
      (labelRoots g.numVertices g.edgeList).card := by
    apply labelRoots_card_eq (hrn ▸ edgeList_inRange hrwf) (edgeList_inRange hg)
    intro u v
    rw [← reach_iff_kconn hrwf, ← reach_iff_kconn hg, hrc]
  rw [hrn, hroots] at hlen
  rw [countEdges_eq, components_ncard hg]
  exact hlen

/-- A spanning forest of `g` in which the end points of every edge `e` of `g` are joined by
edges no heavier than `e` weighs at most as much as any other spanning forest of `g`. -/
theorem IsSpanningForestOf.total_le {r g T : Graph} (hr : r.IsSpanningForestOf g)
    (hbn : ∀ e ∈ g.edgeList,
      KConn (r.edgeList.filter fun k => decide (k.weight ≤ e.weight)) e.src e.dest)
    (hT : T.IsSpanningForestOf g) : calculateTotalWeight r ≤ calculateTotalWeight T := by
  rw [calculateTotalWeight_eq, calculateTotalWeight_eq]
  apply IsForest.weightSum_le hT.2.2.2.1.2.isForest hr.2.2.2.1.2.isForest
    (hT.2.1 ▸ edgeList_inRange hT.1) (hr.2.1 ▸ edgeList_inRange hr.1) (hT.length_eq hr)
  intro e he
  exact hbn e (edgeList_subset_of_mem_adj hT.2.1 hT.2.2.1 e he)

end Graph

namespace Algorithms

open Graph

/-- The result of the main loop of `kruskal` on the sorted edges: a spanning forest that is
light at every threshold. -/
theorem kruskal_loop_full (g : Graph) (hg : g.WF) :
    ∃ r, kruskalLoop (bubbleSort (g.edgeList.length - 1) g.edgeList)
        (UnionFind.new g.numVertices) (emptyGraph g.numVertices) = .ok r ∧
      r.IsSpanningForestOf g ∧
      ∀ e ∈ g.edgeList,
        KConn (r.edgeList.filter fun k => decide (k.weight ≤ e.weight)) e.src e.dest := by
  obtain ⟨r, hk, hwf, hnv, hac, hsub, hbn⟩ := kruskal_loop_core g hg
  refine ⟨r, hk, ⟨hwf, hnv, mem_adj_of_edgeList_subset hwf hg hac.1 hsub, hac, ?_⟩, hbn⟩
  intro u v
  rw [reach_iff_kconn hwf, reach_iff_kconn hg]
  exact kruskal_kconn hsub hbn u v

/-- The result of `kruskal`: a spanning forest that is light at every threshold. -/
theorem kruskal_full (g : Graph) (hg : g.WF) (hn : g.numVertices ≤ 46341)
    (hcap : countEdges g ≤ g.numVertices * (g.numVertices - 1) / 2) :
    ∃ r, kruskal g = .ok r ∧ r.IsSpanningForestOf g ∧
      ∀ e ∈ g.edgeList,
        KConn (r.edgeList.filter fun k => decide (k.weight ≤ e.weight)) e.src e.dest := by
  obtain ⟨r, hk, hrest⟩ := kruskal_loop_full g hg
  exact ⟨r, by rw [kruskal_eq_loop g hg hn hcap]; exact hk, hrest⟩

/-- Whenever `kruskal` returns a graph, it is a spanning forest of the input. -/
theorem kruskal_spanning_of_ok {g r : Graph} (hg : g.WF) (h : kruskal g = .ok r) :
    r.IsSpanningForestOf g := by
  obtain ⟨r1, hk, hsf, _⟩ := kruskal_loop_full g hg
  rw [kruskal_ok_loop hg h] at hk
  injection hk with hk
  rw [hk]
  exact hsf

/-- The result of `prim` on a connected graph whose weights are below `INT_MAX`: a spanning
tree that is light at every threshold. -/
theorem prim_full (g : Graph) (hg : g.WF) (hw : g.WeightsBelowMax) (hc : g.Connected) :
    ∃ r, prim g = .ok r ∧ r.IsSpanningForestOf g ∧ countEdges r = g.numVertices - 1 ∧
      ∀ e ∈ g.edgeList,
        KConn (r.edgeList.filter fun k => decide (k.weight ≤ e.weight)) e.src e.dest := by
  have hn := hg.1
  obtain ⟨pq1, st, time, hins, hloop, hf⟩ := prim_run hg
  obtain ⟨r, hbuild, hrwf, hrn, hperm, hnoloop, hadj⟩ :=
    @primBuild_spec g.numVertices st.key st.parent (List.range' 1 (g.numVertices - 1))
      (emptyGraph g.numVertices) (emptyGraph_wf hn) rfl
      (by
        intro i hi
        rw [List.mem_range'_1] at hi
        refine ⟨by omega, fun hp => ?_⟩
        rcases hf.tree i (by omega) (by omega) with h | ⟨p, hpn, hpar, _, htime, _⟩
        · exact absurd h.1 hp
        · exact ⟨p, hpn, hpar, fun hc => by rw [hc] at htime; omega⟩)
  rw [edgeList_emptyGraph, List.append_nil] at hperm
  have hT := primTree_inRange hf
  have hbnT : ∀ e ∈ g.edgeList,
      KConn ((primTree st.key st.parent (List.range' 1 (g.numVertices - 1))).filter
        fun k => decide (k.weight ≤ e.weight)) e.src e.dest := by
    intro e he
    have hm := mem_edgeList.mp he
    exact prim_bottleneck hg hf hm.2.2 (hw _ hm.1 _ hm.2.2)
  have hbn : ∀ e ∈ g.edgeList,
      KConn (r.edgeList.filter fun k => decide (k.weight ≤ e.weight)) e.src e.dest :=
    fun e he => (KConn.conn_perm (hperm.filter _)).mpr (hbnT e he)
  have hconnT : ∀ v < g.numVertices,
      KConn (primTree st.key st.parent (List.range' 1 (g.numVertices - 1))) 0 v := by
    intro v hv
    have h1 := (reach_iff_kconn hg 0 v).mp (hc 0 hn v hv)
    exact KConn.of_edges (fun e he =>
      KConn.conn_mono (fun _ hk => (List.mem_filter.mp hk).1) (hbnT e he)) h1
  have hroots := labelRoots_card_of_conn hn hT hconnT
  have hge := length_add_roots_ge hT
  have hle := primTree_length_le st.key st.parent (List.range' 1 (g.numVertices - 1))
  rw [List.length_range'] at hle
  have hforest : IsForest (primTree st.key st.parent (List.range' 1 (g.numVertices - 1))) :=
    isForest_of_length_add_roots hT (by omega)
  have hnoloop' : ∀ u, ¬ r.Adj u u := by
    intro u hu
    obtain ⟨e, he, _⟩ := hnoloop u hu
    rw [adj_emptyGraph] at he
    simp at he
  have hsub : ∀ u, ∀ e ∈ r.adj u, e ∈ g.adj u := by
    intro u e he
    rcases hadj u e he with h | ⟨i, hi, p, hpar, h⟩
    · rw [adj_emptyGraph] at h
      simp at h
    · rw [List.mem_range'_1] at hi
      rcases hf.tree i (by omega) (by omega) with h' | ⟨p', _, hpar', hrec, _⟩
      · rw [h'.1] at hpar
        omega
      · have hpp : p' = p := by rw [hpar] at hpar'; omega
        subst hpp
        rcases h with ⟨h1, h2⟩ | ⟨h1, h2⟩
        · rw [h1, h2]; exact hrec
        · rw [h1, h2]; exact mem_adj_symm hg hrec
  refine ⟨r, ?_, ⟨hrwf, hrn, hsub, ⟨hnoloop', KAcyclic.acyclic_perm hperm.symm hforest.kacyclic⟩,
    ?_⟩, ?_, hbn⟩
  · unfold prim
    simp only [getNumVertices, new_eq hn, hins, hloop]
    exact hbuild
  · intro u v
    rw [reach_iff_kconn hrwf, reach_iff_kconn hg]
    constructor
    · exact KConn.conn_mono (edgeList_subset_of_mem_adj hrn hsub)
    · exact KConn.of_edges fun e he =>
        KConn.conn_mono (fun _ hk => (List.mem_filter.mp hk).1) (hbn e he)
  · rw [countEdges_eq, hperm.length_eq]
    omega

end Algorithms

end graph


namespace graph

open Algorithms

namespace Graph

/-- Connectedness of a well-formed graph can be read off its edge list. -/
theorem connected_iff_kconn {g : Graph} (hg : g.WF) :
    g.Connected ↔ ∀ u < g.numVertices, ∀ v < g.numVertices, KConn g.edgeList u v := by
  unfold Connected
  constructor
  · intro h u hu v hv
    exact (reach_iff_kconn hg u v).mp (h u hu v hv)
  · intro h u hu v hv
    exact (reach_iff_kconn hg u v).mpr (h u hu v hv)

end Graph

namespace Algorithms

open Graph

/-- A path on three vertices, `0 - 1 - 2`, with weights 5 and 3. -/
def pathGraph3 : Graph := ⟨3, [[⟨1, 5⟩], [⟨2, 3⟩, ⟨0, 5⟩], [⟨1, 3⟩]]⟩

/-- A triangle on three vertices with weights 5, 3 and 1. -/
def triangleGraph : Graph :=
  ⟨3, [[⟨2, 1⟩, ⟨1, 5⟩], [⟨2, 3⟩, ⟨0, 5⟩], [⟨0, 1⟩, ⟨1, 3⟩]]⟩

/-- Two vertices joined by one edge whose weight is `INT_MAX`. -/
def heavyEdgeGraph : Graph := ⟨2, [[⟨1, 2147483647⟩], [⟨0, 2147483647⟩]]⟩

theorem pathGraph3_spanning : pathGraph3.IsSpanningForestOf pathGraph3 :=
  have hwf : pathGraph3.WF := by decide
  ⟨hwf, rfl, fun _ _ h => h, (acyclic_iff_bounded hwf).mpr (by decide), fun _ _ => Iff.rfl⟩

/-- The graph without edges has no edge to count. -/
theorem countEdges_emptyGraph (n : Nat) : countEdges (emptyGraph n) = 0 := by
  rw [countEdges_eq, edgeList_emptyGraph]
  rfl

/-- The graph without edges is a spanning forest of itself. -/
theorem emptyGraph_spanning {n : Nat} (hn : 0 < n) :
    (emptyGraph n).IsSpanningForestOf (emptyGraph n) := by
  refine ⟨emptyGraph_wf hn, rfl, fun _ _ h => h, ⟨?_, ?_⟩, fun _ _ => Iff.rfl⟩
  · rintro u ⟨e, he, _⟩
    rw [adj_emptyGraph] at he
    simp at he
  · rw [edgeList_emptyGraph]
    intro e he
    simp at he

/-- C1, as stated, fails from 46342 vertices on: the graph with 46342 vertices and no edge,
as the constructor returns it, has no more than `n (n - 1) / 2` edges, yet `kruskal` returns
no graph for it.  The `int` product `46342 * 46341` wraps around to -2147432674, so the size
of the edge buffer is negative and its allocation throws. -/
theorem kruskal_fails_on_46342_vertices :
    Graph.new 46342 = .ok (emptyGraph 46342) ∧ (emptyGraph 46342).WF ∧
      countEdges (emptyGraph 46342) ≤
        (emptyGraph 46342).numVertices * ((emptyGraph 46342).numVertices - 1) / 2 ∧
      wrapInt32 (46342 * (46342 - 1)) = -2147432674 ∧
      kruskal (emptyGraph 46342) = .error (.thrown "std::bad_array_new_length") :=
  ⟨@new_eq 46342 (by decide), emptyGraph_wf (by decide),
    by rw [countEdges_emptyGraph]; exact Nat.zero_le _, by decide,
    kruskal_negative_size _ (emptyGraph_wf (by decide)) (by decide)⟩

/-- C1, amended: for every well-formed graph with at most 46341 vertices, so that the `int`
product `n (n - 1)` does not overflow, whose number of non-self-loop edges is at most
`n (n - 1) / 2`, `kruskal` returns a spanning forest: a graph on the same vertices, made of
records of the input, without a cycle, that connects two vertices exactly when the input
does; it has `n` minus the number of connected components edges, and `n - 1` edges when the
input is connected. -/
theorem kruskal_spanning_forest (g : Graph) (hg : g.WF) (hn : g.numVertices ≤ 46341)
    (hcap : countEdges g ≤ g.numVertices * (g.numVertices - 1) / 2) :
    ∃ r, kruskal g = .ok r ∧ r.IsSpanningForestOf g ∧
      countEdges r + g.components.ncard = g.numVertices ∧
      (g.Connected → countEdges r = g.numVertices - 1) := by
  obtain ⟨r, hk, hsf, _⟩ := kruskal_full g hg hn hcap
  have hcount := hsf.countEdges_add hg
  refine ⟨r, hk, hsf, hcount, ?_⟩
  intro hc
  have h1 := hc.labelRoots_card hg
  rw [components_ncard hg, h1] at hcount
  omega

/-- C1, amended, at the triangle with weights 5, 3 and 1. -/
theorem kruskal_spanning_forest_witness :
    triangleGraph.WF ∧ triangleGraph.numVertices ≤ 46341 ∧
      countEdges triangleGraph ≤
        triangleGraph.numVertices * (triangleGraph.numVertices - 1) / 2 ∧
      triangleGraph.Connected ∧
      ∃ r, kruskal triangleGraph = .ok r ∧ r.IsSpanningForestOf triangleGraph ∧
        countEdges r + triangleGraph.components.ncard = triangleGraph.numVertices ∧
        (triangleGraph.Connected → countEdges r = triangleGraph.numVertices - 1) :=
  have hwf : triangleGraph.WF := by decide
  ⟨hwf, by decide, by decide, (connected_iff_kconn hwf).mpr (by decide),
    kruskal_spanning_forest triangleGraph hwf (by decide) (by decide)⟩

/-- The path `0 - 1 - 2` with the weights 5 and 3 is a spanning tree of the triangle. -/
theorem pathGraph3_spans_triangle : pathGraph3.IsSpanningForestOf triangleGraph := by
  have hp : pathGraph3.WF := by decide
  have ht : triangleGraph.WF := by decide
  have hmem : ∀ u, ∀ e ∈ pathGraph3.adj u, e ∈ triangleGraph.adj u := by
    intro u e he
    have hu : u < 3 := lt_of_mem_adj hp he
    revert e
    revert u
    decide
  refine ⟨hp, rfl, hmem, (acyclic_iff_bounded hp).mpr (by decide), ?_⟩
  intro u v
  constructor
  · intro h
    have hsub : ∀ a b, pathGraph3.Adj a b → triangleGraph.Adj a b := by
      rintro a b ⟨e, he, hb⟩
      exact ⟨e, hmem a e he, hb⟩
    exact Relation.ReflTransGen.mono hsub h
  · intro h
    by_cases hu : u < 3
    · have hv : v < 3 := Reach.lt ht h hu
      rw [reach_iff_kconn hp]
      clear h
      revert hv
      revert v
      revert hu
      revert u
      decide
    · have huv : u = v := by
        cases Relation.ReflTransGen.cases_head h with
        | inl h1 => exact h1
        | inr h1 =>
          obtain ⟨c, ⟨e, he, _⟩, _⟩ := h1
          exact absurd (lt_of_mem_adj ht he) hu
      rw [huv]
      exact Relation.ReflTransGen.refl

/-- C2, as stated, fails from 46342 vertices on: the graph with 50000 vertices and no edge,
as the constructor returns it, has no more than `n (n - 1) / 2` edges and is a spanning
forest of itself, of total weight 0, yet `kruskal` returns no graph, hence no total weight,
for it: the `int` product `50000 * 49999` wraps around to -1795017296, so the size of the
edge buffer is negative and its allocation throws. -/
theorem kruskal_weight_missing_on_50000_vertices :
    Graph.new 50000 = .ok (emptyGraph 50000) ∧ (emptyGraph 50000).WF ∧
      countEdges (emptyGraph 50000) ≤
        (emptyGraph 50000).numVertices * ((emptyGraph 50000).numVertices - 1) / 2 ∧
      (emptyGraph 50000).IsSpanningForestOf (emptyGraph 50000) ∧
      wrapInt32 (50000 * (50000 - 1)) = -1795017296 ∧
      kruskal (emptyGraph 50000) = .error (.thrown "std::bad_array_new_length") :=
  ⟨@new_eq 50000 (by decide), emptyGraph_wf (by decide),
    by rw [countEdges_emptyGraph]; exact Nat.zero_le _, emptyGraph_spanning (by decide),
    by decide, kruskal_negative_size _ (emptyGraph_wf (by decide)) (by decide)⟩

/-- C2, amended: for every well-formed graph with at most 46341 vertices, so that the `int`
product `n (n - 1)` does not overflow, whose number of non-self-loop edges is at most
`n (n - 1) / 2`, the total weight of the result of `kruskal` is at most the total weight of
every spanning forest of the graph. -/
theorem kruskal_minimal (g : Graph) (hg : g.WF) (hn : g.numVertices ≤ 46341)
    (hcap : countEdges g ≤ g.numVertices * (g.numVertices - 1) / 2)
    (T : Graph) (hT : T.IsSpanningForestOf g) :
    ∃ r, kruskal g = .ok r ∧ calculateTotalWeight r ≤ calculateTotalWeight T := by
  obtain ⟨r, hk, hsf, hbn⟩ := kruskal_full g hg hn hcap
  exact ⟨r, hk, hsf.total_le hbn hT⟩

/-- C2, amended, at the triangle with weights 5, 3 and 1, compared with its spanning tree
`0 - 1 - 2` of total weight 8: the result of `kruskal` has the total weight 4. -/
theorem kruskal_minimal_witness :
    triangleGraph.WF ∧ triangleGraph.numVertices ≤ 46341 ∧
      countEdges triangleGraph ≤
        triangleGraph.numVertices * (triangleGraph.numVertices - 1) / 2 ∧
      pathGraph3.IsSpanningForestOf triangleGraph ∧ calculateTotalWeight pathGraph3 = 8 ∧
      (kruskal triangleGraph).map calculateTotalWeight = .ok 4 ∧
      ∃ r, kruskal triangleGraph = .ok r ∧
        calculateTotalWeight r ≤ calculateTotalWeight pathGraph3 :=
  ⟨by decide, by decide, by decide, pathGraph3_spans_triangle, by decide, by rfl,
    kruskal_minimal triangleGraph (by decide) (by decide) (by decide) pathGraph3
      pathGraph3_spans_triangle⟩

/-- C5, as stated, fails for an edge of weight `INT_MAX`: on two vertices joined by such an
edge, which is connected and fits the edge buffer of `kruskal`, `prim` returns the graph
without edges (total weight 0) and `kruskal` returns the edge (total weight `INT_MAX`). -/
theorem prim_kruskal_differ :
    heavyEdgeGraph.WF ∧ heavyEdgeGraph.Connected ∧
      countEdges heavyEdgeGraph ≤
        heavyEdgeGraph.numVertices * (heavyEdgeGraph.numVertices - 1) / 2 ∧
      ¬ ∃ rp rk, prim heavyEdgeGraph = .ok rp ∧ kruskal heavyEdgeGraph = .ok rk ∧
        calculateTotalWeight rp = calculateTotalWeight rk := by
  have hwf : heavyEdgeGraph.WF := by decide
  refine ⟨hwf, (connected_iff_kconn hwf).mpr (by decide), by decide, ?_⟩
  rintro ⟨rp, rk, hp, hk, heq⟩
  have hp' : prim heavyEdgeGraph = .ok ⟨2, [[], []]⟩ := by rfl
  have hk' : kruskal heavyEdgeGraph = .ok heavyEdgeGraph := by rfl
  rw [hp'] at hp
  rw [hk'] at hk
  injection hp with hp
  injection hk with hk
  subst hp; subst hk
  revert heq
  decide

/-- C5, amended: for every connected well-formed graph whose edge weights are all below
`INT_MAX`, with at most 46341 vertices, so that the `int` product `n (n - 1)` does not
overflow, and at most `n (n - 1) / 2` non-self-loop edges, so that they fit the edge buffer
of `kruskal`, the results of `prim` and of `kruskal` have the same total weight. -/
theorem prim_kruskal_equal (g : Graph) (hg : g.WF) (hw : g.WeightsBelowMax)
    (hc : g.Connected) (hn : g.numVertices ≤ 46341)
    (hcap : countEdges g ≤ g.numVertices * (g.numVertices - 1) / 2) :
    ∃ rp rk, prim g = .ok rp ∧ kruskal g = .ok rk ∧
      calculateTotalWeight rp = calculateTotalWeight rk := by
  obtain ⟨rp, hp, hpsf, _, hpbn⟩ := prim_full g hg hw hc
  obtain ⟨rk, hk, hksf, hkbn⟩ := kruskal_full g hg hn hcap
  exact ⟨rp, rk, hp, hk, le_antisymm (hpsf.total_le hpbn hksf) (hksf.total_le hkbn hpsf)⟩

/-- C5, amended, at the triangle with weights 5, 3 and 1. -/
theorem prim_kruskal_equal_witness :
    triangleGraph.WF ∧ triangleGraph.WeightsBelowMax ∧ triangleGraph.Connected ∧
      triangleGraph.numVertices ≤ 46341 ∧
      countEdges triangleGraph ≤
        triangleGraph.numVertices * (triangleGraph.numVertices - 1) / 2 ∧
      ∃ rp rk, prim triangleGraph = .ok rp ∧ kruskal triangleGraph = .ok rk ∧
        calculateTotalWeight rp = calculateTotalWeight rk :=
  have hwf : triangleGraph.WF := by decide
  have hc : triangleGraph.Connected := (connected_iff_kconn hwf).mpr (by decide)
  ⟨hwf, by decide, hc, by decide, by decide,
    prim_kruskal_equal triangleGraph hwf (by decide) hc (by decide) (by decide)⟩

end Algorithms

end graph


namespace graph

open Algorithms

namespace Graph

/-! ## Walks -/

/-- The vertices visited by the walk `p` that starts at `u`. -/
def pathVertices (u : Nat) (p : List Edge) : List Nat := u :: p.map Edge.destination

/-- Every edge weight is non-negative. -/
def NonNegWeights (g : Graph) : Prop :=
  ∀ u < g.numVertices, ∀ e ∈ g.adj u, 0 ≤ e.weight

instance (g : Graph) : Decidable g.NonNegWeights := by
  unfold NonNegWeights
  infer_instance

/-- No path from `s` that visits every vertex at most once has a total weight of `INT_MAX`
or more. -/
def ShortPaths (g : Graph) (s : Nat) : Prop :=
  ∀ p v, g.IsWalk s p v → (pathVertices s p).Nodup → walkWeight p < INT_MAX

/-- All records from one vertex to another carry the same weight. -/
def SingleWeights (g : Graph) : Prop :=
  ∀ u < g.numVertices, ∀ e ∈ g.adj u, ∀ e' ∈ g.adj u,
    e.destination = e'.destination → e.weight = e'.weight

instance (g : Graph) : Decidable g.SingleWeights := by
  unfold SingleWeights
  infer_instance

theorem isWalk_append {g : Graph} {u v x : Nat} {p q : List Edge} (hp : g.IsWalk u p v)
    (hq : g.IsWalk v q x) : g.IsWalk u (p ++ q) x := by
  induction p generalizing u with
  | nil =>
    simp only [IsWalk] at hp
    subst hp
    exact hq
  | cons e p ih =>
    simp only [IsWalk, List.cons_append] at hp ⊢
    exact ⟨hp.1, ih hp.2⟩

theorem isWalk_single {g : Graph} {u : Nat} {e : Edge} (he : e ∈ g.adj u) :
    g.IsWalk u [e] e.destination := ⟨he, rfl⟩

theorem walkWeight_append (p q : List Edge) :
    walkWeight (p ++ q) = walkWeight p + walkWeight q := by
  simp [walkWeight]

theorem walkWeight_single (e : Edge) : walkWeight [e] = e.weight := by
  simp [walkWeight]

theorem pathVertices_snoc (u : Nat) (p : List Edge) (e : Edge) :
    pathVertices u (p ++ [e]) = pathVertices u p ++ [e.destination] := by
  simp [pathVertices]

theorem IsWalk.reach {g : Graph} {u v : Nat} {p : List Edge} (h : g.IsWalk u p v) :
    g.Reach u v := by
  induction p generalizing u with
  | nil =>
    simp only [IsWalk] at h
    subst h
    exact Relation.ReflTransGen.refl
  | cons e p ih =>
    simp only [IsWalk] at h
    exact Relation.ReflTransGen.head ⟨e, h.1, rfl⟩ (ih h.2)

theorem Reach.exists_walk {g : Graph} {u v : Nat} (h : g.Reach u v) :
    ∃ p, g.IsWalk u p v := by
  induction h with
  | refl => exact ⟨[], rfl⟩
  | tail _ hstep ih =>
    obtain ⟨p, hp⟩ := ih
    obtain ⟨e, he, rfl⟩ := hstep
    exact ⟨p ++ [e], isWalk_append hp (isWalk_single he)⟩

end Graph

theorem wrapInt32_eq {x : Int} (h0 : -2147483648 ≤ x) (h1 : x ≤ 2147483647) :
    wrapInt32 x = x := by
  unfold wrapInt32
  omega

namespace Algorithms

open PriorityQueue Graph

/-! ## dijkstra: the loop invariant -/

/-- The invariant of the main loop of `dijkstra` from source `s`.  `time v` is the iteration
in which `v` left the queue, `t` the number of iterations so far, and `D a e` tells which
records of vertices that left the queue have been processed. -/
structure DijkInv (g : Graph) (s : Nat) (st : DijkstraState) (time : Nat → Nat) (t : Nat)
    (D : Nat → Edge → Prop) : Prop where
  heap : st.pq.HeapInv
  cap : st.pq.capacity = g.numVertices
  prio : ∀ v, st.pq.Present v → st.pq.prioOf v = st.distance v
  range : ∀ v, 0 ≤ st.distance v ∧ st.distance v ≤ INT_MAX
  time_lt : ∀ v < g.numVertices, ¬ st.pq.Present v → time v < t
  time_inj : ∀ v < g.numVertices, ∀ v' < g.numVertices, ¬ st.pq.Present v →
    ¬ st.pq.Present v' → time v = time v' → v = v'
  src_parent : st.parent s = -1
  src_dist : st.distance s = 0
  init : st.pq.Present s → t = 0 ∧ ∀ v < g.numVertices,
    st.pq.Present v ∧ (v ≠ s → st.distance v = INT_MAX ∧ st.parent v = -1)
  src_time : ¬ st.pq.Present s → time s = 0
  mono : ∀ u < g.numVertices, ¬ st.pq.Present u → ∀ v < g.numVertices,
    (st.pq.Present v ∨ time u < time v) → st.distance u ≤ st.distance v
  tree : ∀ x < g.numVertices, x ≠ s →
    (st.parent x = -1 ∧ st.distance x = INT_MAX) ∨
      ∃ p < g.numVertices, st.parent x = (p : Int) ∧ ¬ st.pq.Present p ∧
        st.distance p ≠ INT_MAX ∧
        (∃ w, (⟨x, w⟩ : Edge) ∈ g.adj p ∧ st.distance x = st.distance p + w) ∧
        (¬ st.pq.Present x → time p < time x)
  relax : ∀ a < g.numVertices, ¬ st.pq.Present a → st.distance a ≠ INT_MAX →
    ∀ e ∈ g.adj a, D a e →
      st.distance e.destination ≤ st.distance a + e.weight ∧
        st.distance e.destination ≠ INT_MAX

/-- The vertex `u` is the last one that left the queue. -/
def DLatest (g : Graph) (st : DijkstraState) (time : Nat → Nat) (u : Nat) : Prop :=
  u < g.numVertices ∧ ¬ st.pq.Present u ∧
    ∀ z < g.numVertices, ¬ st.pq.Present z → time z ≤ time u

theorem DijkInv.weaken_done {g : Graph} {s : Nat} {st : DijkstraState} {time : Nat → Nat}
    {t : Nat} {D D' : Nat → Edge → Prop} (h : DijkInv g s st time t D)
    (hD : ∀ a e, e ∈ g.adj a → D' a e → D a e) : DijkInv g s st time t D' :=
  ⟨h.heap, h.cap, h.prio, h.range, h.time_lt, h.time_inj, h.src_parent, h.src_dist, h.init,
    h.src_time, h.mono, h.tree,
    fun a ha hna hfin e he hd => h.relax a ha hna hfin e he (hD a e he hd)⟩

theorem DijkInv.lt_of_present {g : Graph} {s : Nat} {st : DijkstraState} {time : Nat → Nat}
    {t : Nat} {D : Nat → Edge → Prop} (h : DijkInv g s st time t D) {v : Nat}
    (hv : st.pq.Present v) : v < g.numVertices := h.cap ▸ h.heap.1.present_lt hv

theorem dijkInv_init (g : Graph) {s : Nat} (pq : PriorityQueue)
    (hinv : pq.HeapInv) (hcap : pq.capacity = g.numVertices)
    (hpres : ∀ v, pq.Present v ↔ v < g.numVertices)
    (hprio : ∀ v < g.numVertices,
      pq.prioOf v = Function.update (fun _ => INT_MAX) s 0 v) :
    DijkInv g s ⟨Function.update (fun _ => INT_MAX) s 0, fun _ => -1, pq⟩ (fun _ => 0) 0
      (fun _ _ => True) := by
  have hd : ∀ v, v ≠ s → Function.update (fun _ => INT_MAX) s (0 : Int) v = INT_MAX :=
    fun v hv => Function.update_noteq hv _ _
  refine ⟨hinv, hcap, ?_, ?_, ?_, ?_, rfl, ?_, ?_, ?_, ?_, ?_, ?_⟩
  · intro v hv
    exact hprio v ((hpres v).mp hv)
  · intro v
    show 0 ≤ Function.update (fun _ => INT_MAX) s (0 : Int) v ∧
      Function.update (fun _ => INT_MAX) s (0 : Int) v ≤ INT_MAX
    by_cases hvs : v = s
    · rw [hvs, Function.update_same]
      simp [INT_MAX]
    · rw [hd v hvs]
      simp [INT_MAX]
  · intro v hv hnp
    exact absurd ((hpres v).mpr hv) hnp
  · intro v hv _ _ hnp
    exact absurd ((hpres v).mpr hv) hnp
  · show Function.update (fun _ => INT_MAX) s (0 : Int) s = 0
    rw [Function.update_same]
  · intro _
    exact ⟨rfl, fun v hv => ⟨(hpres v).mpr hv, fun hvs => ⟨hd v hvs, rfl⟩⟩⟩
  · intro _
    rfl
  · intro u hu hnp
    exact absurd ((hpres u).mpr hu) hnp
  · intro x _ hxs
    exact Or.inl ⟨rfl, hd x hxs⟩
  · intro a ha hnp
    exact absurd ((hpres a).mpr ha) hnp

end Algorithms

end graph


namespace graph

namespace Algorithms

open PriorityQueue Graph

/-- The invariant after `extractMin` has removed `u`, before any record of `u` is
processed. -/
theorem dijkInv_extract {g : Graph} {s : Nat} {st : DijkstraState} {time : Nat → Nat}
    {t : Nat} (h : DijkInv g s st time t (fun _ _ => True)) {u : Nat} {pq' : PriorityQueue}
    (hx : ExtractPost st.pq u pq') :
    DijkInv g s { st with pq := pq' } (Function.update time u t) (t + 1)
        (fun a e => a ≠ u ∨ e ∈ ([] : List Edge)) ∧
      DLatest g { st with pq := pq' } (Function.update time u t) u := by
  have hPu : st.pq.Present u := hx.present_min
  have hun : u < g.numVertices := h.lt_of_present hPu
  have hnP : ∀ w, ¬ pq'.Present w → w ≠ u → ¬ st.pq.Present w :=
    fun w hw hwu hc => hw ((hx.present_iff w).mpr ⟨hc, hwu⟩)
  have hnP' : ∀ w, ¬ st.pq.Present w → ¬ pq'.Present w :=
    fun w hw hc => hw ((hx.present_iff w).mp hc).1
  have hne : ∀ w, ¬ st.pq.Present w → w ≠ u := fun w hw hc => hw (hc ▸ hPu)
  have hmin : ∀ w, st.pq.Present w → st.distance u ≤ st.distance w := by
    intro w hw
    rw [← h.prio u hPu, ← h.prio w hw]
    exact hx.min_le w hw
  have htu : Function.update time u t u = t := Function.update_same _ _ _
  have htne : ∀ w, w ≠ u → Function.update time u t w = time w :=
    fun w hw => Function.update_noteq hw _ _
  refine ⟨⟨hx.inv, hx.capacity_eq.trans h.cap, ?_, h.range, ?_, ?_, h.src_parent, h.src_dist,
    ?_, ?_, ?_, ?_, ?_⟩, hun, ?_, ?_⟩
  · intro v hv
    have := (hx.present_iff v).mp hv
    show pq'.prioOf v = st.distance v
    rw [hx.prio_old v this.1 this.2, h.prio v this.1]
  · intro v hv hnp
    by_cases hvu : v = u
    · rw [hvu, htu]; omega
    · rw [htne v hvu]
      have := h.time_lt v hv (hnP v hnp hvu)
      omega
  · intro v hv v' hv' hnp hnp' heq
    by_cases hvu : v = u <;> by_cases hvu' : v' = u
    · rw [hvu, hvu']
    · rw [hvu, htu, htne v' hvu'] at heq
      have := h.time_lt v' hv' (hnP v' hnp' hvu')
      omega
    · rw [hvu', htu, htne v hvu] at heq
      have := h.time_lt v hv (hnP v hnp hvu)
      omega
    · rw [htne v hvu, htne v' hvu'] at heq
      exact h.time_inj v hv v' hv' (hnP v hnp hvu) (hnP v' hnp' hvu') heq
  · intro h0
    exfalso
    have h0' := (hx.present_iff s).mp h0
    have hinit := (h.init h0'.1).2 u hun
    have hk := (hinit.2 (Ne.symm h0'.2)).1
    have := hmin s h0'.1
    rw [hk, h.src_dist] at this
    simp [INT_MAX] at this
  · intro h0
    by_cases h0u : s = u
    · rw [← h0u] at hPu ⊢
      rw [Function.update_same]
      exact (h.init hPu).1
    · rw [htne s h0u]
      exact h.src_time (hnP s h0 h0u)
  · intro a ha hna v hv hor
    show st.distance a ≤ st.distance v
    by_cases hau : a = u
    · rw [hau] at hor ⊢
      by_cases hpv : st.pq.Present v
      · exact hmin v hpv
      · exfalso
        have hvu : v ≠ u := hne v hpv
        rw [htu, htne v hvu] at hor
        have := h.time_lt v hv hpv
        rcases hor with hp | hlt
        · exact hpv ((hx.present_iff v).mp hp).1
        · omega
    · have hna' := hnP a hna hau
      rw [htne a hau] at hor
      by_cases hvu : v = u
      · rw [hvu]
        exact h.mono a ha hna' u hun (Or.inl hPu)
      · rw [htne v hvu] at hor
        rcases hor with hp | hlt
        · exact h.mono a ha hna' v hv (Or.inl ((hx.present_iff v).mp hp).1)
        · exact h.mono a ha hna' v hv (Or.inr hlt)
  · intro x hx' hxs
    rcases h.tree x hx' hxs with hl | ⟨p, hp, hpar, hnp, hfin, hrec, htime⟩
    · exact Or.inl hl
    · right
      have hpu : p ≠ u := hne p hnp
      refine ⟨p, hp, hpar, hnP' p hnp, hfin, hrec, ?_⟩
      intro hnx
      rw [htne p hpu]
      by_cases hxu : x = u
      · rw [hxu, htu]
        exact h.time_lt p hp hnp
      · rw [htne x hxu]
        exact htime (hnP x hnx hxu)
  · intro a ha hna hfin e he hD
    have hau : a ≠ u := by
      rcases hD with h | h
      · exact h
      · simp at h
    exact h.relax a ha (hnP a hna hau) hfin e he trivial
  · show ¬ pq'.Present u
    intro hc
    exact ((hx.present_iff u).mp hc).2 rfl
  · intro z hz hnz
    rw [htu]
    by_cases hzu : z = u
    · rw [hzu, htu]
    · rw [htne z hzu]
      have := h.time_lt z hz (hnP z hnz hzu)
      omega

end Algorithms

end graph


namespace graph

namespace Algorithms

open PriorityQueue Graph

/-- Every vertex that left the queue with a finite distance is the end of a path from the
source, through vertices that left the queue earlier, whose weight is that distance. -/
theorem DijkInv.path_of_extracted {g : Graph} {s : Nat} {st : DijkstraState}
    {time : Nat → Nat} {t : Nat} {D : Nat → Edge → Prop} (h : DijkInv g s st time t D)
    (N : Nat) :
    ∀ u < g.numVertices, ¬ st.pq.Present u → time u ≤ N → st.distance u ≠ INT_MAX →
      ∃ q, g.IsWalk s q u ∧ walkWeight q = st.distance u ∧
        (∀ x ∈ pathVertices s q, ¬ st.pq.Present x ∧ time x ≤ time u) ∧
        (pathVertices s q).Nodup := by
  induction N with
  | zero =>
    intro u hu hnp htime hfin
    by_cases hus : u = s
    · subst hus
      refine ⟨[], rfl, by simp [walkWeight, h.src_dist], ?_, by simp [pathVertices]⟩
      intro x hx
      simp only [pathVertices, List.map_nil, List.mem_singleton] at hx
      subst hx
      exact ⟨hnp, le_refl _⟩
    · rcases h.tree u hu hus with hl | ⟨p, _, _, _, _, _, hpt⟩
      · exact absurd hl.2 hfin
      · have := hpt hnp
        omega
  | succ N ih =>
    intro u hu hnp htime hfin
    by_cases hus : u = s
    · subst hus
      refine ⟨[], rfl, by simp [walkWeight, h.src_dist], ?_, by simp [pathVertices]⟩
      intro x hx
      simp only [pathVertices, List.map_nil, List.mem_singleton] at hx
      subst hx
      exact ⟨hnp, le_refl _⟩
    · rcases h.tree u hu hus with hl | ⟨p, hp, _, hnpp, hpfin, ⟨w, hrec, hdist⟩, hpt⟩
      · exact absurd hl.2 hfin
      · have hlt := hpt hnp
        obtain ⟨q, hwalk, hweight, hvert, hnd⟩ := ih p hp hnpp (by omega) hpfin
        refine ⟨q ++ [⟨u, w⟩], isWalk_append hwalk (isWalk_single hrec), ?_, ?_, ?_⟩
        · rw [walkWeight_append, walkWeight_single, hweight, hdist]
        · intro x hx
          rw [pathVertices_snoc, List.mem_append, List.mem_singleton] at hx
          rcases hx with hx | hx
          · have := hvert x hx
            exact ⟨this.1, by omega⟩
          · subst hx
            exact ⟨hnp, le_refl _⟩
        · rw [pathVertices_snoc]
          apply List.Nodup.append hnd (List.nodup_singleton _)
          intro x hx hx'
          rw [List.mem_singleton] at hx'
          subst hx'
          have := (hvert _ hx).2
          omega

/-- The sum computed by the relaxation of a record towards a queued vertex is the weight of a
path, hence an `int` below `INT_MAX`. -/
theorem DijkInv.sum_bound {g : Graph} {s : Nat} {st : DijkstraState}
    {time : Nat → Nat} {t : Nat} {D : Nat → Edge → Prop} (h : DijkInv g s st time t D)
    (hnn : g.NonNegWeights) (hsp : g.ShortPaths s) {u : Nat} (hl : DLatest g st time u)
    {e : Edge} (he : e ∈ g.adj u) (hP : st.pq.Present e.destination)
    (hfin : st.distance u ≠ INT_MAX) :
    0 ≤ st.distance u + e.weight ∧ st.distance u + e.weight < INT_MAX := by
  constructor
  · have := (h.range u).1
    have := hnn u hl.1 e he
    omega
  · obtain ⟨q, hwalk, hweight, hvert, hnd⟩ :=
      h.path_of_extracted (time u) u hl.1 hl.2.1 (le_refl _) hfin
    have := hsp (q ++ [e]) e.destination (isWalk_append hwalk (isWalk_single he))
      (by
        rw [pathVertices_snoc]
        apply List.Nodup.append hnd (List.nodup_singleton _)
        intro x hx hx'
        rw [List.mem_singleton] at hx'
        subst hx'
        exact (hvert _ hx).1 hP)
    rw [walkWeight_append, walkWeight_single, hweight] at this
    exact this

theorem DLatest.not_present_src {g : Graph} {s : Nat} {st : DijkstraState}
    {time : Nat → Nat} {t : Nat} {D : Nat → Edge → Prop} {u : Nat}
    (hl : DLatest g st time u) (h : DijkInv g s st time t D) : ¬ st.pq.Present s :=
  fun h0 => hl.2.1 ((h.init h0).2 u hl.1).1

theorem DLatest.dist_le {g : Graph} {s : Nat} {st : DijkstraState}
    {time : Nat → Nat} {t : Nat} {D : Nat → Edge → Prop} {u : Nat}
    (hl : DLatest g st time u) (h : DijkInv g s st time t D) {a : Nat}
    (ha : a < g.numVertices) (hna : ¬ st.pq.Present a) : st.distance a ≤ st.distance u := by
  by_cases hau : a = u
  · rw [hau]
  · apply h.mono a ha hna u hl.1
    right
    have h1 := hl.2.2 a ha hna
    have h2 : time a ≠ time u := fun hc => hau (h.time_inj a ha u hl.1 hna hl.2.1 hc)
    omega

/-- Processing one record of `u` that lowers the distance of its destination. -/
theorem dijkInv_update {g : Graph} {s : Nat} {st : DijkstraState} {time : Nat → Nat} {t : Nat}
    {u : Nat} {done : List Edge} (hnn : g.NonNegWeights) (hsp : g.ShortPaths s)
    (h : DijkInv g s st time t (fun a e => a ≠ u ∨ e ∈ done))
    (hl : DLatest g st time u) {e : Edge} (he : e ∈ g.adj u)
    (hP : st.pq.Present e.destination) (hfin : st.distance u ≠ INT_MAX)
    (hlt : st.distance u + e.weight < st.distance e.destination)
    {pq' : PriorityQueue}
    (hd : DecreasePost st.pq e.destination (st.distance u + e.weight) pq') :
    DijkInv g s ⟨Function.update st.distance e.destination (st.distance u + e.weight),
        Function.update st.parent e.destination (u : Int), pq'⟩ time t
        (fun a e' => a ≠ u ∨ e' ∈ done ++ [e]) ∧
      DLatest g ⟨Function.update st.distance e.destination (st.distance u + e.weight),
        Function.update st.parent e.destination (u : Int), pq'⟩ time u := by
  have hs : ¬ st.pq.Present s := hl.not_present_src h
  have hvs : e.destination ≠ s := fun hc => hs (hc ▸ hP)
  have hP' : ∀ w, pq'.Present w ↔ st.pq.Present w := hd.present_iff
  have hbound := h.sum_bound hnn hsp hl he hP hfin
  have hwn := hnn u hl.1 e he
  have hkz : ∀ z, ¬ st.pq.Present z →
      Function.update st.distance e.destination (st.distance u + e.weight) z =
        st.distance z :=
    fun z hz => Function.update_noteq
      (fun hc : z = e.destination => hz (by rw [hc]; exact hP)) _ _
  have hle : ∀ z, Function.update st.distance e.destination (st.distance u + e.weight) z ≤
      st.distance z := by
    intro z
    by_cases hz : z = e.destination
    · rw [hz, Function.update_same]; omega
    · rw [Function.update_noteq hz]
  refine ⟨⟨hd.inv, hd.capacity_eq.trans h.cap, ?_, ?_, ?_, ?_, ?_, ?_, ?_, ?_, ?_, ?_, ?_⟩,
    hl.1, fun hc => hl.2.1 ((hP' u).mp hc),
    fun z hz hnz => hl.2.2 z hz (fun hc => hnz ((hP' z).mpr hc))⟩
  · intro v hv
    show pq'.prioOf v = Function.update st.distance e.destination _ v
    by_cases hve : v = e.destination
    · rw [hve, Function.update_same, hd.prio_new]
    · rw [Function.update_noteq hve, hd.prio_old v ((hP' v).mp hv) hve, h.prio v ((hP' v).mp hv)]
  · intro v
    show 0 ≤ Function.update st.distance e.destination _ v ∧
      Function.update st.distance e.destination _ v ≤ INT_MAX
    by_cases hve : v = e.destination
    · rw [hve, Function.update_same]
      omega
    · rw [Function.update_noteq hve]
      exact h.range v
  · intro v hv hnp
    exact h.time_lt v hv (fun hc => hnp ((hP' v).mpr hc))
  · intro v hv v' hv' hnp hnp'
    exact h.time_inj v hv v' hv' (fun hc => hnp ((hP' v).mpr hc))
      (fun hc => hnp' ((hP' v').mpr hc))
  · show Function.update st.parent e.destination (u : Int) s = -1
    rw [Function.update_noteq (Ne.symm hvs)]
    exact h.src_parent
  · show Function.update st.distance e.destination _ s = 0
    rw [Function.update_noteq (Ne.symm hvs)]
    exact h.src_dist
  · intro hc
    exact absurd ((hP' s).mp hc) hs
  · intro _
    exact h.src_time hs
  · intro a ha hna v hv hor
    have hna' : ¬ st.pq.Present a := fun hc => hna ((hP' a).mpr hc)
    show Function.update st.distance e.destination _ a ≤
      Function.update st.distance e.destination _ v
    rw [hkz a hna']
    by_cases hve : v = e.destination
    · rw [hve, Function.update_same]
      have := hl.dist_le h ha hna'
      omega
    · rw [Function.update_noteq hve]
      apply h.mono a ha hna' v hv
      rcases hor with hp | hlt'
      · exact Or.inl ((hP' v).mp hp)
      · exact Or.inr hlt'
  · intro x hx hxs
    show (Function.update st.parent e.destination (u : Int) x = -1 ∧
        Function.update st.distance e.destination _ x = INT_MAX) ∨
      ∃ p < g.numVertices, Function.update st.parent e.destination (u : Int) x = (p : Int) ∧
        ¬ pq'.Present p ∧ Function.update st.distance e.destination _ p ≠ INT_MAX ∧
        (∃ w, (⟨x, w⟩ : Edge) ∈ g.adj p ∧
          Function.update st.distance e.destination _ x =
            Function.update st.distance e.destination _ p + w) ∧
        (¬ pq'.Present x → time p < time x)
    by_cases hxe : x = e.destination
    · right
      subst hxe
      refine ⟨u, hl.1, Function.update_same _ _ _, fun hc => hl.2.1 ((hP' u).mp hc), ?_,
        ⟨e.weight, he, ?_⟩, fun hc => absurd ((hP' _).mpr hP) hc⟩
      · rw [hkz u hl.2.1]; exact hfin
      · rw [Function.update_same, hkz u hl.2.1]
    · rw [Function.update_noteq hxe, Function.update_noteq hxe]
      rcases h.tree x hx hxs with hleft | ⟨p, hp, hpar, hnp, hpfin, hrec, htime⟩
      · exact Or.inl hleft
      · right
        refine ⟨p, hp, hpar, fun hc => hnp ((hP' p).mp hc), ?_, ?_,
          fun hc => htime (fun hc' => hc ((hP' x).mpr hc'))⟩
        · rw [hkz p hnp]; exact hpfin
        · rw [hkz p hnp]; exact hrec
  · intro a ha hna hafin e' he' hD
    have hna' : ¬ st.pq.Present a := fun hc => hna ((hP' a).mpr hc)
    show Function.update st.distance e.destination _ e'.destination ≤
        Function.update st.distance e.destination _ a + e'.weight ∧
      Function.update st.distance e.destination _ e'.destination ≠ INT_MAX
    have hafin' : st.distance a ≠ INT_MAX := by
      have : Function.update st.distance e.destination (st.distance u + e.weight) a ≠
          INT_MAX := hafin
      rwa [hkz a hna'] at this
    rw [hkz a hna']
    have hold_or : (a ≠ u ∨ e' ∈ done) ∨ (a = u ∧ e' = e) := by
      rcases hD with h1 | h1
      · exact Or.inl (Or.inl h1)
      · rcases List.mem_append.mp h1 with h2 | h2
        · exact Or.inl (Or.inr h2)
        · by_cases hau : a = u
          · exact Or.inr ⟨hau, by simpa using h2⟩
          · exact Or.inl (Or.inl hau)
    rcases hold_or with hDold | ⟨hau, hee⟩
    · have hold := h.relax a ha hna' hafin' e' he' hDold
      have h1 := hle e'.destination
      have h2 := (h.range e'.destination).2
      constructor
      · omega
      · omega
    · subst hau; subst hee
      rw [Function.update_same]
      constructor
      · exact le_refl _
      · omega

/-- Processing one record of `u` that changes nothing. -/
theorem dijkInv_skip {g : Graph} (hg : g.WF) {s : Nat} {st : DijkstraState}
    {time : Nat → Nat} {t : Nat}
    {u : Nat} {done : List Edge} (hnn : g.NonNegWeights)
    (h : DijkInv g s st time t (fun a e => a ≠ u ∨ e ∈ done))
    (hl : DLatest g st time u) {e : Edge} (he : e ∈ g.adj u)
    (hc : st.distance u ≠ INT_MAX → st.pq.Present e.destination →
      ¬ st.distance u + e.weight < st.distance e.destination)
    (hb : st.distance u ≠ INT_MAX → st.pq.Present e.destination →
      st.distance u + e.weight < INT_MAX) :
    DijkInv g s st time t (fun a e' => a ≠ u ∨ e' ∈ done ++ [e]) := by
  refine ⟨h.heap, h.cap, h.prio, h.range, h.time_lt, h.time_inj, h.src_parent, h.src_dist,
    h.init, h.src_time, h.mono, h.tree, ?_⟩
  intro a ha hna hafin e' he' hD
  have hold_or : (a ≠ u ∨ e' ∈ done) ∨ (a = u ∧ e' = e) := by
    rcases hD with h1 | h1
    · exact Or.inl (Or.inl h1)
    · rcases List.mem_append.mp h1 with h2 | h2
      · exact Or.inl (Or.inr h2)
      · by_cases hau : a = u
        · exact Or.inr ⟨hau, by simpa using h2⟩
        · exact Or.inl (Or.inl hau)
  rcases hold_or with hDold | ⟨hau, hee⟩
  · exact h.relax a ha hna hafin e' he' hDold
  · subst hau; subst hee
    have hwn := hnn a ha e' he'
    by_cases hP : st.pq.Present e'.destination
    · have h1 := hc hafin hP
      have h2 := hb hafin hP
      constructor <;> omega
    · have h1 := hl.dist_le h (dest_lt hg he') hP
      have h2 := (h.range a).2
      constructor <;> omega

end Algorithms

end graph


namespace graph

namespace Algorithms

open PriorityQueue Graph

theorem dijkstraEdges_spec {g : Graph} (hg : g.WF) {s : Nat} (hnn : g.NonNegWeights)
    (hsp : g.ShortPaths s) {time : Nat → Nat} {t : Nat} {u : Nat} (pending : List Edge) :
    ∀ (done : List Edge) (st : DijkstraState), (∀ e ∈ pending, e ∈ g.adj u) →
      DijkInv g s st time t (fun a e => a ≠ u ∨ e ∈ done) → DLatest g st time u →
      ∃ st', dijkstraEdges u pending st = .ok st' ∧
        DijkInv g s st' time t (fun a e => a ≠ u ∨ e ∈ done ++ pending) ∧
        DLatest g st' time u ∧ st'.pq.heapSize = st.pq.heapSize := by
  induction pending with
  | nil =>
    intro done st _ h hl
    exact ⟨st, rfl, by simpa using h, hl, rfl⟩
  | cons e pending ih =>
    intro done st hp h hl
    have he := hp e (List.mem_cons_self _ _)
    have hp' : ∀ e' ∈ pending, e' ∈ g.adj u := fun e' h' => hp e' (List.mem_cons_of_mem _ h')
    have happ : done ++ e :: pending = (done ++ [e]) ++ pending := by simp
    have hwrap : st.distance u ≠ INT_MAX → st.pq.Present e.destination →
        wrapInt32 (st.distance u + e.weight) = st.distance u + e.weight := by
      intro hfin hP
      have hb := h.sum_bound hnn hsp hl he hP hfin
      apply wrapInt32_eq
      · omega
      · have := hb.2
        simp only [INT_MAX] at this
        omega
    rw [dijkstraEdges, happ]
    by_cases hc : st.pq.inQueue e.destination = true ∧ st.distance u ≠ INT_MAX ∧
        wrapInt32 (st.distance u + e.weight) < st.distance e.destination
    · rw [if_pos hc]
      have hP : st.pq.Present e.destination := (inQueue_iff _ _).mp hc.1
      have hw := hwrap hc.2.1 hP
      have hlt : st.distance u + e.weight < st.distance e.destination := by
        rw [← hw]; exact hc.2.2
      obtain ⟨pq', hdk, hd⟩ := decreaseKey_spec h.heap hP
        (show st.distance u + e.weight ≤ st.pq.prioOf e.destination by
          rw [h.prio _ hP]; omega)
      simp only [Function.update_same, hw]
      rw [hdk]
      obtain ⟨h', hl'⟩ := dijkInv_update hnn hsp h hl he hP hc.2.1 hlt hd
      obtain ⟨st', he', h2, hl2, hsz⟩ := ih (done ++ [e]) _ hp' h' hl'
      exact ⟨st', he', h2, hl2, hsz.trans hd.heapSize_eq⟩
    · rw [if_neg hc]
      apply ih (done ++ [e]) st hp' _ hl
      apply dijkInv_skip hg hnn h hl he
      · intro hfin hP hlt
        apply hc
        refine ⟨(inQueue_iff _ _).mpr hP, hfin, ?_⟩
        rw [hwrap hfin hP]
        exact hlt
      · intro hfin hP
        exact (h.sum_bound hnn hsp hl he hP hfin).2

theorem dijkstraLoop_spec {g : Graph} (hg : g.WF) {s : Nat} (hnn : g.NonNegWeights)
    (hsp : g.ShortPaths s) (fuel : Nat) :
    ∀ (st : DijkstraState) (time : Nat → Nat) (t : Nat),
      DijkInv g s st time t (fun _ _ => True) → st.pq.heapSize ≤ fuel →
      ∃ st' time' t', dijkstraLoop g fuel st = .ok st' ∧
        DijkInv g s st' time' t' (fun _ _ => True) ∧ st'.pq.heapSize = 0 := by
  induction fuel with
  | zero =>
    intro st time t h hf
    refine ⟨st, time, t, ?_, h, by omega⟩
    rw [dijkstraLoop, if_pos (by simp [isEmpty]; omega)]
  | succ fuel ih =>
    intro st time t h hf
    rw [dijkstraLoop]
    by_cases hz : st.pq.heapSize = 0
    · rw [if_pos (by simp [isEmpty, hz])]
      exact ⟨st, time, t, rfl, h, hz⟩
    · rw [if_neg (by simp [isEmpty, hz])]
      obtain ⟨u, pq', hex, hx⟩ := extractMin_spec h.heap hz
      rw [hex]
      obtain ⟨h1, hl1⟩ := dijkInv_extract h hx
      have hun := hl1.1
      simp only []
      rw [Graph.getAdjList_eq hun]
      obtain ⟨st', he, h2, _, h3⟩ := dijkstraEdges_spec hg hnn hsp (g.adj u) []
        { st with pq := pq' } (fun e he => he) h1 hl1
      simp only []
      rw [he]
      simp only []
      have hsz : st'.pq.heapSize ≤ fuel := by
        have h4 : st'.pq.heapSize = pq'.heapSize := h3
        have := hx.heapSize_eq
        omega
      exact ih st' (Function.update time u t) (t + 1)
        (h2.weaken_done (fun a e he _ => by
          by_cases hau : a = u
          · right
            rw [hau] at he
            simpa using he
          · exact Or.inl hau)) hsz

/-- The facts about the arrays `distance` and `parent` when the main loop of `dijkstra` from
source `s` ends; `time v` is the iteration in which `v` left the queue. -/
structure DijkFinal (g : Graph) (s : Nat) (distance : Nat → Int) (parent : Nat → Int)
    (time : Nat → Nat) : Prop where
  range : ∀ v, 0 ≤ distance v ∧ distance v ≤ INT_MAX
  src_parent : parent s = -1
  src_dist : distance s = 0
  tree : ∀ x < g.numVertices, x ≠ s →
    (parent x = -1 ∧ distance x = INT_MAX) ∨
      ∃ p < g.numVertices, parent x = (p : Int) ∧ distance p ≠ INT_MAX ∧
        (∃ w, (⟨x, w⟩ : Edge) ∈ g.adj p ∧ distance x = distance p + w) ∧ time p < time x
  relax : ∀ a < g.numVertices, distance a ≠ INT_MAX → ∀ e ∈ g.adj a,
    distance e.destination ≤ distance a + e.weight ∧ distance e.destination ≠ INT_MAX

theorem dijkstra_run {g : Graph} (hg : g.WF) {s : Nat}
    (hnn : g.NonNegWeights) (hsp : g.ShortPaths s) :
    ∃ pq1 st time,
      insertAll (Function.update (fun _ => INT_MAX) s 0) (List.range g.numVertices)
        (PriorityQueue.new g.numVertices) = .ok pq1 ∧
      dijkstraLoop g g.numVertices ⟨Function.update (fun _ => INT_MAX) s 0, fun _ => -1, pq1⟩ =
        .ok st ∧
      DijkFinal g s st.distance st.parent time := by
  obtain ⟨pq1, hins, hinv, hcap, hsz, hpres, hprio⟩ :=
    insertAll_range (Function.update (fun _ => INT_MAX) s 0) g.numVertices
  have h0 := dijkInv_init g pq1 hinv hcap hpres hprio
  obtain ⟨st, time, t, hloop, hfin, hempty⟩ := dijkstraLoop_spec hg hnn hsp g.numVertices _ _ _
    h0 (by show pq1.heapSize ≤ _; omega)
  have hnp : ∀ v, ¬ st.pq.Present v := HeapInv.no_present_of_empty hfin.heap hempty
  refine ⟨pq1, st, time, hins, hloop, hfin.range, hfin.src_parent, hfin.src_dist, ?_, ?_⟩
  · intro x hx hxs
    rcases hfin.tree x hx hxs with h | ⟨p, hp, hpar, _, hpfin, hrec, htime⟩
    · exact Or.inl h
    · exact Or.inr ⟨p, hp, hpar, hpfin, hrec, htime (hnp x)⟩
  · intro a ha hafin e he
    exact hfin.relax a ha (hnp a) hafin e he trivial

end Algorithms

end graph


namespace graph

namespace Algorithms

open PriorityQueue Graph

/-! ## dijkstra: the tree built from `parent` -/

theorem lookupWeight_mem {i : Nat} {chain : List Edge} (h : ∃ e ∈ chain, e.destination = i) :
    (⟨i, lookupWeight i chain⟩ : Edge) ∈ chain := by
  induction chain with
  | nil => obtain ⟨e, he, _⟩ := h; simp at he
  | cons a chain ih =>
    rw [lookupWeight]
    by_cases ha : a.destination = i
    · rw [if_pos ha]
      have : (⟨i, a.weight⟩ : Edge) = a := by rw [← ha]
      rw [this]
      exact List.mem_cons_self _ _
    · rw [if_neg ha]
      obtain ⟨e, he, hei⟩ := h
      rcases List.mem_cons.mp he with rfl | he
      · exact absurd hei ha
      · exact List.mem_cons_of_mem _ (ih ⟨e, he, hei⟩)

/-- The weight `dijkstra` gives to the tree edge of vertex `i`. -/
def treeWeight (g : Graph) (parent : Nat → Int) (i : Nat) : Int :=
  lookupWeight i (g.adj (parent i).toNat)

/-- The edges that the last loop of `dijkstra` adds for the vertices of `l`. -/
def dijkTree (g : Graph) (s : Nat) (parent : Nat → Int) (l : List Nat) : List KEdge :=
  l.filterMap fun i =>
    if i ≠ s ∧ parent i ≠ -1 then some (normEdge (parent i).toNat i (treeWeight g parent i))
    else none

theorem dijkstraBuild_spec (g : Graph) (s : Nat) (parent : Nat → Int) (l : List Nat) :
    ∀ (result : Graph), result.WF → result.numVertices = g.numVertices →
      (∀ i ∈ l, i < g.numVertices ∧
        (i ≠ s → parent i ≠ -1 → ∃ p < g.numVertices, parent i = (p : Int) ∧ p ≠ i)) →
      ∃ r, dijkstraBuild g s parent l result = .ok r ∧ r.WF ∧
        r.numVertices = g.numVertices ∧
        r.edgeList.Perm (dijkTree g s parent l ++ result.edgeList) ∧
        (∀ u, r.Adj u u → result.Adj u u) ∧
        ∀ x e, e ∈ r.adj x ↔ e ∈ result.adj x ∨
          ∃ i ∈ l, i ≠ s ∧ ∃ p : Nat, parent i = (p : Int) ∧
            ((x = p ∧ e = ⟨i, treeWeight g parent i⟩) ∨
              (x = i ∧ e = ⟨p, treeWeight g parent i⟩)) := by
  induction l with
  | nil =>
    intro result hwf hn _
    refine ⟨result, rfl, hwf, hn, by simp [dijkTree], fun _ h => h, fun x e => ?_⟩
    simp
  | cons i l ih =>
    intro result hwf hn hl
    have hi := hl i (List.mem_cons_self _ _)
    have hl' : ∀ j ∈ l, j < g.numVertices ∧
        (j ≠ s → parent j ≠ -1 → ∃ p < g.numVertices, parent j = (p : Int) ∧ p ≠ j) :=
      fun j hj => hl j (List.mem_cons_of_mem _ hj)
    rw [dijkstraBuild]
    by_cases hc : i ≠ s ∧ parent i ≠ -1
    · rw [if_pos hc]
      obtain ⟨p, hpn, hpar, hpi⟩ := hi.2 hc.1 hc.2
      have hpn' : p < result.numVertices := by rw [hn]; exact hpn
      have hin' : i < result.numVertices := by rw [hn]; exact hi.1
      have htw : treeWeight g parent i = lookupWeight i (g.adj p) := by
        unfold treeWeight
        rw [hpar]
        rfl
      rw [hpar, getAdjList_eq hpn]
      simp only []
      rw [addEdge_eq hpn' hin']
      obtain ⟨r, he, hrwf, hrn, hperm, hloop, hadj⟩ :=
        ih (result.addEdgeNat p i (lookupWeight i (g.adj p)))
          (addEdgeNat_wf hwf hpn' hin' _) hn hl'
      refine ⟨r, he, hrwf, hrn, ?_, ?_, ?_⟩
      · have h1 := edgeList_addEdgeNat hwf hpn' hin' hpi (lookupWeight i (g.adj p))
        have h2 : dijkTree g s parent (i :: l) =
            normEdge p i (lookupWeight i (g.adj p)) :: dijkTree g s parent l := by
          simp [dijkTree, hc.1, hc.2, hpar, htw]
        rw [h2]
        exact hperm.trans ((h1.append_left _).trans List.perm_middle)
      · intro u hu
        have := hloop u hu
        rw [adj_addEdgeNat_iff hwf hpn' hin'] at this
        rcases this with ⟨h1, h2⟩ | ⟨h1, h2⟩ | h
        · exact absurd (h1.symm.trans h2) hpi
        · exact absurd (h2.symm.trans h1) hpi
        · exact h
      · intro x e
        rw [hadj x e, mem_adj_addEdgeNat hwf hpn' hin']
        constructor
        · rintro ((⟨h1, h2⟩ | ⟨h1, h2⟩ | h) | ⟨j, hj, h⟩)
          · exact Or.inr ⟨i, List.mem_cons_self _ _, hc.1, p, hpar,
              Or.inl ⟨h1, by rw [htw]; exact h2⟩⟩
          · exact Or.inr ⟨i, List.mem_cons_self _ _, hc.1, p, hpar,
              Or.inr ⟨h1, by rw [htw]; exact h2⟩⟩
          · exact Or.inl h
          · exact Or.inr ⟨j, List.mem_cons_of_mem _ hj, h⟩
        · rintro (h | ⟨j, hj, hjs, q, hq, h⟩)
          · exact Or.inl (Or.inr (Or.inr h))
          · rcases List.mem_cons.mp hj with rfl | hj
            · have hqp : q = p := by rw [hpar] at hq; omega
              subst hqp
              rw [htw] at h
              rcases h with h | h
              · exact Or.inl (Or.inl h)
              · exact Or.inl (Or.inr (Or.inl h))
            · exact Or.inr ⟨j, hj, hjs, q, hq, h⟩
    · rw [if_neg hc]
      obtain ⟨r, he, hrwf, hrn, hperm, hloop, hadj⟩ := ih result hwf hn hl'
      refine ⟨r, he, hrwf, hrn, ?_, hloop, ?_⟩
      · have h2 : dijkTree g s parent (i :: l) = dijkTree g s parent l := by
          simp only [dijkTree, List.filterMap_cons, if_neg hc]
        rw [h2]
        exact hperm
      · intro x e
        rw [hadj x e]
        constructor
        · rintro (h | ⟨j, hj, h⟩)
          · exact Or.inl h
          · exact Or.inr ⟨j, List.mem_cons_of_mem _ hj, h⟩
        · rintro (h | ⟨j, hj, hjs, q, hq, h⟩)
          · exact Or.inl h
          · rcases List.mem_cons.mp hj with rfl | hj
            · exfalso
              apply hc
              exact ⟨hjs, by rw [hq]; omega⟩
            · exact Or.inr ⟨j, hj, hjs, q, hq, h⟩

/-! ## dijkstra: consequences of the final facts -/

theorem DijkFinal.finite_of_reach {g : Graph} (hg : g.WF) {s : Nat}
    {distance : Nat → Int} {parent : Nat → Int} {time : Nat → Nat}
    (hf : DijkFinal g s distance parent time) {v : Nat} (h : g.Reach s v) :
    distance v ≠ INT_MAX := by
  induction h with
  | refl => rw [hf.src_dist]; simp [INT_MAX]
  | tail _ hstep ih =>
    obtain ⟨e, he, rfl⟩ := hstep
    exact (hf.relax _ (lt_of_mem_adj hg he) ih e he).2

theorem DijkFinal.dist_le_walk {g : Graph} (hg : g.WF) {s : Nat}
    {distance : Nat → Int} {parent : Nat → Int} {time : Nat → Nat}
    (hf : DijkFinal g s distance parent time) (q : List Edge) :
    ∀ a v, a < g.numVertices → distance a ≠ INT_MAX → g.IsWalk a q v →
      distance v ≤ distance a + walkWeight q := by
  induction q with
  | nil =>
    intro a v _ _ hw
    simp only [IsWalk] at hw
    subst hw
    simp [walkWeight]
  | cons e q ih =>
    intro a v ha hfin hw
    simp only [IsWalk] at hw
    have h1 := hf.relax a ha hfin e hw.1
    have h2 := ih e.destination v (dest_lt hg hw.1) h1.2 hw.2
    have : walkWeight (e :: q) = e.weight + walkWeight q := by simp [walkWeight]
    rw [this]
    omega

theorem DijkFinal.finite_iff_parent {g : Graph} {s : Nat}
    {distance : Nat → Int} {parent : Nat → Int} {time : Nat → Nat}
    (hf : DijkFinal g s distance parent time) {x : Nat} (hx : x < g.numVertices)
    (hxs : x ≠ s) : distance x ≠ INT_MAX ↔ parent x ≠ -1 := by
  rcases hf.tree x hx hxs with h | ⟨p, hp, hpar, hpfin, ⟨w, hrec, _⟩, _⟩
  · simp [h.1, h.2]
  · have := (hf.relax p hp hpfin _ hrec).2
    constructor
    · intro _; rw [hpar]; omega
    · intro _; exact this

end Algorithms

end graph


namespace graph

open Algorithms

namespace Graph

/-! ## Spanning trees of the part of a graph that a vertex reaches -/

/-- The graph `T` is a spanning tree of the part of `g` that `s` reaches: a well-formed graph on
the same vertices whose records are records of `g`, without a cycle, in which `s` reaches every
vertex that it reaches in `g`, and in which the other vertices have no record. -/
def IsSpanningTreeFrom (T g : Graph) (s : Nat) : Prop :=
  T.WF ∧ T.numVertices = g.numVertices ∧ (∀ u, ∀ e ∈ T.adj u, e ∈ g.adj u) ∧ T.Acyclic ∧
    (∀ v, g.Reach s v → T.Reach s v) ∧ ∀ v, ¬ g.Reach s v → T.adj v = []

/-- The vertices that `s` reaches, as a finite set. -/
def reachSet (g : Graph) (s : Nat) : Finset Nat :=
  (Finset.range g.numVertices).filter fun v => KConn g.edgeList s v

theorem coe_reachSet {g : Graph} (hg : g.WF) {s : Nat} (hs : s < g.numVertices) :
    {v | g.Reach s v} = ↑(g.reachSet s) := by
  ext v
  simp only [Set.mem_setOf_eq, reachSet, Finset.coe_filter, Finset.mem_range]
  constructor
  · intro h
    exact ⟨Reach.lt hg h hs, (reach_iff_kconn hg _ _).mp h⟩
  · intro h
    exact (reach_iff_kconn hg _ _).mpr h.2

theorem mem_reachSet {g : Graph} (hg : g.WF) {s : Nat} (hs : s < g.numVertices) {v : Nat} :
    v ∈ g.reachSet s ↔ g.Reach s v := by
  have := coe_reachSet hg hs
  constructor
  · intro h
    have h' : v ∈ (↑(g.reachSet s) : Set Nat) := h
    rw [← this] at h'
    exact h'
  · intro h
    have h' : v ∈ {v | g.Reach s v} := h
    rw [this] at h'
    exact h'

theorem reach_of_subgraph {r g : Graph} (hsub : ∀ u, ∀ e ∈ r.adj u, e ∈ g.adj u) {u v : Nat}
    (h : r.Reach u v) : g.Reach u v := by
  induction h with
  | refl => exact Relation.ReflTransGen.refl
  | tail _ hstep ih =>
    obtain ⟨e, he, rfl⟩ := hstep
    exact ih.tail ⟨e, hsub _ e he, rfl⟩

theorem eq_of_reach_of_adj_nil {r : Graph} {v x : Nat} (hv : r.adj v = [])
    (h : r.Reach v x) : x = v := by
  rcases Relation.ReflTransGen.cases_head h with h | ⟨c, ⟨e, he, _⟩, _⟩
  · exact h.symm
  · rw [hv] at he
    simp at he

/-- The classes of `r` are at most the class of `s` and the vertices that `s` does not reach
in `g`, when `s` reaches in `r` all that it reaches in `g`. -/
theorem roots_card_add_le {r g : Graph} (hr : r.WF) (hg : g.WF) {s : Nat}
    (hreach : ∀ v, g.Reach s v → r.Reach s v) :
    (labelRoots g.numVertices r.edgeList).card + (g.reachSet s).card ≤ g.numVertices + 1 := by
  have hsub : labelRoots g.numVertices r.edgeList ⊆
      insert (label r.edgeList s)
        ((Finset.range g.numVertices).filter fun v => ¬ KConn g.edgeList s v) := by
    intro v hv
    simp only [labelRoots, Finset.mem_filter, Finset.mem_range] at hv
    simp only [Finset.mem_insert, Finset.mem_filter, Finset.mem_range]
    by_cases hc : KConn g.edgeList s v
    · left
      have h1 := (reach_iff_kconn hr _ _).mp (hreach v ((reach_iff_kconn hg _ _).mpr hc))
      have h2 := (label_eq_iff _ _ _).mpr h1
      rw [hv.2] at h2
      exact h2.symm
    · exact Or.inr ⟨hv.1, hc⟩
  have h1 := Finset.card_le_card hsub
  have h2 := Finset.card_insert_le (label r.edgeList s)
    ((Finset.range g.numVertices).filter fun v => ¬ KConn g.edgeList s v)
  have h3 := Finset.filter_card_add_filter_neg_card_eq_card
    (fun v => KConn g.edgeList s v) (s := Finset.range g.numVertices)
  rw [Finset.card_range] at h3
  unfold reachSet
  omega

theorem roots_card_add_eq {r g : Graph} (hr : r.WF) (hg : g.WF)
    (hn : r.numVertices = g.numVertices) {s : Nat} (hs : s < g.numVertices)
    (hsub : ∀ u, ∀ e ∈ r.adj u, e ∈ g.adj u)
    (hiso : ∀ v, ¬ g.Reach s v → r.adj v = []) :
    g.numVertices + 1 ≤ (labelRoots g.numVertices r.edgeList).card + (g.reachSet s).card := by
  have hrr : InRange g.numVertices r.edgeList := by
    have := edgeList_inRange hr
    rw [hn] at this
    exact this
  have hsup : insert (label r.edgeList s)
        ((Finset.range g.numVertices).filter fun v => ¬ KConn g.edgeList s v) ⊆
      labelRoots g.numVertices r.edgeList := by
    intro v hv
    simp only [Finset.mem_insert, Finset.mem_filter, Finset.mem_range] at hv
    simp only [labelRoots, Finset.mem_filter, Finset.mem_range]
    rcases hv with rfl | ⟨hvn, hv⟩
    · exact ⟨label_lt hrr hs, label_idem _ _⟩
    · refine ⟨hvn, ?_⟩
      have h1 : r.adj v = [] := hiso v fun h => hv ((reach_iff_kconn hg _ _).mp h)
      exact eq_of_reach_of_adj_nil h1 ((reach_iff_kconn hr _ _).mpr (KConn.to_label _ _))
  have hnot : label r.edgeList s ∉
      (Finset.range g.numVertices).filter fun v => ¬ KConn g.edgeList s v := by
    simp only [Finset.mem_filter, Finset.mem_range, not_and, not_not]
    intro _
    exact (reach_iff_kconn hg _ _).mp
      (reach_of_subgraph hsub ((reach_iff_kconn hr _ _).mpr (KConn.to_label _ _)))
  have h1 := Finset.card_le_card hsup
  rw [Finset.card_insert_of_not_mem hnot] at h1
  have h3 := Finset.filter_card_add_filter_neg_card_eq_card
    (fun v => KConn g.edgeList s v) (s := Finset.range g.numVertices)
  rw [Finset.card_range] at h3
  unfold reachSet
  omega

/-- A spanning tree of the part that `s` reaches has one edge less than that part has
vertices. -/
theorem IsSpanningTreeFrom.countEdges_succ {T g : Graph} {s : Nat} (hg : g.WF)
    (hs : s < g.numVertices) (hT : T.IsSpanningTreeFrom g s) :
    countEdges T + 1 = Set.ncard {v | g.Reach s v} := by
  obtain ⟨hwf, hn, hsub, hac, hreach, hiso⟩ := hT
  rw [coe_reachSet hg hs, Set.ncard_coe_Finset, countEdges_eq]
  have hrr : InRange g.numVertices T.edgeList := by
    have := edgeList_inRange hwf
    rw [hn] at this
    exact this
  have h1 := IsForest.length_add_roots hac.2.isForest hrr
  have h2 := roots_card_add_le hwf hg hreach
  have h3 := roots_card_add_eq hwf hg hn hs hsub hiso
  omega

/-- A subgraph in which `s` reaches what it reaches in `g` and that has no more edges than a
tree of that part is a spanning tree of that part. -/
theorem isSpanningTreeFrom_of_count {r g : Graph} {s : Nat} (hr : r.WF) (hg : g.WF)
    (hn : r.numVertices = g.numVertices)
    (hsub : ∀ u, ∀ e ∈ r.adj u, e ∈ g.adj u) (hloop : ∀ u, ¬ r.Adj u u)
    (hreach : ∀ v, g.Reach s v → r.Reach s v) (hiso : ∀ v, ¬ g.Reach s v → r.adj v = [])
    (hcount : countEdges r + 1 ≤ (g.reachSet s).card) : r.IsSpanningTreeFrom g s := by
  refine ⟨hr, hn, hsub, ⟨hloop, ?_⟩, hreach, hiso⟩
  have hrr : InRange g.numVertices r.edgeList := by
    have := edgeList_inRange hr
    rw [hn] at this
    exact this
  rw [countEdges_eq] at hcount
  have h2 := roots_card_add_le hr hg hreach
  exact (isForest_of_length_add_roots hrr (by omega)).kacyclic

/-- In a connected graph a spanning tree from any vertex is a spanning tree. -/
theorem IsSpanningTreeFrom.connected {T g : Graph} {s : Nat} (hg : g.WF)
    (hs : s < g.numVertices) (hT : T.IsSpanningTreeFrom g s) (hc : g.Connected) :
    T.Connected ∧ countEdges T = g.numVertices - 1 := by
  obtain ⟨hwf, hn, hsub, hac, hreach, hiso⟩ := hT
  constructor
  · intro u hu v hv
    rw [hn] at hu hv
    exact (Reach.reach_symm hwf (hreach u (hc s hs u hu))).trans (hreach v (hc s hs v hv))
  · have h1 := IsSpanningTreeFrom.countEdges_succ hg hs ⟨hwf, hn, hsub, hac, hreach, hiso⟩
    have h2 : {v | g.Reach s v} = ↑(Finset.range g.numVertices) := by
      ext v
      simp only [Set.mem_setOf_eq, Finset.coe_range, Set.mem_Iio]
      exact ⟨fun h => Reach.lt hg h hs, fun h => hc s hs v h⟩
    rw [h2, Set.ncard_coe_Finset, Finset.card_range] at h1
    omega

end Graph

end graph


namespace graph

namespace Algorithms

open PriorityQueue Graph

/-! ## dijkstra: the result -/

theorem dijkTree_length (g : Graph) (s : Nat) (parent : Nat → Int) (l : List Nat) :
    (dijkTree g s parent l).length =
      (l.filter fun i => decide (i ≠ s ∧ parent i ≠ -1)).length := by
  induction l with
  | nil => rfl
  | cons i l ih =>
    by_cases hc : i ≠ s ∧ parent i ≠ -1
    · have h1 : dijkTree g s parent (i :: l) =
          normEdge (parent i).toNat i (treeWeight g parent i) :: dijkTree g s parent l := by
        simp only [dijkTree, List.filterMap_cons, if_pos hc]
      rw [h1, List.filter_cons_of_pos (by simpa using hc), List.length_cons, List.length_cons, ih]
    · have h1 : dijkTree g s parent (i :: l) = dijkTree g s parent l := by
        simp only [dijkTree, List.filterMap_cons, if_neg hc]
      rw [h1, List.filter_cons_of_neg (by simpa using hc), ih]

theorem treeWeight_mem {g : Graph} {s : Nat} {distance : Nat → Int} {parent : Nat → Int}
    {time : Nat → Nat} (hf : DijkFinal g s distance parent time) {i p : Nat}
    (hi : i < g.numVertices) (his : i ≠ s) (hp : parent i = (p : Int)) :
    (⟨i, treeWeight g parent i⟩ : Edge) ∈ g.adj p ∧ p < g.numVertices ∧
      distance p ≠ INT_MAX ∧ time p < time i ∧
      ∃ w, (⟨i, w⟩ : Edge) ∈ g.adj p ∧ distance i = distance p + w := by
  rcases hf.tree i hi his with h | ⟨p', hp', hpar, hpfin, ⟨w, hrec, hd⟩, htime⟩
  · rw [h.1] at hp
    omega
  · have hpp : p' = p := by rw [hpar] at hp; omega
    subst hpp
    refine ⟨?_, hp', hpfin, htime, w, hrec, hd⟩
    have : treeWeight g parent i = lookupWeight i (g.adj p') := by
      unfold treeWeight
      rw [hpar]
      rfl
    rw [this]
    exact lookupWeight_mem ⟨_, hrec, rfl⟩

/-- The result of `dijkstra` from a source in range, on a graph with non-negative weights whose
simple paths from the source weigh less than `INT_MAX`: the final arrays with their facts, and
the tree built from them. -/
theorem dijkstra_full (g : Graph) (hg : g.WF) {s : Nat} (hs : s < g.numVertices)
    (hnn : g.NonNegWeights) (hsp : g.ShortPaths s) :
    ∃ r distance parent time, dijkstra g (s : Int) = .ok r ∧
      DijkFinal g s distance parent time ∧ r.IsSpanningTreeFrom g s ∧
      (∀ i < g.numVertices, i ≠ s → ∀ p : Nat, parent i = (p : Int) →
        (⟨i, treeWeight g parent i⟩ : Edge) ∈ r.adj p) ∧
      r.edgeList.Perm (dijkTree g s parent (List.range g.numVertices)) ∧
      ∀ x < g.numVertices, distance x ≠ INT_MAX ↔ g.Reach s x := by
  have hn := hg.1
  obtain ⟨pq1, st, time, hins, hloop, hf⟩ := dijkstra_run hg hnn hsp
  obtain ⟨r, hbuild, hrwf, hrn, hperm, hnoloop, hadj⟩ :=
    dijkstraBuild_spec g s st.parent (List.range g.numVertices)
      (emptyGraph g.numVertices) (emptyGraph_wf hn) rfl
      (by
        intro i hi
        rw [List.mem_range] at hi
        refine ⟨hi, fun his hp => ?_⟩
        rcases hf.tree i hi his with h | ⟨p, hpn, hpar, _, _, htime⟩
        · exact absurd h.1 hp
        · exact ⟨p, hpn, hpar, fun hc => by rw [hc] at htime; omega⟩)
  rw [edgeList_emptyGraph, List.append_nil] at hperm
  have hadj' : ∀ x e, e ∈ r.adj x ↔ ∃ i < g.numVertices, i ≠ s ∧ ∃ p : Nat,
      st.parent i = (p : Int) ∧ ((x = p ∧ e = ⟨i, treeWeight g st.parent i⟩) ∨
        (x = i ∧ e = ⟨p, treeWeight g st.parent i⟩)) := by
    intro x e
    rw [hadj x e, adj_emptyGraph]
    simp only [List.not_mem_nil, false_or, List.mem_range]
  have hsub : ∀ u, ∀ e ∈ r.adj u, e ∈ g.adj u := by
    intro u e he
    obtain ⟨i, hi, his, p, hpar, h⟩ := (hadj' u e).mp he
    have h1 := (treeWeight_mem hf hi his hpar).1
    rcases h with ⟨h1', h2⟩ | ⟨h1', h2⟩
    · rw [h1', h2]; exact h1
    · rw [h1', h2]; exact mem_adj_symm hg h1
  have hrreach : ∀ N, ∀ x < g.numVertices, time x < N → st.distance x ≠ INT_MAX →
      r.Reach s x := by
    intro N
    induction N with
    | zero => intro x _ h; omega
    | succ N ih =>
      intro x hx hN hfin
      by_cases hxs : x = s
      · rw [hxs]; exact Relation.ReflTransGen.refl
      · have hpx := (hf.finite_iff_parent hx hxs).mp hfin
        rcases hf.tree x hx hxs with h | ⟨p, hp, hpar, hpfin, _, htime⟩
        · exact absurd h.1 hpx
        · have h1 := ih p hp (by omega) hpfin
          refine h1.tail ⟨⟨x, treeWeight g st.parent x⟩, ?_, rfl⟩
          exact (hadj' p _).mpr ⟨x, hx, hxs, p, hpar, Or.inl ⟨rfl, rfl⟩⟩
  have hreach : ∀ v, g.Reach s v → r.Reach s v := fun v h =>
    hrreach (time v + 1) v (Reach.lt hg h hs) (by omega) (hf.finite_of_reach hg h)
  have hgreach : ∀ x < g.numVertices, st.distance x ≠ INT_MAX → g.Reach s x := fun x hx h =>
    reach_of_subgraph hsub (hrreach (time x + 1) x hx (by omega) h)
  have hiso : ∀ v, ¬ g.Reach s v → r.adj v = [] := by
    intro v hv
    rw [List.eq_nil_iff_forall_not_mem]
    intro e he
    obtain ⟨i, hi, his, p, hpar, h⟩ := (hadj' v e).mp he
    obtain ⟨_, hp, hpfin, _, w, hrec, _⟩ := treeWeight_mem hf hi his hpar
    rcases h with ⟨h1, _⟩ | ⟨h1, _⟩
    · rw [h1] at hv
      exact hv (hgreach p hp hpfin)
    · rw [h1] at hv
      exact hv ((hgreach p hp hpfin).tail ⟨_, hrec, rfl⟩)
  have hloop' : ∀ u, ¬ r.Adj u u := by
    intro u hu
    obtain ⟨e, he, _⟩ := hnoloop u hu
    rw [adj_emptyGraph] at he
    simp at he
  have hcount : countEdges r + 1 ≤ (g.reachSet s).card := by
    rw [countEdges_eq, hperm.length_eq, dijkTree_length]
    have hnd : ((List.range g.numVertices).filter
        fun i => decide (i ≠ s ∧ st.parent i ≠ -1)).Nodup := (List.nodup_range _).filter _
    rw [← List.toFinset_card_of_nodup hnd]
    have hnot : s ∉ ((List.range g.numVertices).filter
        fun i => decide (i ≠ s ∧ st.parent i ≠ -1)).toFinset := by
      simp
    rw [← Finset.card_insert_of_not_mem hnot]
    apply Finset.card_le_card
    intro v hv
    rw [mem_reachSet hg hs]
    simp only [Finset.mem_insert, List.mem_toFinset, List.mem_filter, List.mem_range,
      decide_eq_true_eq] at hv
    rcases hv with rfl | ⟨hvn, hvs, hvp⟩
    · exact Relation.ReflTransGen.refl
    · exact hgreach v hvn ((hf.finite_iff_parent hvn hvs).mpr hvp)
  refine ⟨r, st.distance, st.parent, time, ?_, hf,
    isSpanningTreeFrom_of_count hrwf hg hrn hsub hloop' hreach hiso hcount, ?_, hperm,
    fun x hx => ⟨hgreach x hx, fun h => hf.finite_of_reach hg h⟩⟩
  · unfold dijkstra
    have h1 : ¬ ((s : Int) < 0 ∨ (s : Int) ≥ ((g.getNumVertices : Nat) : Int)) := by
      simp only [getNumVertices]
      omega
    simp only [getNumVertices] at h1 ⊢
    rw [if_neg h1, new_eq hn]
    simp only [Int.toNat_ofNat]
    rw [hins]
    simp only []
    rw [hloop]
    exact hbuild
  · intro i hi his p hpar
    exact (hadj' p _).mpr ⟨i, hi, his, p, hpar, Or.inl ⟨rfl, rfl⟩⟩

end Algorithms

end graph


namespace graph

open Algorithms

namespace Graph

/-! ## Simple paths of an acyclic graph -/

theorem normEdge_mem_edgeList {g : Graph} (hg : g.WF) {u : Nat} {e : Edge} (he : e ∈ g.adj u)
    (hne : u ≠ e.destination) : normEdge u e.destination e.weight ∈ g.edgeList := by
  unfold normEdge
  split
  · rename_i hlt
    exact mem_edgeList.mpr ⟨lt_of_mem_adj hg he, hlt, he⟩
  · rename_i hlt
    exact mem_edgeList.mpr ⟨dest_lt hg he, by show e.destination < u; omega, mem_adj_symm hg he⟩

theorem normEdge_ends (u v : Nat) (w : Int) :
    ((normEdge u v w).src = u ∧ (normEdge u v w).dest = v) ∨
      ((normEdge u v w).src = v ∧ (normEdge u v w).dest = u) := by
  unfold normEdge
  split
  · exact Or.inl ⟨rfl, rfl⟩
  · exact Or.inr ⟨rfl, rfl⟩

theorem IsWalk.last_mem {g : Graph} {u v : Nat} {p : List Edge} (h : g.IsWalk u p v)
    (hp : p ≠ []) : v ∈ p.map Edge.destination := by
  induction p generalizing u with
  | nil => exact absurd rfl hp
  | cons e p ih =>
    simp only [IsWalk] at h
    by_cases hp' : p = []
    · subst hp'
      simp only [IsWalk] at h
      simp [h.2]
    · simp only [List.map_cons, List.mem_cons]
      exact Or.inr (ih h.2 hp')

/-- A walk that avoids the vertex `s` survives the removal of an edge at `s`. -/
theorem IsWalk.kconn_erase {g : Graph} (hg : g.WF) {k : KEdge} {s : Nat}
    (hk : k.src = s ∨ k.dest = s) {a v : Nat} {p : List Edge} (h : g.IsWalk a p v)
    (hs : s ∉ pathVertices a p) : KConn (g.edgeList.erase k) a v := by
  induction p generalizing a with
  | nil =>
    simp only [IsWalk] at h
    subst h
    exact KConn.conn_refl _ _
  | cons e p ih =>
    simp only [IsWalk] at h
    simp only [pathVertices, List.map_cons, List.mem_cons, not_or] at hs
    have hrest := ih h.2 (by simp only [pathVertices, List.mem_cons, not_or]; exact ⟨hs.2.1, hs.2.2⟩)
    refine KConn.conn_trans ?_ hrest
    by_cases hne : a = e.destination
    · rw [← hne]
      exact KConn.conn_refl _ _
    · have hmem := normEdge_mem_edgeList hg h.1 hne
      have hnek : normEdge a e.destination e.weight ≠ k := by
        intro hc
        rcases normEdge_ends a e.destination e.weight with h1 | h1 <;>
          rw [hc] at h1 <;> rcases hk with hk | hk <;> omega
      exact kconn_of_normEdge_mem ((List.mem_erase_of_ne hnek).mpr hmem)

theorem normEdge_inj {s a b : Nat} {w w' : Int}
    (h : normEdge s a w = normEdge s b w') : a = b ∧ w = w' := by
  unfold normEdge at h
  split at h <;> split at h <;> simp only [KEdge.mk.injEq] at h <;> omega

/-- In a graph without a cycle two paths between the same vertices that repeat no vertex are
the same sequence of records. -/
theorem Acyclic.walk_unique {g : Graph} (hg : g.WF) (hac : g.Acyclic) {p : List Edge} :
    ∀ {s v : Nat} {q : List Edge}, g.IsWalk s p v → (pathVertices s p).Nodup →
      g.IsWalk s q v → (pathVertices s q).Nodup → p = q := by
  induction p with
  | nil =>
    intro s v q hp _ hq hqn
    simp only [IsWalk] at hp
    subst hp
    by_contra hne
    have := hq.last_mem (fun h => hne h.symm)
    simp only [pathVertices, List.nodup_cons] at hqn
    exact hqn.1 this
  | cons e p ih =>
    intro s v q hp hpn hq hqn
    cases q with
    | nil =>
      simp only [IsWalk] at hq
      subst hq
      have := hp.last_mem (by simp)
      simp only [pathVertices, List.nodup_cons] at hpn
      exact absurd this hpn.1
    | cons e' q =>
      simp only [IsWalk] at hp hq
      have hpn' : (pathVertices e.destination p).Nodup := by
        simp only [pathVertices, List.map_cons, List.nodup_cons] at hpn ⊢
        exact hpn.2
      have hqn' : (pathVertices e'.destination q).Nodup := by
        simp only [pathVertices, List.map_cons, List.nodup_cons] at hqn ⊢
        exact hqn.2
      have hps : s ∉ pathVertices e.destination p := by
        simp only [pathVertices, List.map_cons, List.nodup_cons] at hpn ⊢
        exact hpn.1
      have hqs : s ∉ pathVertices e'.destination q := by
        simp only [pathVertices, List.map_cons, List.nodup_cons] at hqn ⊢
        exact hqn.1
      by_cases hee : e = e'
      · subst hee
        rw [ih hp.2 hpn' hq.2 hqn']
      · exfalso
        have hse : s ≠ e.destination := by
          intro hc
          apply hps
          simp only [pathVertices, List.mem_cons]
          exact Or.inl hc
        have hse' : s ≠ e'.destination := by
          intro hc
          apply hqs
          simp only [pathVertices, List.mem_cons]
          exact Or.inl hc
        have hk := normEdge_mem_edgeList hg hp.1 hse
        have hk' := normEdge_mem_edgeList hg hq.1 hse'
        have hends := normEdge_ends s e.destination e.weight
        have hkk : normEdge s e'.destination e'.weight ≠ normEdge s e.destination e.weight := by
          intro hc
          have := normEdge_inj hc
          apply hee
          cases e
          cases e'
          simp only [Edge.mk.injEq]
          exact ⟨this.1.symm, this.2.symm⟩
        have h1 : KConn (g.edgeList.erase (normEdge s e.destination e.weight)) s e'.destination :=
          kconn_of_normEdge_mem ((List.mem_erase_of_ne hkk).mpr hk')
        have hks : (normEdge s e.destination e.weight).src = s ∨
            (normEdge s e.destination e.weight).dest = s := by
          rcases hends with h | h
          · exact Or.inl h.1
          · exact Or.inr h.2
        have h2 := hq.2.kconn_erase hg hks hqs
        have h3 := hp.2.kconn_erase hg hks hps
        have h4 : KConn (g.edgeList.erase (normEdge s e.destination e.weight)) s e.destination :=
          (h1.conn_trans h2).conn_trans h3.conn_symm
        have h5 := hac.2 _ hk
        rcases hends with h | h
        · rw [h.1, h.2] at h5
          exact h5 h4
        · rw [h.1, h.2] at h5
          exact h5 h4.conn_symm

end Graph

end graph


namespace graph

open Algorithms

namespace Graph

theorem isWalk_of_subgraph {r g : Graph} (hsub : ∀ u, ∀ e ∈ r.adj u, e ∈ g.adj u) {u v : Nat}
    {p : List Edge} (h : r.IsWalk u p v) : g.IsWalk u p v := by
  induction p generalizing u with
  | nil => exact h
  | cons e p ih =>
    simp only [IsWalk] at h ⊢
    exact ⟨hsub _ e h.1, ih h.2⟩

end Graph

namespace Algorithms

open PriorityQueue Graph

/-- The tree of `dijkstra` holds for every vertex that the source reaches a path from the
source that repeats no vertex and is no heavier than any walk of the graph between the two,
when all records between two vertices carry the same weight. -/
theorem dijkstra_tree_path (g : Graph) (hg : g.WF) {s : Nat} (hs : s < g.numVertices)
    (hnn : g.NonNegWeights) (hsw : g.SingleWeights) (hsp : g.ShortPaths s) :
    ∃ r, dijkstra g (s : Int) = .ok r ∧ r.IsSpanningTreeFrom g s ∧
      ∀ v, g.Reach s v → ∃ p, r.IsWalk s p v ∧ (pathVertices s p).Nodup ∧
        ∀ q, g.IsWalk s q v → walkWeight p ≤ walkWeight q := by
  obtain ⟨r, distance, parent, time, hrun, hf, htree, hrec, _, hfin⟩ :=
    dijkstra_full g hg hs hnn hsp
  refine ⟨r, hrun, htree, ?_⟩
  have hpath : ∀ N, ∀ x < g.numVertices, time x < N → distance x ≠ INT_MAX →
      ∃ p, r.IsWalk s p x ∧ walkWeight p = distance x ∧ (pathVertices s p).Nodup ∧
        ∀ y ∈ pathVertices s p, time y ≤ time x := by
    intro N
    induction N with
    | zero => intro x _ h; omega
    | succ N ih =>
      intro x hx hN hxfin
      by_cases hxs : x = s
      · subst hxs
        refine ⟨[], rfl, ?_, by simp [pathVertices], ?_⟩
        · rw [hf.src_dist]; rfl
        · intro y hy
          simp only [pathVertices, List.map_nil, List.mem_singleton] at hy
          rw [hy]
      · have hpx := (hf.finite_iff_parent hx hxs).mp hxfin
        rcases hf.tree x hx hxs with h | ⟨p0, hp0, hpar, _, _, _⟩
        · exact absurd h.1 hpx
        · obtain ⟨hmem, _, hpfin, htime, w, hw, hd⟩ := treeWeight_mem hf hx hxs hpar
          have hweq : treeWeight g parent x = w := hsw p0 hp0 _ hmem _ hw rfl
          obtain ⟨q, hq, hqw, hqn, hqt⟩ := ih p0 hp0 (by omega) hpfin
          have hstep : r.IsWalk p0 [⟨x, treeWeight g parent x⟩] x :=
            isWalk_single (hrec x hx hxs p0 hpar)
          refine ⟨q ++ [⟨x, treeWeight g parent x⟩], isWalk_append hq hstep, ?_, ?_, ?_⟩
          · rw [walkWeight_append, walkWeight_single, hqw, hd, hweq]
          · rw [pathVertices_snoc]
            rw [List.nodup_append]
            refine ⟨hqn, List.nodup_singleton _, ?_⟩
            intro y hy hy'
            simp only [List.mem_singleton] at hy'
            have := hqt y hy
            rw [hy'] at this
            omega
          · intro y hy
            rw [pathVertices_snoc, List.mem_append] at hy
            rcases hy with hy | hy
            · have := hqt y hy
              omega
            · simp only [List.mem_singleton] at hy
              rw [hy]
  intro v hv
  have hvn := Reach.lt hg hv hs
  obtain ⟨p, hp, hpw, hpn, _⟩ := hpath (time v + 1) v hvn (by omega) ((hfin v hvn).mpr hv)
  refine ⟨p, hp, hpn, fun q hq => ?_⟩
  have := hf.dist_le_walk hg q s v hs (by rw [hf.src_dist]; simp [INT_MAX]) hq
  rw [hf.src_dist] at this
  omega

end Algorithms

end graph


namespace graph

open Algorithms

namespace Graph

/-! ## A bound on the weights that keeps the paths short -/

/-- Every edge weight is at most `B`. -/
def WeightsAtMost (g : Graph) (B : Int) : Prop :=
  ∀ u < g.numVertices, ∀ e ∈ g.adj u, e.weight ≤ B

instance (g : Graph) (B : Int) : Decidable (g.WeightsAtMost B) := by
  unfold WeightsAtMost
  infer_instance

theorem IsWalk.vertices_lt {g : Graph} (hg : g.WF) {u v : Nat} {p : List Edge}
    (hu : u < g.numVertices) (h : g.IsWalk u p v) :
    ∀ y ∈ pathVertices u p, y < g.numVertices := by
  induction p generalizing u with
  | nil =>
    intro y hy
    simp only [pathVertices, List.map_nil, List.mem_singleton] at hy
    rw [hy]; exact hu
  | cons e p ih =>
    intro y hy
    simp only [IsWalk] at h
    simp only [pathVertices, List.map_cons, List.mem_cons] at hy
    rcases hy with rfl | hy
    · exact hu
    · exact ih (dest_lt hg h.1) h.2 y (by simp only [pathVertices, List.mem_cons]; exact hy)

theorem IsWalk.weight_le {g : Graph} (hg : g.WF) {B : Int} (hB : g.WeightsAtMost B)
    {u v : Nat} {p : List Edge} (h : g.IsWalk u p v) :
    walkWeight p ≤ (p.length : Int) * B := by
  induction p generalizing u with
  | nil => simp [walkWeight]
  | cons e p ih =>
    simp only [IsWalk] at h
    have h1 := hB u (lt_of_mem_adj hg h.1) e h.1
    have h2 := ih h.2
    have h3 : walkWeight (e :: p) = e.weight + walkWeight p := by simp [walkWeight]
    rw [h3, List.length_cons]
    push_cast
    linarith

theorem nodup_length_le {n : Nat} {l : List Nat} (hl : l.Nodup) (h : ∀ x ∈ l, x < n) :
    l.length ≤ n := by
  rw [← List.toFinset_card_of_nodup hl, ← Finset.card_range n]
  apply Finset.card_le_card
  intro x hx
  rw [List.mem_toFinset] at hx
  exact Finset.mem_range.mpr (h x hx)

/-- When every weight is at most `B` and `numVertices * B` is below `INT_MAX`, no path that
repeats no vertex weighs `INT_MAX` or more. -/
theorem shortPaths_of_weightsAtMost {g : Graph} (hg : g.WF) {B : Int} (h0 : 0 ≤ B)
    (hB : g.WeightsAtMost B) (hn : (g.numVertices : Int) * B < INT_MAX) {s : Nat}
    (hs : s < g.numVertices) : g.ShortPaths s := by
  intro p v hp hnd
  have h1 := hp.weight_le hg hB
  have h2 := nodup_length_le hnd (hp.vertices_lt hg hs)
  simp only [pathVertices, List.length_cons, List.length_map] at h2
  have h3 : (p.length : Int) * B ≤ (g.numVertices : Int) * B :=
    mul_le_mul_of_nonneg_right (by exact_mod_cast (by omega : p.length ≤ g.numVertices)) h0
  linarith

end Graph

end graph


namespace graph

namespace Algorithms

open Graph

/-! ## The claims about dijkstra -/

/-- A path `0 - 1 - 2` with weights 2 and 3, and a fourth vertex without edges. -/
def twoPartGraph : Graph := ⟨4, [[⟨1, 2⟩], [⟨2, 3⟩, ⟨0, 2⟩], [⟨1, 3⟩], []]⟩

end Algorithms

end graph


namespace graph

open Algorithms

namespace Graph

/-! ## Growing a tree from a source: the invariant shared by bfs and dfs -/

/-- The graph `result` is a tree on the vertices marked in `visited`, which `s` reaches in
`g`: the invariant of the traversals from `s`. -/
structure TreeInv (g : Graph) (s : Nat) (visited : Nat → Bool) (result : Graph) : Prop where
  wf : result.WF
  nv : result.numVertices = g.numVertices
  sub : ∀ x, ∀ e ∈ result.adj x, e ∈ g.adj x
  forest : KAcyclic result.edgeList
  noloop : ∀ x, ¬ result.Adj x x
  iso : ∀ x, visited x = false → result.adj x = []
  reach : ∀ x, visited x = true → result.Reach s x
  lt : ∀ x, visited x = true → x < g.numVertices

theorem treeInv_init {g : Graph} (hg : g.WF) {s : Nat} (hs : s < g.numVertices) :
    TreeInv g s (Function.update (fun _ => false) s true) (emptyGraph g.numVertices) where
  wf := emptyGraph_wf hg.1
  nv := rfl
  sub := by
    intro x e he
    rw [adj_emptyGraph] at he
    simp at he
  forest := by
    rw [edgeList_emptyGraph]
    intro e he
    simp at he
  noloop := by
    rintro x ⟨e, he, _⟩
    rw [adj_emptyGraph] at he
    simp at he
  iso := fun x _ => adj_emptyGraph _ _
  reach := by
    intro x hx
    by_cases hxs : x = s
    · rw [hxs]; exact Relation.ReflTransGen.refl
    · rw [Function.update_noteq hxs] at hx
      simp at hx
  lt := by
    intro x hx
    by_cases hxs : x = s
    · rw [hxs]; exact hs
    · rw [Function.update_noteq hxs] at hx
      simp at hx

theorem isWalk_addEdgeNat {g : Graph} (hg : g.WF) {u v : Nat} (hu : u < g.numVertices)
    (hv : v < g.numVertices) (w : Int) {a b : Nat} {p : List Edge} (h : g.IsWalk a p b) :
    (g.addEdgeNat u v w).IsWalk a p b := by
  induction p generalizing a with
  | nil => exact h
  | cons e p ih =>
    simp only [IsWalk] at h ⊢
    exact ⟨(mem_adj_addEdgeNat hg hu hv w a e).mpr (Or.inr (Or.inr h.1)), ih h.2⟩

theorem reach_addEdgeNat {g : Graph} (hg : g.WF) {u v : Nat} (hu : u < g.numVertices)
    (hv : v < g.numVertices) (w : Int) {a b : Nat} (h : g.Reach a b) :
    (g.addEdgeNat u v w).Reach a b := by
  induction h with
  | refl => exact Relation.ReflTransGen.refl
  | tail _ hstep ih =>
    exact ih.tail ((adj_addEdgeNat_iff hg hu hv w _ _).mpr (Or.inr (Or.inr hstep)))

/-- Recording the edge from a marked vertex `u` to an unmarked neighbour `w`, and marking `w`,
keeps the invariant. -/
theorem TreeInv.step {g : Graph} (hg : g.WF) {s : Nat} {visited : Nat → Bool} {result : Graph}
    (h : TreeInv g s visited result) {u : Nat} {e : Edge} (hu : visited u = true)
    (he : e ∈ g.adj u) (hw : visited e.destination = false) :
    TreeInv g s (Function.update visited e.destination true)
      (result.addEdgeNat u e.destination e.weight) := by
  have hun : u < result.numVertices := by rw [h.nv]; exact h.lt u hu
  have hwn : e.destination < result.numVertices := by rw [h.nv]; exact dest_lt hg he
  have huw : u ≠ e.destination := by
    intro hc
    rw [← hc, hu] at hw
    simp at hw
  have hiso := h.iso _ hw
  refine ⟨addEdgeNat_wf h.wf hun hwn _, h.nv, ?_, ?_, ?_, ?_, ?_, ?_⟩
  · intro x r hr
    rw [mem_adj_addEdgeNat h.wf hun hwn] at hr
    rcases hr with ⟨rfl, rfl⟩ | ⟨rfl, rfl⟩ | hr
    · exact he
    · exact mem_adj_symm hg he
    · exact h.sub x r hr
  · have hperm := edgeList_addEdgeNat h.wf hun hwn huw e.weight
    refine KAcyclic.acyclic_perm hperm.symm (IsForest.kacyclic ⟨?_, h.forest.isForest⟩)
    intro hc
    have h1 : KConn result.edgeList u e.destination := by
      rcases normEdge_ends u e.destination e.weight with h2 | h2
      · rw [h2.1, h2.2] at hc; exact hc
      · rw [h2.1, h2.2] at hc; exact hc.conn_symm
    have h2 := (reach_iff_kconn h.wf _ _).mpr h1.conn_symm
    exact huw (eq_of_reach_of_adj_nil hiso h2)
  · intro x hx
    rw [adj_addEdgeNat_iff h.wf hun hwn] at hx
    rcases hx with ⟨h1, h2⟩ | ⟨h1, h2⟩ | hx
    · exact huw (h1.symm.trans h2)
    · exact huw (h2.symm.trans h1)
    · exact h.noloop x hx
  · intro x hx
    have hxw : x ≠ e.destination := by
      intro hc
      rw [hc, Function.update_same] at hx
      simp at hx
    rw [Function.update_noteq hxw] at hx
    have hxu : x ≠ u := by
      intro hc
      rw [hc, hu] at hx
      simp at hx
    rw [List.eq_nil_iff_forall_not_mem]
    intro r hr
    rw [mem_adj_addEdgeNat h.wf hun hwn] at hr
    rcases hr with ⟨h1, _⟩ | ⟨h1, _⟩ | hr
    · exact hxu h1
    · exact hxw h1
    · rw [h.iso x hx] at hr
      simp at hr
  · intro x hx
    by_cases hxw : x = e.destination
    · rw [hxw]
      exact (reach_addEdgeNat h.wf hun hwn _ (h.reach u hu)).tail
        ((adj_addEdgeNat_iff h.wf hun hwn _ _ _).mpr (Or.inl ⟨rfl, rfl⟩))
    · rw [Function.update_noteq hxw] at hx
      exact reach_addEdgeNat h.wf hun hwn _ (h.reach x hx)
  · intro x hx
    by_cases hxw : x = e.destination
    · rw [hxw]; exact dest_lt hg he
    · rw [Function.update_noteq hxw] at hx
      exact h.lt x hx

/-- When the marked vertices include `s` and all their neighbours, the tree spans the part
of `g` that `s` reaches. -/
theorem TreeInv.spanning {g : Graph} {s : Nat} {visited : Nat → Bool} {result : Graph}
    (h : TreeInv g s visited result) (hs : visited s = true)
    (hclosed : ∀ x, visited x = true → ∀ e ∈ g.adj x, visited e.destination = true) :
    result.IsSpanningTreeFrom g s ∧ ∀ v, g.Reach s v ↔ visited v = true := by
  have hvis : ∀ v, g.Reach s v → visited v = true := by
    intro v hv
    induction hv with
    | refl => exact hs
    | tail _ hstep ih =>
      obtain ⟨e, he, rfl⟩ := hstep
      exact hclosed _ ih e he
  refine ⟨⟨h.wf, h.nv, h.sub, ⟨h.noloop, h.forest⟩, fun v hv => h.reach v (hvis v hv), ?_⟩,
    fun v => ⟨hvis v, fun hv => reach_of_subgraph h.sub (h.reach v hv)⟩⟩
  intro v hv
  apply h.iso
  by_contra hc
  have : visited v = true := by
    cases hvv : visited v
    · exact absurd hvv hc
    · rfl
  exact hv (reach_of_subgraph h.sub (h.reach v this))

end Graph

end graph


namespace graph

namespace Algorithms

open Graph

/-! ## Counting the unmarked vertices -/

/-- The vertices below `n` that are not marked. -/
def unvisited (n : Nat) (visited : Nat → Bool) : Finset Nat :=
  (Finset.range n).filter fun x => visited x = false

theorem unvisited_update {n : Nat} {visited : Nat → Bool} {v : Nat} (hv : visited v = false)
    (hvn : v < n) :
    (unvisited n (Function.update visited v true)).card + 1 = (unvisited n visited).card := by
  have hmem : v ∈ unvisited n visited := by
    simp only [unvisited, Finset.mem_filter, Finset.mem_range]
    exact ⟨hvn, hv⟩
  have heq : unvisited n (Function.update visited v true) = (unvisited n visited).erase v := by
    ext x
    simp only [unvisited, Finset.mem_filter, Finset.mem_range, Finset.mem_erase]
    by_cases hxv : x = v
    · subst hxv
      simp
    · rw [Function.update_noteq hxv]
      simp [hxv]
  rw [heq, Finset.card_erase_of_mem hmem]
  have := Finset.card_pos.mpr ⟨v, hmem⟩
  omega

theorem unvisited_mono {n : Nat} {visited visited' : Nat → Bool}
    (h : ∀ x, visited x = true → visited' x = true) :
    (unvisited n visited').card ≤ (unvisited n visited).card := by
  apply Finset.card_le_card
  intro x hx
  simp only [unvisited, Finset.mem_filter, Finset.mem_range] at hx ⊢
  refine ⟨hx.1, ?_⟩
  cases hvx : visited x
  · rfl
  · rw [h x hvx] at hx
    simp at hx

theorem unvisited_card_le (n : Nat) (visited : Nat → Bool) : (unvisited n visited).card ≤ n := by
  have := Finset.card_filter_le (Finset.range n) fun x => visited x = false
  rw [Finset.card_range] at this
  exact this

/-! ## dfs -/

/-- What a call of `dfsVisit` on `v` from the state `st` leaves behind in `st1`: the tree
invariant, the marks of `st` and of `v`, and all neighbours of the newly marked vertices
marked. -/
structure DfsPost (g : Graph) (s : Nat) (v : Nat) (st st1 : DfsState) : Prop where
  tree : TreeInv g s st1.visited st1.result
  keep : ∀ x, st.visited x = true → st1.visited x = true
  self : st1.visited v = true
  closed : ∀ x, st1.visited x = true → st.visited x = false →
    ∀ e ∈ g.adj x, st1.visited e.destination = true

theorem dfsEdges_spec {g : Graph} (hg : g.WF) {s : Nat} {fuel : Nat}
    (ih : ∀ (w : Nat) (st : DfsState),
      TreeInv g s (Function.update st.visited w true) st.result → st.visited w = false →
      w < g.numVertices → (unvisited g.numVertices st.visited).card ≤ fuel →
      ∃ st1, dfsVisit g fuel w st = .ok st1 ∧ DfsPost g s w st st1)
    (v : Nat) (rest : List Edge) :
    ∀ (st : DfsState), TreeInv g s st.visited st.result → st.visited v = true →
      (∀ e ∈ rest, e ∈ g.adj v) → (unvisited g.numVertices st.visited).card ≤ fuel →
      ∃ st1, dfsEdges (dfsVisit g fuel) v rest st = .ok st1 ∧
        TreeInv g s st1.visited st1.result ∧
        (∀ x, st.visited x = true → st1.visited x = true) ∧
        (∀ e ∈ rest, st1.visited e.destination = true) ∧
        ∀ x, st1.visited x = true → st.visited x = false →
          ∀ e ∈ g.adj x, st1.visited e.destination = true := by
  induction rest with
  | nil =>
    intro st ht _ _ _
    refine ⟨st, rfl, ht, fun _ h => h, by simp, ?_⟩
    intro x h1 h2
    rw [h1] at h2
    simp at h2
  | cons e rest ihr =>
    intro st ht hv hrest hcard
    have he := hrest e (List.mem_cons_self _ _)
    have hrest' : ∀ e' ∈ rest, e' ∈ g.adj v := fun e' h => hrest e' (List.mem_cons_of_mem _ h)
    rw [dfsEdges]
    by_cases hvis : st.visited e.destination = true
    · simp only [hvis, Bool.not_true, Bool.false_eq_true, if_false]
      obtain ⟨st1, hrun, ht1, hkeep, hall, hclosed⟩ := ihr st ht hv hrest' hcard
      refine ⟨st1, hrun, ht1, hkeep, ?_, hclosed⟩
      intro e' he'
      rcases List.mem_cons.mp he' with rfl | he'
      · exact hkeep _ hvis
      · exact hall e' he'
    · have hvis' : st.visited e.destination = false := by
        cases h : st.visited e.destination
        · rfl
        · exact absurd h hvis
      simp only [hvis', Bool.not_false, if_true]
      have hvn : v < st.result.numVertices := by rw [ht.nv]; exact ht.lt v hv
      have hwn : e.destination < st.result.numVertices := by rw [ht.nv]; exact dest_lt hg he
      rw [addEdge_eq hvn hwn]
      simp only []
      have hstep := ht.step hg hv he hvis'
      obtain ⟨st1, hrun1, hp1⟩ := ih e.destination
        { st with result := st.result.addEdgeNat v e.destination e.weight } hstep hvis'
        (dest_lt hg he) hcard
      rw [hrun1]
      simp only []
      obtain ⟨st2, hrun2, ht2, hkeep2, hall2, hclosed2⟩ := ihr st1 hp1.tree (hp1.keep v hv)
        hrest' (le_trans (unvisited_mono hp1.keep) hcard)
      refine ⟨st2, hrun2, ht2, fun x hx => hkeep2 x (hp1.keep x hx), ?_, ?_⟩
      · intro e' he'
        rcases List.mem_cons.mp he' with rfl | he'
        · exact hkeep2 _ hp1.self
        · exact hall2 e' he'
      · intro x hx2 hx0 r hr
        cases hx1 : st1.visited x
        · exact hclosed2 x hx2 hx1 r hr
        · exact hkeep2 _ (hp1.closed x hx1 hx0 r hr)

theorem dfsVisit_spec {g : Graph} (hg : g.WF) {s : Nat} (fuel : Nat) :
    ∀ (v : Nat) (st : DfsState),
      TreeInv g s (Function.update st.visited v true) st.result → st.visited v = false →
      v < g.numVertices → (unvisited g.numVertices st.visited).card ≤ fuel →
      ∃ st1, dfsVisit g fuel v st = .ok st1 ∧ DfsPost g s v st st1 := by
  induction fuel with
  | zero =>
    intro v st _ hv hvn hcard
    have := unvisited_update hv hvn
    omega
  | succ fuel ih =>
    intro v st ht hv hvn hcard
    rw [dfsVisit]
    rw [getAdjList_eq hvn]
    simp only []
    have hcard1 := unvisited_update hv hvn
    obtain ⟨st1, hrun, ht1, hkeep, hall, hclosed⟩ :=
      dfsEdges_spec hg ih v (g.adj v)
        { st with visited := Function.update st.visited v true } ht
        (Function.update_same _ _ _) (fun _ h => h)
        (by show (unvisited g.numVertices (Function.update st.visited v true)).card ≤ fuel; omega)
    refine ⟨st1, hrun, ht1, ?_, hkeep v (Function.update_same _ _ _), ?_⟩
    · intro x hx
      apply hkeep
      show Function.update st.visited v true x = true
      by_cases hxv : x = v
      · rw [hxv, Function.update_same]
      · rw [Function.update_noteq hxv]; exact hx
    · intro x hx1 hx0 e he
      by_cases hxv : x = v
      · rw [hxv] at he
        exact hall e he
      · refine hclosed x hx1 ?_ e he
        show Function.update st.visited v true x = false
        rw [Function.update_noteq hxv]; exact hx0

/-- The result of `dfs` from a source in range: a spanning tree of the part of the graph that
the source reaches. -/
theorem dfs_full (g : Graph) (hg : g.WF) {s : Nat} (hs : s < g.numVertices) :
    ∃ r, dfs g (s : Int) = .ok r ∧ r.IsSpanningTreeFrom g s := by
  obtain ⟨st1, hrun, hp⟩ := dfsVisit_spec hg g.numVertices s
    ⟨fun _ => false, emptyGraph g.numVertices⟩ (treeInv_init hg hs) rfl hs
    (unvisited_card_le _ _)
  refine ⟨st1.result, ?_, (hp.tree.spanning hp.self fun x hx => hp.closed x hx rfl).1⟩
  unfold dfs
  have h1 : ¬ ((s : Int) < 0 ∨ (s : Int) ≥ ((g.getNumVertices : Nat) : Int)) := by
    simp only [getNumVertices]
    omega
  simp only [getNumVertices] at h1 ⊢
  rw [if_neg h1, new_eq hg.1]
  simp only [Int.toNat_ofNat]
  rw [hrun]

end Algorithms

end graph


namespace graph

namespace Algorithms

open Graph

/-! ## bfs -/

/-- The part of the invariant of `bfs` from `s` that both loops keep.  `lev v` is the number
of edges of the tree path from `s` to the marked vertex `v`. -/
structure BfsCore (g : Graph) (s : Nat) (st : BfsState) (lev : Nat → Nat) : Prop where
  tree : TreeInv g s st.visited st.result
  src : st.visited s = true
  lev_src : lev s = 0
  path : ∀ x, st.visited x = true → ∃ p, st.result.IsWalk s p x ∧ p.length = lev x ∧
    (pathVertices s p).Nodup ∧ ∀ y ∈ pathVertices s p, st.visited y = true
  qvis : ∀ q ∈ st.queue.items, st.visited q = true
  sorted : st.queue.items.Pairwise fun a b => lev a ≤ lev b

/-- The invariant of the loop of `bfs` over the chain of the dequeued vertex `u`. -/
structure BfsInner (g : Graph) (s u : Nat) (st : BfsState) (lev : Nat → Nat) : Prop where
  core : BfsCore g s st lev
  cur : st.visited u = true
  bound : ∀ x, st.visited x = true → lev x ≤ lev u + 1
  qge : ∀ q ∈ st.queue.items, lev u ≤ lev q
  done : ∀ x, st.visited x = true → x ∉ st.queue.items → x ≠ u →
    ∀ e ∈ g.adj x, st.visited e.destination = true ∧ lev e.destination ≤ lev x + 1

/-- The invariant of the loop `while (!queue.isEmpty())` of `bfs`. -/
structure BfsOuter (g : Graph) (s : Nat) (st : BfsState) (lev : Nat → Nat) : Prop where
  core : BfsCore g s st lev
  head : ∀ h, st.queue.items.head? = some h → ∀ x, st.visited x = true → lev x ≤ lev h + 1
  done : ∀ x, st.visited x = true → x ∉ st.queue.items →
    ∀ e ∈ g.adj x, st.visited e.destination = true ∧ lev e.destination ≤ lev x + 1

theorem bfsInner_visit {g : Graph} (hg : g.WF) {s u : Nat} {st : BfsState} {lev : Nat → Nat}
    (h : BfsInner g s u st lev) {e : Edge} (he : e ∈ g.adj u)
    (hw : st.visited e.destination = false) :
    BfsInner g s u
      ⟨Function.update st.visited e.destination true, st.queue.enqueue e.destination,
        st.result.addEdgeNat u e.destination e.weight⟩
      (Function.update lev e.destination (lev u + 1)) := by
  have hne : ∀ x, st.visited x = true → x ≠ e.destination := by
    intro x hx hc
    rw [hc, hw] at hx
    simp at hx
  have hlev : ∀ x, st.visited x = true →
      Function.update lev e.destination (lev u + 1) x = lev x :=
    fun x hx => Function.update_noteq (hne x hx) _ _
  have hvis : ∀ x, st.visited x = true →
      Function.update st.visited e.destination true x = true := by
    intro x hx
    rw [Function.update_noteq (hne x hx)]
    exact hx
  have hvis' : ∀ x, Function.update st.visited e.destination true x = true →
      x = e.destination ∨ st.visited x = true := by
    intro x hx
    by_cases hxw : x = e.destination
    · exact Or.inl hxw
    · rw [Function.update_noteq hxw] at hx
      exact Or.inr hx
  have hun : u < st.result.numVertices := by
    rw [h.core.tree.nv]; exact h.core.tree.lt u h.cur
  have hwn : e.destination < st.result.numVertices := by
    rw [h.core.tree.nv]; exact dest_lt hg he
  refine ⟨⟨h.core.tree.step hg h.cur he hw, hvis s h.core.src, ?_, ?_, ?_, ?_⟩,
    hvis u h.cur, ?_, ?_, ?_⟩
  · rw [hlev s h.core.src]; exact h.core.lev_src
  · intro x hx
    show ∃ p, (st.result.addEdgeNat u e.destination e.weight).IsWalk s p x ∧ _
    rcases hvis' x hx with rfl | hx'
    · obtain ⟨p, hp, hlen, hnd, hall⟩ := h.core.path u h.cur
      refine ⟨p ++ [e], isWalk_append (isWalk_addEdgeNat h.core.tree.wf hun hwn _ hp)
        (isWalk_single ((mem_adj_addEdgeNat h.core.tree.wf hun hwn _ _ _).mpr
          (Or.inl ⟨rfl, rfl⟩))), ?_, ?_, ?_⟩
      · rw [List.length_append, List.length_singleton, hlen, Function.update_same]
      · rw [pathVertices_snoc, List.nodup_append]
        refine ⟨hnd, List.nodup_singleton _, ?_⟩
        intro y hy hy'
        simp only [List.mem_singleton] at hy'
        exact hne y (hall y hy) hy'
      · intro y hy
        rw [pathVertices_snoc, List.mem_append] at hy
        rcases hy with hy | hy
        · exact hvis y (hall y hy)
        · simp only [List.mem_singleton] at hy
          rw [hy]
          exact Function.update_same _ _ _
    · obtain ⟨p, hp, hlen, hnd, hall⟩ := h.core.path x hx'
      exact ⟨p, isWalk_addEdgeNat h.core.tree.wf hun hwn _ hp, by rw [hlen, hlev x hx'], hnd,
        fun y hy => hvis y (hall y hy)⟩
  · intro q hq
    simp only [Queue.enqueue, List.mem_append, List.mem_singleton] at hq
    rcases hq with hq | hq
    · exact hvis q (h.core.qvis q hq)
    · rw [hq]; exact Function.update_same _ _ _
  · show (st.queue.items ++ [e.destination]).Pairwise _
    rw [List.pairwise_append]
    refine ⟨?_, List.pairwise_singleton _ _, ?_⟩
    · refine List.Pairwise.imp_of_mem ?_ h.core.sorted
      intro a b ha hb hab
      rw [hlev a (h.core.qvis a ha), hlev b (h.core.qvis b hb)]
      exact hab
    · intro a ha b hb
      simp only [List.mem_singleton] at hb
      rw [hb, hlev a (h.core.qvis a ha), Function.update_same]
      exact h.bound a (h.core.qvis a ha)
  · intro x hx
    rw [hlev u h.cur]
    rcases hvis' x hx with rfl | hx'
    · rw [Function.update_same]
    · rw [hlev x hx']
      exact h.bound x hx'
  · intro q hq
    simp only [Queue.enqueue, List.mem_append, List.mem_singleton] at hq
    rw [hlev u h.cur]
    rcases hq with hq | hq
    · rw [hlev q (h.core.qvis q hq)]
      exact h.qge q hq
    · rw [hq, Function.update_same]
      omega
  · intro x hx hxq hxu r hr
    simp only [Queue.enqueue, List.mem_append, List.mem_singleton, not_or] at hxq
    rcases hvis' x hx with hxw | hx'
    · exact absurd hxw hxq.2
    · have := h.done x hx' hxq.1 hxu r hr
      exact ⟨hvis _ this.1, by rw [hlev _ this.1, hlev x hx']; exact this.2⟩

theorem bfsEdges_spec {g : Graph} (hg : g.WF) {s u : Nat} (rest : List Edge) :
    ∀ (st : BfsState) (lev : Nat → Nat), BfsInner g s u st lev →
      (∀ e ∈ rest, e ∈ g.adj u) →
      ∃ st1 lev1, bfsEdges u rest st = .ok st1 ∧ BfsInner g s u st1 lev1 ∧
        (∀ x, st.visited x = true → st1.visited x = true) ∧
        (∀ e ∈ rest, st1.visited e.destination = true) ∧
        (unvisited g.numVertices st1.visited).card + st1.queue.items.length =
          (unvisited g.numVertices st.visited).card + st.queue.items.length := by
  induction rest with
  | nil =>
    intro st lev h _
    exact ⟨st, lev, rfl, h, fun _ hx => hx, by simp, rfl⟩
  | cons e rest ih =>
    intro st lev h hrest
    have he := hrest e (List.mem_cons_self _ _)
    have hrest' : ∀ e' ∈ rest, e' ∈ g.adj u := fun e' h => hrest e' (List.mem_cons_of_mem _ h)
    rw [bfsEdges]
    by_cases hvis : st.visited e.destination = true
    · simp only [hvis, Bool.not_true, Bool.false_eq_true, if_false]
      obtain ⟨st1, lev1, hrun, h1, hkeep, hall, hm⟩ := ih st lev h hrest'
      refine ⟨st1, lev1, hrun, h1, hkeep, ?_, hm⟩
      intro e' he'
      rcases List.mem_cons.mp he' with rfl | he'
      · exact hkeep _ hvis
      · exact hall e' he'
    · have hvis' : st.visited e.destination = false := by
        cases h : st.visited e.destination
        · rfl
        · exact absurd h hvis
      simp only [hvis', Bool.not_false, if_true]
      have hun : u < st.result.numVertices := by
        rw [h.core.tree.nv]; exact h.core.tree.lt u h.cur
      have hwn : e.destination < st.result.numVertices := by
        rw [h.core.tree.nv]; exact dest_lt hg he
      rw [addEdge_eq hun hwn]
      simp only []
      obtain ⟨st1, lev1, hrun, h1, hkeep, hall, hm⟩ := ih _ _ (bfsInner_visit hg h he hvis') hrest'
      have hcard := unvisited_update hvis' (dest_lt hg he)
      refine ⟨st1, lev1, hrun, h1, ?_, ?_, ?_⟩
      · intro x hx
        apply hkeep
        show Function.update st.visited e.destination true x = true
        by_cases hxw : x = e.destination
        · rw [hxw, Function.update_same]
        · rw [Function.update_noteq hxw]; exact hx
      · intro e' he'
        rcases List.mem_cons.mp he' with rfl | he'
        · exact hkeep _ (Function.update_same _ _ _)
        · exact hall e' he'
      · rw [hm]
        show (unvisited g.numVertices (Function.update st.visited e.destination true)).card +
          (st.queue.items ++ [e.destination]).length = _
        rw [List.length_append, List.length_singleton]
        omega

theorem bfsLoop_spec {g : Graph} (hg : g.WF) {s : Nat} (fuel : Nat) :
    ∀ (st : BfsState) (lev : Nat → Nat), BfsOuter g s st lev →
      (unvisited g.numVertices st.visited).card + st.queue.items.length ≤ fuel →
      ∃ st1 lev1, bfsLoop g fuel st = .ok st1 ∧ BfsOuter g s st1 lev1 ∧
        st1.queue.items = [] := by
  induction fuel with
  | zero =>
    intro st lev h hm
    have hq : st.queue.items = [] := List.length_eq_zero.mp (by omega)
    refine ⟨st, lev, ?_, h, hq⟩
    rw [bfsLoop]
    simp [Queue.isEmpty, hq]
  | succ fuel ih =>
    intro st lev h hm
    rw [bfsLoop]
    cases hq : st.queue.items with
    | nil =>
      refine ⟨st, lev, ?_, h, hq⟩
      simp [Queue.isEmpty, hq]
    | cons u rest =>
      have hu : st.visited u = true := h.core.qvis u (by rw [hq]; exact List.mem_cons_self _ _)
      have hun : u < g.numVertices := h.core.tree.lt u hu
      have hsorted := h.core.sorted
      rw [hq, List.pairwise_cons] at hsorted
      have hinner : BfsInner g s u { st with queue := ⟨rest⟩ } lev := by
        refine ⟨⟨h.core.tree, h.core.src, h.core.lev_src, h.core.path, ?_, hsorted.2⟩, hu,
          h.head u (by rw [hq]; rfl), hsorted.1, ?_⟩
        · intro q hq'
          exact h.core.qvis q (by rw [hq]; exact List.mem_cons_of_mem _ hq')
        · intro x hx hxq hxu
          apply h.done x hx
          rw [hq]
          simp only [List.mem_cons, not_or]
          exact ⟨hxu, hxq⟩
      obtain ⟨st1, lev1, hrun, h1, _, hall, hm1⟩ :=
        bfsEdges_spec hg (g.adj u) _ lev hinner (fun _ h => h)
      have hm1' : (unvisited g.numVertices st1.visited).card + st1.queue.items.length =
          (unvisited g.numVertices st.visited).card + rest.length := hm1
      have houter : BfsOuter g s st1 lev1 := by
        refine ⟨h1.core, ?_, ?_⟩
        · intro hd hhd x hx
          have h2 := h1.bound x hx
          have h3 := h1.qge hd (List.mem_of_mem_head? hhd)
          omega
        · intro x hx hxq e he
          by_cases hxu : x = u
          · rw [hxu] at he ⊢
            exact ⟨hall e he, h1.bound _ (hall e he)⟩
          · exact h1.done x hx hxq hxu e he
      obtain ⟨st2, lev2, hrun2, h2, hq2⟩ := ih st1 lev1 houter (by
        rw [hq, List.length_cons] at hm
        omega)
      refine ⟨st2, lev2, ?_, h2, hq2⟩
      simp only [Queue.isEmpty, hq, List.isEmpty_cons, Bool.false_eq_true, if_false,
        Queue.dequeue]
      rw [getAdjList_eq hun]
      simp only []
      rw [hrun]
      exact hrun2

/-- The result of `bfs` from a source in range: a spanning tree of the part of the graph that
the source reaches, which holds for every vertex of that part a path from the source that
repeats no vertex and has no more edges than any walk of the graph between the two. -/
theorem bfs_full (g : Graph) (hg : g.WF) {s : Nat} (hs : s < g.numVertices) :
    ∃ r, bfs g (s : Int) = .ok r ∧ r.IsSpanningTreeFrom g s ∧
      ∀ v, g.Reach s v → ∃ p, r.IsWalk s p v ∧ (pathVertices s p).Nodup ∧
        ∀ q, g.IsWalk s q v → p.length ≤ q.length := by
  have hinit : BfsOuter g s
      ⟨Function.update (fun _ => false) s true, Queue.empty.enqueue s, emptyGraph g.numVertices⟩
      (fun _ => 0) := by
    have hv : ∀ x, Function.update (fun _ => false) s true x = true → x = s := by
      intro x hx
      by_contra hxs
      rw [Function.update_noteq hxs] at hx
      simp at hx
    have hss : Function.update (fun _ => false) s true s = true := by simp
    refine ⟨⟨treeInv_init hg hs, hss, rfl, ?_, ?_, ?_⟩, ?_, ?_⟩
    · intro x hx
      rw [hv x hx]
      refine ⟨[], rfl, rfl, by simp [pathVertices], ?_⟩
      intro y hy
      simp only [pathVertices, List.map_nil, List.mem_singleton] at hy
      rw [hy]
      exact hss
    · intro q hq
      simp only [Queue.enqueue, Queue.empty, List.nil_append, List.mem_singleton] at hq
      rw [hq]
      exact hss
    · simp [Queue.enqueue, Queue.empty]
    · intro _ _ _ _
      omega
    · intro x hx hxq
      rw [hv x hx] at hxq
      simp [Queue.enqueue, Queue.empty] at hxq
  obtain ⟨st1, lev1, hrun, h1, hq1⟩ := bfsLoop_spec hg g.numVertices _ _ hinit (by
    have h1 := @unvisited_update g.numVertices (fun _ => false) s rfl hs
    have h2 := unvisited_card_le g.numVertices (fun _ => false)
    show (unvisited g.numVertices (Function.update (fun _ => false) s true)).card +
      ([] ++ [s]).length ≤ _
    simp only [List.nil_append, List.length_singleton]
    omega)
  have hdone : ∀ x, st1.visited x = true →
      ∀ e ∈ g.adj x, st1.visited e.destination = true ∧ lev1 e.destination ≤ lev1 x + 1 :=
    fun x hx => h1.done x hx (by rw [hq1]; simp)
  obtain ⟨htree, hreach⟩ := h1.core.tree.spanning h1.core.src fun x hx e he => (hdone x hx e he).1
  have hlev : ∀ (q : List Edge) (a v : Nat), st1.visited a = true → g.IsWalk a q v →
      lev1 v ≤ lev1 a + q.length := by
    intro q
    induction q with
    | nil =>
      intro a v _ hw
      simp only [IsWalk] at hw
      rw [hw]
      simp
    | cons e q ih =>
      intro a v ha hw
      simp only [IsWalk] at hw
      have h2 := hdone a ha e hw.1
      have h3 := ih e.destination v h2.1 hw.2
      rw [List.length_cons]
      omega
  refine ⟨st1.result, ?_, htree, ?_⟩
  · unfold bfs
    have h0 : ¬ ((s : Int) < 0 ∨ (s : Int) ≥ ((g.getNumVertices : Nat) : Int)) := by
      simp only [getNumVertices]
      omega
    simp only [getNumVertices] at h0 ⊢
    rw [if_neg h0, new_eq hg.1]
    simp only [Int.toNat_ofNat]
    rw [hrun]
  · intro v hv
    obtain ⟨p, hp, hlen, hnd, _⟩ := h1.core.path v ((hreach v).mp hv)
    refine ⟨p, hp, hnd, fun q hq => ?_⟩
    have := hlev q s v h1.core.src hq
    rw [h1.core.lev_src] at this
    omega

end Algorithms

end graph


namespace graph

namespace Algorithms

open Graph

/-! ## The claims about bfs and dfs -/

/-- Six vertices with the edges `0 - 1` and `1 - 2` of weight 1, as `addEdge` builds them. -/
def sixVertexGraph : Graph := ⟨6, [[⟨1, 1⟩], [⟨2, 1⟩, ⟨0, 1⟩], [⟨1, 1⟩], [], [], []]⟩

/-- C8: for every well-formed graph and every source `s` in range, `bfs` returns a graph with
one edge less than `s` reaches vertices, in which every vertex that `s` does not reach has an
empty chain; and on six vertices with the edges `(0,1)` and `(1,2)` added by `addEdge`, `bfs`
from 0 returns a graph with 2 edges in which the chains of 3, 4 and 5 are empty. -/
theorem bfs_edge_count (g : Graph) (hg : g.WF) (s : Nat) (hs : s < g.numVertices) :
    (∃ r, bfs g (s : Int) = .ok r ∧ countEdges r + 1 = Set.ncard {v | g.Reach s v} ∧
      ∀ v, ¬ g.Reach s v → r.adj v = []) ∧
    ∃ g0 g1 g2 r, Graph.new 6 = .ok g0 ∧ g0.addEdge 0 1 1 = .ok g1 ∧
      g1.addEdge 1 2 1 = .ok g2 ∧ bfs g2 0 = .ok r ∧ countEdges r = 2 ∧
      r.adj 3 = [] ∧ r.adj 4 = [] ∧ r.adj 5 = [] := by
  obtain ⟨r, hrun, htree, _⟩ := bfs_full g hg hs
  exact ⟨⟨r, hrun, htree.countEdges_succ hg hs, htree.2.2.2.2.2⟩,
    ⟨_, _, _, _, rfl, rfl, rfl, rfl, by decide, rfl, rfl, rfl⟩⟩

/-- C8 at six vertices with the edges `0 - 1` and `1 - 2`, from vertex 0. -/
theorem bfs_edge_count_witness :
    sixVertexGraph.WF ∧ 0 < sixVertexGraph.numVertices ∧
      (∃ r, bfs sixVertexGraph ((0 : Nat) : Int) = .ok r ∧
        countEdges r + 1 = Set.ncard {v | sixVertexGraph.Reach 0 v} ∧
        ∀ v, ¬ sixVertexGraph.Reach 0 v → r.adj v = []) ∧
      ∃ g0 g1 g2 r, Graph.new 6 = .ok g0 ∧ g0.addEdge 0 1 1 = .ok g1 ∧
        g1.addEdge 1 2 1 = .ok g2 ∧ bfs g2 0 = .ok r ∧ countEdges r = 2 ∧
        r.adj 3 = [] ∧ r.adj 4 = [] ∧ r.adj 5 = [] :=
  ⟨by decide, by decide, bfs_edge_count sixVertexGraph (by decide) 0 (by decide)⟩

/-- C9: for every well-formed graph, every source `s` in range and every vertex `v` that `s`
reaches, `s` reaches `v` in the result of `bfs`, which has a path from `s` to `v` that repeats
no vertex, and every such path of the result is a path of the graph with no more edges than
any walk from `s` to `v` in the graph; and every neighbour of `s` other than `s` is a
neighbour of `s` in the result. -/
theorem bfs_levels (g : Graph) (hg : g.WF) (s : Nat) (hs : s < g.numVertices) :
    ∃ r, bfs g (s : Int) = .ok r ∧
      (∀ v, g.Reach s v → r.Reach s v ∧
        (∃ p, r.IsWalk s p v ∧ (pathVertices s p).Nodup) ∧
        ∀ p, r.IsWalk s p v → (pathVertices s p).Nodup →
          g.IsWalk s p v ∧ ∀ q, g.IsWalk s q v → p.length ≤ q.length) ∧
      ∀ v, g.Adj s v → v ≠ s → r.Adj s v := by
  obtain ⟨r, hrun, htree, hpath⟩ := bfs_full g hg hs
  refine ⟨r, hrun, fun v hv => ?_, fun v hv hvs => ?_⟩
  · obtain ⟨p0, hp0, hn0, hmin⟩ := hpath v hv
    refine ⟨htree.2.2.2.2.1 v hv, ⟨p0, hp0, hn0⟩, fun p hp hn => ?_⟩
    have heq : p = p0 := Acyclic.walk_unique htree.1 htree.2.2.2.1 hp hn hp0 hn0
    rw [heq]
    exact ⟨isWalk_of_subgraph htree.2.2.1 hp0, hmin⟩
  · obtain ⟨e, he, hev⟩ := hv
    have hreach : g.Reach s v := Relation.ReflTransGen.single ⟨e, he, hev⟩
    obtain ⟨p0, hp0, _, hmin⟩ := hpath v hreach
    have hlen := hmin [e] ⟨he, hev⟩
    cases p0 with
    | nil => exact absurd hp0.symm hvs
    | cons e0 p1 =>
      cases p1 with
      | nil => exact ⟨e0, hp0.1, hp0.2⟩
      | cons e1 p2 =>
        simp only [List.length_cons, List.length_nil] at hlen
        omega

/-- C9 at the triangle on three vertices, from vertex 0. -/
theorem bfs_levels_witness :
    triangleGraph.WF ∧ 0 < triangleGraph.numVertices ∧
      ∃ r, bfs triangleGraph ((0 : Nat) : Int) = .ok r ∧
        (∀ v, triangleGraph.Reach 0 v → r.Reach 0 v ∧
          (∃ p, r.IsWalk 0 p v ∧ (pathVertices 0 p).Nodup) ∧
          ∀ p, r.IsWalk 0 p v → (pathVertices 0 p).Nodup →
            triangleGraph.IsWalk 0 p v ∧
              ∀ q, triangleGraph.IsWalk 0 q v → p.length ≤ q.length) ∧
        ∀ v, triangleGraph.Adj 0 v → v ≠ 0 → r.Adj 0 v :=
  ⟨by decide, by decide, bfs_levels triangleGraph (by decide) 0 (by decide)⟩

/-- C10: for every well-formed graph and every source `s` in range, `dfs` returns a spanning
tree of the part of the graph that `s` reaches: `s` reaches in it every vertex that it reaches
in the graph, the other vertices have an empty chain, and it has one edge less than `s`
reaches vertices; when the graph is connected it has `numVertices - 1` edges and is
connected. -/
theorem dfs_spanning_tree (g : Graph) (hg : g.WF) (s : Nat) (hs : s < g.numVertices) :
    ∃ r, dfs g (s : Int) = .ok r ∧ r.IsSpanningTreeFrom g s ∧
      countEdges r + 1 = Set.ncard {v | g.Reach s v} ∧
      (g.Connected → countEdges r = g.numVertices - 1 ∧ r.Connected) := by
  obtain ⟨r, hrun, htree⟩ := dfs_full g hg hs
  refine ⟨r, hrun, htree, htree.countEdges_succ hg hs, fun hc => ?_⟩
  have := htree.connected hg hs hc
  exact ⟨this.2, this.1⟩

/-- C10 at a path `0 - 1 - 2` next to a vertex without edges, from vertex 1. -/
theorem dfs_spanning_tree_witness :
    twoPartGraph.WF ∧ 1 < twoPartGraph.numVertices ∧
      ∃ r, dfs twoPartGraph ((1 : Nat) : Int) = .ok r ∧ r.IsSpanningTreeFrom twoPartGraph 1 ∧
        countEdges r + 1 = Set.ncard {v | twoPartGraph.Reach 1 v} ∧
        (twoPartGraph.Connected →
          countEdges r = twoPartGraph.numVertices - 1 ∧ r.Connected) :=
  ⟨by decide, by decide, dfs_spanning_tree twoPartGraph (by decide) 1 (by decide)⟩

end Algorithms

end graph


namespace graph

namespace Graph

/-! ## Graph.cpp: the mutators as changes of the object -/

/-- The object after a call of `Graph::addEdge`, which changes it in place, and what the call
threw, if anything: the range check comes before the first write. -/
def addEdgeInPlace (g : Graph) (source dest : Int) (weight : Int) : Graph × Option Failure :=
  if source < 0 ∨ source ≥ g.numVertices ∨ dest < 0 ∨ dest ≥ g.numVertices then
    (g, some (.thrown "Vertex index out of range"))
  else
    let adjacency1 := pushFront g.adjacencyList source.toNat ⟨dest.toNat, weight⟩
    let adjacency2 := pushFront adjacency1 dest.toNat ⟨source.toNat, weight⟩
    (⟨g.numVertices, adjacency2⟩, none)

/-- The object after a call of `Graph::removeEdge`, which changes it in place, and what the
call threw, if anything: "Edge does not exist" is thrown after both chains were searched. -/
def removeEdgeInPlace (g : Graph) (source dest : Int) : Graph × Option Failure :=
  if source < 0 ∨ source ≥ g.numVertices ∨ dest < 0 ∨ dest ≥ g.numVertices then
    (g, some (.thrown "Vertex index out of range"))
  else
    let r1 := removeFirst dest.toNat (g.adjacencyList.getD source.toNat [])
    let adjacency1 := g.adjacencyList.set source.toNat r1.1
    let r2 := removeFirst source.toNat (adjacency1.getD dest.toNat [])
    let adjacency2 := adjacency1.set dest.toNat r2.1
    if !(r1.2 || r2.2) then
      (⟨g.numVertices, adjacency2⟩, some (.thrown "Edge does not exist"))
    else
      (⟨g.numVertices, adjacency2⟩, none)

/-- The value a call returns or throws, read off the in-place run. -/
def outcome (r : Graph × Option Failure) : Except Failure Graph :=
  match r.2 with
  | none => .ok r.1
  | some f => .error f

theorem addEdge_eq_outcome (g : Graph) (source dest weight : Int) :
    g.addEdge source dest weight = outcome (g.addEdgeInPlace source dest weight) := by
  unfold addEdge addEdgeInPlace outcome
  split <;> rfl

theorem removeEdge_eq_outcome (g : Graph) (source dest : Int) :
    g.removeEdge source dest = outcome (g.removeEdgeInPlace source dest) := by
  unfold removeEdge removeEdgeInPlace outcome
  split
  · rfl
  · simp only []
    split <;> rfl

/-! ## The search of removeEdge -/

theorem removeFirst_false_iff (d : Nat) (l : List Edge) :
    (removeFirst d l).2 = false ↔ ∀ e ∈ l, e.destination ≠ d := by
  induction l with
  | nil => simp [removeFirst]
  | cons a l ih =>
    rw [removeFirst]
    by_cases ha : a.destination = d
    · rw [if_pos ha]
      simp only [Bool.true_eq_false, false_iff, not_forall]
      exact ⟨a, List.mem_cons_self _ _, fun h => h ha⟩
    · rw [if_neg ha]
      simp only [List.mem_cons, forall_eq_or_imp]
      rw [ih]
      exact ⟨fun h => ⟨ha, h⟩, fun h => h.2⟩

theorem removeFirst_of_false {d : Nat} {l : List Edge} (h : (removeFirst d l).2 = false) :
    (removeFirst d l).1 = l := by
  induction l with
  | nil => rfl
  | cons a l ih =>
    rw [removeFirst] at h ⊢
    by_cases ha : a.destination = d
    · rw [if_pos ha] at h
      simp at h
    · rw [if_neg ha] at h ⊢
      simp only at h ⊢
      rw [ih h]

/-- When the search finds a record, it unlinks the first record with the destination `d` and
keeps all others in place. -/
theorem removeFirst_of_true {d : Nat} {l : List Edge} (h : (removeFirst d l).2 = true) :
    ∃ l1 e l2, l = l1 ++ e :: l2 ∧ e.destination = d ∧ (∀ x ∈ l1, x.destination ≠ d) ∧
      (removeFirst d l).1 = l1 ++ l2 := by
  induction l with
  | nil => simp [removeFirst] at h
  | cons a l ih =>
    rw [removeFirst] at h ⊢
    by_cases ha : a.destination = d
    · rw [if_pos ha]
      exact ⟨[], a, l, rfl, ha, by simp, rfl⟩
    · rw [if_neg ha] at h ⊢
      simp only at h ⊢
      obtain ⟨l1, e, l2, hl, he, hl1, hr⟩ := ih h
      refine ⟨a :: l1, e, l2, by rw [hl]; rfl, he, ?_, by rw [hr]; rfl⟩
      intro x hx
      rcases List.mem_cons.mp hx with rfl | hx
      · exact ha
      · exact hl1 x hx

theorem removeFirst_nil (d : Nat) : removeFirst d [] = ([], false) := rfl

theorem set_getD_self {α : Type} (l : List α) (i : Nat) (d : α) : l.set i (l.getD i d) = l := by
  induction l generalizing i with
  | nil => rfl
  | cons a l ih =>
    cases i with
    | zero => rfl
    | succ i =>
      simp only [List.set_cons_succ, List.getD_cons_succ]
      rw [ih]

theorem getD_set_same (l : List (List Edge)) (i : Nat) (a : List Edge)
    (h : i < l.length ∨ a = []) : (l.set i a).getD i [] = a := by
  rw [getD_set_eq]
  by_cases hi : i < l.length
  · rw [if_pos ⟨rfl, hi⟩]
  · rw [if_neg (fun hc => hi hc.2)]
    rcases h with h | h
    · exact absurd h hi
    · rw [h, List.getD_eq_getElem?_getD, List.getElem?_eq_none (by omega)]
      rfl

theorem getD_set_other (l : List (List Edge)) {i j : Nat} (a : List Edge) (h : i ≠ j) :
    (l.set i a).getD j [] = l.getD j [] := by
  rw [getD_set_eq, if_neg (fun hc => h hc.1)]

theorem removeFirst_fst_nil_of_ge (d : Nat) (l : List (List Edge)) (i : Nat) :
    i < l.length ∨ (removeFirst d (l.getD i [])).1 = [] := by
  by_cases hi : i < l.length
  · exact Or.inl hi
  · right
    rw [List.getD_eq_getElem?_getD, List.getElem?_eq_none (by omega)]
    rfl

end Graph

end graph


namespace graph

namespace Graph

/-- The object that `removeEdge` leaves behind for two vertices in range, whether it returns or
throws "Edge does not exist". -/
def removeEdgeNat (g : Graph) (u v : Nat) : Graph :=
  let r1 := removeFirst v (g.adjacencyList.getD u [])
  let adjacency1 := g.adjacencyList.set u r1.1
  let r2 := removeFirst u (adjacency1.getD v [])
  ⟨g.numVertices, adjacency1.set v r2.1⟩

/-- The flag `edgeRemoved` of `removeEdge` for two vertices in range. -/
def edgeRemoved (g : Graph) (u v : Nat) : Bool :=
  let r1 := removeFirst v (g.adjacencyList.getD u [])
  let adjacency1 := g.adjacencyList.set u r1.1
  let r2 := removeFirst u (adjacency1.getD v [])
  r1.2 || r2.2

theorem removeEdgeInPlace_eq {g : Graph} {u v : Nat} (hu : u < g.numVertices)
    (hv : v < g.numVertices) :
    g.removeEdgeInPlace (u : Int) (v : Int) =
      (g.removeEdgeNat u v,
        if g.edgeRemoved u v then none else some (.thrown "Edge does not exist")) := by
  unfold removeEdgeInPlace removeEdgeNat edgeRemoved
  rw [if_neg (by omega)]
  simp only [Int.toNat_ofNat]
  generalize ((removeFirst v (g.adjacencyList.getD u [])).2 ||
    (removeFirst u ((g.adjacencyList.set u
      (removeFirst v (g.adjacencyList.getD u [])).1).getD v [])).2) = b
  cases b <;> rfl

theorem removeEdgeNat_numVertices (g : Graph) (u v : Nat) :
    (g.removeEdgeNat u v).numVertices = g.numVertices := rfl

theorem adj_removeEdgeNat (g : Graph) (u v x : Nat) :
    (g.removeEdgeNat u v).adj x =
      if x = v then
        (removeFirst u (if u = v then (removeFirst v (g.adj u)).1 else g.adj v)).1
      else if x = u then (removeFirst v (g.adj u)).1
      else g.adj x := by
  unfold removeEdgeNat adj
  simp only []
  have h1 : (g.adjacencyList.set u (removeFirst v (g.adjacencyList.getD u [])).1).getD v [] =
      if u = v then (removeFirst v (g.adjacencyList.getD u [])).1
      else g.adjacencyList.getD v [] := by
    by_cases huv : u = v
    · rw [if_pos huv, ← huv]
      exact getD_set_same _ _ _ (removeFirst_fst_nil_of_ge _ _ _)
    · rw [if_neg huv]
      exact getD_set_other _ _ huv
  by_cases hxv : x = v
  · rw [if_pos hxv, hxv]
    rw [getD_set_same _ _ _ (by
      have := removeFirst_fst_nil_of_ge u
        (g.adjacencyList.set u (removeFirst v (g.adjacencyList.getD u [])).1) v
      rw [List.length_set] at this ⊢
      exact this)]
    rw [h1]
  · rw [if_neg hxv, getD_set_other _ _ (fun h => hxv h.symm)]
    by_cases hxu : x = u
    · rw [if_pos hxu, hxu]
      exact getD_set_same _ _ _ (removeFirst_fst_nil_of_ge _ _ _)
    · rw [if_neg hxu]
      exact getD_set_other _ _ (fun h => hxu h.symm)

theorem edgeRemoved_eq (g : Graph) (u v : Nat) :
    g.edgeRemoved u v = ((removeFirst v (g.adj u)).2 ||
      (removeFirst u (if u = v then (removeFirst v (g.adj u)).1 else g.adj v)).2) := by
  unfold edgeRemoved adj
  simp only []
  have h1 : (g.adjacencyList.set u (removeFirst v (g.adjacencyList.getD u [])).1).getD v [] =
      if u = v then (removeFirst v (g.adjacencyList.getD u [])).1
      else g.adjacencyList.getD v [] := by
    by_cases huv : u = v
    · rw [if_pos huv, ← huv]
      exact getD_set_same _ _ _ (removeFirst_fst_nil_of_ge _ _ _)
    · rw [if_neg huv]
      exact getD_set_other _ _ huv
  rw [h1]

/-- The flag stays down exactly when neither chain holds a record to the other vertex. -/
theorem edgeRemoved_false_iff (g : Graph) (u v : Nat) :
    g.edgeRemoved u v = false ↔
      (∀ e ∈ g.adj u, e.destination ≠ v) ∧ ∀ e ∈ g.adj v, e.destination ≠ u := by
  rw [edgeRemoved_eq, Bool.or_eq_false_iff]
  by_cases huv : u = v
  · subst huv
    rw [if_pos rfl]
    constructor
    · rintro ⟨h1, _⟩
      exact ⟨(removeFirst_false_iff _ _).mp h1, (removeFirst_false_iff _ _).mp h1⟩
    · rintro ⟨h1, _⟩
      have h2 := (removeFirst_false_iff _ _).mpr h1
      refine ⟨h2, ?_⟩
      rw [removeFirst_of_false h2]
      exact h2
  · rw [if_neg huv, removeFirst_false_iff, removeFirst_false_iff]

/-- When the flag stays down the object is what it was. -/
theorem removeEdgeNat_of_not_removed {g : Graph} {u v : Nat} (h : g.edgeRemoved u v = false) :
    g.removeEdgeNat u v = g := by
  unfold edgeRemoved at h
  simp only [Bool.or_eq_false_iff] at h
  unfold removeEdgeNat
  simp only []
  have h1 := removeFirst_of_false h.1
  have h2 := removeFirst_of_false h.2
  rw [h2, h1, set_getD_self, set_getD_self]

end Graph

end graph


namespace graph

namespace Graph

theorem adj_addEdgeNat_of_length {g : Graph} (hlen : g.adjacencyList.length = g.numVertices)
    {u v : Nat} (hu : u < g.numVertices) (hv : v < g.numVertices) (w : Int) (x : Nat) :
    (g.addEdgeNat u v w).adj x =
      if x = v then
        (⟨u, w⟩ : Edge) :: (if v = u then (⟨v, w⟩ : Edge) :: g.adj u else g.adj v)
      else if x = u then (⟨v, w⟩ : Edge) :: g.adj u
      else g.adj x := by
  unfold adj addEdgeNat pushFront
  simp only [getD_set_eq, List.length_set]
  by_cases hxv : x = v
  · subst hxv
    rw [if_pos ⟨rfl, by omega⟩, if_pos rfl]
    by_cases hxu : x = u
    · subst hxu
      rw [if_pos ⟨rfl, by omega⟩, if_pos rfl]
    · rw [if_neg (by intro h; exact hxu h.1.symm), if_neg hxu]
  · rw [if_neg (by intro h; exact hxv h.1.symm), if_neg hxv]
    by_cases hxu : x = u
    · subst hxu
      rw [if_pos ⟨rfl, by omega⟩, if_pos rfl]
    · rw [if_neg (by intro h; exact hxu h.1.symm), if_neg hxu]

end Graph

namespace Algorithms

open Graph

/-! ## The claims about the failures of the algorithms and about the class Graph -/

/-- C14: for every graph and every integer `source` below 0 or not below the number of
vertices, each of `bfs`, `dfs` and `dijkstra` throws "Source vertex out of range" and returns no
graph. -/
theorem invalid_source_fails (g : Graph) (source : Int)
    (h : source < 0 ∨ source ≥ (g.numVertices : Int)) :
    bfs g source = .error (.thrown "Source vertex out of range") ∧
      dfs g source = .error (.thrown "Source vertex out of range") ∧
      dijkstra g source = .error (.thrown "Source vertex out of range") := by
  refine ⟨?_, ?_, ?_⟩
  · unfold bfs
    simp only [getNumVertices]
    rw [if_pos h]
  · unfold dfs
    simp only [getNumVertices]
    rw [if_pos h]
  · unfold dijkstra
    simp only [getNumVertices]
    rw [if_pos h]

/-- C14 at the path `0 - 1 - 2` with the source 3. -/
theorem invalid_source_fails_witness :
    ((3 : Int) < 0 ∨ (3 : Int) ≥ (pathGraph3.numVertices : Int)) ∧
      bfs pathGraph3 3 = .error (.thrown "Source vertex out of range") ∧
      dfs pathGraph3 3 = .error (.thrown "Source vertex out of range") ∧
      dijkstra pathGraph3 3 = .error (.thrown "Source vertex out of range") :=
  ⟨by decide, invalid_source_fails pathGraph3 3 (by decide)⟩

/-- C15: the constructor throws "Number of vertices must be positive" exactly when the
vertex count is at most 0; for a positive count it returns a graph with that number of vertices
whose chains, one per vertex, are all empty. -/
theorem new_spec (n : Int) :
    (Graph.new n = .error (.thrown "Number of vertices must be positive") ↔ n ≤ 0) ∧
      (0 < n → ∃ g, Graph.new n = .ok g ∧ (g.numVertices : Int) = n ∧
        g.adjacencyList = List.replicate g.numVertices [] ∧ ∀ v, g.adj v = []) := by
  constructor
  · unfold Graph.new
    by_cases hn : n ≤ 0
    · rw [if_pos hn]
      exact ⟨fun _ => hn, fun _ => rfl⟩
    · rw [if_neg hn]
      constructor
      · intro h
        injection h
      · intro h
        exact absurd h hn
  · intro hn
    refine ⟨⟨n.toNat, List.replicate n.toNat []⟩, ?_, ?_, rfl, ?_⟩
    · unfold Graph.new
      rw [if_neg (by omega)]
    · show ((n.toNat : Nat) : Int) = n
      omega
    · intro v
      exact adj_emptyGraph n.toNat v

/-- C15 at the vertex count 3. -/
theorem new_spec_witness :
    ∃ g, Graph.new 3 = .ok g ∧ (g.numVertices : Int) = 3 ∧
      g.adjacencyList = List.replicate g.numVertices [] ∧ ∀ v, g.adj v = [] :=
  (new_spec 3).2 (by decide)

/-- C16: for every graph with one chain per vertex and vertices `u`, `v` in range, `addEdge`
returns a graph with the same vertex count in which the chain of every vertex other than `u`
and `v` is unchanged; for `u ≠ v` the chain of `u` is the record `(v, w)` followed by the old
chain of `u` and the chain of `v` is `(u, w)` followed by the old chain of `v`, whatever
records the chains held; for `u = v` the chain of `u` is two records `(u, w)` followed by the
old chain. -/
theorem addEdge_prepends (g : Graph) (hlen : g.adjacencyList.length = g.numVertices)
    (u v : Nat) (hu : u < g.numVertices) (hv : v < g.numVertices) (w : Int) :
    ∃ r, g.addEdge (u : Int) (v : Int) w = .ok r ∧ r.numVertices = g.numVertices ∧
      (∀ x, x ≠ u → x ≠ v → r.adj x = g.adj x) ∧
      (u ≠ v → r.adj u = ⟨v, w⟩ :: g.adj u ∧ r.adj v = ⟨u, w⟩ :: g.adj v) ∧
      (u = v → r.adj u = ⟨u, w⟩ :: ⟨u, w⟩ :: g.adj u) := by
  refine ⟨g.addEdgeNat u v w, addEdge_eq hu hv w, rfl, ?_, ?_, ?_⟩
  · intro x hxu hxv
    rw [adj_addEdgeNat_of_length hlen hu hv, if_neg hxv, if_neg hxu]
  · intro huv
    constructor
    · rw [adj_addEdgeNat_of_length hlen hu hv, if_neg huv, if_pos rfl]
    · rw [adj_addEdgeNat_of_length hlen hu hv, if_pos rfl, if_neg (fun h => huv h.symm)]
  · intro huv
    subst huv
    rw [adj_addEdgeNat_of_length hlen hu hv, if_pos rfl, if_pos rfl]

/-- C16 at the path `0 - 1 - 2`, adding a second edge between 0 and 1. -/
theorem addEdge_prepends_witness :
    pathGraph3.adjacencyList.length = pathGraph3.numVertices ∧ 0 < pathGraph3.numVertices ∧
      1 < pathGraph3.numVertices ∧
      ∃ r, pathGraph3.addEdge ((0 : Nat) : Int) ((1 : Nat) : Int) 7 = .ok r ∧
        r.numVertices = pathGraph3.numVertices ∧
        (∀ x, x ≠ 0 → x ≠ 1 → r.adj x = pathGraph3.adj x) ∧
        (0 ≠ 1 → r.adj 0 = ⟨1, 7⟩ :: pathGraph3.adj 0 ∧ r.adj 1 = ⟨0, 7⟩ :: pathGraph3.adj 1) ∧
        (0 = 1 → r.adj 0 = ⟨0, 7⟩ :: ⟨0, 7⟩ :: pathGraph3.adj 0) :=
  ⟨by decide, by decide, by decide,
    addEdge_prepends pathGraph3 (by decide) 0 1 (by decide) (by decide) 7⟩

/-- C17: `addEdge` throws "Vertex index out of range" exactly when one of the two vertices is
below 0 or not below the number of vertices, and the object is then what it was before the
call. -/
theorem addEdge_out_of_range (g : Graph) (u v w : Int) :
    (g.addEdge u v w = .error (.thrown "Vertex index out of range") ↔
      (u < 0 ∨ u ≥ g.numVertices ∨ v < 0 ∨ v ≥ g.numVertices)) ∧
    ((u < 0 ∨ u ≥ g.numVertices ∨ v < 0 ∨ v ≥ g.numVertices) →
      g.addEdgeInPlace u v w = (g, some (.thrown "Vertex index out of range"))) := by
  constructor
  · unfold addEdge
    by_cases h : u < 0 ∨ u ≥ g.numVertices ∨ v < 0 ∨ v ≥ g.numVertices
    · rw [if_pos h]
      exact ⟨fun _ => h, fun _ => rfl⟩
    · rw [if_neg h]
      constructor
      · intro hc
        injection hc
      · intro hc
        exact absurd hc h
  · intro h
    unfold addEdgeInPlace
    rw [if_pos h]

/-- C18: for vertices `u ≠ v` in range such that the chain of `u` holds a record to `v` and the
chain of `v` a record to `u`, `removeEdge` returns a graph with the same vertex count in which
the chain of `u` is the old one without its first record to `v`, the chain of `v` is the old
one without its first record to `u`, all other records stay in place in their order, and the
chain of every other vertex is unchanged. -/
theorem removeEdge_first (g : Graph) (u v : Nat) (hu : u < g.numVertices)
    (hv : v < g.numVertices) (huv : u ≠ v) (h1 : ∃ e ∈ g.adj u, e.destination = v)
    (h2 : ∃ e ∈ g.adj v, e.destination = u) :
    ∃ r a e b c f d, g.removeEdge (u : Int) (v : Int) = .ok r ∧
      r.numVertices = g.numVertices ∧
      g.adj u = a ++ e :: b ∧ e.destination = v ∧ (∀ x ∈ a, x.destination ≠ v) ∧
      r.adj u = a ++ b ∧
      g.adj v = c ++ f :: d ∧ f.destination = u ∧ (∀ x ∈ c, x.destination ≠ u) ∧
      r.adj v = c ++ d ∧
      ∀ x, x ≠ u → x ≠ v → r.adj x = g.adj x := by
  have hf1 : (removeFirst v (g.adj u)).2 = true := by
    cases hb : (removeFirst v (g.adj u)).2
    · obtain ⟨e, he, hev⟩ := h1
      exact absurd hev ((removeFirst_false_iff _ _).mp hb e he)
    · rfl
  have hf2 : (removeFirst u (g.adj v)).2 = true := by
    cases hb : (removeFirst u (g.adj v)).2
    · obtain ⟨e, he, hev⟩ := h2
      exact absurd hev ((removeFirst_false_iff _ _).mp hb e he)
    · rfl
  obtain ⟨a, e, b, hab, he, ha, hra⟩ := removeFirst_of_true hf1
  obtain ⟨c, f, d, hcd, hf, hc, hrc⟩ := removeFirst_of_true hf2
  have hrem : g.edgeRemoved u v = true := by
    rw [edgeRemoved_eq, hf1]
    rfl
  refine ⟨g.removeEdgeNat u v, a, e, b, c, f, d, ?_, rfl, hab, he, ha, ?_, hcd, hf, hc, ?_, ?_⟩
  · rw [removeEdge_eq_outcome, removeEdgeInPlace_eq hu hv, hrem]
    rfl
  · rw [adj_removeEdgeNat, if_neg huv, if_pos rfl, hra]
  · rw [adj_removeEdgeNat, if_pos rfl, if_neg huv, hrc]
  · intro x hxu hxv
    rw [adj_removeEdgeNat, if_neg hxv, if_neg hxu]

/-- C18 at the path `0 - 1 - 2`, removing the edge between 1 and 2. -/
theorem removeEdge_first_witness :
    1 < pathGraph3.numVertices ∧ 2 < pathGraph3.numVertices ∧ 1 ≠ 2 ∧
      (∃ e ∈ pathGraph3.adj 1, e.destination = 2) ∧
      (∃ e ∈ pathGraph3.adj 2, e.destination = 1) ∧
      ∃ r a e b c f d, pathGraph3.removeEdge ((1 : Nat) : Int) ((2 : Nat) : Int) = .ok r ∧
        r.numVertices = pathGraph3.numVertices ∧
        pathGraph3.adj 1 = a ++ e :: b ∧ e.destination = 2 ∧ (∀ x ∈ a, x.destination ≠ 2) ∧
        r.adj 1 = a ++ b ∧
        pathGraph3.adj 2 = c ++ f :: d ∧ f.destination = 1 ∧ (∀ x ∈ c, x.destination ≠ 1) ∧
        r.adj 2 = c ++ d ∧
        ∀ x, x ≠ 1 → x ≠ 2 → r.adj x = pathGraph3.adj x :=
  ⟨by decide, by decide, by decide, by decide, by decide,
    removeEdge_first pathGraph3 1 2 (by decide) (by decide) (by decide) (by decide)
      (by decide)⟩

/-- C19: for vertices `u`, `v` in range, `removeEdge` throws "Edge does not exist" exactly when
the chain of `u` holds no record to `v` and the chain of `v` holds no record to `u`, and the
object is then what it was before the call. -/
theorem removeEdge_not_found (g : Graph) (u v : Nat) (hu : u < g.numVertices)
    (hv : v < g.numVertices) :
    (g.removeEdge (u : Int) (v : Int) = .error (.thrown "Edge does not exist") ↔
      (∀ e ∈ g.adj u, e.destination ≠ v) ∧ ∀ e ∈ g.adj v, e.destination ≠ u) ∧
    (g.removeEdge (u : Int) (v : Int) = .error (.thrown "Edge does not exist") →
      (g.removeEdgeInPlace (u : Int) (v : Int)).1 = g) := by
  have hiff : g.removeEdge (u : Int) (v : Int) = .error (.thrown "Edge does not exist") ↔
      g.edgeRemoved u v = false := by
    rw [removeEdge_eq_outcome, removeEdgeInPlace_eq hu hv]
    cases hb : g.edgeRemoved u v
    · exact ⟨fun _ => rfl, fun _ => rfl⟩
    · constructor
      · intro hc
        simp only [if_true, outcome] at hc
        injection hc
      · intro hc
        simp at hc
  refine ⟨hiff.trans (edgeRemoved_false_iff g u v), fun h => ?_⟩
  rw [removeEdgeInPlace_eq hu hv]
  exact removeEdgeNat_of_not_removed (hiff.mp h)

/-- C19 at the path `0 - 1 - 2` and the vertices 0 and 2, which no edge joins. -/
theorem removeEdge_not_found_witness :
    0 < pathGraph3.numVertices ∧ 2 < pathGraph3.numVertices ∧
      (pathGraph3.removeEdge ((0 : Nat) : Int) ((2 : Nat) : Int) =
          .error (.thrown "Edge does not exist") ↔
        (∀ e ∈ pathGraph3.adj 0, e.destination ≠ 2) ∧
          ∀ e ∈ pathGraph3.adj 2, e.destination ≠ 0) ∧
      (pathGraph3.removeEdge ((0 : Nat) : Int) ((2 : Nat) : Int) =
          .error (.thrown "Edge does not exist") →
        (pathGraph3.removeEdgeInPlace ((0 : Nat) : Int) ((2 : Nat) : Int)).1 = pathGraph3) :=
  ⟨by decide, by decide, removeEdge_not_found pathGraph3 0 2 (by decide) (by decide)⟩

end Algorithms

end graph


namespace graph

namespace Graph

/-! ## The graphs that the interface of the class can produce -/

/-- The objects that the constructor followed by successful calls of `addEdge` and `removeEdge`
produces. -/
inductive Built : Graph → Prop
  | construct {n : Int} {g : Graph} : Graph.new n = .ok g → Built g
  | add {g r : Graph} {u v w : Int} : Built g → g.addEdge u v w = .ok r → Built r
  | remove {g r : Graph} {u v : Int} : Built g → g.removeEdge u v = .ok r → Built r

/-- The weights of the records from `u` to `v`, in the order of the chain of `u`. -/
def weightsTo (g : Graph) (u v : Nat) : List Int :=
  ((g.adj u).filter fun e => decide (e.destination = v)).map Edge.weight

/-- The invariant behind undirectedness: one chain per vertex, destinations in range, and the
records from `u` to `v` mirror the records from `v` to `u`, weight by weight in the same
order. -/
def Mirror (g : Graph) : Prop :=
  0 < g.numVertices ∧ g.adjacencyList.length = g.numVertices ∧
    (∀ u, ∀ e ∈ g.adj u, e.destination < g.numVertices) ∧
    ∀ u v, u ≠ v → g.weightsTo u v = g.weightsTo v u

theorem addEdge_ok {g r : Graph} {u v w : Int} (h : g.addEdge u v w = .ok r) :
    ∃ a b : Nat, a < g.numVertices ∧ b < g.numVertices ∧ r = g.addEdgeNat a b w := by
  unfold addEdge at h
  by_cases hc : u < 0 ∨ u ≥ g.numVertices ∨ v < 0 ∨ v ≥ g.numVertices
  · rw [if_pos hc] at h
    injection h
  · rw [if_neg hc] at h
    injection h with h
    exact ⟨u.toNat, v.toNat, by omega, by omega, h.symm⟩

theorem removeEdge_ok {g r : Graph} {u v : Int} (h : g.removeEdge u v = .ok r) :
    ∃ a b : Nat, a < g.numVertices ∧ b < g.numVertices ∧ r = g.removeEdgeNat a b := by
  by_cases hc : u < 0 ∨ u ≥ g.numVertices ∨ v < 0 ∨ v ≥ g.numVertices
  · unfold removeEdge at h
    rw [if_pos hc] at h
    injection h
  · have hu : u.toNat < g.numVertices := by omega
    have hv : v.toNat < g.numVertices := by omega
    have h1 : ((u.toNat : Nat) : Int) = u := by omega
    have h2 : ((v.toNat : Nat) : Int) = v := by omega
    rw [← h1, ← h2, removeEdge_eq_outcome, removeEdgeInPlace_eq hu hv] at h
    refine ⟨u.toNat, v.toNat, hu, hv, ?_⟩
    unfold outcome at h
    split at h
    · injection h with h
      exact h.symm
    · injection h

theorem mem_removeFirst {d : Nat} {l : List Edge} {e : Edge} (h : e ∈ (removeFirst d l).1) :
    e ∈ l := by
  induction l with
  | nil => exact h
  | cons a l ih =>
    rw [removeFirst] at h
    by_cases ha : a.destination = d
    · rw [if_pos ha] at h
      exact List.mem_cons_of_mem _ h
    · rw [if_neg ha] at h
      rcases List.mem_cons.mp h with rfl | h
      · exact List.mem_cons_self _ _
      · exact List.mem_cons_of_mem _ (ih h)

theorem filter_removeFirst (d v : Nat) (l : List Edge) :
    ((removeFirst d l).1.filter fun e => decide (e.destination = v)) =
      if v = d then (l.filter fun e => decide (e.destination = v)).tail
      else l.filter fun e => decide (e.destination = v) := by
  induction l with
  | nil => simp [removeFirst]
  | cons a l ih =>
    rw [removeFirst]
    by_cases ha : a.destination = d
    · rw [if_pos ha]
      by_cases hv : v = d
      · rw [if_pos hv, List.filter_cons_of_pos (by simp [ha, hv])]
        rfl
      · rw [if_neg hv, List.filter_cons_of_neg (by simp [ha]; exact fun h => hv h.symm)]
    · rw [if_neg ha]
      simp only []
      by_cases hav : a.destination = v
      · have hvd : v ≠ d := fun h => ha (hav.trans h)
        rw [if_neg hvd] at ih ⊢
        rw [List.filter_cons_of_pos (by simp [hav]), List.filter_cons_of_pos (by simp [hav]), ih]
      · rw [List.filter_cons_of_neg (by simp [hav]), List.filter_cons_of_neg (by simp [hav])]
        exact ih

theorem weightsTo_removeEdgeNat (g : Graph) (a b : Nat) {x v : Nat} (hxv : x ≠ v) :
    (g.removeEdgeNat a b).weightsTo x v =
      if (x = a ∧ v = b) ∨ (x = b ∧ v = a) then (g.weightsTo x v).tail
      else g.weightsTo x v := by
  unfold weightsTo
  rw [adj_removeEdgeNat]
  by_cases hxb : x = b
  · rw [if_pos hxb]
    by_cases hab : a = b
    · have hva : v ≠ a := fun h => hxv (hxb.trans (hab.symm.trans h.symm))
      have hvb : v ≠ b := fun h => hxv (hxb.trans h.symm)
      rw [if_pos hab, filter_removeFirst, if_neg hva, filter_removeFirst, if_neg hvb,
        if_neg (by rintro (⟨_, h⟩ | ⟨_, h⟩) <;> [exact hvb h; exact hva h])]
      rw [hxb, ← hab]
    · rw [if_neg hab, filter_removeFirst]
      by_cases hva : v = a
      · rw [if_pos hva, if_pos (Or.inr ⟨hxb, hva⟩), List.map_tail, hxb]
      · rw [if_neg hva, if_neg (by
          rintro (⟨h1, _⟩ | ⟨_, h⟩)
          · exact hab (h1.symm.trans hxb)
          · exact hva h), hxb]
  · rw [if_neg hxb]
    by_cases hxa : x = a
    · rw [if_pos hxa, filter_removeFirst]
      by_cases hvb : v = b
      · rw [if_pos hvb, if_pos (Or.inl ⟨hxa, hvb⟩), List.map_tail, hxa]
      · rw [if_neg hvb, if_neg (by
          rintro (⟨_, h⟩ | ⟨h1, _⟩)
          · exact hvb h
          · exact hxb h1), hxa]
    · rw [if_neg hxa, if_neg (by
        rintro (⟨h, _⟩ | ⟨h, _⟩)
        · exact hxa h
        · exact hxb h)]

theorem weightsTo_addEdgeNat {g : Graph} (hlen : g.adjacencyList.length = g.numVertices)
    {a b : Nat} (ha : a < g.numVertices) (hb : b < g.numVertices) (w : Int) {x v : Nat}
    (hxv : x ≠ v) :
    (g.addEdgeNat a b w).weightsTo x v =
      if (x = a ∧ v = b) ∨ (x = b ∧ v = a) then w :: g.weightsTo x v
      else g.weightsTo x v := by
  unfold weightsTo
  rw [adj_addEdgeNat_of_length hlen ha hb]
  by_cases hxb : x = b
  · rw [if_pos hxb]
    by_cases hba : b = a
    · rw [if_pos hba, if_neg (by omega),
        List.filter_cons_of_neg (by simp only [decide_eq_true_eq]; omega),
        List.filter_cons_of_neg (by simp only [decide_eq_true_eq]; omega), hxb, hba]
    · rw [if_neg hba]
      by_cases hva : v = a
      · rw [if_pos (Or.inr ⟨hxb, hva⟩),
          List.filter_cons_of_pos (by simp only [decide_eq_true_eq]; omega), hxb]
        rfl
      · rw [if_neg (by omega),
          List.filter_cons_of_neg (by simp only [decide_eq_true_eq]; omega), hxb]
  · rw [if_neg hxb]
    by_cases hxa : x = a
    · rw [if_pos hxa]
      by_cases hvb : v = b
      · rw [if_pos (Or.inl ⟨hxa, hvb⟩),
          List.filter_cons_of_pos (by simp only [decide_eq_true_eq]; omega), hxa]
        rfl
      · rw [if_neg (by omega),
          List.filter_cons_of_neg (by simp only [decide_eq_true_eq]; omega), hxa]
    · rw [if_neg hxa, if_neg (by omega)]

end Graph

end graph


namespace graph

namespace Graph

theorem mirror_new {n : Int} {g : Graph} (h : Graph.new n = .ok g) : g.Mirror := by
  unfold Graph.new at h
  by_cases hn : n ≤ 0
  · rw [if_pos hn] at h
    injection h
  · rw [if_neg hn] at h
    injection h with h
    subst h
    refine ⟨by show 0 < n.toNat; omega, by simp, ?_, ?_⟩
    · intro u e he
      have : (⟨n.toNat, List.replicate n.toNat []⟩ : Graph).adj u = [] :=
        adj_emptyGraph n.toNat u
      rw [this] at he
      simp at he
    · intro u v _
      have h1 : ∀ x, (⟨n.toNat, List.replicate n.toNat []⟩ : Graph).adj x = [] :=
        fun x => adj_emptyGraph n.toNat x
      unfold weightsTo
      rw [h1, h1]
      rfl

theorem Mirror.addEdgeNat {g : Graph} (h : g.Mirror) {a b : Nat} (ha : a < g.numVertices)
    (hb : b < g.numVertices) (w : Int) : (g.addEdgeNat a b w).Mirror := by
  obtain ⟨hn, hlen, hr, hm⟩ := h
  refine ⟨hn, by simp [Graph.addEdgeNat, pushFront, hlen], ?_, ?_⟩
  · intro u e he
    rw [adj_addEdgeNat_of_length hlen ha hb] at he
    show e.destination < g.numVertices
    split at he
    · rcases List.mem_cons.mp he with rfl | he
      · exact ha
      · split at he
        · rcases List.mem_cons.mp he with rfl | he
          · exact hb
          · exact hr _ e he
        · exact hr _ e he
    · split at he
      · rcases List.mem_cons.mp he with rfl | he
        · exact hb
        · exact hr _ e he
      · exact hr _ e he
  · intro u v huv
    rw [weightsTo_addEdgeNat hlen ha hb w huv, weightsTo_addEdgeNat hlen ha hb w (Ne.symm huv),
      hm u v huv]
    by_cases hc : (u = a ∧ v = b) ∨ (u = b ∧ v = a)
    · rw [if_pos hc, if_pos (by omega)]
    · rw [if_neg hc, if_neg (by omega)]

theorem Mirror.removeEdgeNat {g : Graph} (h : g.Mirror) (a b : Nat) :
    (g.removeEdgeNat a b).Mirror := by
  obtain ⟨hn, hlen, hr, hm⟩ := h
  refine ⟨hn, by simp [Graph.removeEdgeNat, hlen], ?_, ?_⟩
  · intro u e he
    rw [adj_removeEdgeNat] at he
    show e.destination < g.numVertices
    split at he
    · have he' := mem_removeFirst he
      split at he'
      · exact hr _ e (mem_removeFirst he')
      · exact hr _ e he'
    · split at he
      · exact hr _ e (mem_removeFirst he)
      · exact hr _ e he
  · intro u v huv
    rw [weightsTo_removeEdgeNat g a b huv, weightsTo_removeEdgeNat g a b (Ne.symm huv),
      hm u v huv]
    by_cases hc : (u = a ∧ v = b) ∨ (u = b ∧ v = a)
    · rw [if_pos hc, if_pos (by omega)]
    · rw [if_neg hc, if_neg (by omega)]

/-- Every object that the interface produces satisfies the invariant. -/
theorem Built.mirror {g : Graph} (h : g.Built) : g.Mirror := by
  induction h with
  | construct h => exact mirror_new h
  | add _ h ih =>
    obtain ⟨a, b, ha, hb, rfl⟩ := addEdge_ok h
    exact ih.addEdgeNat ha hb _
  | remove _ h ih =>
    obtain ⟨a, b, _, _, rfl⟩ := removeEdge_ok h
    exact ih.removeEdgeNat a b

theorem count_eq_weightsTo (l : List Edge) (v : Nat) (w : Int) :
    l.count ⟨v, w⟩ =
      ((l.filter fun e => decide (e.destination = v)).map Edge.weight).count w := by
  induction l with
  | nil => rfl
  | cons a l ih =>
    by_cases hav : a.destination = v
    · rw [List.filter_cons_of_pos (by simp [hav]), List.map_cons, List.count_cons,
        List.count_cons, ih]
      congr 1
      cases a with
      | mk d x =>
        simp only at hav
        subst hav
        by_cases hx : x = w
        · simp [hx]
        · simp [hx]
    · rw [List.filter_cons_of_neg (by simp [hav]), List.count_cons, ih]
      have : (a == (⟨v, w⟩ : Edge)) = false := by
        rw [beq_eq_false_iff_ne]
        intro hc
        apply hav
        rw [hc]
      rw [this]
      simp

/-- Under the invariant a record `(v, w)` occurs in the chain of `u` as often as `(u, w)` in
the chain of `v`. -/
theorem Mirror.count_eq {g : Graph} (h : g.Mirror) {u v : Nat} (huv : u ≠ v) (w : Int) :
    (g.adj u).count ⟨v, w⟩ = (g.adj v).count ⟨u, w⟩ := by
  rw [count_eq_weightsTo, count_eq_weightsTo]
  have := h.2.2.2 u v huv
  unfold weightsTo at this
  rw [this]

/-- Every object that the interface produces is in the state that the algorithms assume. -/
theorem Built.wf {g : Graph} (h : g.Built) : g.WF := by
  have hm := h.mirror
  refine ⟨hm.1, hm.2.1, fun u _ e he => ⟨hm.2.2.1 u e he, ?_⟩⟩
  by_cases hue : u = e.destination
  · have : (⟨u, e.weight⟩ : Edge) = e := by
      cases e
      simp only [Edge.mk.injEq, and_true]
      exact hue
    rw [this, ← hue]
    exact he
  · have hc := hm.count_eq hue e.weight
    have hpos : 0 < (g.adj u).count ⟨e.destination, e.weight⟩ := List.count_pos_iff.mpr he
    rw [hc] at hpos
    exact List.count_pos_iff.mp hpos

end Graph

namespace Algorithms

open Graph

/-- C20: in every graph that the constructor followed by successful calls of `addEdge` and
`removeEdge` produces, for all vertices `u ≠ v` and every weight `w`, the record `(v, w)` occurs
in the chain of `u` as often as the record `(u, w)` occurs in the chain of `v`. -/
theorem built_undirected (g : Graph) (h : g.Built) (u v : Nat) (huv : u ≠ v) (w : Int) :
    (g.adj u).count ⟨v, w⟩ = (g.adj v).count ⟨u, w⟩ :=
  h.mirror.count_eq huv w

/-- C20 at the graph left by `Graph(3)`, `addEdge(0,1,5)`, `addEdge(0,1,7)`, `addEdge(1,2,3)`
and `removeEdge(1,0)`, for the records between 0 and 1 of weight 5. -/
theorem built_undirected_witness :
    (⟨3, [[⟨1, 5⟩], [⟨2, 3⟩, ⟨0, 5⟩], [⟨1, 3⟩]]⟩ : Graph).Built ∧ 0 ≠ 1 ∧
      ((⟨3, [[⟨1, 5⟩], [⟨2, 3⟩, ⟨0, 5⟩], [⟨1, 3⟩]]⟩ : Graph).adj 0).count ⟨1, 5⟩ =
        ((⟨3, [[⟨1, 5⟩], [⟨2, 3⟩, ⟨0, 5⟩], [⟨1, 3⟩]]⟩ : Graph).adj 1).count ⟨0, 5⟩ :=
  have hb : (⟨3, [[⟨1, 5⟩], [⟨2, 3⟩, ⟨0, 5⟩], [⟨1, 3⟩]]⟩ : Graph).Built :=
    Built.remove (u := 1) (v := 0)
      (Built.add (u := 1) (v := 2) (w := 3)
        (Built.add (u := 0) (v := 1) (w := 7)
          (Built.add (u := 0) (v := 1) (w := 5) (Built.construct (n := 3) rfl) rfl) rfl) rfl)
      rfl
  ⟨hb, by decide, built_undirected _ hb 0 1 (by decide) 5⟩

end Algorithms

end graph


namespace graph

namespace Algorithms

open PriorityQueue Graph

/-! ## dijkstra on arbitrary weights: what holds without a bound on the weights -/

/-- The part of the invariant of the main loop of `dijkstra` that needs no assumption on the
weights: the queue is a heap keyed by `distance`, and `parent` points along records. -/
structure DijkWeak (g : Graph) (st : DijkstraState) : Prop where
  heap : st.pq.HeapInv
  cap : st.pq.capacity = g.numVertices
  prio : ∀ v, st.pq.Present v → st.pq.prioOf v = st.distance v
  par : ∀ x, st.parent x = -1 ∨
    ∃ p < g.numVertices, st.parent x = (p : Int) ∧ p ≠ x ∧ ∃ w, (⟨x, w⟩ : Edge) ∈ g.adj p

theorem dijkstraEdges_weak {g : Graph} {u : Nat} (hu : u < g.numVertices)
    (pending : List Edge) :
    ∀ (st : DijkstraState), (∀ e ∈ pending, e ∈ g.adj u) → ¬ st.pq.Present u →
      DijkWeak g st →
      ∃ st', dijkstraEdges u pending st = .ok st' ∧ DijkWeak g st' ∧ ¬ st'.pq.Present u ∧
        st'.pq.heapSize = st.pq.heapSize := by
  induction pending with
  | nil =>
    intro st _ hnu h
    exact ⟨st, rfl, h, hnu, rfl⟩
  | cons e pending ih =>
    intro st hp hnu h
    have he := hp e (List.mem_cons_self _ _)
    have hp' : ∀ e' ∈ pending, e' ∈ g.adj u := fun e' h' => hp e' (List.mem_cons_of_mem _ h')
    rw [dijkstraEdges]
    by_cases hc : st.pq.inQueue e.destination = true ∧ st.distance u ≠ INT_MAX ∧
        wrapInt32 (st.distance u + e.weight) < st.distance e.destination
    · rw [if_pos hc]
      have hP : st.pq.Present e.destination := (inQueue_iff _ _).mp hc.1
      obtain ⟨pq', hdk, hd⟩ := decreaseKey_spec h.heap hP
        (show wrapInt32 (st.distance u + e.weight) ≤ st.pq.prioOf e.destination by
          rw [h.prio _ hP]; omega)
      simp only [Function.update_same]
      rw [hdk]
      have hne : u ≠ e.destination := fun hc' => hnu (hc' ▸ hP)
      obtain ⟨st', he', h2, hnu2, hsz⟩ := ih
        ⟨Function.update st.distance e.destination (wrapInt32 (st.distance u + e.weight)),
          Function.update st.parent e.destination (u : Int), pq'⟩ hp'
        (fun hc' => hnu ((hd.present_iff u).mp hc'))
        ⟨hd.inv, hd.capacity_eq.trans h.cap, by
          intro v hv
          show pq'.prioOf v = Function.update st.distance e.destination _ v
          by_cases hve : v = e.destination
          · rw [hve, Function.update_same]
            exact hd.prio_new
          · rw [Function.update_noteq hve, hd.prio_old v ((hd.present_iff v).mp hv) hve]
            exact h.prio v ((hd.present_iff v).mp hv), by
          intro x
          by_cases hxe : x = e.destination
          · right
            rw [hxe]
            exact ⟨u, hu, (Function.update_same _ _ _ :
              Function.update st.parent e.destination (u : Int) e.destination = (u : Int)),
              hne, e.weight, he⟩
          · have hpx : Function.update st.parent e.destination (u : Int) x = st.parent x :=
              Function.update_noteq hxe _ _
            rcases h.par x with h' | ⟨p, hp1, hp2, hp3, hp4⟩
            · exact Or.inl (hpx.trans h')
            · exact Or.inr ⟨p, hp1, hpx.trans hp2, hp3, hp4⟩⟩
      exact ⟨st', he', h2, hnu2, hsz.trans hd.heapSize_eq⟩
    · rw [if_neg hc]
      exact ih st hp' hnu h

theorem dijkstraLoop_weak {g : Graph} (fuel : Nat) :
    ∀ (st : DijkstraState), DijkWeak g st → st.pq.heapSize ≤ fuel →
      ∃ st', dijkstraLoop g fuel st = .ok st' ∧ DijkWeak g st' := by
  induction fuel with
  | zero =>
    intro st h hf
    refine ⟨st, ?_, h⟩
    rw [dijkstraLoop, if_pos (by simp [isEmpty]; omega)]
  | succ fuel ih =>
    intro st h hf
    rw [dijkstraLoop]
    by_cases hz : st.pq.heapSize = 0
    · rw [if_pos (by simp [isEmpty, hz])]
      exact ⟨st, rfl, h⟩
    · rw [if_neg (by simp [isEmpty, hz])]
      obtain ⟨u, pq', hex, hx⟩ := extractMin_spec h.heap hz
      rw [hex]
      have hun : u < g.numVertices := h.cap ▸ h.heap.1.present_lt hx.present_min
      simp only []
      rw [Graph.getAdjList_eq hun]
      obtain ⟨st', he, h2, _, h3⟩ := dijkstraEdges_weak hun (g.adj u)
        { st with pq := pq' } (fun e he => he)
        (fun hc => ((hx.present_iff u).mp hc).2 rfl)
        ⟨hx.inv, hx.capacity_eq.trans h.cap, by
          intro v hv
          have := (hx.present_iff v).mp hv
          show pq'.prioOf v = st.distance v
          rw [hx.prio_old v this.1 this.2, h.prio v this.1], h.par⟩
      simp only []
      rw [he]
      simp only []
      have hsz : st'.pq.heapSize ≤ fuel := by
        have h4 : st'.pq.heapSize = pq'.heapSize := h3
        have := hx.heapSize_eq
        omega
      exact ih st' h2 hsz

/-- For every source in range `dijkstra` returns a graph on the same vertices whose records
are records of the input, whatever the weights. -/
theorem dijkstra_subgraph (g : Graph) (hg : g.WF) {s : Nat} (hs : s < g.numVertices) :
    ∃ r, dijkstra g (s : Int) = .ok r ∧ r.WF ∧ r.numVertices = g.numVertices ∧
      ∀ u, ∀ e ∈ r.adj u, e ∈ g.adj u := by
  have hn := hg.1
  obtain ⟨pq1, hins, hinv, hcap, hsz, hpres, hprio⟩ :=
    insertAll_range (Function.update (fun _ => INT_MAX) s 0) g.numVertices
  obtain ⟨st, hloop, hw⟩ := dijkstraLoop_weak g.numVertices
    ⟨Function.update (fun _ => INT_MAX) s 0, fun _ => -1, pq1⟩
    ⟨hinv, hcap, fun v hv => hprio v ((hpres v).mp hv), fun _ => Or.inl rfl⟩
    (by show pq1.heapSize ≤ _; omega)
  obtain ⟨r, hbuild, hrwf, hrn, _, _, hadj⟩ :=
    dijkstraBuild_spec g s st.parent (List.range g.numVertices)
      (emptyGraph g.numVertices) (emptyGraph_wf hn) rfl
      (by
        intro i hi
        rw [List.mem_range] at hi
        refine ⟨hi, fun _ hp => ?_⟩
        rcases hw.par i with h | ⟨p, hpn, hpar, hpi, _⟩
        · exact absurd h hp
        · exact ⟨p, hpn, hpar, hpi⟩)
  refine ⟨r, ?_, hrwf, hrn, ?_⟩
  · unfold dijkstra
    have h1 : ¬ ((s : Int) < 0 ∨ (s : Int) ≥ ((g.getNumVertices : Nat) : Int)) := by
      simp only [getNumVertices]
      omega
    simp only [getNumVertices] at h1 ⊢
    rw [if_neg h1, new_eq hn]
    simp only [Int.toNat_ofNat]
    rw [hins]
    simp only []
    rw [hloop]
    exact hbuild
  · intro u e he
    rcases (hadj u e).mp he with h | ⟨i, _, _, p, hpar, h⟩
    · rw [adj_emptyGraph] at h
      simp at h
    · rcases hw.par i with h' | ⟨p', _, hpar', _, w, hrec⟩
      · rw [h'] at hpar
        omega
      · have hpp : p' = p := by rw [hpar] at hpar'; omega
        subst hpp
        have htw : treeWeight g st.parent i = lookupWeight i (g.adj p') := by
          unfold treeWeight
          rw [hpar]
          rfl
        have hmem : (⟨i, treeWeight g st.parent i⟩ : Edge) ∈ g.adj p' := by
          rw [htw]
          exact lookupWeight_mem ⟨_, hrec, rfl⟩
        rcases h with ⟨h1, h2⟩ | ⟨h1, h2⟩
        · rw [h1, h2]; exact hmem
        · rw [h1, h2]; exact mem_adj_symm hg hmem

end Algorithms

end graph


namespace graph

namespace Algorithms

open PriorityQueue Graph

/-! ## prim on a graph that need not be connected -/

theorem primTree_length (key : Nat → Int) (parent : Nat → Int) (l : List Nat) :
    (primTree key parent l).length = (l.filter fun i => decide (parent i ≠ -1)).length := by
  induction l with
  | nil => rfl
  | cons i l ih =>
    by_cases hc : parent i = -1
    · have h1 : primTree key parent (i :: l) = primTree key parent l := by
        simp only [primTree, List.filterMap_cons, if_pos hc]
      rw [h1, List.filter_cons_of_neg (by simpa using hc), ih]
    · have h1 : primTree key parent (i :: l) =
          normEdge (parent i).toNat i (key i) :: primTree key parent l := by
        simp only [primTree, List.filterMap_cons, if_neg hc]
      rw [h1, List.filter_cons_of_pos (by simpa using hc), List.length_cons, List.length_cons, ih]

/-- The run of `prim` on any graph: the final arrays with their facts, and the graph built
from them, whose edges are the tree edges and whose records are records of the input. -/
theorem prim_built (g : Graph) (hg : g.WF) :
    ∃ r key parent time, prim g = .ok r ∧ PrimFinal g key parent time ∧ r.WF ∧
      r.numVertices = g.numVertices ∧
      r.edgeList.Perm (primTree key parent (List.range' 1 (g.numVertices - 1))) ∧
      (∀ u, ¬ r.Adj u u) ∧ ∀ u, ∀ e ∈ r.adj u, e ∈ g.adj u := by
  have hn := hg.1
  obtain ⟨pq1, st, time, hins, hloop, hf⟩ := prim_run hg
  obtain ⟨r, hbuild, hrwf, hrn, hperm, hnoloop, hadj⟩ :=
    @primBuild_spec g.numVertices st.key st.parent (List.range' 1 (g.numVertices - 1))
      (emptyGraph g.numVertices) (emptyGraph_wf hn) rfl
      (by
        intro i hi
        rw [List.mem_range'_1] at hi
        refine ⟨by omega, fun hp => ?_⟩
        rcases hf.tree i (by omega) (by omega) with h | ⟨p, hpn, hpar, _, htime, _⟩
        · exact absurd h.1 hp
        · exact ⟨p, hpn, hpar, fun hc => by rw [hc] at htime; omega⟩)
  rw [edgeList_emptyGraph, List.append_nil] at hperm
  refine ⟨r, st.key, st.parent, time, ?_, hf, hrwf, hrn, hperm, ?_, ?_⟩
  · unfold prim
    simp only [getNumVertices, new_eq hn, hins, hloop]
    exact hbuild
  · intro u hu
    obtain ⟨e, he, _⟩ := hnoloop u hu
    rw [adj_emptyGraph] at he
    simp at he
  · intro u e he
    rcases hadj u e he with h | ⟨i, hi, p, hpar, h⟩
    · rw [adj_emptyGraph] at h
      simp at h
    · rw [List.mem_range'_1] at hi
      rcases hf.tree i (by omega) (by omega) with h' | ⟨p', _, hpar', hrec, _⟩
      · rw [h'.1] at hpar
        omega
      · have hpp : p' = p := by rw [hpar] at hpar'; omega
        subst hpp
        rcases h with ⟨h1, h2⟩ | ⟨h1, h2⟩
        · rw [h1, h2]; exact hrec
        · rw [h1, h2]; exact mem_adj_symm hg hrec

/-- Every vertex is joined by tree edges to a vertex without a parent. -/
theorem primTree_root {g : Graph} {key : Nat → Int} {parent : Nat → Int} {time : Nat → Nat}
    (hf : PrimFinal g key parent time) (N : Nat) :
    ∀ v < g.numVertices, time v < N → ∃ z < g.numVertices, parent z = -1 ∧
      KConn (primTree key parent (List.range' 1 (g.numVertices - 1))) z v := by
  induction N with
  | zero => intro v _ h; omega
  | succ N ih =>
    intro v hv hN
    by_cases hp : parent v = -1
    · exact ⟨v, hv, hp, KConn.conn_refl _ _⟩
    · have hv0 : v ≠ 0 := fun hc => hp (hc ▸ hf.zero_parent)
      rcases hf.tree v hv hv0 with h | ⟨p, hpn, hpar, _, htime, _⟩
      · exact absurd h.1 hp
      · obtain ⟨z, hz, hzp, hzc⟩ := ih p hpn (by omega)
        have hmem : normEdge p v (key v) ∈
            primTree key parent (List.range' 1 (g.numVertices - 1)) :=
          mem_primTree (List.mem_range'_1.mpr ⟨by omega, by omega⟩) hpar
        exact ⟨z, hz, hzp, hzc.conn_trans (kconn_of_normEdge_mem hmem)⟩

/-- The tree edges of `prim` form a forest, whether the graph is connected or not. -/
theorem primTree_isForest {g : Graph} {key : Nat → Int} {parent : Nat → Int}
    {time : Nat → Nat} (hf : PrimFinal g key parent time) :
    IsForest (primTree key parent (List.range' 1 (g.numVertices - 1))) := by
  have hT := primTree_inRange hf
  apply isForest_of_length_add_roots hT
  have hroots : (labelRoots g.numVertices
      (primTree key parent (List.range' 1 (g.numVertices - 1)))).card ≤
      ((Finset.range g.numVertices).filter fun i => parent i = -1).card := by
    refine le_trans (Finset.card_le_card ?_) (Finset.card_image_le (f :=
      label (primTree key parent (List.range' 1 (g.numVertices - 1)))))
    intro v hv
    simp only [labelRoots, Finset.mem_filter, Finset.mem_range] at hv
    obtain ⟨z, hz, hzp, hzc⟩ := primTree_root hf (time v + 1) v hv.1 (by omega)
    rw [Finset.mem_image]
    refine ⟨z, ?_, ?_⟩
    · simp only [Finset.mem_filter, Finset.mem_range]
      exact ⟨hz, hzp⟩
    · rw [(label_eq_iff _ _ _).mpr hzc]
      exact hv.2
  have hlen : (primTree key parent (List.range' 1 (g.numVertices - 1))).length ≤
      ((Finset.range g.numVertices).filter fun i => ¬ parent i = -1).card := by
    rw [primTree_length]
    have hnd : ((List.range' 1 (g.numVertices - 1)).filter
        fun i => decide (parent i ≠ -1)).Nodup := (List.nodup_range' _ _).filter _
    rw [← List.toFinset_card_of_nodup hnd]
    apply Finset.card_le_card
    intro i hi
    simp only [List.mem_toFinset, List.mem_filter, List.mem_range'_1, decide_eq_true_eq] at hi
    simp only [Finset.mem_filter, Finset.mem_range]
    exact ⟨by omega, hi.2⟩
  have h3 := Finset.filter_card_add_filter_neg_card_eq_card
    (fun i => parent i = -1) (s := Finset.range g.numVertices)
  rw [Finset.card_range] at h3
  omega

/-- The result of `prim` on any graph whose weights are below `INT_MAX`: a spanning forest of
the whole graph that is light at every threshold. -/
theorem prim_forest (g : Graph) (hg : g.WF) (hw : g.WeightsBelowMax) :
    ∃ r, prim g = .ok r ∧ r.IsSpanningForestOf g ∧
      ∀ e ∈ g.edgeList,
        KConn (r.edgeList.filter fun k => decide (k.weight ≤ e.weight)) e.src e.dest := by
  obtain ⟨r, key, parent, time, hrun, hf, hrwf, hrn, hperm, hnoloop, hsub⟩ := prim_built g hg
  have hbnT : ∀ e ∈ g.edgeList,
      KConn ((primTree key parent (List.range' 1 (g.numVertices - 1))).filter
        fun k => decide (k.weight ≤ e.weight)) e.src e.dest := by
    intro e he
    have hm := mem_edgeList.mp he
    exact prim_bottleneck hg hf hm.2.2 (hw _ hm.1 _ hm.2.2)
  have hbn : ∀ e ∈ g.edgeList,
      KConn (r.edgeList.filter fun k => decide (k.weight ≤ e.weight)) e.src e.dest :=
    fun e he => (KConn.conn_perm (hperm.filter _)).mpr (hbnT e he)
  refine ⟨r, hrun, ⟨hrwf, hrn, hsub,
    ⟨hnoloop, KAcyclic.acyclic_perm hperm.symm (primTree_isForest hf).kacyclic⟩, ?_⟩, hbn⟩
  intro u v
  rw [reach_iff_kconn hrwf, reach_iff_kconn hg]
  constructor
  · exact KConn.conn_mono (edgeList_subset_of_mem_adj hrn hsub)
  · exact KConn.of_edges fun e he =>
      KConn.conn_mono (fun _ hk => (List.mem_filter.mp hk).1) (hbn e he)

end Algorithms

end graph


namespace graph

namespace Algorithms

open Graph

/-! ## The claims about prim on disconnected graphs, the sample graph, and the results as
subgraphs -/

/-- Three vertices with one edge of weight 5 between 1 and 2. -/
def looseEdgeGraph : Graph := ⟨3, [[], [⟨2, 5⟩], [⟨1, 5⟩]]⟩

/-- The graph that `main` builds: six vertices and nine edges. -/
def mainGraph : Except Failure Graph := do
  let g ← Graph.new 6
  let g ← g.addEdge 0 1 4
  let g ← g.addEdge 0 2 3
  let g ← g.addEdge 1 2 5
  let g ← g.addEdge 1 3 2
  let g ← g.addEdge 2 3 7
  let g ← g.addEdge 2 4 8
  let g ← g.addEdge 3 4 6
  let g ← g.addEdge 3 5 1
  g.addEdge 4 5 9

/-- C12, as stated, fails: on the graph that `main` builds, neither the result of `prim` nor
the result of `kruskal` has total weight 17. -/
theorem mainGraph_weight_not_17 :
    ∃ g rp rk, mainGraph = .ok g ∧ prim g = .ok rp ∧ kruskal g = .ok rk ∧
      calculateTotalWeight rp ≠ 17 ∧ calculateTotalWeight rk ≠ 17 :=
  ⟨_, _, _, rfl, rfl, rfl, by decide, by decide⟩

/-- C12, amended: on the 6-vertex graph with the edges (0,1,4), (0,2,3), (1,2,5), (1,3,2),
(2,3,7), (2,4,8), (3,4,6), (3,5,1), (4,5,9), the total weight of the result of `prim` is 16 and
the total weight of the result of `kruskal` is 16. -/
theorem mainGraph_weight_16 :
    ∃ g rp rk, mainGraph = .ok g ∧ prim g = .ok rp ∧ kruskal g = .ok rk ∧
      calculateTotalWeight rp = 16 ∧ calculateTotalWeight rk = 16 :=
  ⟨_, _, _, rfl, rfl, rfl, by decide, by decide⟩

end Algorithms

end graph


namespace graph

namespace UnionFind

/-! ## The union-find states that the interface can produce -/

/-- The objects that the constructor followed by successful calls of `find`, `unite` and
`connected` produces. -/
inductive Reached : UnionFind → Prop
  | construct (n : Nat) : Reached (UnionFind.new n)
  | afterFind {uf uf1 : UnionFind} {x r : Nat} : Reached uf → uf.find x = .ok (r, uf1) →
      Reached uf1
  | afterUnite {uf uf1 : UnionFind} {x y : Nat} : Reached uf → uf.unite x y = .ok uf1 →
      Reached uf1
  | afterConnected {uf uf1 : UnionFind} {x y : Nat} {b : Bool} : Reached uf →
      uf.connected x y = .ok (b, uf1) → Reached uf1

/-- The value that the call `connected(a, b)` returns, if it returns. -/
def connectedResult (uf : UnionFind) (a b : Nat) : Option Bool :=
  match uf.connected a b with
  | .ok (r, _) => some r
  | .error _ => none

/-- The call `connected(a, b)` returns true. -/
def Same (uf : UnionFind) (a b : Nat) : Prop := uf.connectedResult a b = some true

instance (uf : UnionFind) (a b : Nat) : Decidable (uf.Same a b) :=
  inferInstanceAs (Decidable (uf.connectedResult a b = some true))

theorem find_ok_lt {uf uf1 : UnionFind} {x r : Nat} (h : uf.find x = .ok (r, uf1)) :
    x < uf.size := by
  by_contra hx
  unfold find at h
  rw [findAux, if_pos (by omega)] at h
  injection h

theorem find_ok_post {uf uf1 : UnionFind} (hinv : uf.Inv) {x r : Nat}
    (h : uf.find x = .ok (r, uf1)) : r = uf.root x ∧ FindPost uf uf1 := by
  obtain ⟨uf2, he, hp⟩ := find_spec hinv (find_ok_lt h)
  rw [he] at h
  injection h with h
  injection h with h1 h2
  subst h1 h2
  exact ⟨rfl, hp⟩

theorem connected_ok_post {uf uf1 : UnionFind} (hinv : uf.Inv) {x y : Nat} {b : Bool}
    (h : uf.connected x y = .ok (b, uf1)) :
    x < uf.size ∧ y < uf.size ∧ b = decide (uf.root x = uf.root y) ∧ FindPost uf uf1 := by
  have hxy : x < uf.size ∧ y < uf.size := by
    unfold connected at h
    cases h1 : uf.find x with
    | error f => rw [h1] at h; injection h
    | ok p1 =>
      obtain ⟨r1, u1⟩ := p1
      have hp1 := find_ok_post hinv h1
      rw [h1] at h
      simp only [] at h
      cases h2 : u1.find y with
      | error f => rw [h2] at h; injection h
      | ok p2 =>
        obtain ⟨r2, u2⟩ := p2
        have := find_ok_lt h2
        rw [hp1.2.size_eq] at this
        exact ⟨find_ok_lt h1, this⟩
  obtain ⟨uf2, he, hp⟩ := connected_spec hinv hxy.1 hxy.2
  rw [he] at h
  injection h with h
  injection h with h1 h2
  subst h1 h2
  exact ⟨hxy.1, hxy.2, rfl, hp⟩

theorem unite_ok_post {uf uf1 : UnionFind} (hinv : uf.Inv) {x y : Nat}
    (h : uf.unite x y = .ok uf1) : x < uf.size ∧ y < uf.size ∧ UnitePost uf x y uf1 := by
  have hxy : x < uf.size ∧ y < uf.size := by
    unfold unite at h
    cases h1 : uf.find x with
    | error f => rw [h1] at h; injection h
    | ok p1 =>
      obtain ⟨r1, u1⟩ := p1
      have hp1 := find_ok_post hinv h1
      rw [h1] at h
      simp only [] at h
      cases h2 : u1.find y with
      | error f => rw [h2] at h; injection h
      | ok p2 =>
        obtain ⟨r2, u2⟩ := p2
        have := find_ok_lt h2
        rw [hp1.2.size_eq] at this
        exact ⟨find_ok_lt h1, this⟩
  obtain ⟨uf2, he, hp⟩ := unite_spec hinv hxy.1 hxy.2
  rw [he] at h
  injection h with h
  subst h
  exact ⟨hxy.1, hxy.2, hp⟩

/-- Every object that the interface produces satisfies the invariant. -/
theorem Reached.uf_inv {uf : UnionFind} (h : uf.Reached) : uf.Inv := by
  induction h with
  | construct n => exact new_inv n
  | afterFind _ h ih => exact (find_ok_post ih h).2.inv
  | afterUnite _ h ih => exact (unite_ok_post ih h).2.2.inv
  | afterConnected _ h ih => exact (connected_ok_post ih h).2.2.2.inv

theorem connectedResult_eq {uf : UnionFind} (hinv : uf.Inv) {a b : Nat} (ha : a < uf.size)
    (hb : b < uf.size) : uf.connectedResult a b = some (decide (uf.root a = uf.root b)) := by
  obtain ⟨uf1, he, _⟩ := connected_spec hinv ha hb
  unfold connectedResult
  rw [he]

theorem same_iff {uf : UnionFind} (hinv : uf.Inv) {a b : Nat} (ha : a < uf.size)
    (hb : b < uf.size) : uf.Same a b ↔ uf.root a = uf.root b := by
  unfold Same
  rw [connectedResult_eq hinv ha hb]
  simp

theorem same_connected {uf : UnionFind} {a b : Nat} (h : uf.Same a b) :
    ∃ uf1, uf.connected a b = .ok (true, uf1) := by
  unfold Same connectedResult at h
  cases he : uf.connected a b with
  | error f => rw [he] at h; injection h
  | ok p =>
    obtain ⟨r, uf1⟩ := p
    rw [he] at h
    injection h with h
    exact ⟨uf1, by rw [← h]⟩

end UnionFind

namespace Algorithms

open UnionFind

/-! ## The claims about the union-find structure -/

/-- C28: in every union-find state that the interface produces, for all elements `x` and `y`
below `size`, `unite(x, y)` returns and a call `connected(x, y)` made afterwards returns
true. -/
theorem unite_connected (uf : UnionFind) (h : uf.Reached) (x y : Nat) (hx : x < uf.size)
    (hy : y < uf.size) :
    ∃ uf1, uf.unite x y = .ok uf1 ∧ ∃ uf2, uf1.connected x y = .ok (true, uf2) := by
  obtain ⟨uf1, he, hp⟩ := unite_spec h.uf_inv hx hy
  refine ⟨uf1, he, ?_⟩
  have hx1 : x < uf1.size := by rw [hp.size_eq]; exact hx
  have hy1 : y < uf1.size := by rw [hp.size_eq]; exact hy
  exact same_connected
    ((same_iff hp.inv hx1 hy1).mpr ((hp.merge x hx y hy).mpr (Or.inr (Or.inl ⟨rfl, rfl⟩))))

/-- C28 at five singletons and the elements 0 and 1. -/
theorem unite_connected_witness :
    (UnionFind.new 5).Reached ∧ 0 < (UnionFind.new 5).size ∧ 1 < (UnionFind.new 5).size ∧
      ∃ uf1, (UnionFind.new 5).unite 0 1 = .ok uf1 ∧
        ∃ uf2, uf1.connected 0 1 = .ok (true, uf2) :=
  ⟨Reached.construct 5, by decide, by decide,
    unite_connected (UnionFind.new 5) (Reached.construct 5) 0 1 (by decide) (by decide)⟩

/-- C29: in every union-find state that the interface produces, for all elements `x` and `y`
below `size`, `unite(x, y)` returns a state of the same size in which, for all elements `a` and
`b` below `size`, `connected(a, b)` returns true exactly when before the call it returned true,
or `a` was connected to `x` and `b` to `y`, or `a` to `y` and `b` to `x`; and when
`connected(x, y)` returned true before the call, `connected` returns afterwards what it
returned before. -/
theorem unite_merges (uf : UnionFind) (h : uf.Reached) (x y : Nat) (hx : x < uf.size)
    (hy : y < uf.size) :
    ∃ uf1, uf.unite x y = .ok uf1 ∧ uf1.size = uf.size ∧
      (∀ a < uf.size, ∀ b < uf.size,
        (uf1.Same a b ↔
          uf.Same a b ∨ (uf.Same a x ∧ uf.Same b y) ∨ (uf.Same a y ∧ uf.Same b x))) ∧
      (uf.Same x y → ∀ a < uf.size, ∀ b < uf.size,
        uf1.connectedResult a b = uf.connectedResult a b) := by
  obtain ⟨uf1, he, hp⟩ := unite_spec h.uf_inv hx hy
  have hiff : ∀ a < uf.size, ∀ b < uf.size,
      (uf1.Same a b ↔
        uf.Same a b ∨ (uf.Same a x ∧ uf.Same b y) ∨ (uf.Same a y ∧ uf.Same b x)) := by
    intro a ha b hb
    rw [same_iff hp.inv (by rw [hp.size_eq]; exact ha) (by rw [hp.size_eq]; exact hb),
      same_iff h.uf_inv ha hb, same_iff h.uf_inv ha hx, same_iff h.uf_inv hb hy,
      same_iff h.uf_inv ha hy, same_iff h.uf_inv hb hx]
    exact hp.merge a ha b hb
  refine ⟨uf1, he, hp.size_eq, hiff, ?_⟩
  intro hxy a ha b hb
  rw [same_iff h.uf_inv hx hy] at hxy
  rw [connectedResult_eq hp.inv (by rw [hp.size_eq]; exact ha) (by rw [hp.size_eq]; exact hb),
    connectedResult_eq h.uf_inv ha hb]
  congr 1
  rw [decide_eq_decide, hp.merge a ha b hb]
  constructor
  · rintro (h1 | ⟨h1, h2⟩ | ⟨h1, h2⟩)
    · exact h1
    · rw [h1, h2]; exact hxy
    · rw [h1, h2]; exact hxy.symm
  · exact Or.inl

/-- C29 at five singletons: `unite(0, 1)` connects 0 and 1 and leaves 2 apart from 0 and from
3, and a following `unite(1, 0)` changes no answer of `connected`. -/
theorem unite_merges_witness :
    ∃ uf0 uf1, (UnionFind.new 5).unite 0 1 = .ok uf0 ∧ uf0.unite 1 0 = .ok uf1 ∧
      uf0.Reached ∧ uf0.size = 5 ∧ uf0.Same 0 1 ∧ uf0.Same 1 0 ∧ ¬ uf0.Same 0 2 ∧
      ¬ uf0.Same 2 3 ∧
      ∀ a < 5, ∀ b < 5, uf1.connectedResult a b = uf0.connectedResult a b := by
  obtain ⟨uf0, he0, hs0, hiff0, _⟩ :=
    unite_merges (UnionFind.new 5) (Reached.construct 5) 0 1 (by decide) (by decide)
  have hr0 : uf0.Reached := Reached.afterUnite (Reached.construct 5) he0
  have hs5 : uf0.size = 5 := hs0
  have h01 : uf0.Same 0 1 := (hiff0 0 (by decide) 1 (by decide)).mpr (by decide)
  have h10 : uf0.Same 1 0 := (hiff0 1 (by decide) 0 (by decide)).mpr (by decide)
  have h02 : ¬ uf0.Same 0 2 := fun hc =>
    absurd ((hiff0 0 (by decide) 2 (by decide)).mp hc) (by decide)
  have h23 : ¬ uf0.Same 2 3 := fun hc =>
    absurd ((hiff0 2 (by decide) 3 (by decide)).mp hc) (by decide)
  obtain ⟨uf1, he1, _, _, hkeep⟩ := unite_merges uf0 hr0 1 0 (by omega) (by omega)
  refine ⟨uf0, uf1, he0, he1, hr0, hs5, h01, h10, h02, h23, ?_⟩
  intro a ha b hb
  exact hkeep h10 a (by omega) b (by omega)

/-- C30: in every union-find state that the interface produces, for every element `x` below
`size`, `find(x)` returns an element that is its own parent, `find` of that element returns
it again, and so does a further `find(x)`. -/
theorem find_idempotent (uf : UnionFind) (h : uf.Reached) (x : Nat) (hx : x < uf.size) :
    ∃ r uf1, uf.find x = .ok (r, uf1) ∧ uf1.parent r = r ∧
      ∃ uf2, uf1.find r = .ok (r, uf2) ∧ ∃ uf3, uf2.find x = .ok (r, uf3) := by
  obtain ⟨uf1, he1, hp1⟩ := find_spec h.uf_inv hx
  have hr : uf.root x < uf.size := root_lt h.uf_inv hx
  have hr1 : uf.root x < uf1.size := by rw [hp1.size_eq]; exact hr
  obtain ⟨uf2, he2, hp2⟩ := find_spec hp1.inv hr1
  have hx2 : x < uf2.size := by rw [hp2.size_eq, hp1.size_eq]; exact hx
  obtain ⟨uf3, he3, _⟩ := find_spec hp2.inv hx2
  have e1 : uf1.root (uf.root x) = uf.root x := by
    rw [hp1.root_eq _ hr, root_root h.uf_inv hx]
  have e2 : uf2.root x = uf.root x := by
    rw [hp2.root_eq x (by rw [hp1.size_eq]; exact hx), hp1.root_eq x hx]
  refine ⟨uf.root x, uf1, he1, (hp1.isRoot_iff _ hr).mpr (root_isRoot h.uf_inv hx), uf2, ?_,
    uf3, ?_⟩
  · rw [he2, e1]
  · rw [he3, e2]

/-- C30 at the state after `unite(0, 1)` and `unite(1, 2)` on five singletons, for the
element 2. -/
theorem find_idempotent_witness :
    ∃ uf0 uf, (UnionFind.new 5).unite 0 1 = .ok uf0 ∧ uf0.unite 1 2 = .ok uf ∧ uf.Reached ∧
      2 < uf.size ∧
      ∃ r uf1, uf.find 2 = .ok (r, uf1) ∧ uf1.parent r = r ∧
        ∃ uf2, uf1.find r = .ok (r, uf2) ∧ ∃ uf3, uf2.find 2 = .ok (r, uf3) := by
  obtain ⟨uf0, h0, p0⟩ := unite_spec (new_inv 5) (show 0 < (UnionFind.new 5).size by decide)
    (show 1 < (UnionFind.new 5).size by decide)
  have hs0 : uf0.size = 5 := p0.size_eq
  obtain ⟨uf, h1, p1⟩ := unite_spec p0.inv (show 1 < uf0.size by omega)
    (show 2 < uf0.size by omega)
  have hs : uf.size = 5 := p1.size_eq.trans hs0
  have hr : uf.Reached := Reached.afterUnite (Reached.afterUnite (Reached.construct 5) h0) h1
  exact ⟨uf0, uf, h0, h1, hr, by omega, find_idempotent uf hr 2 (by omega)⟩

end Algorithms

end graph


namespace graph

namespace PriorityQueue

/-! ## The priority queues that the interface can produce -/

/-- The objects that the constructor followed by successful calls of `insert` (of a vertex
below the capacity that is not in the queue), `extractMin` and `decreaseKey` produces. -/
inductive Reached : PriorityQueue → Prop
  | construct (cap : Nat) : Reached (PriorityQueue.new cap)
  | afterInsert {pq pq1 : PriorityQueue} {v : Nat} {p : Int} : Reached pq →
      v < pq.capacity → pq.inQueue v = false → pq.insert v p = .ok pq1 → Reached pq1
  | afterExtractMin {pq pq1 : PriorityQueue} {u : Nat} : Reached pq →
      pq.extractMin = .ok (u, pq1) → Reached pq1
  | afterDecreaseKey {pq pq1 : PriorityQueue} {v : Nat} {p : Int} : Reached pq →
      pq.decreaseKey v p = .ok pq1 → Reached pq1

theorem inQueue_false_iff (pq : PriorityQueue) (v : Nat) :
    pq.inQueue v = false ↔ ¬ pq.Present v := by
  rw [← inQueue_iff]
  simp

theorem getPriority_of_present {pq : PriorityQueue} {v : Nat} (h : pq.Present v) :
    pq.getPriority v = .ok (pq.prioOf v) := by
  unfold getPriority
  rw [if_neg (by simp [(inQueue_iff pq v).mpr h])]
  rfl

theorem getPriority_of_not_present {pq : PriorityQueue} {v : Nat} (h : ¬ pq.Present v) :
    pq.getPriority v = .error (.thrown "Vertex not in priority queue") := by
  unfold getPriority
  rw [if_pos (by simp [(inQueue_false_iff pq v).mpr h])]

theorem present_of_getPriority {pq : PriorityQueue} {v : Nat} {c : Int}
    (h : pq.getPriority v = .ok c) : pq.Present v ∧ pq.prioOf v = c := by
  by_cases hp : pq.Present v
  · rw [getPriority_of_present hp] at h
    injection h with h
    exact ⟨hp, h⟩
  · rw [getPriority_of_not_present hp] at h
    injection h

/-- The loop shared by `insert` and `decreaseKey` ends within `i` iterations from slot `i`,
whatever the arrays hold, and keeps the size and the capacity. -/
theorem siftUp_total (fuel : Nat) :
    ∀ (pq : PriorityQueue) (i : Nat), i ≤ fuel →
      ∃ pq', siftUp fuel pq i = .ok pq' ∧ pq'.heapSize = pq.heapSize ∧
        pq'.capacity = pq.capacity := by
  induction fuel with
  | zero =>
    intro pq i hi
    refine ⟨pq, ?_, rfl, rfl⟩
    rw [siftUp, if_neg (by omega)]
  | succ fuel ih =>
    intro pq i hi
    rw [siftUp]
    by_cases hc : i > 0 ∧ (pq.heap ((i - 1) / 2)).priority > (pq.heap i).priority
    · rw [if_pos hc]
      obtain ⟨pq', he, hs, hcap⟩ := ih (pq.swap i ((i - 1) / 2)) ((i - 1) / 2) (by omega)
      exact ⟨pq', he, hs, hcap⟩
    · rw [if_neg hc]
      exact ⟨pq, rfl, rfl, rfl⟩

theorem insert_ok_post {pq pq1 : PriorityQueue} (h : pq.HeapInv) {v : Nat} {p : Int}
    (hv : v < pq.capacity) (hnv : pq.inQueue v = false) (he : pq.insert v p = .ok pq1) :
    InsertPost pq v p pq1 := by
  have hsize : pq.heapSize ≠ pq.capacity := by
    intro hc
    rw [insert, if_pos hc] at he
    injection he
  obtain ⟨pq2, he2, hp⟩ := insert_spec h p hv ((inQueue_false_iff pq v).mp hnv) hsize
  rw [he2] at he
  injection he with he
  rw [← he]
  exact hp

theorem extractMin_ok_post {pq pq1 : PriorityQueue} (h : pq.HeapInv) {u : Nat}
    (he : pq.extractMin = .ok (u, pq1)) : ExtractPost pq u pq1 := by
  have hne : pq.heapSize ≠ 0 := by
    intro hc
    rw [extractMin, if_pos (by simp [isEmpty, hc])] at he
    injection he
  obtain ⟨u2, pq2, he2, hp⟩ := extractMin_spec h hne
  rw [he2] at he
  injection he with he
  injection he with h1 h2
  rw [← h1, ← h2]
  exact hp

theorem decreaseKey_ok_post {pq pq1 : PriorityQueue} (h : pq.HeapInv) {v : Nat} {p : Int}
    (he : pq.decreaseKey v p = .ok pq1) : pq.Present v ∧ DecreasePost pq v p pq1 := by
  have hv : pq.Present v := by
    by_contra hc
    rw [decreaseKey, if_pos (by simp [(inQueue_false_iff pq v).mpr hc])] at he
    injection he
  have hp : p ≤ pq.prioOf v := by
    by_contra hc
    rw [decreaseKey, if_neg (by simp [(inQueue_iff pq v).mpr hv])] at he
    simp only [] at he
    rw [if_pos (by unfold prioOf at hc; omega)] at he
    injection he
  obtain ⟨pq2, he2, hpost⟩ := decreaseKey_spec h hv hp
  rw [he2] at he
  injection he with he
  rw [← he]
  exact ⟨hv, hpost⟩

/-- Every object that the interface produces satisfies the invariant. -/
theorem Reached.heap_inv {pq : PriorityQueue} (h : pq.Reached) : pq.HeapInv := by
  induction h with
  | construct cap => exact new_heapInv cap
  | afterInsert _ hv hnv he ih => exact (insert_ok_post ih hv hnv he).inv
  | afterExtractMin _ he ih => exact (extractMin_ok_post ih he).inv
  | afterDecreaseKey _ he ih => exact (decreaseKey_ok_post ih he).2.inv

theorem heapSize_eq_zero_iff {pq : PriorityQueue} (h : pq.HeapInv) :
    pq.heapSize = 0 ↔ ∀ v, pq.inQueue v = false := by
  constructor
  · intro h0 v
    exact (inQueue_false_iff pq v).mpr (Algorithms.HeapInv.no_present_of_empty h h0 v)
  · intro hall
    by_contra hne
    have := h.1.present_slot (show 0 < pq.heapSize by omega)
    exact (inQueue_false_iff pq _).mp (hall _) this

theorem heapSize_eq_zero_iff_lt {pq : PriorityQueue} (h : pq.HeapInv) :
    pq.heapSize = 0 ↔ ∀ v < pq.capacity, pq.inQueue v = false := by
  constructor
  · intro h0 v _
    exact (inQueue_false_iff pq v).mpr (Algorithms.HeapInv.no_present_of_empty h h0 v)
  · intro hall
    by_contra hne
    have hp := h.1.present_slot (show 0 < pq.heapSize by omega)
    exact (inQueue_false_iff pq _).mp (hall _ (h.1.present_lt hp)) hp

end PriorityQueue

end graph


namespace graph

namespace PriorityQueue

/-- The object after a call of `PriorityQueue::insert`, which changes it in place, and what the
call threw, if anything: the capacity check comes before the first write. -/
def insertInPlace (pq : PriorityQueue) (vertex : Nat) (priority : Int) :
    PriorityQueue × Option Failure :=
  if pq.heapSize = pq.capacity then
    (pq, some (.thrown "Priority queue is full"))
  else
    let i := pq.heapSize
    let pq1 : PriorityQueue :=
      { pq with
        heap := Function.update pq.heap i ⟨vertex, priority⟩
        position := Function.update pq.position vertex (i : Int)
        heapSize := pq.heapSize + 1 }
    match siftUp i pq1 i with
    | .ok pq2 => (pq2, none)
    | .error f => (pq1, some f)

/-- The object after a call of `PriorityQueue::decreaseKey`, which changes it in place, and
what the call threw, if anything: both checks come before the first write. -/
def decreaseKeyInPlace (pq : PriorityQueue) (vertex : Nat) (newPriority : Int) :
    PriorityQueue × Option Failure :=
  if !pq.inQueue vertex then
    (pq, some (.thrown "Vertex not in priority queue"))
  else
    let i := (pq.position vertex).toNat
    if newPriority > (pq.heap i).priority then
      (pq, some (.thrown "New priority is greater than current priority"))
    else
      let pq1 : PriorityQueue :=
        { pq with heap := Function.update pq.heap i ⟨(pq.heap i).vertex, newPriority⟩ }
      match siftUp i pq1 i with
      | .ok pq2 => (pq2, none)
      | .error f => (pq1, some f)

/-- The value a call returns or throws, read off the in-place run. -/
def outcome (r : PriorityQueue × Option Failure) : Except Failure PriorityQueue :=
  match r.2 with
  | none => .ok r.1
  | some f => .error f

theorem insert_eq_outcome (pq : PriorityQueue) (vertex : Nat) (priority : Int) :
    pq.insert vertex priority = outcome (pq.insertInPlace vertex priority) := by
  unfold insert insertInPlace outcome
  split
  · rfl
  · simp only []
    generalize siftUp _ _ _ = r
    cases r <;> rfl

theorem decreaseKey_eq_outcome (pq : PriorityQueue) (vertex : Nat) (newPriority : Int) :
    pq.decreaseKey vertex newPriority =
      outcome (pq.decreaseKeyInPlace vertex newPriority) := by
  unfold decreaseKey decreaseKeyInPlace outcome
  split
  · rfl
  · simp only []
    split
    · rfl
    · generalize siftUp _ _ _ = r
      cases r <;> rfl

end PriorityQueue

namespace Algorithms

open PriorityQueue

/-! ## The claims about the priority queue -/

end Algorithms

end graph


namespace graph

namespace Algorithms

open PriorityQueue

/-- A queue of capacity 5 after `insert(0, 10)` and `insert(1, 5)`. -/
theorem sample_queue :
    ∃ pq0 pq, (PriorityQueue.new 5).insert 0 10 = .ok pq0 ∧ pq0.insert 1 5 = .ok pq ∧
      pq.Reached ∧ pq.capacity = 5 ∧ pq.heapSize = 2 ∧ pq.getPriority 0 = .ok 10 ∧
      pq.getPriority 1 = .ok 5 ∧ ∀ w, pq.inQueue w = true ↔ w = 0 ∨ w = 1 := by
  have hr0 := Reached.construct 5
  have hn0 : (PriorityQueue.new 5).inQueue 0 = false := rfl
  obtain ⟨pq0, he0, hp0⟩ := insert_spec hr0.heap_inv (10 : Int)
    (show 0 < (PriorityQueue.new 5).capacity by decide) ((inQueue_false_iff _ _).mp hn0)
    (by decide)
  have hr1 := Reached.afterInsert hr0 (by decide) hn0 he0
  have hcap0 : pq0.capacity = 5 := hp0.capacity_eq
  have hsz0 : pq0.heapSize = 1 := hp0.heapSize_eq
  have hn1 : ¬ pq0.Present 1 := by
    rw [hp0.present_iff]
    rintro (h | h)
    · omega
    · exact new_not_present 5 1 h
  obtain ⟨pq, he1, hp1⟩ := insert_spec hr1.heap_inv (5 : Int) (show 1 < pq0.capacity by omega)
    hn1 (by omega)
  have hr2 := Reached.afterInsert hr1 (by omega) ((inQueue_false_iff _ _).mpr hn1) he1
  have h0 : pq.Present 0 :=
    (hp1.present_iff 0).mpr (Or.inr ((hp0.present_iff 0).mpr (Or.inl rfl)))
  have h1 : pq.Present 1 := (hp1.present_iff 1).mpr (Or.inl rfl)
  refine ⟨pq0, pq, he0, he1, hr2, hp1.capacity_eq.trans hcap0, by rw [hp1.heapSize_eq, hsz0],
    ?_, ?_, ?_⟩
  · rw [getPriority_of_present h0, hp1.prio_old 0 ((hp0.present_iff 0).mpr (Or.inl rfl)),
      hp0.prio_new]
  · rw [getPriority_of_present h1, hp1.prio_new]
  · intro w
    rw [inQueue_iff, hp1.present_iff, hp0.present_iff]
    constructor
    · rintro (h | h | h)
      · exact Or.inr h
      · exact Or.inl h
      · exact absurd h (new_not_present 5 w)
    · rintro (h | h)
      · exact Or.inr (Or.inl h)
      · exact Or.inl h

/-- C23, as stated, fails: in a new queue of capacity 3 the vertex 0 is not in the queue. -/
theorem new_queue_lacks_vertex :
    0 < (PriorityQueue.new 3).capacity ∧ (PriorityQueue.new 3).inQueue 0 = false :=
  ⟨by decide, rfl⟩

/-- C23, amended: immediately after the constructor the queue is empty, and a vertex below the
capacity is not in the queue and has no priority stored; it is in the queue, with the priority
given, once it is inserted. -/
theorem new_queue_holds_nothing (cap v : Nat) (hv : v < cap) :
    (PriorityQueue.new cap).isEmpty = true ∧ (PriorityQueue.new cap).inQueue v = false ∧
      (PriorityQueue.new cap).getPriority v = .error (.thrown "Vertex not in priority queue") ∧
      ∀ p, ∃ pq1, (PriorityQueue.new cap).insert v p = .ok pq1 ∧
        pq1.inQueue v = true ∧ pq1.getPriority v = .ok p := by
  refine ⟨rfl, rfl, rfl, fun p => ?_⟩
  obtain ⟨pq1, he, hp⟩ := insert_spec (new_heapInv cap) p
    (show v < (PriorityQueue.new cap).capacity from hv) (new_not_present cap v)
    (show (PriorityQueue.new cap).heapSize ≠ (PriorityQueue.new cap).capacity by
      show 0 ≠ cap
      omega)
  have hv1 : pq1.Present v := (hp.present_iff v).mpr (Or.inl rfl)
  exact ⟨pq1, he, (inQueue_iff pq1 v).mpr hv1, by rw [getPriority_of_present hv1, hp.prio_new]⟩

/-- C23, amended, at the capacity 3 and the vertex 2. -/
theorem new_queue_holds_nothing_witness :
    2 < 3 ∧ (PriorityQueue.new 3).isEmpty = true ∧ (PriorityQueue.new 3).inQueue 2 = false ∧
      (PriorityQueue.new 3).getPriority 2 = .error (.thrown "Vertex not in priority queue") ∧
      ∀ p, ∃ pq1, (PriorityQueue.new 3).insert 2 p = .ok pq1 ∧
        pq1.inQueue 2 = true ∧ pq1.getPriority 2 = .ok p :=
  ⟨by decide, new_queue_holds_nothing 3 2 (by decide)⟩

/-- C24: in every state that the interface produces, `decreaseKey` throws "Vertex not in
priority queue" for a vertex below the capacity that is not in the queue, and "New priority is
greater than current priority" for a vertex of the queue and a priority above its current one;
in both cases the object is what it was before the call; a priority equal to the current one
is accepted. -/
theorem decreaseKey_failures (pq : PriorityQueue) (h : pq.Reached) (v : Nat) (p c : Int) :
    (v < pq.capacity → pq.inQueue v = false →
      pq.decreaseKey v p = .error (.thrown "Vertex not in priority queue") ∧
        pq.decreaseKeyInPlace v p = (pq, some (.thrown "Vertex not in priority queue"))) ∧
    (pq.getPriority v = .ok c → c < p →
      pq.decreaseKey v p = .error (.thrown "New priority is greater than current priority") ∧
        pq.decreaseKeyInPlace v p =
          (pq, some (.thrown "New priority is greater than current priority"))) ∧
    (pq.getPriority v = .ok c → ∃ pq1, pq.decreaseKey v c = .ok pq1) := by
  refine ⟨fun _ hv => ?_, fun hc hp => ?_, fun hc => ?_⟩
  · have h1 : pq.decreaseKeyInPlace v p =
        (pq, some (.thrown "Vertex not in priority queue")) := by
      unfold decreaseKeyInPlace
      rw [if_pos (by simp [hv])]
    exact ⟨by rw [decreaseKey_eq_outcome, h1]; rfl, h1⟩
  · obtain ⟨hpres, hprio⟩ := present_of_getPriority hc
    have h1 : pq.decreaseKeyInPlace v p =
        (pq, some (.thrown "New priority is greater than current priority")) := by
      unfold decreaseKeyInPlace
      rw [if_neg (by simp [(inQueue_iff pq v).mpr hpres])]
      simp only []
      rw [if_pos (by unfold prioOf at hprio; omega)]
    exact ⟨by rw [decreaseKey_eq_outcome, h1]; rfl, h1⟩
  · obtain ⟨hpres, hprio⟩ := present_of_getPriority hc
    obtain ⟨pq1, he, _⟩ := decreaseKey_spec h.heap_inv hpres (show c ≤ pq.prioOf v by omega)
    exact ⟨pq1, he⟩

/-- C24 at a queue of capacity 5 after `insert(0, 10)` and `insert(1, 5)`: the vertex 2 is
not in the queue, and the vertex 0 has the priority 10, so that 20 is refused and 10 is
accepted. -/
theorem decreaseKey_failures_witness :
    ∃ pq0 pq, (PriorityQueue.new 5).insert 0 10 = .ok pq0 ∧ pq0.insert 1 5 = .ok pq ∧
      pq.Reached ∧ 2 < pq.capacity ∧ pq.inQueue 2 = false ∧ pq.getPriority 0 = .ok 10 ∧
      (pq.decreaseKey 2 20 = .error (.thrown "Vertex not in priority queue") ∧
        pq.decreaseKeyInPlace 2 20 = (pq, some (.thrown "Vertex not in priority queue"))) ∧
      (pq.decreaseKey 0 20 =
          .error (.thrown "New priority is greater than current priority") ∧
        pq.decreaseKeyInPlace 0 20 =
          (pq, some (.thrown "New priority is greater than current priority"))) ∧
      (∃ pq1, pq.decreaseKey 0 10 = .ok pq1) := by
  obtain ⟨pq0, pq, h0, h1, hr, hcap, _, hp0, _, hin⟩ := sample_queue
  have hn2 : pq.inQueue 2 = false := by
    cases hq : pq.inQueue 2
    · rfl
    · have := (hin 2).mp hq
      omega
  have hat0 := decreaseKey_failures pq hr 0 20 10
  have hat2 := decreaseKey_failures pq hr 2 20 10
  exact ⟨pq0, pq, h0, h1, hr, by omega, hn2, hp0, hat2.1 (by omega) hn2,
    hat0.2.1 hp0 (by decide), hat0.2.2 hp0⟩

end Algorithms

end graph


namespace graph

namespace Algorithms

open PriorityQueue

/-- Calling `extractMin` until the queue is empty, as in `while (!pq.isEmpty())
pq.extractMin()`, and collecting the vertices returned; the first argument bounds the number
of calls. -/
def extractAll : Nat → PriorityQueue → Except Failure (List Nat × PriorityQueue)
  | 0, pq => if pq.isEmpty then .ok ([], pq) else .error .outOfFuel
  | fuel + 1, pq =>
    if pq.isEmpty then .ok ([], pq)
    else
      match pq.extractMin with
      | .error f => .error f
      | .ok (u, pq1) =>
        match extractAll fuel pq1 with
        | .error f => .error f
        | .ok (out, pq2) => .ok (u :: out, pq2)

/-- Emptying a heap returns its vertices, each once, by non-decreasing priority. -/
theorem extractAll_spec (fuel : Nat) :
    ∀ (pq : PriorityQueue), pq.HeapInv → pq.heapSize ≤ fuel →
      ∃ out pq', extractAll fuel pq = .ok (out, pq') ∧ pq'.isEmpty = true ∧ out.Nodup ∧
        (∀ v, v ∈ out ↔ pq.Present v) ∧
        out.Pairwise fun a b => pq.prioOf a ≤ pq.prioOf b := by
  induction fuel with
  | zero =>
    intro pq h hf
    have h0 : pq.heapSize = 0 := by omega
    have he : pq.isEmpty = true := by simp [isEmpty, h0]
    refine ⟨[], pq, ?_, he, List.nodup_nil, ?_, List.Pairwise.nil⟩
    · rw [extractAll, if_pos he]
    · intro v
      simp only [List.not_mem_nil, false_iff]
      exact HeapInv.no_present_of_empty h h0 v
  | succ fuel ih =>
    intro pq h hf
    rw [extractAll]
    by_cases h0 : pq.heapSize = 0
    · have he : pq.isEmpty = true := by simp [isEmpty, h0]
      rw [if_pos he]
      refine ⟨[], pq, rfl, he, List.nodup_nil, ?_, List.Pairwise.nil⟩
      intro v
      simp only [List.not_mem_nil, false_iff]
      exact HeapInv.no_present_of_empty h h0 v
    · rw [if_neg (by simp [isEmpty, h0])]
      obtain ⟨u, pq1, hex, hx⟩ := extractMin_spec h h0
      rw [hex]
      simp only []
      obtain ⟨out, pq2, hrun, hemp, hnd, hmem, hsorted⟩ := ih pq1 hx.inv
        (by have := hx.heapSize_eq; omega)
      rw [hrun]
      refine ⟨u :: out, pq2, rfl, hemp, ?_, ?_, ?_⟩
      · rw [List.nodup_cons]
        refine ⟨fun hc => ?_, hnd⟩
        exact ((hx.present_iff u).mp ((hmem u).mp hc)).2 rfl
      · intro v
        rw [List.mem_cons, hmem, hx.present_iff]
        constructor
        · rintro (rfl | hv)
          · exact hx.present_min
          · exact hv.1
        · intro hv
          by_cases hvu : v = u
          · exact Or.inl hvu
          · exact Or.inr ⟨hv, hvu⟩
      · rw [List.pairwise_cons]
        refine ⟨fun b hb => ?_, ?_⟩
        · exact hx.min_le b ((hx.present_iff b).mp ((hmem b).mp hb)).1
        · refine List.Pairwise.imp_of_mem ?_ hsorted
          intro a b ha hb hab
          have ha' := (hx.present_iff a).mp ((hmem a).mp ha)
          have hb' := (hx.present_iff b).mp ((hmem b).mp hb)
          rw [hx.prio_old a ha'.1 ha'.2, hx.prio_old b hb'.1 hb'.2] at hab
          exact hab

/-- C27: in every state that the interface produces, `insert` throws "Priority queue is full"
when the number of entries equals the capacity, and the object is then what it was before the
call; for a vertex below the capacity it throws that only then, and otherwise returns a state
with one entry more, in which the vertex, if it was not in the queue, is in the queue with the
priority given and every other vertex below the capacity is in the queue as before with the
priority it had. -/
theorem insert_contract (pq : PriorityQueue) (h : pq.Reached) (v : Nat) (p : Int) :
    (pq.heapSize = pq.capacity →
      pq.insert v p = .error (.thrown "Priority queue is full") ∧
        pq.insertInPlace v p = (pq, some (.thrown "Priority queue is full"))) ∧
    (v < pq.capacity →
      (pq.insert v p = .error (.thrown "Priority queue is full") ↔
        pq.heapSize = pq.capacity) ∧
      (pq.heapSize ≠ pq.capacity →
        ∃ pq1, pq.insert v p = .ok pq1 ∧ pq1.heapSize = pq.heapSize + 1 ∧
          pq1.capacity = pq.capacity ∧
          (pq.inQueue v = false →
            pq1.inQueue v = true ∧ pq1.getPriority v = .ok p ∧
            ∀ w < pq.capacity, w ≠ v → pq1.inQueue w = pq.inQueue w ∧
              pq1.getPriority w = pq.getPriority w))) := by
  have htotal : pq.heapSize ≠ pq.capacity →
      ∃ pq1, pq.insert v p = .ok pq1 ∧ pq1.heapSize = pq.heapSize + 1 ∧
        pq1.capacity = pq.capacity := by
    intro hne
    rw [PriorityQueue.insert, if_neg hne]
    obtain ⟨pq1, he, hs, hcap⟩ := siftUp_total pq.heapSize
      ({ pq with
        heap := Function.update pq.heap pq.heapSize ⟨v, p⟩
        position := Function.update pq.position v (pq.heapSize : Int)
        heapSize := pq.heapSize + 1 } : PriorityQueue) pq.heapSize (le_refl _)
    exact ⟨pq1, he, hs, hcap⟩
  have hfail : pq.heapSize = pq.capacity →
      pq.insert v p = .error (.thrown "Priority queue is full") := by
    intro hfull
    rw [PriorityQueue.insert, if_pos hfull]
  refine ⟨fun hfull => ⟨hfail hfull, ?_⟩, fun hv => ⟨⟨fun he => ?_, hfail⟩, fun hne => ?_⟩⟩
  · unfold insertInPlace
    rw [if_pos hfull]
  · by_contra hne
    obtain ⟨pq1, he1, _⟩ := htotal hne
    rw [he1] at he
    injection he
  · obtain ⟨pq1, he, hs, hcap⟩ := htotal hne
    refine ⟨pq1, he, hs, hcap, fun hnv => ?_⟩
    have hp := insert_ok_post h.heap_inv hv hnv he
    have hv1 : pq1.Present v := (hp.present_iff v).mpr (Or.inl rfl)
    refine ⟨(inQueue_iff pq1 v).mpr hv1, by rw [getPriority_of_present hv1, hp.prio_new], ?_⟩
    intro w _ hwv
    by_cases hw : pq.Present w
    · have hw1 : pq1.Present w := (hp.present_iff w).mpr (Or.inr hw)
      rw [(inQueue_iff pq w).mpr hw, (inQueue_iff pq1 w).mpr hw1, getPriority_of_present hw,
        getPriority_of_present hw1, hp.prio_old w hw]
      exact ⟨rfl, rfl⟩
    · have hw1 : ¬ pq1.Present w := by
        rw [hp.present_iff]
        rintro (hc | hc)
        · exact hwv hc
        · exact hw hc
      rw [(inQueue_false_iff pq w).mpr hw, (inQueue_false_iff pq1 w).mpr hw1,
        getPriority_of_not_present hw, getPriority_of_not_present hw1]
      exact ⟨rfl, rfl⟩

/-- C27 at a queue of capacity 5 after `insert(0, 10)` and `insert(1, 5)`, inserting the
vertex 2 with the priority 7, and at a queue of capacity 1 after `insert(0, 4)`, which is
full. -/
theorem insert_contract_witness :
    (∃ pq0 pq, (PriorityQueue.new 5).insert 0 10 = .ok pq0 ∧ pq0.insert 1 5 = .ok pq ∧
      pq.Reached ∧ pq.heapSize ≠ pq.capacity ∧ 2 < pq.capacity ∧ pq.inQueue 2 = false ∧
      ∃ pq1, pq.insert 2 7 = .ok pq1 ∧ pq1.heapSize = pq.heapSize + 1 ∧
        pq1.inQueue 2 = true ∧ pq1.getPriority 2 = .ok 7 ∧ pq1.inQueue 0 = true ∧
        pq1.getPriority 0 = .ok 10) ∧
    ∃ full, (PriorityQueue.new 1).insert 0 4 = .ok full ∧ full.Reached ∧
      full.heapSize = full.capacity ∧
      full.insert 0 9 = .error (.thrown "Priority queue is full") ∧
      full.insertInPlace 0 9 = (full, some (.thrown "Priority queue is full")) := by
  constructor
  · obtain ⟨pq0, pq, h0, h1, hr, hcap, hsz, hp0, _, hin⟩ := sample_queue
    have hne : pq.heapSize ≠ pq.capacity := by omega
    have hn2 : pq.inQueue 2 = false := by
      cases hq : pq.inQueue 2
      · rfl
      · have := (hin 2).mp hq
        omega
    obtain ⟨pq1, he, hs, _, hrest⟩ := ((insert_contract pq hr 2 7).2 (by omega)).2 hne
    obtain ⟨hin2, hprio2, hkeep⟩ := hrest hn2
    have hk := hkeep 0 (by omega) (by decide)
    exact ⟨pq0, pq, h0, h1, hr, hne, by omega, hn2, pq1, he, hs, hin2, hprio2,
      by rw [hk.1]; exact (hin 0).mpr (Or.inl rfl), by rw [hk.2, hp0]⟩
  · have hr0 := Reached.construct 1
    have hn0 : (PriorityQueue.new 1).inQueue 0 = false := rfl
    obtain ⟨full, he, hp⟩ := insert_spec hr0.heap_inv (4 : Int)
      (show 0 < (PriorityQueue.new 1).capacity by decide) ((inQueue_false_iff _ _).mp hn0)
      (by decide)
    have hr := Reached.afterInsert hr0 (by decide) hn0 he
    have hfull : full.heapSize = full.capacity := by
      rw [hp.heapSize_eq, hp.capacity_eq]
      rfl
    exact ⟨full, he, hr, hfull, (insert_contract full hr 0 9).1 hfull⟩

end Algorithms

end graph


namespace graph

/-! ## Utils.hpp : Queue, with its nodes

The list `Queue.items` used by `bfs` is the chain of nodes from `front`; here the nodes and the
pointers `front` and `rear` are kept, to show that the chain behaves as that list. -/

/-- The struct `Queue::Node`; `next` is the address of the next node, `none` for `nullptr`. -/
structure QNode where
  data : Int
  next : Option Nat
deriving DecidableEq, Repr

/-- The class `Queue` with the nodes it has allocated: `memory` holds the node at each
address, and `fresh` is the address that the next `new Node` returns, which no node in use
has. -/
structure NodeQueue where
  memory : Nat → QNode
  fresh : Nat
  front : Option Nat
  rear : Option Nat

namespace NodeQueue

/-- The constructor `Queue()`. -/
def empty : NodeQueue := ⟨fun _ => ⟨0, none⟩, 0, none, none⟩

/-- The method `Queue::isEmpty`: `front == nullptr`. -/
def isEmpty (q : NodeQueue) : Bool := q.front.isNone

/-- The method `Queue::enqueue`; `rear->next` with a null `rear` is undefined behaviour. -/
def enqueue (q : NodeQueue) (value : Int) : Except Failure NodeQueue :=
  let newNode := q.fresh
  let memory1 := Function.update q.memory newNode ⟨value, none⟩
  if q.isEmpty then
    .ok ⟨memory1, q.fresh + 1, some newNode, some newNode⟩
  else
    match q.rear with
    | none => .error (.undefinedBehaviour "rear is null")
    | some r =>
      .ok ⟨Function.update memory1 r ⟨(memory1 r).data, some newNode⟩, q.fresh + 1, q.front,
        some newNode⟩

/-- The method `Queue::dequeue`. -/
def dequeue (q : NodeQueue) : Except Failure (Int × NodeQueue) :=
  if q.isEmpty then
    .error (.thrown "Queue is empty")
  else
    match q.front with
    | none => .error (.undefinedBehaviour "front is null")
    | some f =>
      let value := (q.memory f).data
      if q.front = q.rear then
        .ok (value, ⟨q.memory, q.fresh, none, none⟩)
      else
        .ok (value, ⟨q.memory, q.fresh, (q.memory f).next, q.rear⟩)

/-- The addresses `addrs` are the nodes linked from the pointer `p`, in order, the last one
with a null `next`. -/
def IsChain (memory : Nat → QNode) : Option Nat → List Nat → Prop
  | p, [] => p = none
  | p, a :: rest => p = some a ∧ IsChain memory (memory a).next rest

/-- The queue holds the values `l`, oldest first: they are the data of the chain of distinct
allocated nodes from `front`, and `rear` points to the last node of the chain. -/
def Holds (q : NodeQueue) (l : List Int) : Prop :=
  ∃ addrs : List Nat, IsChain q.memory q.front addrs ∧ addrs.Nodup ∧
    (∀ a ∈ addrs, a < q.fresh) ∧
    (addrs = [] ∨ ∃ init r, addrs = init ++ [r] ∧ q.rear = some r) ∧
    addrs.map (fun a => (q.memory a).data) = l

theorem holds_empty : NodeQueue.empty.Holds [] :=
  ⟨[], rfl, List.nodup_nil, by simp, Or.inl rfl, rfl⟩

theorem Holds.isEmpty_iff {q : NodeQueue} {l : List Int} (h : q.Holds l) :
    q.isEmpty = true ↔ l = [] := by
  obtain ⟨addrs, hc, _, _, _, hl⟩ := h
  cases addrs with
  | nil =>
    simp only [IsChain] at hc
    simp only [List.map_nil] at hl
    simp [isEmpty, hc, ← hl]
  | cons a rest =>
    simp only [IsChain] at hc
    simp only [List.map_cons] at hl
    simp [isEmpty, hc.1, ← hl]

theorem isChain_snoc {memory : Nat → QNode} {fresh r : Nat} (value : Int) (init : List Nat) :
    ∀ {p : Option Nat}, IsChain memory p (init ++ [r]) → r ∉ init → fresh ∉ init →
      fresh ≠ r →
      IsChain
        (Function.update (Function.update memory fresh ⟨value, none⟩) r
          ⟨(Function.update memory fresh ⟨value, none⟩ r).data, some fresh⟩)
        p (init ++ [r, fresh]) := by
  induction init with
  | nil =>
    intro p hc _ _ hfr
    simp only [List.nil_append, IsChain] at hc ⊢
    refine ⟨hc.1, ?_, ?_⟩
    · rw [Function.update_same]
    · rw [Function.update_noteq hfr, Function.update_same]
  | cons a init ih =>
    intro p hc hr hf hfr
    simp only [List.cons_append, IsChain] at hc ⊢
    simp only [List.mem_cons, not_or] at hr hf
    refine ⟨hc.1, ?_⟩
    rw [Function.update_noteq (Ne.symm hr.1), Function.update_noteq (Ne.symm hf.1)]
    exact ih hc.2 hr.2 hf.2 hfr

/-- On a queue that holds `l`, `enqueue` returns a queue that holds `l` followed by the new
value. -/
theorem Holds.enqueue_holds {q : NodeQueue} {l : List Int} (h : q.Holds l) (value : Int) :
    ∃ q1, q.enqueue value = .ok q1 ∧ q1.Holds (l ++ [value]) := by
  obtain ⟨addrs, hc, hnd, hlt, hrear, hl⟩ := h
  rcases hrear with hnil | ⟨init, r, hinit, hr⟩
  · subst hnil
    simp only [IsChain] at hc
    simp only [List.map_nil] at hl
    refine ⟨_, by rw [NodeQueue.enqueue, if_pos (by simp [isEmpty, hc])], [q.fresh], ?_, ?_, ?_,
      Or.inr ⟨[], q.fresh, rfl, rfl⟩, ?_⟩
    · refine ⟨rfl, ?_⟩
      show (Function.update q.memory q.fresh ⟨value, none⟩ q.fresh).next = none
      rw [Function.update_same]
    · exact List.nodup_singleton _
    · intro a ha
      simp only [List.mem_singleton] at ha
      show a < q.fresh + 1
      omega
    · simp only [List.map_cons, List.map_nil, Function.update_same, ← hl, List.nil_append]
  · subst hinit
    have hne : q.isEmpty = false := by
      cases init with
      | nil =>
        simp only [List.nil_append, IsChain] at hc
        simp [isEmpty, hc.1]
      | cons a init =>
        simp only [List.cons_append, IsChain] at hc
        simp [isEmpty, hc.1]
    have hnd' := List.nodup_append.mp hnd
    have hrinit : r ∉ init := fun hc' => hnd'.2.2 hc' (List.mem_singleton_self r)
    have hfinit : q.fresh ∉ init := fun hc' => by
      have := hlt q.fresh (List.mem_append_left _ hc')
      omega
    have hfr : q.fresh ≠ r := fun hc' => by
      have := hlt r (List.mem_append_right _ (List.mem_singleton_self r))
      omega
    refine ⟨_, by rw [NodeQueue.enqueue, if_neg (by simp [hne]), hr], init ++ [r, q.fresh],
      isChain_snoc value init hc hrinit hfinit hfr, ?_, ?_,
      Or.inr ⟨init ++ [r], q.fresh, by simp, rfl⟩, ?_⟩
    · have : init ++ [r, q.fresh] = (init ++ [r]) ++ [q.fresh] := by simp
      rw [this, List.nodup_append]
      refine ⟨hnd, List.nodup_singleton _, ?_⟩
      intro a ha ha'
      simp only [List.mem_singleton] at ha'
      have := hlt a ha
      omega
    · intro a ha
      show a < q.fresh + 1
      simp only [List.mem_append, List.mem_cons, List.mem_singleton, List.not_mem_nil,
        or_false] at ha
      rcases ha with ha | ha | ha
      · have := hlt a (List.mem_append_left _ ha)
        omega
      · have := hlt a (List.mem_append_right _ (by rw [ha]; exact List.mem_singleton_self r))
        omega
      · omega
    · have hdata : ∀ a, a ≠ q.fresh →
          (Function.update (Function.update q.memory q.fresh ⟨value, none⟩) r
            ⟨(Function.update q.memory q.fresh ⟨value, none⟩ r).data, some q.fresh⟩ a).data =
          (q.memory a).data := by
        intro a ha
        by_cases har : a = r
        · rw [har, Function.update_same, Function.update_noteq (Ne.symm hfr)]
        · rw [Function.update_noteq har, Function.update_noteq ha]
      have hsplit : init ++ [r, q.fresh] = (init ++ [r]) ++ [q.fresh] := by simp
      rw [hsplit, List.map_append, ← hl]
      congr 1
      · apply List.map_congr_left
        intro a ha
        exact hdata a (fun hc' => by have := hlt a ha; omega)
      · simp only [List.map_cons, List.map_nil]
        rw [Function.update_noteq hfr, Function.update_same]

/-- On a queue that holds `x` followed by `l`, `dequeue` returns `x` and a queue that holds
`l`. -/
theorem Holds.dequeue_holds {q : NodeQueue} {x : Int} {l : List Int} (h : q.Holds (x :: l)) :
    ∃ q1, q.dequeue = .ok (x, q1) ∧ q1.Holds l := by
  obtain ⟨addrs, hc, hnd, hlt, hrear, hl⟩ := h
  cases addrs with
  | nil => simp at hl
  | cons a rest =>
    simp only [IsChain] at hc
    simp only [List.map_cons, List.cons.injEq] at hl
    have hne : q.isEmpty = false := by simp [isEmpty, hc.1]
    rcases hrear with hnil | ⟨init, r, hinit, hr⟩
    · simp at hnil
    · have hnd' := List.nodup_cons.mp hnd
      rw [NodeQueue.dequeue, if_neg (by simp [hne]), hc.1]
      simp only []
      rw [hl.1]
      by_cases hfr : some a = q.rear
      · rw [if_pos hfr]
        have har : a = r := by
          rw [hr] at hfr
          injection hfr
        have hrest : rest = [] := by
          cases init with
          | nil =>
            simp only [List.nil_append, List.cons.injEq] at hinit
            exact hinit.2
          | cons b init =>
            exfalso
            simp only [List.cons_append, List.cons.injEq] at hinit
            apply hnd'.1
            rw [hinit.2, har]
            exact List.mem_append_right _ (List.mem_singleton_self r)
        subst hrest
        simp only [List.map_nil] at hl
        exact ⟨_, rfl, [], rfl, List.nodup_nil, by simp, Or.inl rfl, hl.2⟩
      · rw [if_neg hfr]
        have hrest : ∃ init', rest = init' ++ [r] := by
          cases init with
          | nil =>
            exfalso
            simp only [List.nil_append, List.cons.injEq] at hinit
            apply hfr
            rw [hr, hinit.1]
          | cons b init =>
            simp only [List.cons_append, List.cons.injEq] at hinit
            exact ⟨init, hinit.2⟩
        obtain ⟨init', hinit'⟩ := hrest
        exact ⟨_, rfl, rest, hc.2, hnd'.2, fun b hb => hlt b (List.mem_cons_of_mem _ hb),
          Or.inr ⟨init', r, hinit', hr⟩, hl.2⟩

/-- On a queue that holds nothing, `dequeue` throws "Queue is empty". -/
theorem Holds.dequeue_nil {q : NodeQueue} (h : q.Holds []) :
    q.dequeue = .error (.thrown "Queue is empty") := by
  rw [NodeQueue.dequeue, if_pos (h.isEmpty_iff.mpr rfl)]

end NodeQueue

end graph


namespace graph

/-- A call of `enqueue` or of `dequeue`. -/
inductive QueueOp where
  | enqueue (value : Int)
  | dequeue
deriving DecidableEq, Repr

namespace NodeQueue

/-- The queue after a sequence of calls; a `dequeue` that throws leaves the queue as it is. -/
def runOps : List QueueOp → NodeQueue → Except Failure NodeQueue
  | [], q => .ok q
  | .enqueue value :: ops, q =>
    match q.enqueue value with
    | .error f => .error f
    | .ok q1 => runOps ops q1
  | .dequeue :: ops, q =>
    match q.dequeue with
    | .ok (_, q1) => runOps ops q1
    | .error (.thrown _) => runOps ops q
    | .error f => .error f

/-- The values enqueued and not yet dequeued after a sequence of calls, oldest first, when the
values `l` were there before. -/
def pending : List QueueOp → List Int → List Int
  | [], l => l
  | .enqueue value :: ops, l => pending ops (l ++ [value])
  | .dequeue :: ops, l => pending ops l.tail

/-- The calls `enqueue(x1)`, ..., `enqueue(xk)`. -/
def enqueueAll : List Int → NodeQueue → Except Failure NodeQueue
  | [], q => .ok q
  | x :: xs, q =>
    match q.enqueue x with
    | .error f => .error f
    | .ok q1 => enqueueAll xs q1

/-- The values that `k` calls of `dequeue` return, in order. -/
def dequeueN : Nat → NodeQueue → Except Failure (List Int × NodeQueue)
  | 0, q => .ok ([], q)
  | k + 1, q =>
    match q.dequeue with
    | .error f => .error f
    | .ok (x, q1) =>
      match dequeueN k q1 with
      | .error f => .error f
      | .ok (out, q2) => .ok (x :: out, q2)

theorem runOps_holds (ops : List QueueOp) :
    ∀ (q : NodeQueue) (l : List Int), q.Holds l →
      ∃ q1, runOps ops q = .ok q1 ∧ q1.Holds (pending ops l) := by
  induction ops with
  | nil => intro q l h; exact ⟨q, rfl, h⟩
  | cons op ops ih =>
    intro q l h
    cases op with
    | enqueue value =>
      obtain ⟨q1, he, h1⟩ := h.enqueue_holds value
      obtain ⟨q2, hr, h2⟩ := ih q1 _ h1
      refine ⟨q2, ?_, h2⟩
      rw [runOps, he]
      exact hr
    | dequeue =>
      cases l with
      | nil =>
        obtain ⟨q2, hr, h2⟩ := ih q [] h
        refine ⟨q2, ?_, h2⟩
        rw [runOps, h.dequeue_nil]
        exact hr
      | cons x l =>
        obtain ⟨q1, he, h1⟩ := h.dequeue_holds
        obtain ⟨q2, hr, h2⟩ := ih q1 l h1
        refine ⟨q2, ?_, h2⟩
        rw [runOps, he]
        exact hr

theorem enqueueAll_holds (xs : List Int) :
    ∀ (q : NodeQueue) (l : List Int), q.Holds l →
      ∃ q1, enqueueAll xs q = .ok q1 ∧ q1.Holds (l ++ xs) := by
  induction xs with
  | nil => intro q l h; exact ⟨q, rfl, by simpa using h⟩
  | cons x xs ih =>
    intro q l h
    obtain ⟨q1, he, h1⟩ := h.enqueue_holds x
    obtain ⟨q2, hr, h2⟩ := ih q1 _ h1
    refine ⟨q2, ?_, by simpa using h2⟩
    rw [enqueueAll, he]
    exact hr

theorem dequeueN_holds (xs : List Int) :
    ∀ (q : NodeQueue) (l : List Int), q.Holds (xs ++ l) →
      ∃ q1, dequeueN xs.length q = .ok (xs, q1) ∧ q1.Holds l := by
  induction xs with
  | nil => intro q l h; exact ⟨q, rfl, h⟩
  | cons x xs ih =>
    intro q l h
    obtain ⟨q1, he, h1⟩ := Holds.dequeue_holds (show q.Holds (x :: (xs ++ l)) from h)
    obtain ⟨q2, hr, h2⟩ := ih q1 l h1
    refine ⟨q2, ?_, h2⟩
    rw [List.length_cons, dequeueN, he]
    simp only []
    rw [hr]

/-- The list that `bfs` uses for the queue follows the nodes: `Queue.enqueue` appends what
`enqueue` links behind `rear`. -/
theorem enqueue_refines {q : NodeQueue} {items : List Nat}
    (h : q.Holds (items.map Int.ofNat)) (value : Nat) :
    ∃ q1, q.enqueue (value : Int) = .ok q1 ∧
      q1.Holds (((⟨items⟩ : Queue).enqueue value).items.map Int.ofNat) := by
  obtain ⟨q1, he, h1⟩ := h.enqueue_holds (value : Int)
  refine ⟨q1, he, ?_⟩
  simpa [Queue.enqueue] using h1

/-- The list that `bfs` uses for the queue follows the nodes: `Queue.dequeue` throws when
`dequeue` throws and otherwise returns the same value. -/
theorem dequeue_refines {q : NodeQueue} {items : List Nat}
    (h : q.Holds (items.map Int.ofNat)) :
    match (⟨items⟩ : Queue).dequeue with
    | .error f => q.dequeue = .error f
    | .ok (value, rest) =>
      ∃ q1, q.dequeue = .ok ((value : Int), q1) ∧ q1.Holds (rest.items.map Int.ofNat) := by
  cases items with
  | nil => exact h.dequeue_nil
  | cons x items =>
    obtain ⟨q1, he, h1⟩ := Holds.dequeue_holds (show q.Holds ((x : Int) :: items.map Int.ofNat)
      from h)
    exact ⟨q1, he, h1⟩

end NodeQueue

namespace Algorithms

open NodeQueue

/-- C21: after every sequence of calls of `enqueue` and `dequeue` on a new queue, `isEmpty`
is true exactly when no value is pending, `dequeue` throws "Queue is empty" exactly then, and
otherwise returns the oldest pending value; and after `enqueue(x1)`, ..., `enqueue(xk)` on a
new queue, `k` calls of `dequeue` return `x1`, ..., `xk` in that order and `isEmpty` is then
true. -/
theorem queue_fifo (ops : List QueueOp) (xs : List Int) :
    (∃ q, runOps ops NodeQueue.empty = .ok q ∧
      (q.isEmpty = true ↔ pending ops [] = []) ∧
      (q.dequeue = .error (.thrown "Queue is empty") ↔ pending ops [] = []) ∧
      ∀ x rest, pending ops [] = x :: rest → ∃ q1, q.dequeue = .ok (x, q1)) ∧
    ∃ q1 q2, enqueueAll xs NodeQueue.empty = .ok q1 ∧
      dequeueN xs.length q1 = .ok (xs, q2) ∧ q2.isEmpty = true := by
  constructor
  · obtain ⟨q, hr, h⟩ := runOps_holds ops NodeQueue.empty [] holds_empty
    refine ⟨q, hr, h.isEmpty_iff, ?_, ?_⟩
    · constructor
      · intro he
        cases hp : pending ops [] with
        | nil => rfl
        | cons x rest =>
          rw [hp] at h
          obtain ⟨q1, he1, _⟩ := h.dequeue_holds
          rw [he1] at he
          injection he
      · intro hp
        rw [hp] at h
        exact h.dequeue_nil
    · intro x rest hp
      rw [hp] at h
      obtain ⟨q1, he1, _⟩ := h.dequeue_holds
      exact ⟨q1, he1⟩
  · obtain ⟨q1, he, h1⟩ := enqueueAll_holds xs NodeQueue.empty [] holds_empty
    obtain ⟨q2, hd, h2⟩ := dequeueN_holds xs q1 [] (by simpa using h1)
    exact ⟨q1, q2, he, hd, h2.isEmpty_iff.mpr rfl⟩

end Algorithms

end graph


namespace graph

namespace UnionFind

/-! ## Union-find: a new structure, parent chains and path compression -/

/-- The elements that `find(x)` visits: `x`, its parent, and so on up to the first element
that is its own parent; the first argument bounds the number of links followed. -/
def chainAux (parent : Nat → Nat) : Nat → Nat → List Nat
  | 0, x => [x]
  | fuel + 1, x => if parent x = x then [x] else x :: chainAux parent fuel (parent x)

/-- The parent chain of `x`, followed as far as `find` follows it. -/
def chain (uf : UnionFind) (x : Nat) : List Nat := chainAux uf.parent (uf.size + 1) x

theorem find_new {n i : Nat} (hi : i < n) :
    (UnionFind.new n).find i = .ok (i, UnionFind.new n) := by
  unfold find
  rw [findAux, if_neg (by show ¬ i ≥ n; omega), if_neg (by simp [UnionFind.new])]
  rfl

theorem connected_new {n i j : Nat} (hi : i < n) (hj : j < n) :
    (UnionFind.new n).connected i j = .ok (decide (i = j), UnionFind.new n) := by
  unfold connected
  rw [find_new hi]
  simp only [find_new hj]
  by_cases hc : i = j <;> simp [hc]

theorem chainAux_mem_iff (fuel : Nat) :
    ∀ (uf : UnionFind), uf.Inv → ∀ x < uf.size, uf.size - uf.numRoots - uf.rank x < fuel →
      ∀ z, z ∈ chainAux uf.parent fuel x ↔ ∃ k, uf.parent^[k] x = z := by
  induction fuel with
  | zero => intro uf _ x _ hf; omega
  | succ fuel ih =>
    intro uf h x hx hf z
    rw [chainAux]
    by_cases hp : uf.parent x = x
    · rw [if_pos hp]
      simp only [List.mem_singleton]
      constructor
      · intro hz
        exact ⟨0, hz.symm⟩
      · rintro ⟨k, hk⟩
        rw [Function.iterate_fixed hp] at hk
        exact hk.symm
    · rw [if_neg hp]
      have hpx := h.parent_lt x hx
      have hrk := h.rank_lt x hx hp
      have hrr := h.rank_roots (uf.parent x) hpx
      rw [List.mem_cons, ih uf h (uf.parent x) hpx (by omega) z]
      constructor
      · rintro (hz | ⟨k, hk⟩)
        · exact ⟨0, hz.symm⟩
        · exact ⟨k + 1, by rw [Function.iterate_succ_apply]; exact hk⟩
      · rintro ⟨k, hk⟩
        cases k with
        | zero => exact Or.inl hk.symm
        | succ k =>
          rw [Function.iterate_succ_apply] at hk
          exact Or.inr ⟨k, hk⟩

/-- The parents after `find(x)`: the elements of the chain of `x` point to the
representative, the others are as before. -/
theorem findAux_parent (fuel : Nat) :
    ∀ (uf : UnionFind), uf.Inv → ∀ x < uf.size, uf.size - uf.numRoots - uf.rank x < fuel →
      ∀ r uf', findAux fuel uf x = .ok (r, uf') →
        ∀ z, uf'.parent z = if z ∈ chainAux uf.parent fuel x then uf.root x else uf.parent z := by
  induction fuel with
  | zero => intro uf _ x _ hf; omega
  | succ fuel ih =>
    intro uf h x hx hf r uf' he z
    rw [findAux, if_neg (by omega)] at he
    rw [chainAux]
    by_cases hp : uf.parent x = x
    · rw [if_neg (by simpa using hp)] at he
      rw [if_pos hp]
      injection he with he
      injection he with _ he2
      subst he2
      simp only [List.mem_singleton]
      by_cases hzx : z = x
      · rw [if_pos hzx, hzx, hp, root_of_isRoot hp]
      · rw [if_neg hzx]
    · rw [if_pos hp] at he
      rw [if_neg hp]
      have hpx := h.parent_lt x hx
      have hrk := h.rank_lt x hx hp
      have hrr := h.rank_roots (uf.parent x) hpx
      obtain ⟨uf1, he1, _⟩ := findAux_spec fuel uf h (uf.parent x) hpx (by omega)
      have hz1 := ih uf h (uf.parent x) hpx (by omega) _ _ he1
      rw [he1] at he
      simp only [] at he
      injection he with he
      injection he with _ he2
      subst he2
      show Function.update uf1.parent x (uf.root (uf.parent x)) z = _
      rw [root_parent h hx]
      by_cases hzx : z = x
      · rw [hzx, Function.update_same, if_pos (List.mem_cons_self _ _)]
      · rw [Function.update_noteq hzx, hz1 z, root_parent h hx]
        simp only [List.mem_cons, hzx, false_or]

theorem root_eq_iterate {uf : UnionFind} (x : Nat) : ∃ k, uf.parent^[k] x = uf.root x := by
  unfold root
  generalize uf.size = n
  induction n generalizing x with
  | zero => exact ⟨0, rfl⟩
  | succ n ih =>
    rw [rootAux]
    by_cases hp : uf.parent x = x
    · rw [if_pos hp]
      exact ⟨0, rfl⟩
    · rw [if_neg hp]
      obtain ⟨k, hk⟩ := ih (uf.parent x)
      exact ⟨k + 1, by rw [Function.iterate_succ_apply]; exact hk⟩

theorem rank_lt_iterate {uf : UnionFind} (h : uf.Inv) {x : Nat} (hx : x < uf.size)
    (hp : uf.parent x ≠ x) (k : Nat) :
    uf.parent^[k + 1] x < uf.size ∧ uf.rank x < uf.rank (uf.parent^[k + 1] x) := by
  induction k with
  | zero => exact ⟨h.parent_lt x hx, h.rank_lt x hx hp⟩
  | succ k ih =>
    rw [Function.iterate_succ_apply']
    refine ⟨h.parent_lt _ ih.1, ?_⟩
    by_cases hq : uf.parent (uf.parent^[k + 1] x) = uf.parent^[k + 1] x
    · rw [hq]
      exact ih.2
    · exact lt_trans ih.2 (h.rank_lt _ ih.1 hq)

end UnionFind

namespace Algorithms

open UnionFind

/-! ## The claims about the union-find structure, continued -/

/-- C31: immediately after the constructor `UnionFind(n)`, for all `i` and `j` below `n`,
`find(i)` returns `i` and `connected(i, j)` returns true exactly when `i = j`; neither call
changes the object. -/
theorem new_singletons (n i j : Nat) (hi : i < n) (hj : j < n) :
    (UnionFind.new n).find i = .ok (i, UnionFind.new n) ∧
      (UnionFind.new n).connected i j = .ok (decide (i = j), UnionFind.new n) ∧
      ((UnionFind.new n).Same i j ↔ i = j) := by
  refine ⟨find_new hi, connected_new hi hj, ?_⟩
  unfold Same connectedResult
  rw [connected_new hi hj]
  simp

/-- C31 at five elements, for the elements 1 and 3. -/
theorem new_singletons_witness :
    1 < 5 ∧ 3 < 5 ∧ (UnionFind.new 5).find 1 = .ok (1, UnionFind.new 5) ∧
      (UnionFind.new 5).connected 1 3 = .ok (decide (1 = 3), UnionFind.new 5) ∧
      ((UnionFind.new 5).Same 1 3 ↔ 1 = 3) :=
  ⟨by decide, by decide, new_singletons 5 1 3 (by decide) (by decide)⟩

/-- C33: in every union-find state that the interface produces, for every element `x` below
`size`, `find(x)` returns an element `r` that is its own parent; the elements of the parent
chain of `x` are the elements reached from `x` by following parent links; after the call each
of them has the parent `r`, every other element has the parent it had, and for every element
`y` below `size`, `find(y)` returns what it returned before the call. -/
theorem find_compresses (uf : UnionFind) (h : uf.Reached) (x : Nat) (hx : x < uf.size) :
    ∃ r uf1, uf.find x = .ok (r, uf1) ∧ uf.parent r = r ∧ uf1.size = uf.size ∧
      (∀ z, z ∈ uf.chain x ↔ ∃ k, uf.parent^[k] x = z) ∧ r ∈ uf.chain x ∧
      (∀ z, z ∈ uf.chain x → uf1.parent z = r) ∧
      (∀ z, z ∉ uf.chain x → uf1.parent z = uf.parent z) ∧
      ∀ y < uf.size, ∃ ry uf2 uf3, uf.find y = .ok (ry, uf2) ∧ uf1.find y = .ok (ry, uf3) := by
  have hinv := h.uf_inv
  obtain ⟨uf1, he, hp⟩ := find_spec hinv hx
  have hmem : ∀ z, z ∈ uf.chain x ↔ ∃ k, uf.parent^[k] x = z :=
    chainAux_mem_iff _ uf hinv x hx (by omega)
  have hpar : ∀ z, uf1.parent z = if z ∈ uf.chain x then uf.root x else uf.parent z :=
    findAux_parent _ uf hinv x hx (by omega) _ _ he
  refine ⟨uf.root x, uf1, he, root_isRoot hinv hx, hp.size_eq, hmem,
    (hmem _).mpr (root_eq_iterate x), ?_, ?_, ?_⟩
  · intro z hz
    rw [hpar z, if_pos hz]
  · intro z hz
    rw [hpar z, if_neg hz]
  · intro y hy
    obtain ⟨uf2, he2, _⟩ := find_spec hinv hy
    obtain ⟨uf3, he3, _⟩ := find_spec hp.inv (show y < uf1.size by rw [hp.size_eq]; exact hy)
    exact ⟨uf.root y, uf2, uf3, he2, by rw [he3, hp.root_eq y hy]⟩

/-- C33 at the state after `unite(0, 1)`, `unite(2, 3)` and `unite(1, 3)` on five singletons,
in which the parent chain of 3 is 3, 2, 0: `find(3)` returns 0 and re-parents 3 to 0. -/
theorem find_compresses_witness :
    ∃ uf0 uf1 uf, (UnionFind.new 5).unite 0 1 = .ok uf0 ∧ uf0.unite 2 3 = .ok uf1 ∧
      uf1.unite 1 3 = .ok uf ∧ uf.Reached ∧ 3 < uf.size ∧ uf.chain 3 = [3, 2, 0] ∧
      (∃ uf', uf.find 3 = .ok (0, uf') ∧ uf'.parent 3 = 0) ∧
      ∃ r uf1, uf.find 3 = .ok (r, uf1) ∧ uf.parent r = r ∧ uf1.size = uf.size ∧
        (∀ z, z ∈ uf.chain 3 ↔ ∃ k, uf.parent^[k] 3 = z) ∧ r ∈ uf.chain 3 ∧
        (∀ z, z ∈ uf.chain 3 → uf1.parent z = r) ∧
        (∀ z, z ∉ uf.chain 3 → uf1.parent z = uf.parent z) ∧
        ∀ y < uf.size, ∃ ry uf2 uf3, uf.find y = .ok (ry, uf2) ∧ uf1.find y = .ok (ry, uf3) :=
  ⟨_, _, _, rfl, rfl, rfl,
    @Reached.afterUnite _ _ 1 3 (@Reached.afterUnite _ _ 2 3
      (@Reached.afterUnite _ _ 0 1 (Reached.construct 5) rfl) rfl) rfl,
    by decide, rfl, ⟨_, rfl, rfl⟩,
    find_compresses _ (@Reached.afterUnite _ _ 1 3 (@Reached.afterUnite _ _ 2 3
      (@Reached.afterUnite _ _ 0 1 (Reached.construct 5) rfl) rfl) rfl) 3 (by decide)⟩

/-- C40: in every union-find state that the interface produces, the rank grows strictly along
every parent link; hence following one or more parent links from an element that is not its
own parent never leads back to it, and for every element `x` below `size`, `find(x)` returns:
its result is its own parent and is reached from `x` by following parent links. -/
theorem rank_increases (uf : UnionFind) (h : uf.Reached) :
    (∀ x < uf.size, uf.parent x ≠ x → uf.rank x < uf.rank (uf.parent x)) ∧
    (∀ x < uf.size, uf.parent x ≠ x → ∀ k, uf.parent^[k + 1] x ≠ x) ∧
    ∀ x < uf.size, ∃ r uf1, uf.find x = .ok (r, uf1) ∧ uf.parent r = r ∧
      ∃ k, uf.parent^[k] x = r := by
  have hinv := h.uf_inv
  refine ⟨hinv.rank_lt, ?_, ?_⟩
  · intro x hx hp k hc
    have := (rank_lt_iterate hinv hx hp k).2
    rw [hc] at this
    exact lt_irrefl _ this
  · intro x hx
    obtain ⟨uf1, he, _⟩ := find_spec hinv hx
    exact ⟨uf.root x, uf1, he, root_isRoot hinv hx, root_eq_iterate x⟩

/-- C40 at the state after `unite(0, 1)`, `unite(2, 3)` and `unite(1, 3)` on five singletons,
in which 3 has the parent 2 and 2 has the parent 0. -/
theorem rank_increases_witness :
    ∃ uf0 uf1 uf, (UnionFind.new 5).unite 0 1 = .ok uf0 ∧ uf0.unite 2 3 = .ok uf1 ∧
      uf1.unite 1 3 = .ok uf ∧ uf.Reached ∧ uf.parent 3 = 2 ∧ uf.parent 2 = 0 ∧
      uf.rank 3 = 0 ∧ uf.rank 2 = 1 ∧ uf.rank 0 = 2 ∧
      (∀ x < uf.size, uf.parent x ≠ x → uf.rank x < uf.rank (uf.parent x)) ∧
      (∀ x < uf.size, uf.parent x ≠ x → ∀ k, uf.parent^[k + 1] x ≠ x) ∧
      ∀ x < uf.size, ∃ r uf1, uf.find x = .ok (r, uf1) ∧ uf.parent r = r ∧
        ∃ k, uf.parent^[k] x = r :=
  ⟨_, _, _, rfl, rfl, rfl,
    @Reached.afterUnite _ _ 1 3 (@Reached.afterUnite _ _ 2 3
      (@Reached.afterUnite _ _ 0 1 (Reached.construct 5) rfl) rfl) rfl,
    rfl, rfl, rfl, rfl, rfl,
    rank_increases _ (@Reached.afterUnite _ _ 1 3 (@Reached.afterUnite _ _ 2 3
      (@Reached.afterUnite _ _ 0 1 (Reached.construct 5) rfl) rfl) rfl)⟩

end Algorithms

end graph


namespace graph

namespace Algorithms

open PriorityQueue

/-! ## The claims about the invariants of the priority queue -/

/-- C34: in every state that the constructor, `insert` (of a vertex below the capacity that is
not in the queue), `extractMin` and `decreaseKey` produce, for every slot `i` with
`0 < i < heapSize` the priority at slot `(i - 1) / 2` is at most the priority at slot `i`. -/
theorem heap_order (pq : PriorityQueue) (h : pq.Reached) (i : Nat) (hi0 : 0 < i)
    (hi : i < pq.heapSize) :
    (pq.heap ((i - 1) / 2)).priority ≤ (pq.heap i).priority :=
  h.heap_inv.2 i hi0 hi

/-- C34 at the queue of capacity 5 after `insert(0, 10)`, `insert(1, 5)`, `insert(2, 7)` and
`decreaseKey(0, 1)`, whose slots hold the priorities 1, 5 and 7, for the slot 2. -/
theorem heap_order_witness :
    ∃ pq0 pq1 pq2 pq, (PriorityQueue.new 5).insert 0 10 = .ok pq0 ∧
      pq0.insert 1 5 = .ok pq1 ∧ pq1.insert 2 7 = .ok pq2 ∧ pq2.decreaseKey 0 1 = .ok pq ∧
      pq.Reached ∧ 0 < 2 ∧ 2 < pq.heapSize ∧
      pq.heap 0 = ⟨0, 1⟩ ∧ pq.heap 1 = ⟨1, 5⟩ ∧ pq.heap 2 = ⟨2, 7⟩ ∧
      (pq.heap ((2 - 1) / 2)).priority ≤ (pq.heap 2).priority :=
  ⟨_, _, _, _, rfl, rfl, rfl, rfl,
    @Reached.afterDecreaseKey _ _ 0 1
      (@Reached.afterInsert _ _ 2 7
        (@Reached.afterInsert _ _ 1 5
          (@Reached.afterInsert _ _ 0 10 (Reached.construct 5) (by decide) rfl rfl)
          (by decide) rfl rfl)
        (by decide) rfl rfl) rfl,
    by decide, by decide, rfl, rfl, rfl,
    heap_order _
      (@Reached.afterDecreaseKey _ _ 0 1
        (@Reached.afterInsert _ _ 2 7
          (@Reached.afterInsert _ _ 1 5
            (@Reached.afterInsert _ _ 0 10 (Reached.construct 5) (by decide) rfl rfl)
            (by decide) rfl rfl)
          (by decide) rfl rfl) rfl) 2 (by decide) (by decide)⟩

/-- C35: in every state that the constructor, `insert` (of a vertex below the capacity that is
not in the queue), `extractMin` and `decreaseKey` produce, the slots below `heapSize` hold
vertices below the capacity, no two of them hold the same vertex, `position[v] = i` holds
exactly when `i < heapSize` and slot `i` holds `v`, and `position[v] = -1`, that is
`inQueue(v)` is false, exactly when no slot below `heapSize` holds `v`. -/
theorem position_table (pq : PriorityQueue) (h : pq.Reached) :
    pq.heapSize ≤ pq.capacity ∧
    (∀ i < pq.heapSize, (pq.heap i).vertex < pq.capacity) ∧
    (∀ i < pq.heapSize, ∀ j < pq.heapSize, (pq.heap i).vertex = (pq.heap j).vertex → i = j) ∧
    (∀ v < pq.capacity, ∀ i : Nat,
      (pq.position v = (i : Int) ↔ i < pq.heapSize ∧ (pq.heap i).vertex = v)) ∧
    (∀ v < pq.capacity, (pq.position v = -1 ↔ ∀ i < pq.heapSize, (pq.heap i).vertex ≠ v)) ∧
    ∀ v < pq.capacity, (pq.inQueue v = false ↔ pq.position v = -1) := by
  have hw := h.heap_inv.1
  refine ⟨hw.size_le, hw.vertex_lt, ?_, ?_, ?_, ?_⟩
  · intro i hi j hj hij
    have h1 := hw.pos_heap i hi
    have h2 := hw.pos_heap j hj
    rw [hij, h2] at h1
    exact (Int.ofNat_inj.mp h1).symm
  · intro v _ i
    constructor
    · intro hv
      obtain ⟨j, hj, hpj, hvj⟩ := hw.heap_pos v (by rw [hv]; omega)
      have hij : i = j := by
        rw [hv] at hpj
        exact Int.ofNat_inj.mp hpj
      rw [hij]
      exact ⟨hj, hvj⟩
    · rintro ⟨hi, hv⟩
      rw [← hv]
      exact hw.pos_heap i hi
  · intro v _
    constructor
    · intro hv i hi hc
      have := hw.pos_heap i hi
      rw [hc, hv] at this
      omega
    · intro hall
      by_contra hne
      obtain ⟨j, hj, _, hvj⟩ := hw.heap_pos v hne
      exact hall j hj hvj
  · intro v _
    unfold inQueue
    simp

/-- C35 at the queue of capacity 5 after `insert(0, 10)`, `insert(1, 5)`, `insert(2, 7)` and
`extractMin()`, which returns 1 and leaves the vertices 2 and 0 in the slots 0 and 1. -/
theorem position_table_witness :
    ∃ pq0 pq1 pq2 pq, (PriorityQueue.new 5).insert 0 10 = .ok pq0 ∧
      pq0.insert 1 5 = .ok pq1 ∧ pq1.insert 2 7 = .ok pq2 ∧ pq2.extractMin = .ok (1, pq) ∧
      pq.Reached ∧ pq.heapSize = 2 ∧ pq.heap 0 = ⟨2, 7⟩ ∧ pq.heap 1 = ⟨0, 10⟩ ∧
      pq.position 2 = 0 ∧ pq.position 0 = 1 ∧ pq.position 1 = -1 ∧
      pq.heapSize ≤ pq.capacity ∧
      (∀ i < pq.heapSize, (pq.heap i).vertex < pq.capacity) ∧
      (∀ i < pq.heapSize, ∀ j < pq.heapSize,
        (pq.heap i).vertex = (pq.heap j).vertex → i = j) ∧
      (∀ v < pq.capacity, ∀ i : Nat,
        (pq.position v = (i : Int) ↔ i < pq.heapSize ∧ (pq.heap i).vertex = v)) ∧
      (∀ v < pq.capacity,
        (pq.position v = -1 ↔ ∀ i < pq.heapSize, (pq.heap i).vertex ≠ v)) ∧
      ∀ v < pq.capacity, (pq.inQueue v = false ↔ pq.position v = -1) :=
  ⟨_, _, _, _, rfl, rfl, rfl, rfl,
    @Reached.afterExtractMin _ _ 1
      (@Reached.afterInsert _ _ 2 7
        (@Reached.afterInsert _ _ 1 5
          (@Reached.afterInsert _ _ 0 10 (Reached.construct 5) (by decide) rfl rfl)
          (by decide) rfl rfl)
        (by decide) rfl rfl) rfl,
    rfl, rfl, rfl, rfl, rfl, rfl,
    position_table _
      (@Reached.afterExtractMin _ _ 1
        (@Reached.afterInsert _ _ 2 7
          (@Reached.afterInsert _ _ 1 5
            (@Reached.afterInsert _ _ 0 10 (Reached.construct 5) (by decide) rfl rfl)
            (by decide) rfl rfl)
          (by decide) rfl rfl) rfl)⟩

end Algorithms

end graph


namespace graph

namespace Graph

/-! ## The edges that `kruskal` collects -/

/-- At most one record leads from a vertex to each other vertex: the graph has no parallel
edges (self-loops are not restricted). -/
def Simple (g : Graph) : Prop :=
  ∀ u < g.numVertices, ∀ v < g.numVertices, u ≠ v →
    ((g.adj u).filter fun e => decide (e.destination = v)).length ≤ 1

instance (g : Graph) : Decidable g.Simple := by
  unfold Simple
  infer_instance

theorem count_chainEdges (a b : Nat) (w : Int) (chain : List Edge) :
    (chainEdges a chain).count ⟨a, b, w⟩ = if a < b then chain.count ⟨b, w⟩ else 0 := by
  induction chain with
  | nil => simp [chainEdges]
  | cons e chain ih =>
    rw [chainEdges_cons]
    by_cases hlt : a < e.destination
    · rw [if_pos hlt, List.count_cons, List.count_cons, ih]
      by_cases hab : a < b
      · rw [if_pos hab, if_pos hab]
        congr 1
        cases e with
        | mk d x =>
          by_cases hd : d = b
          · by_cases hx : x = w
            · simp [hd, hx]
            · simp [hd, hx]
          · simp [hd]
      · rw [if_neg hab, if_neg hab]
        have hne : e.destination ≠ b := fun hc => hab (hc ▸ hlt)
        simp [hne]
    · rw [if_neg hlt, ih]
      by_cases hab : a < b
      · simp only [if_pos hab]
        have hne : e ≠ (⟨b, w⟩ : Edge) := fun hc => hlt (by rw [hc]; exact hab)
        rw [List.count_cons]
        simp [hne]
      · simp only [if_neg hab]

theorem count_chainEdges_of_ne {i : Nat} {k : Algorithms.KEdge} (h : i ≠ k.src)
    (chain : List Edge) : (chainEdges i chain).count k = 0 := by
  apply List.count_eq_zero_of_not_mem
  unfold chainEdges
  simp only [List.mem_map, List.mem_filter, not_exists, not_and]
  intro e _ hc
  apply h
  rw [← hc]

theorem count_flatMap_chainEdges (g : Graph) (l : List Nat) (hl : l.Nodup) (a b : Nat)
    (w : Int) :
    (l.flatMap fun i => chainEdges i (g.adj i)).count ⟨a, b, w⟩ =
      if a ∈ l ∧ a < b then (g.adj a).count ⟨b, w⟩ else 0 := by
  induction l with
  | nil => simp
  | cons i l ih =>
    rw [List.nodup_cons] at hl
    rw [List.flatMap_cons, List.count_append, ih hl.2]
    by_cases hia : i = a
    · subst hia
      rw [count_chainEdges]
      by_cases hab : i < b
      · simp [hab, hl.1]
      · simp [hab]
    · rw [count_chainEdges_of_ne (show i ≠ (⟨a, b, w⟩ : Algorithms.KEdge).src from hia)]
      have : (a = i ∨ a ∈ l) ↔ a ∈ l := ⟨fun h => h.resolve_left (Ne.symm hia), Or.inr⟩
      simp only [List.mem_cons, this, Nat.zero_add]

/-- A record `(b, w)` in the chain of `a` with `a < b` is listed in the edge list as often as
it occurs in the chain. -/
theorem count_edgeList {g : Graph} (hg : g.WF) (a b : Nat) (w : Int) (hab : a < b) :
    g.edgeList.count ⟨a, b, w⟩ = (g.adj a).count ⟨b, w⟩ := by
  unfold edgeList
  rw [count_flatMap_chainEdges g _ (List.nodup_range _)]
  by_cases ha : a < g.numVertices
  · rw [if_pos ⟨List.mem_range.mpr ha, hab⟩]
  · rw [if_neg (fun hc => ha (List.mem_range.mp hc.1)), adj_of_ge hg (by omega)]
    rfl

theorem sum_map_range (f : Nat → Nat) (n : Nat) :
    ((List.range n).map f).sum = ∑ i in Finset.range n, f i := by
  induction n with
  | zero => rfl
  | succ n ih =>
    rw [List.range_succ, List.map_append, List.sum_append, ih, Finset.sum_range_succ]
    simp

theorem length_le_of_between {i n : Nat} {l : List Nat} (hl : l.Nodup)
    (h : ∀ x ∈ l, i < x ∧ x < n) : l.length ≤ n - 1 - i := by
  have hcard : (Finset.Ioo i n).card = n - i - 1 := Nat.card_Ioo i n
  rw [← List.toFinset_card_of_nodup hl]
  have hsub : l.toFinset ⊆ Finset.Ioo i n := by
    intro x hx
    rw [List.mem_toFinset] at hx
    exact Finset.mem_Ioo.mpr (h x hx)
  have := Finset.card_le_card hsub
  omega

/-- In a graph without parallel edges the chain of `i` holds at most `n - 1 - i` records that
lead to a vertex above `i`. -/
theorem chain_above_le {g : Graph} (hg : g.WF) (hs : g.Simple) {i : Nat}
    (hi : i < g.numVertices) :
    ((g.adj i).filter fun e => decide (i < e.destination)).length ≤ g.numVertices - 1 - i := by
  rw [← List.length_map _ Edge.destination]
  apply length_le_of_between
  · rw [List.nodup_iff_count_le_one]
    intro v
    by_cases hv : v ∈ ((g.adj i).filter fun e => decide (i < e.destination)).map
        Edge.destination
    · obtain ⟨e, he, hev⟩ := List.mem_map.mp hv
      rw [List.mem_filter] at he
      have hiv : i < v := by
        rw [← hev]
        simpa using he.2
      have hvn : v < g.numVertices := by
        rw [← hev]
        exact dest_lt hg he.1
      have h1 := hs i hi v hvn (by omega)
      rw [List.count_eq_countP, List.countP_map, List.countP_eq_length_filter,
        List.filter_filter]
      refine le_trans ?_ h1
      apply List.Sublist.length_le
      apply List.monotone_filter_right
      intro e he
      simp only [Function.comp_apply, Bool.and_eq_true, beq_iff_eq, decide_eq_true_eq] at he ⊢
      exact he.1
    · rw [List.count_eq_zero_of_not_mem hv]
      omega
  · intro x hx
    obtain ⟨e, he, hex⟩ := List.mem_map.mp hx
    rw [List.mem_filter] at he
    rw [← hex]
    exact ⟨by simpa using he.2, dest_lt hg he.1⟩

/-- A graph without parallel edges has at most `n (n - 1) / 2` edges other than self-loops. -/
theorem countEdges_le_of_simple {g : Graph} (hg : g.WF) (hs : g.Simple) :
    countEdges g ≤ g.numVertices * (g.numVertices - 1) / 2 := by
  have hsum : ∑ i in Finset.range g.numVertices, (g.numVertices - 1 - i) =
      g.numVertices * (g.numVertices - 1) / 2 := by
    rw [Finset.sum_range_reflect (fun i => i) g.numVertices, Finset.sum_range_id]
  unfold countEdges getNumVertices
  rw [sum_map_range, ← hsum]
  apply Finset.sum_le_sum
  intro i hi
  exact chain_above_le hg hs (Finset.mem_range.mp hi)

end Graph

namespace Algorithms

open Graph

/-! ## The bubble sort of `kruskal` is stable -/

theorem bubblePass_filter (w : Int) (k : Nat) (l : List KEdge) :
    (bubblePass k l).filter (fun e => decide (e.weight = w)) =
      l.filter fun e => decide (e.weight = w) := by
  induction k generalizing l with
  | zero => unfold bubblePass; rfl
  | succ k ih =>
    match l with
    | [] => unfold bubblePass; rfl
    | [a] => unfold bubblePass; rfl
    | a :: b :: rest =>
      rw [bubblePass]
      split
      · rename_i hgt
        rw [List.filter_cons, ih (a :: rest)]
        by_cases ha : a.weight = w
        · have hb : b.weight ≠ w := by omega
          simp [List.filter_cons, ha, hb]
        · simp [List.filter_cons, ha]
      · simp only [List.filter_cons, ih (b :: rest)]

theorem bubbleSort_filter (w : Int) (r : Nat) (l : List KEdge) :
    (bubbleSort r l).filter (fun e => decide (e.weight = w)) =
      l.filter fun e => decide (e.weight = w) := by
  induction r generalizing l with
  | zero => rfl
  | succ r ih =>
    rw [bubbleSort, ih, bubblePass_filter]

/-- Two vertices after `addEdge(0, 1, 1)` and `addEdge(0, 1, 5)`: two parallel edges. -/
def doubleEdgeGraph : Except Failure Graph := do
  let g ← Graph.new 2
  let g ← g.addEdge 0 1 1
  g.addEdge 0 1 5

/-- Three vertices after `addEdge(0, 1, 5)`, `addEdge(0, 2, 5)` and `addEdge(1, 2, 3)`. -/
def tiedGraph : Except Failure Graph := do
  let g ← Graph.new 3
  let g ← g.addEdge 0 1 5
  let g ← g.addEdge 0 2 5
  g.addEdge 1 2 3

/-- The graph on `n` vertices after `addEdge(0, 1, 1)`, ..., `addEdge(0, k, 1)`: a star with
centre 0. -/
def starGraph (n : Nat) : Nat → Except Failure Graph
  | 0 => Graph.new n
  | k + 1 =>
    match starGraph n k with
    | .error f => .error f
    | .ok g => g.addEdge 0 ((k + 1 : Nat) : Int) 1

/-- The star with `k < n` rays on `n` vertices is built, has `k` edges and no parallel edges. -/
theorem starGraph_spec (n k : Nat) (hk : k < n) :
    ∃ g, starGraph n k = .ok g ∧ g.Built ∧ g.numVertices = n ∧ countEdges g = k ∧ g.Simple ∧
      (∀ x, k < x → g.adj x = []) ∧ ∀ e ∈ g.adj 0, e.destination ≤ k := by
  induction k with
  | zero =>
    have hnew : Graph.new (n : Int) = .ok (emptyGraph n) := new_eq hk
    refine ⟨emptyGraph n, hnew, Built.construct hnew, rfl, countEdges_emptyGraph n, ?_,
      fun x _ => adj_emptyGraph n x, ?_⟩
    · intro u _ v _ _
      rw [adj_emptyGraph]
      exact Nat.zero_le _
    · intro e he
      rw [adj_emptyGraph] at he
      cases he
  | succ k ih =>
    obtain ⟨g, hgk, hb, hnv, hcount, hsimple, hfar, hnear⟩ := ih (by omega)
    have hwf := hb.wf
    have h0 : 0 < g.numVertices := by omega
    have hk1 : k + 1 < g.numVertices := by omega
    have hadd : g.addEdge 0 ((k + 1 : Nat) : Int) 1 = .ok (g.addEdgeNat 0 (k + 1) 1) :=
      addEdge_eq h0 hk1 1
    have hstar : starGraph n (k + 1) = .ok (g.addEdgeNat 0 (k + 1) 1) := by
      rw [starGraph, hgk]
      exact hadd
    have hadj := adj_addEdgeNat hwf h0 hk1 1
    refine ⟨_, hstar, Built.add hb hadd, hnv, ?_, ?_, ?_, ?_⟩
    · rw [countEdges_eq, (edgeList_addEdgeNat hwf h0 hk1 (by omega) 1).length_eq,
        List.length_cons, ← countEdges_eq, hcount]
    · intro u hu v hv huv
      rw [hadj u]
      by_cases h1 : u = k + 1
      · rw [if_pos h1, if_neg (by omega), hfar (k + 1) (by omega)]
        exact (List.length_filter_le _ _).trans (by simp)
      · rw [if_neg h1]
        by_cases h2 : u = 0
        · rw [if_pos h2]
          by_cases h3 : v = k + 1
          · have hnone : (g.adj 0).filter (fun e => decide (e.destination = v)) = [] := by
              rw [List.filter_eq_nil_iff]
              intro e he
              have := hnear e he
              simp only [decide_eq_true_eq]
              omega
            rw [List.filter_cons, hnone]
            split <;> simp
          · rw [List.filter_cons, if_neg (by simpa using fun h => h3 h.symm)]
            have := hsimple 0 h0 v hv (by omega)
            exact this
        · rw [if_neg h2]
          exact hsimple u hu v hv huv
    · intro x hx
      rw [hadj x, if_neg (by omega), if_neg (by omega)]
      exact hfar x (by omega)
    · intro e he
      rw [hadj 0, if_neg (by omega), if_pos rfl] at he
      rcases List.mem_cons.mp he with rfl | he
      · exact le_refl _
      · exact (hnear e he).trans (by omega)

/-! ## The claims about the edges that `kruskal` processes -/

/-- C36, as stated, fails where the edges do not fit the buffer or the buffer cannot be
allocated.  On the two vertices with two edges between 0 and 1 the scan lists (0,1,5) and
(0,1,1), the buffer has one slot, and `kruskal` writes outside it instead of processing the
two edges.  On 46342 vertices with the one edge of `addEdge(0, 1, 1)` the scan has one edge
to list, but the `int` product `n (n - 1)` wraps around, the size of the buffer is negative,
and `kruskal` throws before it collects the edge. -/
theorem kruskal_processes_nothing :
    (∃ g, doubleEdgeGraph = .ok g ∧ g.Built ∧
      g.edgeList = [⟨0, 1, 5⟩, ⟨0, 1, 1⟩] ∧
      Int.tdiv (wrapInt32 ((g.numVertices : Int) * ((g.numVertices : Int) - 1))) 2 = 1 ∧
      kruskal g = .error (.undefinedBehaviour "write outside the edge buffer")) ∧
    ∃ g, starGraph 46342 1 = .ok g ∧ g.Built ∧ g.numVertices = 46342 ∧ countEdges g = 1 ∧
      Int.tdiv (wrapInt32 ((g.numVertices : Int) * ((g.numVertices : Int) - 1))) 2 =
        -1073716337 ∧
      kruskal g = .error (.thrown "std::bad_array_new_length") := by
  have hb : Graph.Built ⟨2, [[⟨1, 5⟩, ⟨1, 1⟩], [⟨0, 5⟩, ⟨0, 1⟩]]⟩ :=
    @Built.add _ _ 0 1 5 (@Built.add _ _ 0 1 1 (@Built.construct 2 _ rfl) rfl) rfl
  refine ⟨⟨_, rfl, hb, rfl, by decide, rfl⟩, ?_⟩
  obtain ⟨g, hg, hbuilt, hnv, hcount, _⟩ := starGraph_spec 46342 1 (by omega)
  have hsize :
      Int.tdiv (wrapInt32 ((g.numVertices : Int) * ((g.numVertices : Int) - 1))) 2 =
        -1073716337 := by
    rw [hnv]
    decide
  refine ⟨g, hg, hbuilt, hnv, hcount, hsize, kruskal_negative_size g hbuilt.wf ?_⟩
  rw [hsize]
  decide

/-- C36, amended: for every well-formed graph with at most 46341 vertices, so that the `int`
product `n (n - 1)` does not overflow, whose edges fit the edge buffer of `n (n - 1) / 2`
slots, the collection loop of `kruskal` returns the records `(i, dest, w)` with `i < dest`,
chain after chain from vertex 0 on: no self-loop is among them, and a record `(b, w)` of the
chain of `a` with `a < b` is listed as often as it occurs there, which for a graph that the
interface produces is as often as `(a, w)` occurs in the chain of `b`.  The main loop then
runs over the bubble-sorted list, which is a permutation of the collected one, in ascending
order of weight, and holds the edges of each weight in the order of their collection. -/
theorem kruskal_processing_order (g : Graph) (hg : g.WF) (hn : g.numVertices ≤ 46341)
    (hcap : countEdges g ≤ g.numVertices * (g.numVertices - 1) / 2) :
    Int.tdiv (wrapInt32 ((g.numVertices : Int) * ((g.numVertices : Int) - 1))) 2 =
      ((g.numVertices * (g.numVertices - 1) / 2 : Nat) : Int) ∧
    collectEdges g (g.numVertices * (g.numVertices - 1) / 2) (List.range g.numVertices) [] =
      .ok g.edgeList ∧
    kruskal g = kruskalLoop (bubbleSort (g.edgeList.length - 1) g.edgeList)
      (UnionFind.new g.numVertices) (emptyGraph g.numVertices) ∧
    (∀ k ∈ g.edgeList, k.src < k.dest ∧ k.dest < g.numVertices) ∧
    (∀ a b w, a < b → g.edgeList.count ⟨a, b, w⟩ = (g.adj a).count ⟨b, w⟩) ∧
    (g.Built → ∀ a b w, a < b → g.edgeList.count ⟨a, b, w⟩ = (g.adj b).count ⟨a, w⟩) ∧
    (bubbleSort (g.edgeList.length - 1) g.edgeList).Perm g.edgeList ∧
    SortedByWeight (bubbleSort (g.edgeList.length - 1) g.edgeList) ∧
    ∀ w, (bubbleSort (g.edgeList.length - 1) g.edgeList).filter
        (fun k => decide (k.weight = w)) =
      g.edgeList.filter fun k => decide (k.weight = w) := by
  refine ⟨maxEdges_eq hn, kruskal_collect g hcap, kruskal_eq_loop g hg hn hcap, ?_,
    fun a b w hab => count_edgeList hg a b w hab, ?_,
    bubbleSort_perm _ _, bubbleSort_sorted _, fun w => bubbleSort_filter w _ _⟩
  · intro k hk
    have := mem_edgeList.mp hk
    exact ⟨this.2.1, dest_lt hg this.2.2⟩
  · intro hb a b w hab
    rw [count_edgeList hg a b w hab]
    exact hb.mirror.count_eq (by omega) w

/-- C36, amended, at the graph on three vertices built by `addEdge(0, 1, 5)`,
`addEdge(0, 2, 5)` and `addEdge(1, 2, 3)`: the edges are collected as (0,2,5), (0,1,5),
(1,2,3) and processed as (1,2,3), (0,2,5), (0,1,5). -/
theorem kruskal_processing_order_witness :
    ∃ g, tiedGraph = .ok g ∧ g.Built ∧ g.WF ∧ g.numVertices ≤ 46341 ∧
      countEdges g ≤ g.numVertices * (g.numVertices - 1) / 2 ∧
      g.edgeList = [⟨0, 2, 5⟩, ⟨0, 1, 5⟩, ⟨1, 2, 3⟩] ∧
      bubbleSort (g.edgeList.length - 1) g.edgeList = [⟨1, 2, 3⟩, ⟨0, 2, 5⟩, ⟨0, 1, 5⟩] ∧
      Int.tdiv (wrapInt32 ((g.numVertices : Int) * ((g.numVertices : Int) - 1))) 2 =
        ((g.numVertices * (g.numVertices - 1) / 2 : Nat) : Int) ∧
      collectEdges g (g.numVertices * (g.numVertices - 1) / 2) (List.range g.numVertices)
        [] = .ok g.edgeList ∧
      kruskal g = kruskalLoop (bubbleSort (g.edgeList.length - 1) g.edgeList)
        (UnionFind.new g.numVertices) (emptyGraph g.numVertices) ∧
      (∀ k ∈ g.edgeList, k.src < k.dest ∧ k.dest < g.numVertices) ∧
      (∀ a b w, a < b → g.edgeList.count ⟨a, b, w⟩ = (g.adj a).count ⟨b, w⟩) ∧
      (∀ a b w, a < b → g.edgeList.count ⟨a, b, w⟩ = (g.adj b).count ⟨a, w⟩) ∧
      (bubbleSort (g.edgeList.length - 1) g.edgeList).Perm g.edgeList ∧
      SortedByWeight (bubbleSort (g.edgeList.length - 1) g.edgeList) ∧
      ∀ w, (bubbleSort (g.edgeList.length - 1) g.edgeList).filter
          (fun k => decide (k.weight = w)) =
        g.edgeList.filter fun k => decide (k.weight = w) := by
  have hb : Graph.Built ⟨3, [[⟨2, 5⟩, ⟨1, 5⟩], [⟨2, 3⟩, ⟨0, 5⟩], [⟨1, 3⟩, ⟨0, 5⟩]]⟩ :=
    @Built.add _ _ 1 2 3 (@Built.add _ _ 0 2 5 (@Built.add _ _ 0 1 5
      (@Built.construct 3 _ rfl) rfl) rfl) rfl
  obtain ⟨h0, h1, h2, h3, h4, h5, h6, h7, h8⟩ :=
    kruskal_processing_order _ hb.wf (by decide) (by decide)
  exact ⟨_, rfl, hb, hb.wf, by decide, by decide, rfl, rfl, h0, h1, h2, h3, h4, h5 hb, h6,
    h7, h8⟩

/-- C38, as stated, fails from 46342 vertices on, where the `int` product `n (n - 1)` wraps
around.  The star on 65537 vertices, built by `addEdge(0, v, 1)` for `v` from 1 to 65536, has
at most one edge between any two vertices and 65536 edges, which is at most `n (n - 1) / 2`;
the product wraps around to 65536, the buffer has 32768 slots, and `kruskal` writes outside
it. -/
theorem kruskal_buffer_wraps_on_star :
    ∃ g, starGraph 65537 65536 = .ok g ∧ g.Built ∧ g.Simple ∧ g.numVertices = 65537 ∧
      countEdges g = 65536 ∧ countEdges g ≤ g.numVertices * (g.numVertices - 1) / 2 ∧
      wrapInt32 ((g.numVertices : Int) * ((g.numVertices : Int) - 1)) = 65536 ∧
      Int.tdiv (wrapInt32 ((g.numVertices : Int) * ((g.numVertices : Int) - 1))) 2 = 32768 ∧
      kruskal g = .error (.undefinedBehaviour "write outside the edge buffer") := by
  obtain ⟨g, hg, hb, hnv, hcount, hsimple, _, _⟩ := starGraph_spec 65537 65536 (by omega)
  have hwrap : wrapInt32 ((g.numVertices : Int) * ((g.numVertices : Int) - 1)) = 65536 := by
    rw [hnv]
    decide
  have hsize :
      Int.tdiv (wrapInt32 ((g.numVertices : Int) * ((g.numVertices : Int) - 1))) 2 =
        32768 := by
    rw [hwrap]
    decide
  refine ⟨g, hg, hb, hsimple, hnv, hcount, countEdges_le_of_simple hb.wf hsimple, hwrap,
    hsize, kruskal_overflow g hb.wf ?_ ?_⟩
  · rw [hsize]
    decide
  · rw [hsize, hcount]
    decide

/-- C38, amended: for a graph with at most 46341 vertices the `int` product `n (n - 1)` does
not overflow and the edge buffer of `kruskal` has `n (n - 1) / 2` slots.  For every such
well-formed graph without parallel edges the number of collected edges is at most that, the
collection loop writes inside the buffer, and `kruskal` returns.  On two vertices with two
edges between 0 and 1 the buffer has one slot, two edges are collected, and the second write
is outside the buffer. -/
theorem kruskal_buffer (g : Graph) (hg : g.WF) (hs : g.Simple)
    (hn : g.numVertices ≤ 46341) :
    (Int.tdiv (wrapInt32 ((g.numVertices : Int) * ((g.numVertices : Int) - 1))) 2 =
        ((g.numVertices * (g.numVertices - 1) / 2 : Nat) : Int) ∧
      countEdges g ≤ g.numVertices * (g.numVertices - 1) / 2 ∧
      (∃ edges, collectEdges g (g.numVertices * (g.numVertices - 1) / 2)
          (List.range g.numVertices) [] = .ok edges ∧ edges.length = countEdges g) ∧
      ∃ r, kruskal g = .ok r) ∧
    ∃ d, doubleEdgeGraph = .ok d ∧ d.Built ∧ ¬ d.Simple ∧ d.numVertices ≤ 46341 ∧
      d.numVertices * (d.numVertices - 1) / 2 = 1 ∧ countEdges d = 2 ∧
      collectEdges d (d.numVertices * (d.numVertices - 1) / 2) (List.range d.numVertices)
        [] = .error (.undefinedBehaviour "write outside the edge buffer") ∧
      kruskal d = .error (.undefinedBehaviour "write outside the edge buffer") := by
  have hcap := countEdges_le_of_simple hg hs
  refine ⟨⟨maxEdges_eq hn, hcap, ⟨_, kruskal_collect g hcap, (countEdges_eq g).symm⟩, ?_⟩, ?_⟩
  · obtain ⟨r, hr, _⟩ := kruskal_core g hg hn hcap
    exact ⟨r, hr⟩
  · have hb : Graph.Built ⟨2, [[⟨1, 5⟩, ⟨1, 1⟩], [⟨0, 5⟩, ⟨0, 1⟩]]⟩ :=
      @Built.add _ _ 0 1 5 (@Built.add _ _ 0 1 1 (@Built.construct 2 _ rfl) rfl) rfl
    exact ⟨_, rfl, hb, by decide, by decide, by decide, by decide, rfl, rfl⟩

/-- C38, amended, at the triangle with weights 5, 3 and 1. -/
theorem kruskal_buffer_witness :
    triangleGraph.WF ∧ triangleGraph.Simple ∧ triangleGraph.numVertices ≤ 46341 ∧
      countEdges triangleGraph = 3 ∧
      triangleGraph.numVertices * (triangleGraph.numVertices - 1) / 2 = 3 ∧
      (Int.tdiv (wrapInt32
            ((triangleGraph.numVertices : Int) * ((triangleGraph.numVertices : Int) - 1))) 2 =
          ((triangleGraph.numVertices * (triangleGraph.numVertices - 1) / 2 : Nat) : Int) ∧
        countEdges triangleGraph ≤
          triangleGraph.numVertices * (triangleGraph.numVertices - 1) / 2 ∧
        (∃ edges, collectEdges triangleGraph
            (triangleGraph.numVertices * (triangleGraph.numVertices - 1) / 2)
            (List.range triangleGraph.numVertices) [] = .ok edges ∧
          edges.length = countEdges triangleGraph) ∧
        ∃ r, kruskal triangleGraph = .ok r) :=
  ⟨by decide, by decide, by decide, by decide, by decide,
    (kruskal_buffer triangleGraph (by decide) (by decide) (by decide)).1⟩

end Algorithms

end graph


namespace graph

namespace Algorithms

open PriorityQueue Graph

/-! ## The states that the loops of `dijkstra` pass through -/

/-- A point in the nested loops of `dijkstra` and `prim`: the test of the main loop, or the
head of the inner loop for the extracted vertex `u` with the records `pending` of its chain
still to process. -/
inductive RelaxPoint where
  | loopTest
  | record (u : Nat) (pending : List Edge)

/-- The states of `dijkstra(g, s)` at the points of its loops.  The main loop starts after the
`insert` loop; an iteration calls `extractMin` when the queue is not empty and takes the chain
of the extracted vertex; the inner loop processes one record at a time (`dijkstraEdges` on a
single record is one execution of its body) and returns to the test of the main loop at the
end of the chain. -/
inductive DijkstraAt (g : Graph) (s : Nat) : RelaxPoint → DijkstraState → Prop
  | start {pq1 : PriorityQueue} :
      insertAll (Function.update (fun _ => INT_MAX) s 0) (List.range g.numVertices)
        (PriorityQueue.new g.numVertices) = .ok pq1 →
      DijkstraAt g s .loopTest ⟨Function.update (fun _ => INT_MAX) s 0, fun _ => -1, pq1⟩
  | extract {st : DijkstraState} {u : Nat} {pq : PriorityQueue} {chain : List Edge} :
      DijkstraAt g s .loopTest st → st.pq.isEmpty = false → st.pq.extractMin = .ok (u, pq) →
      g.getAdjList u = .ok chain → DijkstraAt g s (.record u chain) { st with pq := pq }
  | relax {st st1 : DijkstraState} {u : Nat} {e : Edge} {rest : List Edge} :
      DijkstraAt g s (.record u (e :: rest)) st → dijkstraEdges u [e] st = .ok st1 →
      DijkstraAt g s (.record u rest) st1
  | finish {st : DijkstraState} {u : Nat} :
      DijkstraAt g s (.record u []) st → DijkstraAt g s .loopTest st

/-- The rest of the main loop of `dijkstra` from a point of its loops, with `fuel` iterations
of the main loop allowed after the current one. -/
def dijkstraResume (g : Graph) (fuel : Nat) : RelaxPoint → DijkstraState →
    Except Failure DijkstraState
  | .loopTest, st => dijkstraLoop g fuel st
  | .record u pending, st =>
    match dijkstraEdges u pending st with
    | .error f => .error f
    | .ok st1 => dijkstraLoop g fuel st1

/-- The inner loop of `dijkstra` runs its body on the first record and goes on with the
others. -/
theorem dijkstraEdges_cons (u : Nat) (e : Edge) (rest : List Edge) (st : DijkstraState) :
    dijkstraEdges u (e :: rest) st =
      match dijkstraEdges u [e] st with
      | .error f => .error f
      | .ok st1 => dijkstraEdges u rest st1 := by
  rw [dijkstraEdges, dijkstraEdges]
  by_cases hc : st.pq.inQueue e.destination = true ∧ st.distance u ≠ INT_MAX ∧
      wrapInt32 (st.distance u + e.weight) < st.distance e.destination
  · rw [if_pos hc, if_pos hc]
    simp only []
    cases st.pq.decreaseKey e.destination
        (Function.update st.distance e.destination (wrapInt32 (st.distance u + e.weight))
          e.destination) with
    | error f => rfl
    | ok pq => rfl
  · rw [if_neg hc, if_neg hc]
    rfl

/-- What one execution of the body of the inner loop of `dijkstra` does. -/
theorem dijkstraEdges_single {u : Nat} {e : Edge} {st st1 : DijkstraState}
    (h : dijkstraEdges u [e] st = .ok st1) :
    (st1 = st ∧ ¬ (st.pq.inQueue e.destination = true ∧ st.distance u ≠ INT_MAX ∧
        wrapInt32 (st.distance u + e.weight) < st.distance e.destination)) ∨
      (st.pq.inQueue e.destination = true ∧ st.distance u ≠ INT_MAX ∧
        wrapInt32 (st.distance u + e.weight) < st.distance e.destination ∧
        st1.distance = Function.update st.distance e.destination
          (wrapInt32 (st.distance u + e.weight)) ∧
        st1.parent = Function.update st.parent e.destination (u : Int) ∧
        st.pq.decreaseKey e.destination (wrapInt32 (st.distance u + e.weight)) =
          .ok st1.pq) := by
  rw [dijkstraEdges] at h
  by_cases hc : st.pq.inQueue e.destination = true ∧ st.distance u ≠ INT_MAX ∧
      wrapInt32 (st.distance u + e.weight) < st.distance e.destination
  · rw [if_pos hc] at h
    simp only [Function.update_same] at h
    right
    cases hd : st.pq.decreaseKey e.destination (wrapInt32 (st.distance u + e.weight)) with
    | error f =>
      rw [hd] at h
      injection h
    | ok pq =>
      rw [hd] at h
      simp only [dijkstraEdges] at h
      injection h with h
      rw [← h]
      exact ⟨hc.1, hc.2.1, hc.2.2, rfl, rfl, rfl⟩
  · rw [if_neg hc] at h
    simp only [dijkstraEdges] at h
    injection h with h
    exact Or.inl ⟨h.symm, hc⟩

/-- The invariant after `extractMin`, whatever the weights. -/
theorem DijkWeak.after_extract {g : Graph} {st : DijkstraState} (h : DijkWeak g st) {u : Nat}
    {pq : PriorityQueue} (hex : st.pq.extractMin = .ok (u, pq)) :
    u < g.numVertices ∧ ¬ pq.Present u ∧ pq.heapSize + 1 = st.pq.heapSize ∧
      DijkWeak g { st with pq := pq } := by
  have hx := extractMin_ok_post h.heap hex
  have hun : u < g.numVertices := h.cap ▸ h.heap.1.present_lt hx.present_min
  refine ⟨hun, fun hc => ((hx.present_iff u).mp hc).2 rfl, hx.heapSize_eq,
    hx.inv, hx.capacity_eq.trans h.cap, ?_, h.par⟩
  intro v hv
  have := (hx.present_iff v).mp hv
  show pq.prioOf v = st.distance v
  rw [hx.prio_old v this.1 this.2, h.prio v this.1]

/-- At every point of the loops of `dijkstra` the queue is a heap keyed by `distance`; inside
the inner loop the extracted vertex is a vertex that is not in the queue, and the records to
process are records of its chain. -/
theorem DijkstraAt.dijk_weak {g : Graph} {s : Nat} {pt : RelaxPoint} {st : DijkstraState}
    (h : DijkstraAt g s pt st) :
    DijkWeak g st ∧ ∀ u pending, pt = .record u pending →
      u < g.numVertices ∧ ¬ st.pq.Present u ∧ ∀ e ∈ pending, e ∈ g.adj u := by
  induction h with
  | start hins =>
    obtain ⟨pq1, hins', hinv, hcap, _, hpres, hprio⟩ :=
      insertAll_range (Function.update (fun _ => INT_MAX) s 0) g.numVertices
    rw [hins] at hins'
    injection hins' with hpq
    subst hpq
    exact ⟨⟨hinv, hcap, fun v hv => hprio v ((hpres v).mp hv), fun _ => Or.inl rfl⟩,
      fun u pending hc => by cases hc⟩
  | extract _ _ hex hadj ih =>
    obtain ⟨hun, hnu, _, hw⟩ := ih.1.after_extract hex
    rw [getAdjList_eq hun] at hadj
    injection hadj with hadj
    refine ⟨hw, fun u' pending' hc => ?_⟩
    injection hc with h1 h2
    subst h1 h2
    rw [← hadj]
    exact ⟨hun, hnu, fun e he => he⟩
  | @relax st0 st1 u e rest _ hstep ih =>
    obtain ⟨hun, hnu, hmem⟩ := ih.2 u (e :: rest) rfl
    obtain ⟨st', he', hw, hnu', _⟩ := dijkstraEdges_weak hun [e] st0
      (fun e' he' => hmem e' (by
        rw [List.mem_singleton] at he'
        rw [he']
        exact List.mem_cons_self _ _)) hnu ih.1
    rw [hstep] at he'
    injection he' with he'
    subst he'
    refine ⟨hw, fun u' pending' hc => ?_⟩
    injection hc with h1 h2
    subst h1 h2
    exact ⟨hun, hnu', fun e' he' => hmem e' (List.mem_cons_of_mem _ he')⟩
  | finish _ ih =>
    exact ⟨ih.1, fun u pending hc => by cases hc⟩

/-- Every state at a point of the loops is a state of the run: the main loop of `dijkstra`,
started as `dijkstra` starts it, returns what the rest of the loop returns from that point. -/
theorem DijkstraAt.dijk_occurs {g : Graph} {s : Nat} {pt : RelaxPoint} {st : DijkstraState}
    (h : DijkstraAt g s pt st) :
    ∃ pq1 fuel, insertAll (Function.update (fun _ => INT_MAX) s 0) (List.range g.numVertices)
        (PriorityQueue.new g.numVertices) = .ok pq1 ∧ st.pq.heapSize ≤ fuel ∧
      dijkstraLoop g g.numVertices
          ⟨Function.update (fun _ => INT_MAX) s 0, fun _ => -1, pq1⟩ =
        dijkstraResume g fuel pt st := by
  induction h with
  | @start pq1 hins =>
    obtain ⟨pq1', hins', _, _, hsz, _, _⟩ :=
      insertAll_range (Function.update (fun _ => INT_MAX) s 0) g.numVertices
    rw [hins] at hins'
    injection hins' with hpq
    subst hpq
    exact ⟨pq1, g.numVertices, hins, by show pq1.heapSize ≤ _; omega, rfl⟩
  | @extract st0 u pq chain hprev hne hex hadj ih =>
    obtain ⟨pq1, fuel, hins, hsz, hrun⟩ := ih
    obtain ⟨_, _, hsize, _⟩ := hprev.dijk_weak.1.after_extract hex
    have hpos : st0.pq.heapSize ≠ 0 := by omega
    obtain ⟨k, hk⟩ : ∃ k, fuel = k + 1 := ⟨fuel - 1, by omega⟩
    subst hk
    refine ⟨pq1, k, hins, by show pq.heapSize ≤ k; omega, ?_⟩
    rw [hrun]
    show dijkstraLoop g (k + 1) st0 = _
    rw [dijkstraLoop, if_neg (by simp [hne]), hex]
    simp only []
    rw [hadj]
    rfl
  | @relax st0 st1 u e rest hprev hstep ih =>
    obtain ⟨pq1, fuel, hins, hsz, hrun⟩ := ih
    obtain ⟨hun, hnu, hmem⟩ := hprev.dijk_weak.2 u (e :: rest) rfl
    obtain ⟨st', he', _, _, hsize⟩ := dijkstraEdges_weak hun [e] st0
      (fun e' he' => hmem e' (by
        rw [List.mem_singleton] at he'
        rw [he']
        exact List.mem_cons_self _ _)) hnu hprev.dijk_weak.1
    rw [hstep] at he'
    injection he' with he'
    subst he'
    refine ⟨pq1, fuel, hins, by omega, ?_⟩
    rw [hrun]
    simp only [dijkstraResume]
    rw [dijkstraEdges_cons, hstep]
  | finish _ ih =>
    obtain ⟨pq1, fuel, hins, hsz, hrun⟩ := ih
    exact ⟨pq1, fuel, hins, hsz, hrun⟩

/-- With non-negative weights and no simple path from the source as long as `INT_MAX`, the
full invariant of `dijkstra` holds at every point of its loops. -/
theorem DijkstraAt.dijk_strong {g : Graph} (hg : g.WF) {s : Nat} (hnn : g.NonNegWeights)
    (hsp : g.ShortPaths s) {pt : RelaxPoint} {st : DijkstraState} (h : DijkstraAt g s pt st) :
    ∃ time t,
      (pt = .loopTest → DijkInv g s st time t (fun _ _ => True)) ∧
      ∀ u pending, pt = .record u pending →
        ∃ done, g.adj u = done ++ pending ∧
          DijkInv g s st time t (fun a e => a ≠ u ∨ e ∈ done) ∧ DLatest g st time u := by
  induction h with
  | @start pq0 hins =>
    obtain ⟨pq1, hins', hinv, hcap, _, hpres, hprio⟩ :=
      insertAll_range (Function.update (fun _ => INT_MAX) s 0) g.numVertices
    rw [hins] at hins'
    injection hins' with hpq
    subst hpq
    exact ⟨fun _ => 0, 0, fun _ => dijkInv_init g pq0 hinv hcap hpres hprio,
      fun u pending hc => by cases hc⟩
  | @extract st0 u pq chain _ _ hex hadj ih =>
    obtain ⟨time, t, hhead, _⟩ := ih
    have hinv := hhead rfl
    have hx := extractMin_ok_post hinv.heap hex
    obtain ⟨h1, hl1⟩ := dijkInv_extract hinv hx
    rw [getAdjList_eq hl1.1] at hadj
    injection hadj with hadj
    refine ⟨Function.update time u t, t + 1, (fun hc => by cases hc), fun u' pending' hc => ?_⟩
    injection hc with e1 e2
    subst e1 e2
    exact ⟨[], by rw [← hadj]; rfl, h1, hl1⟩
  | @relax st0 st1 u e rest _ hstep ih =>
    obtain ⟨time, t, _, hrec⟩ := ih
    obtain ⟨done, hsplit, hinv, hl⟩ := hrec u (e :: rest) rfl
    have hmem : e ∈ g.adj u := by
      rw [hsplit]
      exact List.mem_append_right _ (List.mem_cons_self _ _)
    obtain ⟨st', he', h2, hl2, _⟩ := dijkstraEdges_spec hg hnn hsp [e] done st0
      (fun e' he' => by
        rw [List.mem_singleton] at he'
        rw [he']
        exact hmem) hinv hl
    rw [hstep] at he'
    injection he' with he'
    subst he'
    refine ⟨time, t, (fun hc => by cases hc), fun u' pending' hc => ?_⟩
    injection hc with e1 e2
    subst e1 e2
    exact ⟨done ++ [e], by rw [hsplit]; simp, h2, hl2⟩
  | @finish st0 u _ ih =>
    obtain ⟨time, t, _, hrec⟩ := ih
    obtain ⟨done, hsplit, hinv, _⟩ := hrec u [] rfl
    refine ⟨time, t, fun _ => ?_, fun u' pending' hc => by cases hc⟩
    apply hinv.weaken_done
    intro a e he _
    by_cases hau : a = u
    · right
      rw [hau, hsplit, List.append_nil] at he
      exact he
    · exact Or.inl hau

end Algorithms

end graph


namespace graph

namespace Algorithms

open PriorityQueue Graph

/-! ## The states that the loops of `prim` pass through -/

/-- The states of `prim(g)` at the points of its loops, as for `dijkstra`. -/
inductive PrimAt (g : Graph) : RelaxPoint → PrimState → Prop
  | start {pq1 : PriorityQueue} :
      insertAll (Function.update (fun _ => INT_MAX) 0 0) (List.range g.numVertices)
        (PriorityQueue.new g.numVertices) = .ok pq1 →
      PrimAt g .loopTest ⟨Function.update (fun _ => INT_MAX) 0 0, fun _ => -1, pq1⟩
  | extract {st : PrimState} {u : Nat} {pq : PriorityQueue} {chain : List Edge} :
      PrimAt g .loopTest st → st.pq.isEmpty = false → st.pq.extractMin = .ok (u, pq) →
      g.getAdjList u = .ok chain → PrimAt g (.record u chain) { st with pq := pq }
  | relax {st st1 : PrimState} {u : Nat} {e : Edge} {rest : List Edge} :
      PrimAt g (.record u (e :: rest)) st → primEdges u [e] st = .ok st1 →
      PrimAt g (.record u rest) st1
  | finish {st : PrimState} {u : Nat} :
      PrimAt g (.record u []) st → PrimAt g .loopTest st

/-- The rest of the main loop of `prim` from a point of its loops, with `fuel` iterations of
the main loop allowed after the current one. -/
def primResume (g : Graph) (fuel : Nat) : RelaxPoint → PrimState → Except Failure PrimState
  | .loopTest, st => primLoop g fuel st
  | .record u pending, st =>
    match primEdges u pending st with
    | .error f => .error f
    | .ok st1 => primLoop g fuel st1

/-- The inner loop of `prim` runs its body on the first record and goes on with the others. -/
theorem primEdges_cons (u : Nat) (e : Edge) (rest : List Edge) (st : PrimState) :
    primEdges u (e :: rest) st =
      match primEdges u [e] st with
      | .error f => .error f
      | .ok st1 => primEdges u rest st1 := by
  rw [primEdges, primEdges]
  by_cases hc : st.pq.inQueue e.destination = true ∧ e.weight < st.key e.destination
  · rw [if_pos hc, if_pos hc]
    simp only []
    cases st.pq.decreaseKey e.destination
        (Function.update st.key e.destination e.weight e.destination) with
    | error f => rfl
    | ok pq => rfl
  · rw [if_neg hc, if_neg hc]
    rfl

/-- What one execution of the body of the inner loop of `prim` does. -/
theorem primEdges_single {u : Nat} {e : Edge} {st st1 : PrimState}
    (h : primEdges u [e] st = .ok st1) :
    (st1 = st ∧ ¬ (st.pq.inQueue e.destination = true ∧ e.weight < st.key e.destination)) ∨
      (st.pq.inQueue e.destination = true ∧ e.weight < st.key e.destination ∧
        st1.key = Function.update st.key e.destination e.weight ∧
        st1.parent = Function.update st.parent e.destination (u : Int) ∧
        st.pq.decreaseKey e.destination e.weight = .ok st1.pq) := by
  rw [primEdges] at h
  by_cases hc : st.pq.inQueue e.destination = true ∧ e.weight < st.key e.destination
  · rw [if_pos hc] at h
    simp only [Function.update_same] at h
    right
    cases hd : st.pq.decreaseKey e.destination e.weight with
    | error f =>
      rw [hd] at h
      injection h
    | ok pq =>
      rw [hd] at h
      simp only [primEdges] at h
      injection h with h
      rw [← h]
      exact ⟨hc.1, hc.2, rfl, rfl, rfl⟩
  · rw [if_neg hc] at h
    simp only [primEdges] at h
    injection h with h
    exact Or.inl ⟨h.symm, hc⟩

/-- The invariant of `prim` holds at every point of its loops. -/
theorem PrimAt.prim_inv {g : Graph} (hg : g.WF) {pt : RelaxPoint} {st : PrimState}
    (h : PrimAt g pt st) :
    ∃ time t,
      (pt = .loopTest → PrimInv g st time t (fun _ _ => True)) ∧
      ∀ u pending, pt = .record u pending →
        ∃ done, g.adj u = done ++ pending ∧
          PrimInv g st time t (fun a e => a ≠ u ∨ e ∈ done) ∧ Latest g st time u := by
  induction h with
  | @start pq0 hins =>
    obtain ⟨pq1, hins', hinv, hcap, _, hpres, hprio⟩ :=
      insertAll_range (Function.update (fun _ => INT_MAX) 0 0) g.numVertices
    rw [hins] at hins'
    injection hins' with hpq
    subst hpq
    exact ⟨fun _ => 0, 0, fun _ => primInv_init g pq0 hinv hcap hpres hprio,
      fun u pending hc => by cases hc⟩
  | @extract st0 u pq chain _ _ hex hadj ih =>
    obtain ⟨time, t, hhead, _⟩ := ih
    have hinv := hhead rfl
    have hx := extractMin_ok_post hinv.heap hex
    obtain ⟨h1, hl1⟩ := primInv_extract hg hinv hx
    rw [getAdjList_eq hl1.1] at hadj
    injection hadj with hadj
    refine ⟨Function.update time u t, t + 1, (fun hc => by cases hc),
      fun u' pending' hc => ?_⟩
    injection hc with e1 e2
    subst e1 e2
    exact ⟨[], by rw [← hadj]; rfl, h1, hl1⟩
  | @relax st0 st1 u e rest _ hstep ih =>
    obtain ⟨time, t, _, hrec⟩ := ih
    obtain ⟨done, hsplit, hinv, hl⟩ := hrec u (e :: rest) rfl
    have hmem : e ∈ g.adj u := by
      rw [hsplit]
      exact List.mem_append_right _ (List.mem_cons_self _ _)
    obtain ⟨st', he', h2, hl2, _⟩ := primEdges_spec [e] done st0
      (fun e' he' => by
        rw [List.mem_singleton] at he'
        rw [he']
        exact hmem) hinv hl
    rw [hstep] at he'
    injection he' with he'
    subst he'
    refine ⟨time, t, (fun hc => by cases hc), fun u' pending' hc => ?_⟩
    injection hc with e1 e2
    subst e1 e2
    exact ⟨done ++ [e], by rw [hsplit]; simp, h2, hl2⟩
  | @finish st0 u _ ih =>
    obtain ⟨time, t, _, hrec⟩ := ih
    obtain ⟨done, hsplit, hinv, _⟩ := hrec u [] rfl
    refine ⟨time, t, fun _ => ?_, fun u' pending' hc => by cases hc⟩
    apply hinv.weaken
    intro a e he _
    by_cases hau : a = u
    · right
      rw [hau, hsplit, List.append_nil] at he
      exact he
    · exact Or.inl hau

/-- At every point of the loops of `prim` the queue is a heap, of the capacity `numVertices`,
in which every vertex has its `key` entry as priority. -/
theorem PrimAt.prim_keyed {g : Graph} (hg : g.WF) {pt : RelaxPoint} {st : PrimState}
    (h : PrimAt g pt st) :
    st.pq.HeapInv ∧ st.pq.capacity = g.numVertices ∧
      ∀ v, st.pq.Present v → st.pq.prioOf v = st.key v := by
  obtain ⟨time, t, hhead, hrec⟩ := h.prim_inv hg
  cases pt with
  | loopTest =>
    have := hhead rfl
    exact ⟨this.heap, this.cap, this.prio⟩
  | record u pending =>
    obtain ⟨_, _, hinv, _⟩ := hrec u pending rfl
    exact ⟨hinv.heap, hinv.cap, hinv.prio⟩

/-- One execution of the body of the inner loop of `prim` returns and keeps the size of the
queue. -/
theorem PrimAt.prim_step {g : Graph} (hg : g.WF) {u : Nat} {e : Edge} {rest : List Edge}
    {st : PrimState} (h : PrimAt g (.record u (e :: rest)) st) :
    ∃ st1, primEdges u [e] st = .ok st1 ∧ st1.pq.heapSize = st.pq.heapSize := by
  obtain ⟨time, t, _, hrec⟩ := h.prim_inv hg
  obtain ⟨done, hsplit, hinv, hl⟩ := hrec u (e :: rest) rfl
  have hmem : e ∈ g.adj u := by
    rw [hsplit]
    exact List.mem_append_right _ (List.mem_cons_self _ _)
  obtain ⟨st', he', _, _, hsz⟩ := primEdges_spec [e] done st
    (fun e' he' => by
      rw [List.mem_singleton] at he'
      rw [he']
      exact hmem) hinv hl
  exact ⟨st', he', hsz⟩

/-- Every state at a point of the loops is a state of the run: the main loop of `prim`,
started as `prim` starts it, returns what the rest of the loop returns from that point. -/
theorem PrimAt.prim_occurs {g : Graph} (hg : g.WF) {pt : RelaxPoint} {st : PrimState}
    (h : PrimAt g pt st) :
    ∃ pq1 fuel, insertAll (Function.update (fun _ => INT_MAX) 0 0) (List.range g.numVertices)
        (PriorityQueue.new g.numVertices) = .ok pq1 ∧ st.pq.heapSize ≤ fuel ∧
      primLoop g g.numVertices ⟨Function.update (fun _ => INT_MAX) 0 0, fun _ => -1, pq1⟩ =
        primResume g fuel pt st := by
  induction h with
  | @start pq1 hins =>
    obtain ⟨pq1', hins', _, _, hsz, _, _⟩ :=
      insertAll_range (Function.update (fun _ => INT_MAX) 0 0) g.numVertices
    rw [hins] at hins'
    injection hins' with hpq
    subst hpq
    exact ⟨pq1, g.numVertices, hins, by show pq1.heapSize ≤ _; omega, rfl⟩
  | @extract st0 u pq chain hprev hne hex hadj ih =>
    obtain ⟨pq1, fuel, hins, hsz, hrun⟩ := ih
    have hsize := (extractMin_ok_post (hprev.prim_keyed hg).1 hex).heapSize_eq
    have hpos : st0.pq.heapSize ≠ 0 := by omega
    obtain ⟨k, hk⟩ : ∃ k, fuel = k + 1 := ⟨fuel - 1, by omega⟩
    subst hk
    refine ⟨pq1, k, hins, by show pq.heapSize ≤ k; omega, ?_⟩
    rw [hrun]
    show primLoop g (k + 1) st0 = _
    rw [primLoop, if_neg (by simp [hne]), hex]
    simp only []
    rw [hadj]
    rfl
  | @relax st0 st1 u e rest hprev hstep ih =>
    obtain ⟨pq1, fuel, hins, hsz, hrun⟩ := ih
    obtain ⟨st', he', hsize⟩ := hprev.prim_step hg
    rw [hstep] at he'
    injection he' with he'
    subst he'
    refine ⟨pq1, fuel, hins, by omega, ?_⟩
    rw [hrun]
    simp only [primResume]
    rw [primEdges_cons, hstep]
  | finish _ ih =>
    obtain ⟨pq1, fuel, hins, hsz, hrun⟩ := ih
    exact ⟨pq1, fuel, hins, hsz, hrun⟩

end Algorithms

end graph


namespace graph

namespace Algorithms

open PriorityQueue Graph

/-! ## The claims about the runs of `dijkstra` and `prim` -/

/-- Three vertices after `addEdge(0, 1, 2147483646)` and `addEdge(1, 2, 5)`. -/
def overflowGraph : Except Failure Graph := do
  let g ← Graph.new 3
  let g ← g.addEdge 0 1 2147483646
  g.addEdge 1 2 5

/-- C32: on the graph with two vertices built by `addEdge(0, 1, 1)` and `addEdge(0, 1, 5)`,
the chain of 0 holds the record of weight 5 before the record of weight 1.  The main loop of
`dijkstra` from 0 ends with `parent[1] = 0` and `distance[1] = 1`, fixed by the relaxation of
the record of weight 1, whereas the search for the weight of the edge from `parent[1]` to 1
returns 5, the first record found; the result is the single edge between 0 and 1 with the
weight 5, so the path from 0 to 1 in it weighs 5 and not the distance 1. -/
theorem dijkstra_parallel_edges :
    ∃ g, doubleEdgeGraph = .ok g ∧ g.Built ∧ g.adj 0 = [⟨1, 5⟩, ⟨1, 1⟩] ∧
      ∃ pq1 st, insertAll (Function.update (fun _ => INT_MAX) 0 0)
          (List.range g.numVertices) (PriorityQueue.new g.numVertices) = .ok pq1 ∧
        dijkstraLoop g g.numVertices
          ⟨Function.update (fun _ => INT_MAX) 0 0, fun _ => -1, pq1⟩ = .ok st ∧
        st.parent 1 = 0 ∧ st.distance 0 = 0 ∧ st.distance 1 = 1 ∧
        g.IsWalk 0 [⟨1, 1⟩] 1 ∧ walkWeight [⟨1, 1⟩] = st.distance 1 ∧
        lookupWeight 1 (g.adj 0) = 5 ∧
        ∃ r, dijkstra g 0 = .ok r ∧ r = ⟨2, [[⟨1, 5⟩], [⟨0, 5⟩]]⟩ ∧
          r.IsWalk 0 [⟨1, 5⟩] 1 ∧ walkWeight [⟨1, 5⟩] = 5 ∧
          walkWeight [⟨1, 5⟩] ≠ st.distance 1 := by
  have hb : Graph.Built ⟨2, [[⟨1, 5⟩, ⟨1, 1⟩], [⟨0, 5⟩, ⟨0, 1⟩]]⟩ :=
    @Built.add _ _ 0 1 5 (@Built.add _ _ 0 1 1 (@Built.construct 2 _ rfl) rfl) rfl
  refine ⟨_, rfl, hb, rfl, _, _, rfl, rfl, rfl, rfl, rfl, ?_, rfl, rfl, _, rfl, rfl, ?_, rfl, ?_⟩
  · exact ⟨List.mem_cons_of_mem _ (List.mem_cons_self _ _), rfl⟩
  · exact ⟨List.mem_cons_self _ _, rfl⟩
  · decide

/-- C37, as stated, fails: on the graph with three vertices built by
`addEdge(0, 1, 2147483646)` and `addEdge(1, 2, 5)`, whose weights are not negative, the main
loop of `dijkstra` from 0 ends with `distance[1] = 2147483646`, `parent[2] = 1` and
`distance[2] = -2147483645`: the 32-bit sum `distance[1] + 5` wraps around, so the value
assigned to `distance[2]` is negative and smaller than the distance of the vertex 1 from
which it was relaxed. -/
theorem relaxation_overflows :
    ∃ g, overflowGraph = .ok g ∧ g.Built ∧ g.NonNegWeights ∧
      ∃ pq1 st, insertAll (Function.update (fun _ => INT_MAX) 0 0)
          (List.range g.numVertices) (PriorityQueue.new g.numVertices) = .ok pq1 ∧
        dijkstraLoop g g.numVertices
          ⟨Function.update (fun _ => INT_MAX) 0 0, fun _ => -1, pq1⟩ = .ok st ∧
        st.distance 1 = 2147483646 ∧ st.parent 2 = 1 ∧ st.distance 2 = -2147483645 ∧
        st.distance 2 < 0 ∧ st.distance 2 < st.distance 1 := by
  have hb : Graph.Built ⟨3, [[⟨1, 2147483646⟩], [⟨2, 5⟩, ⟨0, 2147483646⟩], [⟨1, 5⟩]]⟩ :=
    @Built.add _ _ 1 2 5 (@Built.add _ _ 0 1 2147483646 (@Built.construct 3 _ rfl) rfl) rfl
  exact ⟨_, rfl, hb, by decide, _, _, rfl, rfl, rfl, rfl, rfl, by decide, by decide⟩

/-- C37, amended: at every point of the run of `dijkstra(g, s)` at which a record `e` of the
extracted vertex `u` is about to be processed, the body of the inner loop returns, and either
leaves `distance` as it is or assigns to `distance[e.destination]` the 32-bit sum
`distance[u] + e.weight`, which is then strictly below the value it replaces.  When the graph
is well formed, no weight is negative and no path from `s` that repeats no vertex weighs
`INT_MAX` or more, every `distance` entry is non-negative before and after, every vertex in
the queue has a distance of at least `distance[u]`, and the value assigned is the sum
`distance[u] + e.weight` without wrap-around, which is at least `distance[u]`. -/
theorem relaxation_decreases (g : Graph) (s u : Nat) (e : Edge) (rest : List Edge)
    (st : DijkstraState) (hat : DijkstraAt g s (.record u (e :: rest)) st) :
    (∃ pq1 fuel, insertAll (Function.update (fun _ => INT_MAX) s 0)
        (List.range g.numVertices) (PriorityQueue.new g.numVertices) = .ok pq1 ∧
      dijkstraLoop g g.numVertices
          ⟨Function.update (fun _ => INT_MAX) s 0, fun _ => -1, pq1⟩ =
        dijkstraResume g fuel (.record u (e :: rest)) st) ∧
    ∃ st1, dijkstraEdges u [e] st = .ok st1 ∧ DijkstraAt g s (.record u rest) st1 ∧
      (st1.distance = st.distance ∨
        (st1.distance = Function.update st.distance e.destination
            (wrapInt32 (st.distance u + e.weight)) ∧
          wrapInt32 (st.distance u + e.weight) < st.distance e.destination)) ∧
      (g.WF → g.NonNegWeights → g.ShortPaths s →
        (∀ v, 0 ≤ st.distance v) ∧ (∀ v, 0 ≤ st1.distance v) ∧
        (∀ v, st.pq.inQueue v = true → st.distance u ≤ st.distance v) ∧
        (st1.distance = st.distance ∨
          (st1.distance = Function.update st.distance e.destination
              (st.distance u + e.weight) ∧
            st.distance u ≤ st.distance u + e.weight))) := by
  obtain ⟨pq1, fuel, hins, _, hrun⟩ := hat.dijk_occurs
  obtain ⟨hun, hnu, hmem⟩ := hat.dijk_weak.2 u (e :: rest) rfl
  obtain ⟨st1, hstep, _, _, _⟩ := dijkstraEdges_weak hun [e] st
    (fun e' he' => hmem e' (by
      rw [List.mem_singleton] at he'
      rw [he']
      exact List.mem_cons_self _ _)) hnu hat.dijk_weak.1
  have hat1 := DijkstraAt.relax hat hstep
  have hcase := dijkstraEdges_single hstep
  refine ⟨⟨pq1, fuel, hins, hrun⟩, st1, hstep, hat1, ?_, ?_⟩
  · rcases hcase with ⟨h1, _⟩ | ⟨_, _, hlt, hd, _, _⟩
    · exact Or.inl (by rw [h1])
    · exact Or.inr ⟨hd, hlt⟩
  · intro hg hnn hsp
    obtain ⟨time, t, _, hrec⟩ := hat.dijk_strong hg hnn hsp
    obtain ⟨done, _, hinv, hl⟩ := hrec u (e :: rest) rfl
    obtain ⟨time1, t1, _, hrec1⟩ := hat1.dijk_strong hg hnn hsp
    obtain ⟨done1, _, hinv1, _⟩ := hrec1 u rest rfl
    refine ⟨fun v => (hinv.range v).1, fun v => (hinv1.range v).1, ?_, ?_⟩
    · intro v hv
      have hP : st.pq.Present v := (inQueue_iff _ _).mp hv
      exact hinv.mono u hl.1 hl.2.1 v (hinv.lt_of_present hP) (Or.inl hP)
    · rcases hcase with ⟨h1, _⟩ | ⟨hq, hfin, _, hd, _, _⟩
      · exact Or.inl (by rw [h1])
      · have hb := hinv.sum_bound hnn hsp hl (hmem e (List.mem_cons_self _ _))
          ((inQueue_iff _ _).mp hq) hfin
        have hw := hnn u hl.1 e (hmem e (List.mem_cons_self _ _))
        have hwrap : wrapInt32 (st.distance u + e.weight) = st.distance u + e.weight := by
          apply wrapInt32_eq
          · omega
          · have := hb.2
            simp only [INT_MAX] at this
            omega
        rw [hwrap] at hd
        exact Or.inr ⟨hd, by omega⟩

/-- C37, amended, at the triangle with weights 5, 3 and 1 and the source 0: the first
iteration extracts the vertex 0, and the first record of its chain, to the vertex 2 with the
weight 1, lowers `distance[2]` from `INT_MAX` to 1. -/
theorem relaxation_decreases_witness :
    ∃ pq1 pq st1, insertAll (Function.update (fun _ => INT_MAX) 0 0)
        (List.range triangleGraph.numVertices)
        (PriorityQueue.new triangleGraph.numVertices) = .ok pq1 ∧
      pq1.extractMin = .ok (0, pq) ∧ triangleGraph.getAdjList 0 = .ok [⟨2, 1⟩, ⟨1, 5⟩] ∧
      DijkstraAt triangleGraph 0 (.record 0 [⟨2, 1⟩, ⟨1, 5⟩])
        ⟨Function.update (fun _ => INT_MAX) 0 0, fun _ => -1, pq⟩ ∧
      triangleGraph.WF ∧ triangleGraph.NonNegWeights ∧ triangleGraph.ShortPaths 0 ∧
      dijkstraEdges 0 [⟨2, 1⟩] ⟨Function.update (fun _ => INT_MAX) 0 0, fun _ => -1, pq⟩ =
        .ok st1 ∧
      st1.distance 2 = 1 ∧ (∀ v, 0 ≤ st1.distance v) ∧
      (st1.distance = Function.update (fun _ => INT_MAX) 0 0 ∨
        (st1.distance = Function.update (Function.update (fun _ => INT_MAX) 0 0) 2
            (wrapInt32 (Function.update (fun _ => INT_MAX) 0 (0 : Int) 0 + 1)) ∧
          wrapInt32 (Function.update (fun _ => INT_MAX) 0 (0 : Int) 0 + 1) <
            Function.update (fun _ => INT_MAX) 0 (0 : Int) 2)) := by
  have hwf : triangleGraph.WF := by decide
  have hsp : triangleGraph.ShortPaths 0 :=
    shortPaths_of_weightsAtMost hwf (by decide : (0 : Int) ≤ 5) (by decide) (by decide)
      (by decide)
  have hat : DijkstraAt triangleGraph 0 (.record 0 [⟨2, 1⟩, ⟨1, 5⟩]) _ :=
    @DijkstraAt.extract triangleGraph 0 _ 0 _ _ (DijkstraAt.start rfl) rfl rfl rfl
  obtain ⟨_, st1, hstep, _, hA, hB⟩ :=
    relaxation_decreases triangleGraph 0 0 ⟨2, 1⟩ [⟨1, 5⟩] _ hat
  have heq : Except.ok st1 = (Except.ok _ : Except Failure DijkstraState) :=
    hstep.symm.trans rfl
  injection heq with heq
  subst heq
  exact ⟨_, _, _, rfl, rfl, rfl, hat, hwf, by decide, hsp, hstep, rfl,
    (hB hwf (by decide) hsp).2.1, hA⟩

end Algorithms

end graph

